import Mathlib

/-!
# Index-header (`pkg/block/indexheader`): binary reader and writer

A shallow embedding of `binary_reader.go` and `header.go`.

* A byte is a natural number below 256; a mapped file, a byte slice and a Go
  string are lists of bytes.
* Go's `int`/`int64` values are integers, `uint32`/`uint64` values are naturals;
  the wrap-around of a conversion or of an unsigned subtraction is written out
  where the source performs it.
* A Go map is an association list in insertion order (`mapGet`, `mapSet`).
* An `error` is a value of `Err`; `errors.Wrap` is the constructor `Err.wrap`.
  A run-time panic of the Go program is the value `Err.runtimePanic`.
* The loader works on the content of a file that exists at its path. What the calls
  of the builder to the streams of the object store and to the local file system
  return is a parameter of the run, a `BuildEnv`.
-/

namespace IndexHeader

/-! ## Constants (`binary_reader.go`, lines 27-40) -/

/-- The first version of the index-header file. -/
def BinaryFormatV1 : Nat := 1

/-- Length of the TOC of the original index: six offsets and a CRC32. -/
def indexTOCLen : Nat := 6 * 8 + 4

/-- Length of the TOC of the index-header: two offsets and a CRC32. -/
def binaryTOCLen : Nat := 2 * 8 + 4

/-- The number of bytes reserved for the header of the index-header. -/
def headerLen : Nat := 4 + 1 + 1 + 8

/-- The four bytes at the head of an index-header file. -/
def MagicIndex : Nat := 0xBAAAD792

/-- Sampling factor of the postings offset table. -/
def symbolFactor : Nat := 32

/-- Version 1 of the original index (`index.FormatV1`). -/
def FormatV1 : Nat := 1

/-- Version 2 of the original index (`index.FormatV2`). -/
def FormatV2 : Nat := 2

/-- Length of the header of the original index (`index.HeaderLen`). -/
def indexHeaderLen : Nat := 5

/-! ## Bytes, strings, errors -/

/-- A byte slice: the mapped file or a part of it. -/
abbrev ByteSlice := List Nat

/-- A Go string: a sequence of bytes. -/
abbrev Str := List Nat

/-- The message an error is wrapped with (`errors.Wrap(err, msg)`). -/
inductive Ctx where
  | indexHeadersHeader
  | readIndexHeaderTOC
  | readSymbols
  | readPostingsTable
  | reverseSymbolLookup
  | getPostingsOffsetEntry
  | newIndexReader
  | newTOC
  | readTOC
  | getTOCFromObjectStorage
  | getSymbolsFromObjectStorage
  | getPostingOffsetTableFromObjectStorage
  | getObjectSize
  | getHeaderFromObjectStorage
  | closeReader
  | closeTocReader
  | copySymbols
  | copyPostingOffset
  | newBinaryIndexHeaderWriter
  | removeExistingIndex
  | syncDir
  | dirClose
  | addIndexMeta
  | writeIndexHeaderTOC
  | closeBinaryWriter
  deriving DecidableEq, Repr

/-- The errors of the package and of the decoding primitives it calls. -/
inductive Err where
  /-- The sentinel `encoding.ErrInvalidSize`. -/
  | ErrInvalidSize
  /-- The sentinel `encoding.ErrInvalidChecksum`. -/
  | ErrInvalidChecksum
  /-- The error "invalid magic number %x". -/
  | invalidMagic (m : Nat)
  /-- The error "unknown index header file version %d". -/
  | unknownVersion (v : Nat)
  /-- The error "not supported index file version %d" of the builder. -/
  | notSupportedIndexVersion (v : Nat)
  /-- The error "unexpected key length for posting table %d". -/
  | unexpectedKeyLength (n : Nat)
  /-- The sentinel `NotFoundRangeErr` of `header.go`. -/
  | NotFoundRangeErr
  /-- An error "unknown symbol" of the symbol table. -/
  | unknownSymbol
  /-- A failed ranged read of the object store. -/
  | getRange
  /-- The error of `fileutil.OpenMmapFile` when the mapping fails ("mmap"). -/
  | mmap
  /-- An error of the local file system. -/
  | fs
  /-- An error of a stream of the object store. -/
  | stream
  /-- A multi-error that holds one error. -/
  | multi1 (e : Err)
  /-- A multi-error that holds two errors. -/
  | multi2 (e1 e2 : Err)
  /-- A run-time panic (slice bounds or index out of range). -/
  | runtimePanic
  /-- A loop of the model stopped at its step bound (the Go loop would not end). -/
  | stepBound
  /-- The error `cause` wrapped with a message. -/
  | wrap (c : Ctx) (cause : Err)
  deriving DecidableEq, Repr

/-- The root cause of an error (`errors.Cause`). -/
def Err.cause : Err → Err
  | .wrap _ e => e.cause
  | e => e

/-- Go's `<` on strings: bytewise lexicographic order. -/
def strLt : Str → Str → Bool
  | _, [] => false
  | [], _ :: _ => true
  | a :: as, b :: bs => decide (a < b) || (decide (a = b) && strLt as bs)

/-- Go's `>=` on strings. -/
def strGe (a b : Str) : Bool := !strLt a b

/-- Conversion of a `uint64` to `int64` (`int64(x)`, `int(x)`): two's complement. -/
def int64 (x : Nat) : Int :=
  if x % 2 ^ 64 < 2 ^ 63 then ((x % 2 ^ 64 : Nat) : Int) else ((x % 2 ^ 64 : Nat) : Int) - 2 ^ 64

/-- Subtraction of `uint64` values `a - b`: below zero it wraps around. -/
def uint64Sub (a b : Nat) : Nat :=
  if b ≤ a then a - b else a + 2 ^ 64 - b

/-- An `int64` result brought back into range after an addition or subtraction. -/
def wrapInt64 (x : Int) : Int :=
  (x + 2 ^ 63) % 2 ^ 64 - 2 ^ 63

/-- Big-endian value of a byte sequence. -/
def beNat (b : List Nat) : Nat :=
  b.foldl (fun acc x => acc * 256 + x) 0

/-- The function `binary.BigEndian.Uint32` on the first four bytes. -/
def Uint32 (b : List Nat) : Nat := beNat (b.take 4)

/-- The function `binary.BigEndian.Uint64` on the first eight bytes. -/
def Uint64 (b : List Nat) : Nat := beNat (b.take 8)

/-- The four bytes `Encbuf.PutBE32` appends. -/
def PutBE32 (x : Nat) : List Nat :=
  [x / 2 ^ 24 % 256, x / 2 ^ 16 % 256, x / 2 ^ 8 % 256, x % 256]

/-- The eight bytes `Encbuf.PutBE64` appends. -/
def PutBE64 (x : Nat) : List Nat :=
  [x / 2 ^ 56 % 256, x / 2 ^ 48 % 256, x / 2 ^ 40 % 256, x / 2 ^ 32 % 256,
   x / 2 ^ 24 % 256, x / 2 ^ 16 % 256, x / 2 ^ 8 % 256, x % 256]

/-! ## CRC32 (Castagnoli), as `hash/crc32` computes it -/

/-- The reversed Castagnoli polynomial (`crc32.Castagnoli`). -/
def castagnoliPoly : Nat := 0x82f63b78

/-- One step of `simpleMakeTable`: shift right, and add the polynomial when the
low bit was set. -/
def crcShift (c : Nat) : Nat :=
  if c % 2 = 1 then (c / 2) ^^^ castagnoliPoly else c / 2

/-- Modelled from the spec: §4.1 `crc32c`, the table `crc32.MakeTable(crc32.Castagnoli)`
of the standard library: entry `i` is `i` shifted eight times. -/
def castagnoliTable (i : Nat) : Nat :=
  crcShift (crcShift (crcShift (crcShift (crcShift (crcShift (crcShift (crcShift i)))))))

/-- One byte of `simpleUpdate`: `crc = tab[byte(crc)^v] ^ (crc >> 8)`. -/
def crcByte (crc v : Nat) : Nat :=
  castagnoliTable ((crc ^^^ v) % 256) ^^^ (crc / 256)

/-- Modelled from the spec: §4.1 `crc32c(region)`, the function `crc32.Checksum(p, castagnoliTable)`
of the standard library: start from `^0`, fold the bytes, complement the result. -/
def Crc32 (p : List Nat) : Nat :=
  (p.foldl crcByte 0xFFFFFFFF) ^^^ 0xFFFFFFFF

/-! ## Varints and the decoding buffer (`encoding.Decbuf`) -/

/-- Modelled from the spec: §4.1 `uvarint`, the loop of `binary.Uvarint`: `i` bytes read so
far, `x` the value so far, `s` the shift. The result is the value and the number of
bytes read, or `none` where the Go function returns a count below one (the buffer
ends inside the varint, or the value overflows 64 bits). -/
def uvarintLoop : List Nat → Nat → Nat → Nat → Option (Nat × Nat)
  | [], _, _, _ => none
  | b :: rest, i, x, s =>
    if i = 10 then none
    else if b < 0x80 then
      if i = 9 ∧ b > 1 then none else some (x ||| (b <<< s), i + 1)
    else uvarintLoop rest (i + 1) (x ||| ((b &&& 0x7f) <<< s)) (s + 7)

/-- The function `binary.Uvarint`. -/
def binaryUvarint (buf : List Nat) : Option (Nat × Nat) := uvarintLoop buf 0 0 0

/-- The decoding buffer: the bytes left and the first error met. -/
structure Decbuf where
  B : List Nat
  E : Option Err
  deriving DecidableEq, Repr

/-- The number of bytes left (`Decbuf.Len`). -/
def Decbuf.Len (d : Decbuf) : Nat := d.B.length

/-- The method `Decbuf.Skip`: drop `l` bytes, or record `ErrInvalidSize`. -/
def Decbuf.Skip (d : Decbuf) (l : Nat) : Decbuf :=
  if d.B.length < l then { d with E := some Err.ErrInvalidSize }
  else { d with B := d.B.drop l }

/-- Modelled from the spec: §4.1 `uvarint(pos)`, the method `Decbuf.Uvarint64`: nothing is
read once an error is recorded. -/
def Decbuf.Uvarint64 (d : Decbuf) : Nat × Decbuf :=
  match d.E with
  | some _ => (0, d)
  | none =>
    match binaryUvarint d.B with
    | none => (0, { d with E := some Err.ErrInvalidSize })
    | some (x, n) => (x, { d with B := d.B.drop n })

/-- The method `Decbuf.Uvarint`: `int(d.Uvarint64())`. -/
def Decbuf.Uvarint (d : Decbuf) : Int × Decbuf :=
  (int64 d.Uvarint64.1, d.Uvarint64.2)

/-- Modelled from the spec: §4.1 `uvarint_bytes(pos)`, the method `Decbuf.UvarintBytes`: a
varint length `l`, then `l` bytes. A length of `2^63` or more passes the check
`len(d.B) < int(l)` as a negative number and the slice expression panics. -/
def Decbuf.UvarintBytes (d : Decbuf) : List Nat × Decbuf :=
  match d.Uvarint64 with
  | (l, d1) =>
    match d1.E with
    | some _ => ([], d1)
    | none =>
      if 2 ^ 63 ≤ l then ([], { d1 with E := some Err.runtimePanic })
      else if d1.B.length < l then ([], { d1 with E := some Err.ErrInvalidSize })
      else (d1.B.take l, { d1 with B := d1.B.drop l })

/-- The method `Decbuf.UvarintStr`. -/
def Decbuf.UvarintStr (d : Decbuf) : Str × Decbuf := d.UvarintBytes

/-- The method `Decbuf.Be32`. -/
def Decbuf.Be32 (d : Decbuf) : Nat × Decbuf :=
  match d.E with
  | some _ => (0, d)
  | none =>
    if d.B.length < 4 then (0, { d with E := some Err.ErrInvalidSize })
    else (Uint32 d.B, { d with B := d.B.drop 4 })

/-- The method `Decbuf.Be64`. -/
def Decbuf.Be64 (d : Decbuf) : Nat × Decbuf :=
  match d.E with
  | some _ => (0, d)
  | none =>
    if d.B.length < 8 then (0, { d with E := some Err.ErrInvalidSize })
    else (Uint64 d.B, { d with B := d.B.drop 8 })

/-- Modelled from the spec: §4.1 length-checked sub-slicing, the function
`encoding.NewDecbufAt(bs, off, table)`: at `off` a four-byte length `l`, then `l` bytes
of content and a CRC32, which is checked when a table is given (`crc = true`).
A negative `off` (or one whose `off+4` overflows) passes the first length check only
to panic in `bs.Range`. A file's length fits in an `int` with room for `l+8`. -/
def NewDecbufAt (bs : ByteSlice) (off : Int) (crc : Bool) : Decbuf :=
  if (bs.length : Int) < wrapInt64 (off + 4) then ⟨[], some Err.ErrInvalidSize⟩
  else if off < 0 ∨ wrapInt64 (off + 4) < off then ⟨[], some Err.runtimePanic⟩
  else
    let l := Uint32 ((bs.drop off.toNat).take 4)
    if bs.length < off.toNat + 4 + l + 4 then ⟨[], some Err.ErrInvalidSize⟩
    else
      let b := (bs.drop (off.toNat + 4)).take (l + 4)
      if crc && Crc32 (b.take l) != Uint32 (b.drop l) then ⟨[], some Err.ErrInvalidChecksum⟩
      else ⟨b.take l, none⟩

/-! ## The walker of an offset table (`index.ReadOffsetTable`) -/

/-- The keys of one entry: `keyCount` strings read with `UvarintStr`. -/
def readKeys : Nat → Decbuf → List Str × Decbuf
  | 0, d => ([], d)
  | n + 1, d =>
    match d.UvarintStr with
    | (k, d1) =>
      match readKeys n d1 with
      | (ks, d2) => (k :: ks, d2)

/-- The loop of `ReadOffsetTable`, by recursion on the entry count `cnt`:
`for d.Err() == nil && d.Len() > 0 && cnt > 0`. The callback `f` gets the keys, the
offset and the position of the entry in the table, and the state it returns is
passed on; its error ends the walk. -/
def readOffsetTableLoop {σ : Type} (f : σ → List Str → Nat → Nat → Except Err σ)
    (startLen : Nat) : Nat → Decbuf → σ → Except Err σ
  | 0, d, s =>
    match d.E with
    | some e => .error e
    | none => .ok s
  | cnt + 1, d, s =>
    match d.E with
    | some e => .error e
    | none =>
      if d.Len = 0 then .ok s
      else
        match d.Uvarint with
        | (keyCount, d1) =>
          match readKeys keyCount.toNat d1 with
          | (keys, d2) =>
            match d2.Uvarint64 with
            | (o, d3) =>
              match d3.E with
              | some e => .error e
              | none =>
                match f s keys o (startLen - d.Len) with
                | .error e => .error e
                | .ok s1 => readOffsetTableLoop f startLen cnt d3 s1

/-- Modelled from the spec: §2 postings-offset-table walker, the function
`index.ReadOffsetTable(bs, off, f)`: the table at `off` is a length, the content (a
four-byte entry count, then the entries) and a CRC32 that is checked. -/
def ReadOffsetTable {σ : Type} (bs : ByteSlice) (off : Nat)
    (f : σ → List Str → Nat → Nat → Except Err σ) (s : σ) : Except Err σ :=
  let d := NewDecbufAt bs (int64 off) true
  readOffsetTableLoop f d.Len d.Be32.1 d.Be32.2 s

/-- One entry as the walker hands it to its callback. -/
structure TableEntry where
  key : List Str
  off : Nat
  tableOff : Nat
  deriving DecidableEq, Repr

/-- The label name of an entry (`key[0]`). -/
def TableEntry.name (e : TableEntry) : Str := e.key.getD 0 []

/-- The label value of an entry (`key[1]`). -/
def TableEntry.value (e : TableEntry) : Str := e.key.getD 1 []

/-- The callback that records the entries. -/
def collectEntry (acc : List TableEntry) (key : List Str) (o t : Nat) :
    Except Err (List TableEntry) :=
  .ok (acc ++ [⟨key, o, t⟩])

/-- The entries of the offset table at `off`, in table order: the walk with the
callback that records its arguments. -/
def tableEntries (bs : ByteSlice) (off : Nat) : Except Err (List TableEntry) :=
  ReadOffsetTable bs off collectEntry []

/-! ## Go maps and `sort` -/

/-- Lookup in a Go map (`v, ok := m[k]`). -/
def mapGet {α β : Type} [DecidableEq α] : List (α × β) → α → Option β
  | [], _ => none
  | (k1, v1) :: m, k => if k1 = k then some v1 else mapGet m k

/-- Assignment in a Go map (`m[k] = v`): the binding of `k` is replaced, a new key
is added. -/
def mapSet {α β : Type} [DecidableEq α] : List (α × β) → α → β → List (α × β)
  | [], k, v => [(k, v)]
  | (k1, v1) :: m, k, v => if k1 = k then (k1, v) :: m else (k1, v1) :: mapSet m k v

/-- The keys of a Go map. -/
def mapKeys {α β : Type} (m : List (α × β)) : List α := m.map Prod.fst

/-- The function `sort.Strings`: the ascending arrangement of the strings. -/
def sortStrings (l : List Str) : List Str :=
  l.insertionSort (fun a b => strLt b a = false)

/-- The loop of `sort.Search`: binary search for the first index in `[i, j)` at
which `f` holds; `fuel` bounds the number of halvings. -/
def searchLoop (f : Nat → Bool) : Nat → Nat → Nat → Nat
  | 0, i, _ => i
  | fuel + 1, i, j =>
    if i < j then
      if f ((i + j) / 2) then searchLoop f fuel i ((i + j) / 2)
      else searchLoop f fuel ((i + j) / 2 + 1) j
    else i

/-- The function `sort.Search(n, f)`. -/
def Search (n : Nat) (f : Nat → Bool) : Nat := searchLoop f n 0 n

/-! ## The symbol table view (`index.Symbols`) -/

/-- Modelled from the spec: §4.2 symbol table view. The type `index.Symbols` and its
functions `NewSymbols`, `ReverseLookup` and `Lookup` are not under `src/`; the reader
takes them as a parameter. -/
structure SymbolsOps where
  Symbols : Type
  NewSymbols : ByteSlice → Nat → Int → Except Err Symbols
  ReverseLookup : Symbols → Str → Except Err Nat
  Lookup : Symbols → Nat → Except Err Str

/-- The symbol table as the tsdb index package keeps it: every 32nd symbol's position. -/
structure TsdbSymbols where
  bs : ByteSlice
  version : Nat
  off : Int
  offsets : List Nat
  seen : Nat
  deriving DecidableEq, Repr

/-- The loop of `index.NewSymbols`: `remaining` symbols are still to be read. -/
def newSymbolsLoop (basePos origLen : Nat) : Nat → Nat → Decbuf → List Nat → Nat × Decbuf × List Nat
  | 0, seen, d, offsets => (seen, d, offsets)
  | remaining + 1, seen, d, offsets =>
    match d.E with
    | some _ => (seen, d, offsets)
    | none =>
      newSymbolsLoop basePos origLen remaining (seen + 1) d.UvarintBytes.2
        (if seen % symbolFactor = 0 then offsets ++ [basePos + origLen - d.Len] else offsets)

/-- Modelled from the spec: §4.2, the function `index.NewSymbols(bs, version, off)`: the
symbols section at `off` is checked against its CRC32 and read through once. -/
def tsdbNewSymbols (bs : ByteSlice) (version : Nat) (off : Int) : Except Err TsdbSymbols :=
  let d := NewDecbufAt bs off true
  match newSymbolsLoop (off.toNat + 4) d.Len d.Be32.1 0 d.Be32.2 [] with
  | (seen, d1, offsets) =>
    match d1.E with
    | some e => .error e
    | none => .ok ⟨bs, version, off, offsets, seen⟩

/-- Modelled from the spec: §4.2 `lookup(id)`, the method `Symbols.Lookup`: an ordinal for
version 2, a byte offset otherwise. -/
def tsdbLookup (s : TsdbSymbols) (o : Nat) : Except Err Str :=
  let d : Decbuf := ⟨s.bs, none⟩
  if s.version = FormatV2 ∧ s.seen ≤ o then .error Err.unknownSymbol
  else
    let d1 :=
      if s.version = FormatV2 then
        Nat.iterate (fun x => x.UvarintBytes.2) (o % symbolFactor)
          (d.Skip (s.offsets.getD (o / symbolFactor) 0))
      else d.Skip o
    match d1.UvarintStr with
    | (sym, d2) =>
      match d2.E with
      | some e => .error e
      | none => .ok sym

/-- The scan of `Symbols.ReverseLookup`: `for d.Err() == nil && res <= s.seen`. -/
def reverseLookupLoop (sym : Str) (seen : Nat) : Nat → Nat → Decbuf → Nat → Str → Nat × Decbuf × Nat × Str
  | 0, res, d, lastLen, lastSymbol => (res, d, lastLen, lastSymbol)
  | fuel + 1, res, d, lastLen, lastSymbol =>
    match d.E with
    | some _ => (res, d, lastLen, lastSymbol)
    | none =>
      if seen < res then (res, d, lastLen, lastSymbol)
      else
        match d.UvarintBytes with
        | (s1, d1) =>
          if strGe s1 sym then (res, d1, d.Len, s1)
          else reverseLookupLoop sym seen fuel (res + 1) d1 d.Len s1

/-- Modelled from the spec: §4.2 `reverse_lookup(s)`, the method `Symbols.ReverseLookup`:
binary search over the kept positions, then a scan of at most 32 symbols. -/
def tsdbReverseLookup (s : TsdbSymbols) (sym : Str) : Except Err Nat :=
  if s.offsets.length = 0 then .error Err.unknownSymbol
  else
    let d : Decbuf := ⟨s.bs, none⟩
    let i := Search s.offsets.length
      (fun i => strLt sym (d.Skip (s.offsets.getD i 0)).UvarintBytes.1)
    let i1 := if 0 < i then i - 1 else i
    match reverseLookupLoop sym s.seen (s.seen + 2) (i1 * symbolFactor)
        (d.Skip (s.offsets.getD i1 0)) 0 [] with
    | (res, d1, lastLen, lastSymbol) =>
      match d1.E with
      | some e => .error e
      | none =>
        if lastSymbol ≠ sym then .error Err.unknownSymbol
        else if s.version = FormatV2 then .ok (res % 2 ^ 32)
        else .ok ((s.bs.length - lastLen) % 2 ^ 32)

/-- The symbol table of the tsdb index package as an instance of the parameter. -/
def tsdbSymbols : SymbolsOps where
  Symbols := TsdbSymbols
  NewSymbols := tsdbNewSymbols
  ReverseLookup := tsdbReverseLookup
  Lookup := tsdbLookup

/-! ## The reader (`binary_reader.go`, lines 57-63 and 296-325) -/

/-- The table of contents of the index-header file. -/
structure BinaryTOC where
  /-- Start of the symbols section in the index-header. -/
  Symbols : Nat
  /-- Start of the postings offset table in the index-header. -/
  PostingsOffsetTable : Nat
  deriving DecidableEq, Repr

/-- A byte range of the original index (`index.Range`). -/
structure Range where
  Start : Int
  End : Int
  deriving DecidableEq, Repr

/-- A sampled entry: a label value and the offset of its entry in the postings
offset table of the index-header. -/
structure postingOffset where
  value : Str
  tableOff : Nat
  deriving DecidableEq, Repr

/-- The memory-mapped file behind the reader (`fileutil.MmapFile`). -/
structure MmapFile where
  closed : Bool
  deriving DecidableEq, Repr

/-- The reader of an index-header file. -/
structure BinaryReader (S : SymbolsOps) where
  b : ByteSlice
  toc : BinaryTOC
  /-- The closer that releases the byte slice. -/
  c : MmapFile
  /-- Label name to some label values' positions in the offset table. -/
  postings : List (Str × List postingOffset)
  /-- For the v1 format: label name to label value to range. -/
  postingsV1 : List (Str × List (Str × Range))
  symbols : S.Symbols
  /-- Cache of the label name symbol lookups. -/
  nameSymbols : List (Nat × Str)
  version : Nat
  indexVersion : Nat
  indexLastPostingEnd : Int

/-! ## The loader (`newFileBinaryReader`, lines 346-505) -/

/-- The function `newBinaryTOCFromByteSlice`: the TOC is the last 20 bytes of the
file, 16 bytes of offsets and their CRC32. -/
def newBinaryTOCFromByteSlice (bs : ByteSlice) : Except Err BinaryTOC :=
  if bs.length < binaryTOCLen then .error Err.ErrInvalidSize
  else
    let b := bs.drop (bs.length - binaryTOCLen)
    let expCRC := Uint32 (b.drop (b.length - 4))
    let d : Decbuf := ⟨b.take (b.length - 4), none⟩
    if Crc32 d.B ≠ expCRC then .error (Err.wrap Ctx.readIndexHeaderTOC Err.ErrInvalidChecksum)
    else .ok ⟨d.Be64.1, d.Be64.2.Be64.1⟩

/-- What the block "Verify header" (lines 363-378) reads from the first 14 bytes. -/
structure HeaderFields where
  version : Nat
  indexVersion : Nat
  indexLastPostingEnd : Int
  deriving DecidableEq, Repr

/-- The block "Verify header" of `newFileBinaryReader` (lines 363-378): the length,
the magic number, the two version bytes, the position of the postings offset table
in the original index, and last the check of the header-format version. -/
def verifyHeader (b : ByteSlice) : Except Err HeaderFields :=
  if b.length < headerLen then .error (Err.wrap Ctx.indexHeadersHeader Err.ErrInvalidSize)
  else if Uint32 (b.take 4) ≠ MagicIndex then .error (Err.invalidMagic (Uint32 (b.take 4)))
  else
    let version := b.getD 4 0
    let indexVersion := b.getD 5 0
    let indexPostingOffsetTable := Uint64 ((b.drop 6).take 8)
    if version ≠ BinaryFormatV1 then .error (Err.unknownVersion version)
    else .ok ⟨version, indexVersion, int64 (uint64Sub indexPostingOffsetTable 1)⟩

/-- The variables the version-1 walk updates (lines 390-396). -/
structure V1State where
  postingsV1 : List (Str × List (Str × Range))
  postings : List (Str × List postingOffset)
  lastKey : Option (List Str)
  prevRng : Range

/-- The callback of the version-1 walk (lines 397-415): the whole table is loaded;
the range of an entry ends one byte before the offset of the entry read next. -/
def v1Callback (st : V1State) (key : List Str) (off : Nat) (_tableOff : Nat) :
    Except Err V1State :=
  if key.length ≠ 2 then .error (Err.unexpectedKeyLength key.length)
  else
    let pv1 :=
      match st.lastKey with
      | some lk =>
        mapSet st.postingsV1 (lk.getD 0 [])
          (mapSet ((mapGet st.postingsV1 (lk.getD 0 [])).getD []) (lk.getD 1 [])
            { st.prevRng with End := int64 (uint64Sub off 1) })
      | none => st.postingsV1
    match mapGet pv1 (key.getD 0 []) with
    | some _ =>
      .ok { postingsV1 := pv1, postings := st.postings, lastKey := some key,
            prevRng := ⟨int64 off, 0⟩ }
    | none =>
      .ok { postingsV1 := mapSet pv1 (key.getD 0 []) [],
            postings := mapSet st.postings (key.getD 0 []) [],
            lastKey := some key, prevRng := ⟨int64 off, 0⟩ }

/-- The end of the version-1 path (lines 418-421): the last entry read ends at
`indexLastPostingEnd`. -/
def v1Finish (st : V1State) (indexLastPostingEnd : Int) : V1State :=
  match st.lastKey with
  | some lk =>
    let pv1 :=
      mapSet st.postingsV1 (lk.getD 0 [])
        (mapSet ((mapGet st.postingsV1 (lk.getD 0 [])).getD []) (lk.getD 1 [])
          { st.prevRng with End := indexLastPostingEnd })
    { st with postingsV1 := pv1 }
  | none => st

/-- The variables the version-2 walk updates (lines 390, 423-424). -/
structure V2State where
  postings : List (Str × List postingOffset)
  lastKey : Option (List Str)
  lastTableOff : Nat
  valueCount : Nat

/-- The statement `m[k] = append(m[k], x)`. -/
def mapAppend (m : List (Str × List postingOffset)) (k : Str) (x : postingOffset) :
    List (Str × List postingOffset) :=
  mapSet m k ((mapGet m k).getD [] ++ [x])

/-- The callback of the version-2 walk (lines 428-451). The branch that keeps an
entry returns before `valueCount++`. -/
def v2Callback (st : V2State) (key : List Str) (_off : Nat) (tableOff : Nat) :
    Except Err V2State :=
  if key.length ≠ 2 then .error (Err.unexpectedKeyLength key.length)
  else
    let st1 : V2State :=
      match mapGet st.postings (key.getD 0 []) with
      | some _ => st
      | none =>
        let p :=
          match st.lastKey with
          | some lk =>
            mapAppend (mapSet st.postings (key.getD 0 []) []) (lk.getD 0 [])
              ⟨lk.getD 1 [], st.lastTableOff⟩
          | none => mapSet st.postings (key.getD 0 []) []
        { st with postings := p, valueCount := 0 }
    if st1.valueCount % symbolFactor = 0 then
      .ok { st1 with postings := mapAppend st1.postings (key.getD 0 []) ⟨key.getD 1 [], tableOff⟩,
                     lastKey := none }
    else
      .ok { st1 with lastKey := some key, lastTableOff := tableOff,
                     valueCount := st1.valueCount + 1 }

/-- The end of the version-2 path (lines 455-463); trimming the slices changes no
value. -/
def v2Finish (st : V2State) : V2State :=
  match st.lastKey with
  | some lk =>
    { st with postings := mapAppend st.postings (lk.getD 0 []) ⟨lk.getD 1 [], st.lastTableOff⟩ }
  | none => st

/-- The loop over the label names that fills `nameSymbols` (lines 466-476). -/
def buildNameSymbols (S : SymbolsOps) (symbols : S.Symbols) :
    List Str → List (Nat × Str) → Except Err (List (Nat × Str))
  | [], m => .ok m
  | k :: ks, m =>
    if k = [] then buildNameSymbols S symbols ks m
    else
      match S.ReverseLookup symbols k with
      | .error e => .error (Err.wrap Ctx.reverseSymbolLookup e)
      | .ok off => buildNameSymbols S symbols ks (mapSet m off k)

/-- The two maps the walk of the postings offset table builds (lines 390-464). -/
def loadPostings (b : ByteSlice) (toc : BinaryTOC) (h : HeaderFields) :
    Except Err (List (Str × List postingOffset) × List (Str × List (Str × Range))) :=
  if h.indexVersion = FormatV1 then
    match ReadOffsetTable b toc.PostingsOffsetTable v1Callback
        (⟨[], [], none, ⟨0, 0⟩⟩ : V1State) with
    | .error e => .error (Err.wrap Ctx.readPostingsTable e)
    | .ok st => .ok ((v1Finish st h.indexLastPostingEnd).postings,
                     (v1Finish st h.indexLastPostingEnd).postingsV1)
  else
    match ReadOffsetTable b toc.PostingsOffsetTable v2Callback
        (⟨[], none, 0, 0⟩ : V2State) with
    | .error e => .error (Err.wrap Ctx.readPostingsTable e)
    | .ok st => .ok ((v2Finish st).postings, [])

/-- Modelled from the spec: §4.4 step 1 "Memory-map the file read-only", the function
`fileutil.OpenMmapFile`, which is not under `src/`, on a file that exists at the path
and has the content `b`: a file without bytes cannot be mapped (`mmap` of length 0
fails), any other file is mapped and held open. -/
def OpenMmapFile (b : ByteSlice) : Except Err MmapFile :=
  if b.length = 0 then .error Err.mmap else .ok ⟨false⟩

/-- The function `newFileBinaryReader` (lines 346-479) on a file with the content `b`:
the file is mapped (lines 347-350) before anything of it is read. -/
def newFileBinaryReader (S : SymbolsOps) (b : ByteSlice) : Except Err (BinaryReader S) :=
  match OpenMmapFile b with
  | .error e => .error e
  | .ok f =>
    match verifyHeader b with
    | .error e => .error e
    | .ok h =>
      match newBinaryTOCFromByteSlice b with
      | .error e => .error (Err.wrap Ctx.readIndexHeaderTOC e)
      | .ok toc =>
        match S.NewSymbols b h.indexVersion (int64 toc.Symbols) with
        | .error e => .error (Err.wrap Ctx.readSymbols e)
        | .ok symbols =>
          match loadPostings b toc h with
          | .error e => .error e
          | .ok (postings, postingsV1) =>
            match buildNameSymbols S symbols (mapKeys postings) [] with
            | .error e => .error e
            | .ok nameSymbols =>
              .ok { b := b, toc := toc, c := f, postings := postings,
                    postingsV1 := postingsV1, symbols := symbols,
                    nameSymbols := nameSymbols, version := h.version,
                    indexVersion := h.indexVersion,
                    indexLastPostingEnd := h.indexLastPostingEnd }

/-! ## The queries (`binary_reader.go`, lines 507-707) -/

/-- The method `IndexVersion`. -/
def IndexVersion {S : SymbolsOps} (r : BinaryReader S) : Nat := r.indexVersion

/-- The start of a scan step, in `postingsOffset` (lines 577-586) and in
`LabelValues` (lines 666-675): the first entry's key count and label name are parsed
and their length kept in `skip`; on later entries that many bytes are skipped. -/
def readSkip (d : Decbuf) (skip : Nat) : Decbuf × Nat :=
  if skip = 0 then (d.Uvarint.2.UvarintBytes.2, d.Len - d.Uvarint.2.UvarintBytes.2.Len)
  else (d.Skip skip, skip)

/-- The loop `for string(v) >= value` (lines 589-599). `pending` is
`values[valueIndex:]`, so that `valueIndex == len(values)` reads `pending = []`. -/
def advanceValues (v : Str) (postingOff : Int) : Str → List Str → List Range →
    Str × List Str × List Range
  | value, [], tmpRngs => (value, [], tmpRngs)
  | value, p :: rest, tmpRngs =>
    if strGe v value then
      match rest with
      | [] =>
        (value, [], if v = value then tmpRngs ++ [⟨wrapInt64 (postingOff + 4), 0⟩] else tmpRngs)
      | nv :: _ =>
        advanceValues v postingOff nv rest
          (if v = value then tmpRngs ++ [⟨wrapInt64 (postingOff + 4), 0⟩] else tmpRngs)
    else (value, p :: rest, tmpRngs)

/-- The variables of the scan in `postingsOffset`. -/
structure ScanState where
  d : Decbuf
  skip : Nat
  value : Str
  pending : List Str
  tmpRngs : List Range
  rngs : List Range

/-- The loop "Iterate on the offset table" (lines 576-621), from the sample `e[i]`.
Every step reads at least one byte or records an error; `fuel` counts the steps. -/
def scanLoop (e : List postingOffset) (i : Nat) (indexLastPostingEnd : Int) :
    Nat → ScanState → ScanState
  | 0, st => { st with d := { st.d with E := some Err.stepBound } }
  | fuel + 1, st =>
    match st.d.E with
    | some _ => st
    | none =>
      match readSkip st.d st.skip with
      | (d1, skip1) =>
        match d1.UvarintBytes with
        | (v, d2) =>
          match d2.Uvarint64 with
          | (po, d3) =>
            match advanceValues v (int64 po) st.value st.pending st.tmpRngs with
            | (value1, pending1, tmp1) =>
              if i + 1 = e.length then
                { d := d3, skip := skip1, value := value1, pending := pending1,
                  tmpRngs := tmp1.map (fun r => { r with End := indexLastPostingEnd }),
                  rngs := st.rngs ++ tmp1.map (fun r => { r with End := indexLastPostingEnd }) }
              else if strGe value1 (e.getD (i + 1) ⟨[], 0⟩).value ∨ pending1 = [] then
                match ((d3.Skip skip1).UvarintBytes.2).Uvarint64 with
                | (po2, d6) =>
                  { d := d6, skip := skip1, value := value1, pending := pending1,
                    tmpRngs := tmp1.map (fun r => { r with End := wrapInt64 (int64 po2 - 4) }),
                    rngs := st.rngs ++
                      tmp1.map (fun r => { r with End := wrapInt64 (int64 po2 - 4) }) }
              else
                scanLoop e i indexLastPostingEnd fuel
                  { d := d3, skip := skip1, value := value1, pending := pending1,
                    tmpRngs := tmp1, rngs := st.rngs }

/-- The loop `for valueIndex < len(values)` (lines 557-625) over the samples `e` of
the label name. A step that ends without an error has moved past a value in every
run the loader can produce; `fuel` counts the steps. -/
def postingsOffsetLoop {S : SymbolsOps} (r : BinaryReader S) (e : List postingOffset) :
    Nat → ScanState → Except Err (List Range)
  | 0, st =>
    match st.pending with
    | [] => .ok st.rngs
    | _ :: _ => .error Err.stepBound
  | fuel + 1, st =>
    match st.pending with
    | [] => .ok st.rngs
    | value :: _ =>
      if Search e.length (fun i => strGe (e.getD i ⟨[], 0⟩).value value) = e.length then
        .ok st.rngs
      else
        let i0 := Search e.length (fun i => strGe (e.getD i ⟨[], 0⟩).value value)
        let i := if 0 < i0 ∧ (e.getD i0 ⟨[], 0⟩).value ≠ value then i0 - 1 else i0
        let d := (NewDecbufAt r.b (int64 r.toc.PostingsOffsetTable) false).Skip
          (e.getD i ⟨[], 0⟩).tableOff
        let st1 := scanLoop e i r.indexLastPostingEnd (d.Len + 1)
          { st with d := d, value := value, tmpRngs := [] }
        match st1.d.E with
        | some err => .error (Err.wrap Ctx.getPostingsOffsetEntry err)
        | none => postingsOffsetLoop r e fuel st1

/-- The method `postingsOffset(name, values...)`. -/
def postingsOffset {S : SymbolsOps} (r : BinaryReader S) (name : Str) (values : List Str) :
    Except Err (List Range) :=
  if r.indexVersion = FormatV1 then
    match mapGet r.postingsV1 name with
    | none => .ok []
    | some e => .ok (values.filterMap (fun v => mapGet e v))
  else
    match mapGet r.postings name with
    | none => .ok []
    | some e =>
      if values.length = 0 then .ok []
      else
        match e with
        | [] => .error Err.runtimePanic
        | e0 :: _ =>
          postingsOffsetLoop r e (values.length + 1)
            { d := ⟨[], none⟩, skip := 0, value := [],
              pending := values.dropWhile (fun v => strLt v e0.value),
              tmpRngs := [], rngs := [] }

/-- The method `PostingsOffset(name, value)`. -/
def PostingsOffset {S : SymbolsOps} (r : BinaryReader S) (name value : Str) :
    Except Err Range :=
  match postingsOffset r name [value] with
  | .error e => .error e
  | .ok [rng] => .ok rng
  | .ok _ => .error Err.NotFoundRangeErr

/-- The method `LookupSymbol`. -/
def LookupSymbol {S : SymbolsOps} (r : BinaryReader S) (o : Nat) : Except Err Str :=
  match mapGet r.nameSymbols o with
  | some s => .ok s
  | none => S.Lookup r.symbols o

/-- The scan of `LabelValues` (lines 665-682), up to the value `lastVal`. -/
def labelValuesLoop (lastVal : Str) : Nat → Decbuf → Nat → List Str → Decbuf × List Str
  | 0, d, _, values => ({ d with E := some Err.stepBound }, values)
  | fuel + 1, d, skip, values =>
    match d.E with
    | some _ => (d, values)
    | none =>
      match readSkip d skip with
      | (d1, skip1) =>
        match d1.UvarintBytes with
        | (s, d2) =>
          if s = lastVal then (d2, values ++ [s])
          else labelValuesLoop lastVal fuel d2.Uvarint64.2 skip1 (values ++ [s])

/-- The method `LabelValues(name)`; a nil slice is the empty list. -/
def LabelValues {S : SymbolsOps} (r : BinaryReader S) (name : Str) : Except Err (List Str) :=
  if r.indexVersion = FormatV1 then
    match mapGet r.postingsV1 name with
    | none => .ok []
    | some e => .ok (sortStrings (mapKeys e))
  else
    match mapGet r.postings name with
    | none => .ok []
    | some [] => .ok []
    | some (e0 :: e) =>
      let d := (NewDecbufAt r.b (int64 r.toc.PostingsOffsetTable) false).Skip e0.tableOff
      match labelValuesLoop ((e0 :: e).getLast (List.cons_ne_nil e0 e)).value (d.Len + 1) d 0 [] with
      | (d1, values) =>
        match d1.E with
        | some err => .error (Err.wrap Ctx.getPostingsOffsetEntry err)
        | none => .ok values

/-- The method `LabelNames`: the keys of `postings` without the all-postings key
(the empty name), sorted. -/
def LabelNames {S : SymbolsOps} (r : BinaryReader S) : List Str :=
  sortStrings ((mapKeys r.postings).filter (fun name => name ≠ []))

/-- The method `Close` (line 707): it returns nil and leaves the reader as it is. -/
def Close {S : SymbolsOps} (r : BinaryReader S) : BinaryReader S × Option Err := (r, none)

/-! ## Concrete files -/

/-- A 58-byte index-header whose byte 5 (the original-index version) is 3: the
header, an empty symbols section, an empty postings offset table, the TOC. -/
def fileIndexVersion3 : ByteSlice :=
  [186, 170, 215, 146, 1, 3, 0, 0, 0, 0, 0, 0, 1, 44,
   0, 0, 0, 4, 0, 0, 0, 0, 72, 103, 75, 199,
   0, 0, 0, 4, 0, 0, 0, 0, 72, 103, 75, 199,
   0, 0, 0, 0, 0, 0, 0, 14, 0, 0, 0, 0, 0, 0, 0, 26, 178, 225, 159, 120]

/-- The file `b` with bit number `bit` of the byte at position `pos` flipped. -/
def flipBit (b : ByteSlice) (pos bit : Nat) : ByteSlice :=
  b.set pos (b.getD pos 0 ^^^ 2 ^ bit)

/-- A version-2 index-header of 68 bytes: the header (the postings offset table of the
original index at 300), an empty symbols section at 14, at 26 a postings offset table
with the two entries `("", "a") -> 10` and `("", "c") -> 20`, the TOC. -/
def fileTwoValues : ByteSlice :=
  [186, 170, 215, 146, 1, 2, 0, 0, 0, 0, 0, 0, 1, 44,
   0, 0, 0, 4, 0, 0, 0, 0, 72, 103, 75, 199,
   0, 0, 0, 14, 0, 0, 0, 2, 2, 0, 1, 97, 10, 2, 0, 1, 99, 20, 165, 161, 210, 4,
   0, 0, 0, 0, 0, 0, 0, 14, 0, 0, 0, 0, 0, 0, 0, 26, 178, 225, 159, 120]

/-- The file `fileTwoValues` with original-index version 1 in byte 5. -/
def fileTwoValuesV1 : ByteSlice :=
  [186, 170, 215, 146, 1, 1, 0, 0, 0, 0, 0, 0, 1, 44,
   0, 0, 0, 4, 0, 0, 0, 0, 72, 103, 75, 199,
   0, 0, 0, 14, 0, 0, 0, 2, 2, 0, 1, 97, 10, 2, 0, 1, 99, 20, 165, 161, 210, 4,
   0, 0, 0, 0, 0, 0, 0, 14, 0, 0, 0, 0, 0, 0, 0, 26, 178, 225, 159, 120]

/-- The file `fileTwoValues` with the key count 2 of the second entry written as the
two-byte varint `0x82 0x00`. -/
def fileLongKeyCount : ByteSlice :=
  [186, 170, 215, 146, 1, 2, 0, 0, 0, 0, 0, 0, 1, 44,
   0, 0, 0, 4, 0, 0, 0, 0, 72, 103, 75, 199,
   0, 0, 0, 15, 0, 0, 0, 2, 2, 0, 1, 97, 10, 130, 0, 0, 1, 99, 20, 47, 177, 28, 128,
   0, 0, 0, 0, 0, 0, 0, 14, 0, 0, 0, 0, 0, 0, 0, 26, 178, 225, 159, 120]

/-- The result of a query on the reader the loader returns for a file. -/
def onLoaded {α : Type} (b : ByteSlice) (q : BinaryReader tsdbSymbols → α) : Except Err α :=
  (newFileBinaryReader tsdbSymbols b).map q

/-- The walk over a list of entries: the callback is applied to one entry after the
other; its first error ends the walk. -/
def foldEntries {σ : Type} (f : σ → List Str → Nat → Nat → Except Err σ) :
    List TableEntry → σ → Except Err σ
  | [], s => .ok s
  | e :: es, s =>
    match f s e.key e.off e.tableOff with
    | .error err => .error err
    | .ok s1 => foldEntries f es s1

/-- The buffer `d` holds the entry `e` in front: the key count, the keys and the
offset are read without error, and `d1` is what is left. -/
def EntryDecodes (d : Decbuf) (e : TableEntry) (d1 : Decbuf) : Prop :=
  d.E = none ∧ d.Uvarint.1.toNat = e.key.length ∧
  (readKeys e.key.length d.Uvarint.2).1 = e.key ∧
  (readKeys e.key.length d.Uvarint.2).2.Uvarint64 = (e.off, d1) ∧ d1.E = none

/-- The entries `ents` follow one another in the table content from the buffer `d`
on, each at its recorded table offset. -/
def EntryChain (content : List Nat) : Decbuf → List TableEntry → Prop
  | _, [] => True
  | d, e :: es =>
    d.B <:+ content ∧ e.tableOff = content.length - d.Len ∧
    ∃ d1, EntryDecodes d e d1 ∧ EntryChain content d1 es

/-- The sample of an entry: its label value and its offset in the table. -/
def TableEntry.sample (e : TableEntry) : postingOffset := ⟨e.value, e.tableOff⟩

/-- The samples of the entries of a label name, in table order. -/
def samplesOf (name : Str) (ents : List TableEntry) : List postingOffset :=
  (ents.filter (fun e => e.name = name)).map TableEntry.sample

/-- The label names of the entries, in table order. -/
def tableNames (ents : List TableEntry) : List Str := ents.map TableEntry.name

/-- A version-2 index-header of 91 bytes. Symbols section at 14: the five symbols
`""`, `"1"`, `"2"`, `"a"`, `"b"`. Postings offset table at 35: the entries
`("", "") -> 100`, `("a", "1") -> 120`, `("a", "2") -> 140`, `("b", "1") -> 160`.
The postings offset table of the original index is at 300. -/
def fileLabels : ByteSlice :=
  [186, 170, 215, 146, 1, 2, 0, 0, 0, 0, 0, 0, 1, 44,
   0, 0, 0, 13, 0, 0, 0, 5, 0, 1, 49, 1, 50, 1, 97, 1, 98, 18, 189, 219, 30,
   0, 0, 0, 28, 0, 0, 0, 4, 2, 0, 0, 100, 2, 1, 97, 1, 49, 120, 2, 1, 97, 1, 50, 140, 1,
   2, 1, 98, 1, 49, 160, 1, 132, 6, 232, 70,
   0, 0, 0, 0, 0, 0, 0, 14, 0, 0, 0, 0, 0, 0, 0, 35, 250, 176, 13, 5]

/-- The entries of the postings offset table of `fileLabels`. -/
def fileLabelsEntries : List TableEntry :=
  [⟨[[], []], 100, 4⟩, ⟨[[97], [49]], 120, 8⟩, ⟨[[97], [50]], 140, 14⟩,
   ⟨[[98], [49]], 160, 21⟩]

/-- The file `fileLabels` with original-index version 1 in byte 5. -/
def fileLabelsV1 : ByteSlice :=
  [186, 170, 215, 146, 1, 1, 0, 0, 0, 0, 0, 0, 1, 44,
   0, 0, 0, 13, 0, 0, 0, 5, 0, 1, 49, 1, 50, 1, 97, 1, 98, 18, 189, 219, 30,
   0, 0, 0, 28, 0, 0, 0, 4, 2, 0, 0, 100, 2, 1, 97, 1, 49, 120, 2, 1, 97, 1, 50, 140, 1,
   2, 1, 98, 1, 49, 160, 1, 132, 6, 232, 70,
   0, 0, 0, 0, 0, 0, 0, 14, 0, 0, 0, 0, 0, 0, 0, 35, 250, 176, 13, 5]

/-- The table is sorted by (label name, label value) and no key occurs twice: every
entry is below every later one. -/
def SortedTable (ents : List TableEntry) : Prop :=
  ents.Pairwise (fun e1 e2 =>
    strLt e1.name e2.name = true ∨ (e1.name = e2.name ∧ strLt e1.value e2.value = true))

/-- The number of bytes that the key count and the label name of the entry at
`tableOff` take in the table at `off`: what a scan starting there keeps in `skip`. -/
def entryKeyLen (b : ByteSlice) (off tableOff : Nat) : Nat :=
  (readSkip ((NewDecbufAt b (int64 off) false).Skip tableOff) 0).2

/-- The entries of one label name all write their key count and label name in the
same number of bytes. -/
def UniformKeyLen (b : ByteSlice) (off : Nat) (ents : List TableEntry) : Prop :=
  ∀ e1 ∈ ents, ∀ e2 ∈ ents, e1.name = e2.name →
    entryKeyLen b off e1.tableOff = entryKeyLen b off e2.tableOff

/-- The end of the range of an entry of a sorted table that is followed by the
entries `post`: four bytes before the posting offset of the next entry when that
entry has the same label name, `lastEnd` when the entry is the last of its name. -/
def rangeEnd (lastEnd : Int) (e : TableEntry) : List TableEntry → Int
  | [] => lastEnd
  | nx :: _ => if nx.name = e.name then wrapInt64 (int64 nx.off - 4) else lastEnd

/-- The label values of the entries of a label name, in table order. -/
def valuesOf (name : Str) (ents : List TableEntry) : List Str :=
  (ents.filter (fun e => e.name = name)).map TableEntry.value

/-! ## The builder (`WriteBinary`, lines 65-294) -/

/-- The table of contents of the original index (`index.TOC`). -/
structure IndexTOC where
  Symbols : Nat
  Series : Nat
  LabelIndices : Nat
  LabelIndicesTable : Nat
  Postings : Nat
  PostingsTable : Nat
  deriving DecidableEq, Repr

/-- Modelled from the spec: §6 `get_range(id, offset, length)` of the object store, which is
not under `src/`: the `length` bytes of the object from `offset` on; a range that is
not inside the object fails. -/
def GetRange (obj : ByteSlice) (off length : Int) : Except Err ByteSlice :=
  if off < 0 ∨ length < 0 ∨ (obj.length : Int) < off + length then .error Err.getRange
  else .ok ((obj.drop off.toNat).take length.toNat)

/-- Modelled from the spec: §4.3 step 2, the function `index.NewTOCFromByteSlice`, which is
not under `src/`: the index-TOC is the last 52 bytes, six offsets and the CRC32 of
those 48 bytes. -/
def NewTOCFromByteSlice (bs : ByteSlice) : Except Err IndexTOC :=
  if bs.length < indexTOCLen then .error Err.ErrInvalidSize
  else
    let b := bs.drop (bs.length - indexTOCLen)
    let d := b.take (b.length - 4)
    if Crc32 d ≠ Uint32 (b.drop (b.length - 4)) then
      .error (Err.wrap Ctx.readTOC Err.ErrInvalidChecksum)
    else
      .ok ⟨Uint64 d, Uint64 (d.drop 8), Uint64 (d.drop 16), Uint64 (d.drop 24),
           Uint64 (d.drop 32), Uint64 (d.drop 40)⟩

/-- What the calls of one run of the builder to the object store and to the local
file system return, apart from the ranged reads. The code under `src/` decides none of
them. A field is `none` when the call succeeds; a failed write, copy or flush tells
after how many bytes it failed. -/
structure BuildEnv where
  /-- The call `bkt.ObjectSize` (line 114). -/
  objectSize : Option Err
  /-- The call `ioutil.ReadAll` on the stream of the index header (line 124). -/
  readHeader : Option Err
  /-- The call `rc.Close()` on the stream of the index header (lines 126, 130). -/
  closeHeader : Option Err
  /-- The call `ioutil.ReadAll` on the stream of the index-TOC (line 166). -/
  readTOCBytes : Option Err
  /-- The call `rc.Close()` on the stream of the index-TOC (lines 168, 172). -/
  closeTOC : Option Err
  /-- The call `fileutil.OpenDir(dir)` (line 225). -/
  openDir : Option Err
  /-- The call `os.RemoveAll(fn)` (line 231). -/
  removeAll : Option Err
  /-- The call `index.NewFileWriter(fn)` (line 235). -/
  newFileWriter : Option Err
  /-- The call `df.Sync()` (line 239). -/
  syncDir : Option Err
  /-- The call `w.f.Write` of the magic number and the version (line 255). -/
  writeMagic : Option (Nat × Err)
  /-- The deferred call `df.Close()` (line 229). -/
  closeDir : Option Err
  /-- The call `w.f.Write` of `AddIndexMeta` (line 262). -/
  writeMeta : Option (Nat × Err)
  /-- The call `io.Copy` of the symbols (line 190). -/
  copySymbols : Option (Nat × Err)
  /-- The call `rc.Close()` after the copy of the symbols (line 194). -/
  closeSymbols : Option Err
  /-- The call `bw.f.Flush()` after the symbols (line 86). -/
  flushSymbols : Option (Nat × Err)
  /-- The call `io.Copy` of the postings offsets (line 204). -/
  copyPostings : Option (Nat × Err)
  /-- The call `rc.Close()` after the copy of the postings offsets (line 208). -/
  closePostings : Option Err
  /-- The call `bw.f.Flush()` after the postings offsets (line 94). -/
  flushPostings : Option (Nat × Err)
  /-- The call `w.f.Write` of `WriteTOC` (line 283). -/
  writeTOC : Option (Nat × Err)
  /-- The deferred call `bw.Close()` (line 76). -/
  closeWriter : Option (Nat × Err)
  deriving DecidableEq, Repr

/-- The run in which every call to the object store's streams and to the local file
system succeeds. -/
def BuildEnv.noFault : BuildEnv :=
  { objectSize := none, readHeader := none, closeHeader := none, readTOCBytes := none,
    closeTOC := none, openDir := none, removeAll := none, newFileWriter := none,
    syncDir := none, writeMagic := none, closeDir := none, writeMeta := none,
    copySymbols := none, closeSymbols := none, flushSymbols := none, copyPostings := none,
    closePostings := none, flushPostings := none, writeTOC := none, closeWriter := none }

/-- Modelled from the spec: §7 "`IO` — propagated from the object store or local
filesystem", the function `runutil.CloseWithErrCapture(&err, closer, format)`, which is
not under `src/`, when `err` holds the error `e`: `e` and the error of the close, wrapped
with the message, are put into one multi-error. -/
def captureErr (e : Err) (closeErr : Option Err) (c : Ctx) : Err :=
  match closeErr with
  | none => Err.multi1 e
  | some ce => Err.multi2 e (Err.wrap c ce)

/-- Modelled from the spec: §7 "`IO` — propagated from the object store or local
filesystem", the function `runutil.CloseWithErrCapture(&err, closer, format)`, which is
not under `src/`: the error so far and the error of the close, wrapped with the message,
are put into one multi-error; the result is nil when both are nil. -/
def CloseWithErrCapture (err : Option Err) (closeErr : Option Err) (c : Ctx) : Option Err :=
  match err with
  | some e => some (captureErr e closeErr c)
  | none =>
    match closeErr with
    | none => none
    | some ce => some (Err.multi1 (Err.wrap c ce))

/-- The reader of the index in the object store (lines 104-110): the object, its
size and its TOC. -/
structure chunkedIndexReader where
  obj : ByteSlice
  size : Nat
  toc : IndexTOC
  deriving DecidableEq, Repr

/-- The method `readTOC` (lines 160-181): a ranged read of the last 56 bytes; the
offset is `int64(r.size - indexTOCLen - crc32.Size)`, an unsigned subtraction. -/
def readTOC (env : BuildEnv) (obj : ByteSlice) (size : Nat) : Except Err IndexTOC :=
  match GetRange obj (int64 (uint64Sub (uint64Sub size indexTOCLen) 4)) (indexTOCLen + 4) with
  | .error e => .error (Err.wrap Ctx.getTOCFromObjectStorage e)
  | .ok tocBytes =>
    match env.readTOCBytes with
    | some e =>
      .error (Err.wrap Ctx.getTOCFromObjectStorage (captureErr e env.closeTOC Ctx.closeTocReader))
    | none =>
      match env.closeTOC with
      | some e => .error (Err.wrap Ctx.closeTocReader e)
      | none =>
        match NewTOCFromByteSlice tocBytes with
        | .error e => .error (Err.wrap Ctx.newTOC e)
        | .ok toc => .ok toc

/-- The function `newChunkedIndexReader` (lines 112-158) on the object `obj`; `magic`
is the constant `index.MagicIndex` of the index package, which is not under `src/`.
The result is the reader and the version of the index. -/
def newChunkedIndexReader (env : BuildEnv) (magic : Nat) (obj : ByteSlice) :
    Except Err (chunkedIndexReader × Nat) :=
  match env.objectSize with
  | some e => .error (Err.wrap Ctx.getObjectSize e)
  | none =>
    match GetRange obj 0 indexHeaderLen with
    | .error e => .error (Err.wrap Ctx.getTOCFromObjectStorage e)
    | .ok b =>
      match env.readHeader with
      | some e =>
        .error (Err.wrap Ctx.getHeaderFromObjectStorage
          (captureErr e env.closeHeader Ctx.closeReader))
      | none =>
        match env.closeHeader with
        | some e => .error (Err.wrap Ctx.closeReader e)
        | none =>
          if Uint32 (b.take 4) ≠ magic then .error (Err.invalidMagic (Uint32 (b.take 4)))
          else if b.getD 4 0 ≠ FormatV1 ∧ b.getD 4 0 ≠ FormatV2 then
            .error (Err.notSupportedIndexVersion (b.getD 4 0))
          else
            match readTOC env obj obj.length with
            | .error e => .error e
            | .ok toc => .ok (⟨obj, obj.length, toc⟩, b.getD 4 0)

/-- Modelled from the spec: §5 "buffered writes to the local file", the type
`index.FileWriter`, which is not under `src/`: the bytes of the file on disk and the
bytes accepted that are still in the buffer. -/
structure FileWriter where
  disk : ByteSlice
  buf : ByteSlice
  deriving DecidableEq, Repr

/-- Modelled from the spec: §5 "buffered writes to the local file", the method
`FileWriter.Pos`: the number of bytes accepted so far. -/
def FileWriter.Pos (fw : FileWriter) : Nat := fw.disk.length + fw.buf.length

/-- The bytes the file writer has accepted: those of the file followed by those in the
buffer. -/
def FileWriter.accepted (fw : FileWriter) : ByteSlice := fw.disk ++ fw.buf

/-- Modelled from the spec: §5 "buffered writes to the local file", the method
`FileWriter.Write`: the bytes go to the buffer; a write that fails has accepted the
first `n` bytes. -/
def FileWriter.Write (fw : FileWriter) (p : ByteSlice) (out : Option (Nat × Err)) :
    FileWriter × Option Err :=
  match out with
  | none => (⟨fw.disk, fw.buf ++ p⟩, none)
  | some (n, e) => (⟨fw.disk, fw.buf ++ p.take n⟩, some e)

/-- Modelled from the spec: §5 "buffered writes to the local file", the method
`FileWriter.Flush`: the bytes of the buffer go to the file; a flush that fails has
written the first `n` of them. -/
def FileWriter.Flush (fw : FileWriter) (out : Option (Nat × Err)) : FileWriter × Option Err :=
  match out with
  | none => (⟨fw.disk ++ fw.buf, []⟩, none)
  | some (n, e) => (⟨fw.disk ++ fw.buf.take n, fw.buf.drop n⟩, some e)

/-- Modelled from the spec: §4.3 step 8 "Close and fsync", the method
`FileWriter.Close`: the buffer is flushed, the file synced and closed; a close that
fails has written the first `n` bytes of the buffer. -/
def FileWriter.Close (fw : FileWriter) (out : Option (Nat × Err)) : FileWriter × Option Err :=
  fw.Flush out

/-- The writer of the index-header (lines 211-220): the file writer and the TOC. -/
structure binaryWriter where
  f : FileWriter
  toc : BinaryTOC
  deriving DecidableEq, Repr

/-- The function `newBinaryWriter` (lines 222-256); `old` is what is at the path
before the call. The result is what is at the path after the call, the writer (nil
when it was not created) and the error. A directory that cannot be opened and a
removal that fails leave the path as it was; after the removal the path has no file
until the file writer creates an empty one. The magic number and the header-format
version are written to the buffer of the file writer. The deferred close of the
directory (line 229) captures its error on every return after line 228. -/
def newBinaryWriter (env : BuildEnv) (old : Option ByteSlice) :
    Option ByteSlice × Option binaryWriter × Option Err :=
  match env.openDir with
  | some e => (old, none, some e)
  | none =>
    let r : Option ByteSlice × Option binaryWriter × Option Err :=
      match env.removeAll with
      | some e => (old, none, some (Err.wrap Ctx.removeExistingIndex e))
      | none =>
        match env.newFileWriter with
        | some e => (none, none, some e)
        | none =>
          match env.syncDir with
          | some e => (some [], none, some (Err.wrap Ctx.syncDir e))
          | none =>
            (some [],
             some ⟨((⟨[], []⟩ : FileWriter).Write (PutBE32 MagicIndex ++ [BinaryFormatV1])
               env.writeMagic).1, ⟨0, 0⟩⟩,
             ((⟨[], []⟩ : FileWriter).Write (PutBE32 MagicIndex ++ [BinaryFormatV1])
               env.writeMagic).2)
    (r.1, r.2.1, CloseWithErrCapture r.2.2 env.closeDir Ctx.dirClose)

/-- The method `AddIndexMeta` (lines 258-263). -/
def binaryWriter.AddIndexMeta (w : binaryWriter) (indexVersion : Nat)
    (indexPostingOffsetTable : Nat) (out : Option (Nat × Err)) : binaryWriter × Option Err :=
  ({ w with f := (w.f.Write ([indexVersion % 256] ++ PutBE64 indexPostingOffsetTable) out).1 },
   (w.f.Write ([indexVersion % 256] ++ PutBE64 indexPostingOffsetTable) out).2)

/-- The method `SymbolsWriter` (lines 265-268). -/
def binaryWriter.SymbolsWriter (w : binaryWriter) : binaryWriter :=
  { w with toc := { w.toc with Symbols := w.f.Pos } }

/-- The method `PostingOffsetsWriter` (lines 270-273). -/
def binaryWriter.PostingOffsetsWriter (w : binaryWriter) : binaryWriter :=
  { w with toc := { w.toc with PostingsOffsetTable := w.f.Pos } }

/-- The method `Write` (lines 286-290). -/
def binaryWriter.Write (w : binaryWriter) (p : ByteSlice) (out : Option (Nat × Err)) :
    binaryWriter × Option Err :=
  ({ w with f := (w.f.Write p out).1 }, (w.f.Write p out).2)

/-- The method `WriteTOC` (lines 275-284): the two offsets and the CRC32 of these 16
bytes (`PutHash`). -/
def binaryWriter.WriteTOC (w : binaryWriter) (out : Option (Nat × Err)) :
    binaryWriter × Option Err :=
  w.Write (PutBE64 w.toc.Symbols ++ PutBE64 w.toc.PostingsOffsetTable ++
    PutBE32 (Crc32 (PutBE64 w.toc.Symbols ++ PutBE64 w.toc.PostingsOffsetTable))) out

/-- The call `bw.f.Flush()` of `WriteBinary` (lines 86, 94). -/
def binaryWriter.Flush (w : binaryWriter) (out : Option (Nat × Err)) :
    binaryWriter × Option Err :=
  ({ w with f := (w.f.Flush out).1 }, (w.f.Flush out).2)

/-- The method `Close` of the writer (lines 292-294). -/
def binaryWriter.Close (w : binaryWriter) (out : Option (Nat × Err)) :
    binaryWriter × Option Err :=
  ({ w with f := (w.f.Close out).1 }, (w.f.Close out).2)

/-- Modelled from the spec: §4.3 step 5 "Copy bytes ... to output, streamed", the
function `io.Copy(w, rc)`, which is not under `src/`: the bytes of the stream are handed
to `w.Write`; `out` tells whether a read of the stream or a write fails, and after how
many bytes. -/
def ioCopy (w : binaryWriter) (rc : ByteSlice) (out : Option (Nat × Err)) :
    binaryWriter × Option Err :=
  w.Write rc out

/-- The method `CopySymbols` (lines 183-195) with the writer `w`: the bytes
`[Symbols, Series)`. The call of line 188 is not deferred: it closes the stream at once,
and the error it captures is overwritten by each `return`. -/
def CopySymbols (env : BuildEnv) (r : chunkedIndexReader) (w : binaryWriter) :
    binaryWriter × Option Err :=
  match GetRange r.obj (int64 r.toc.Symbols) (int64 (uint64Sub r.toc.Series r.toc.Symbols)) with
  | .error e => (w, some (Err.wrap Ctx.getSymbolsFromObjectStorage e))
  | .ok rc =>
    match (ioCopy w rc env.copySymbols).2 with
    | some e => ((ioCopy w rc env.copySymbols).1, some (Err.wrap Ctx.copySymbols e))
    | none => ((ioCopy w rc env.copySymbols).1, env.closeSymbols)

/-- The method `CopyPostingsOffsets` (lines 197-209) with the writer `w`: the bytes
from `PostingsTable` to the end of the object. The call of line 202 is not deferred. -/
def CopyPostingsOffsets (env : BuildEnv) (r : chunkedIndexReader) (w : binaryWriter) :
    binaryWriter × Option Err :=
  match GetRange r.obj (int64 r.toc.PostingsTable)
      (int64 (uint64Sub r.size r.toc.PostingsTable)) with
  | .error e => (w, some (Err.wrap Ctx.getPostingOffsetTableFromObjectStorage e))
  | .ok rc =>
    match (ioCopy w rc env.copyPostings).2 with
    | some e => ((ioCopy w rc env.copyPostings).1, some (Err.wrap Ctx.copyPostingOffset e))
    | none => ((ioCopy w rc env.copyPostings).1, env.closePostings)

/-- The statements of `WriteBinary` between the deferred close and the last `return`
(lines 78-101): the writer after them and the error returned. -/
def writeSections (env : BuildEnv) (ir : chunkedIndexReader) (indexVersion : Nat)
    (bw : binaryWriter) : binaryWriter × Option Err :=
  match (bw.AddIndexMeta indexVersion ir.toc.PostingsTable env.writeMeta).2 with
  | some e =>
    ((bw.AddIndexMeta indexVersion ir.toc.PostingsTable env.writeMeta).1,
      some (Err.wrap Ctx.addIndexMeta e))
  | none =>
    let bw1 := (bw.AddIndexMeta indexVersion ir.toc.PostingsTable env.writeMeta).1
    match (CopySymbols env ir bw1.SymbolsWriter).2 with
    | some e => ((CopySymbols env ir bw1.SymbolsWriter).1, some e)
    | none =>
      let bw2 := (CopySymbols env ir bw1.SymbolsWriter).1
      match (bw2.Flush env.flushSymbols).2 with
      | some e => ((bw2.Flush env.flushSymbols).1, some e)
      | none =>
        let bw3 := (bw2.Flush env.flushSymbols).1
        match (CopyPostingsOffsets env ir bw3.PostingOffsetsWriter).2 with
        | some e => ((CopyPostingsOffsets env ir bw3.PostingOffsetsWriter).1, some e)
        | none =>
          let bw4 := (CopyPostingsOffsets env ir bw3.PostingOffsetsWriter).1
          match (bw4.Flush env.flushPostings).2 with
          | some e => ((bw4.Flush env.flushPostings).1, some e)
          | none =>
            let bw5 := (bw4.Flush env.flushPostings).1
            match (bw5.WriteTOC env.writeTOC).2 with
            | some e => ((bw5.WriteTOC env.writeTOC).1, some (Err.wrap Ctx.writeIndexHeaderTOC e))
            | none => ((bw5.WriteTOC env.writeTOC).1, none)

/-- What a run of `WriteBinary` leaves: the content of the file at the output path,
if there is one, and the error returned. -/
structure BuildResult where
  file : Option ByteSlice
  err : Option Err
  deriving DecidableEq, Repr

/-- The function `WriteBinary` (lines 65-102) on the index `obj` in the object store;
`old` is the file at the output path before the run. An error of
`newChunkedIndexReader` returns before the path is touched; an error of
`newBinaryWriter` returns before the close of the writer is deferred, so that the
bytes in its buffer never reach the file; after that the deferred close (line 76)
flushes the buffer and captures its error on every return. No return removes the
file. -/
def WriteBinary (env : BuildEnv) (magic : Nat) (obj : ByteSlice) (old : Option ByteSlice) :
    BuildResult :=
  match newChunkedIndexReader env magic obj with
  | .error e => ⟨old, some (Err.wrap Ctx.newIndexReader e)⟩
  | .ok (ir, indexVersion) =>
    match newBinaryWriter env old with
    | (path, _, some e) => ⟨path, some (Err.wrap Ctx.newBinaryIndexHeaderWriter e)⟩
    | (path, none, none) => ⟨path, some Err.runtimePanic⟩
    | (_, some bw, none) =>
      ⟨some ((writeSections env ir indexVersion bw).1.Close env.closeWriter).1.f.disk,
        CloseWithErrCapture (writeSections env ir indexVersion bw).2
          ((writeSections env ir indexVersion bw).1.Close env.closeWriter).2
          Ctx.closeBinaryWriter⟩

/-- A run in which the write of the header-TOC fails before a byte is accepted, and
no other call fails. -/
def envWriteTOCFails : BuildEnv :=
  { objectSize := none, readHeader := none, closeHeader := none, readTOCBytes := none,
    closeTOC := none, openDir := none, removeAll := none, newFileWriter := none,
    syncDir := none, writeMagic := none, closeDir := none, writeMeta := none,
    copySymbols := none, closeSymbols := none, flushSymbols := none, copyPostings := none,
    closePostings := none, flushPostings := none, writeTOC := some (0, Err.fs),
    closeWriter := none }

/-- A run in which the copy of the symbols fails after three bytes, and no other call
fails. -/
def envCopySymbolsFails : BuildEnv :=
  { objectSize := none, readHeader := none, closeHeader := none, readTOCBytes := none,
    closeTOC := none, openDir := none, removeAll := none, newFileWriter := none,
    syncDir := none, writeMagic := none, closeDir := none, writeMeta := none,
    copySymbols := some (3, Err.stream), closeSymbols := none, flushSymbols := none,
    copyPostings := none, closePostings := none, flushPostings := none, writeTOC := none,
    closeWriter := none }

/-- A run in which the file writer cannot create the file, and no other call fails. -/
def envNewFileWriterFails : BuildEnv :=
  { objectSize := none, readHeader := none, closeHeader := none, readTOCBytes := none,
    closeTOC := none, openDir := none, removeAll := none, newFileWriter := some Err.fs,
    syncDir := none, writeMagic := none, closeDir := none, writeMeta := none,
    copySymbols := none, closeSymbols := none, flushSymbols := none, copyPostings := none,
    closePostings := none, flushPostings := none, writeTOC := none, closeWriter := none }

/-- An original index of 142 bytes, version 2, with the magic number `0xBAAAD700`:
the symbols section at 5, 30 bytes of series and postings from 26 on, the postings
offset table at 56 and the index-TOC in the last 52 bytes. -/
def indexSmall : ByteSlice :=
  [186, 170, 215, 0, 2,
   0, 0, 0, 13, 0, 0, 0, 5, 0, 1, 49, 1, 50, 1, 97, 1, 98, 18, 189, 219, 30,
   7, 7, 7, 7, 7, 7, 7, 7, 7, 7, 7, 7, 7, 7, 9, 9, 9, 9, 9, 9, 9, 9, 9, 9, 9, 9, 9, 9, 9, 9,
   0, 0, 0, 26, 0, 0, 0, 4, 2, 0, 0, 40, 2, 1, 97, 1, 49, 44, 2, 1, 97, 1, 50, 48,
   2, 1, 98, 1, 49, 52, 55, 102, 51, 10,
   0, 0, 0, 0, 0, 0, 0, 5, 0, 0, 0, 0, 0, 0, 0, 26, 0, 0, 0, 0, 0, 0, 0, 40,
   0, 0, 0, 0, 0, 0, 0, 40, 0, 0, 0, 0, 0, 0, 0, 40, 0, 0, 0, 0, 0, 0, 0, 56,
   195, 84, 192, 208]

/-- What holds of the variables of the version-2 walk after the entries `done`:
no entry is pending in `lastKey`, `valueCount` is still 0, and every label name met
is bound to the samples of all its entries. -/
structure V2Inv (done : List TableEntry) (st : V2State) : Prop where
  lastKey : st.lastKey = none
  valueCount : st.valueCount = 0
  get : ∀ n, mapGet st.postings n =
    if n ∈ tableNames done then some (samplesOf n done) else none
  nodup : (mapKeys st.postings).Nodup

/-- What holds of the variables of the version-1 walk after the entries `done`: the
keys of both maps are the label names met, and the pending `lastKey` is one of them. -/
structure V1Inv (done : List TableEntry) (st : V1State) : Prop where
  keys1 : ∀ n, mapGet st.postingsV1 n ≠ none ↔ n ∈ tableNames done
  keys : ∀ n, n ∈ mapKeys st.postings ↔ n ∈ tableNames done
  nodup : (mapKeys st.postings).Nodup
  last : ∀ lk, st.lastKey = some lk → lk.getD 0 [] ∈ tableNames done

/-- A version-2 index-header of 91 bytes, like `fileLabels` with the postings offset
table `("", "") -> 100`, `("a", "1") -> 120`, `("b", "1") -> 140`, `("b", "2") -> 160`:
the last label name has two values. -/
def fileLastNameTwoValues : ByteSlice :=
  [186, 170, 215, 146, 1, 2, 0, 0, 0, 0, 0, 0, 1, 44,
   0, 0, 0, 13, 0, 0, 0, 5, 0, 1, 49, 1, 50, 1, 97, 1, 98, 18, 189, 219, 30,
   0, 0, 0, 28, 0, 0, 0, 4, 2, 0, 0, 100, 2, 1, 97, 1, 49, 120, 2, 1, 98, 1, 49, 140, 1,
   2, 1, 98, 1, 50, 160, 1, 101, 172, 174, 123,
   0, 0, 0, 0, 0, 0, 0, 14, 0, 0, 0, 0, 0, 0, 0, 35, 250, 176, 13, 5]

/-- A version-2 index-header of 67 bytes, like `fileTwoValues` with the postings offset
table `("", "a") -> 10`, `("x") -> 20`: the second entry has key count 1. -/
def fileKeyCountOne : ByteSlice :=
  [186, 170, 215, 146, 1, 2, 0, 0, 0, 0, 0, 0, 1, 44,
   0, 0, 0, 4, 0, 0, 0, 0, 72, 103, 75, 199,
   0, 0, 0, 13, 0, 0, 0, 2, 2, 0, 1, 97, 10, 1, 1, 120, 20, 246, 129, 95, 201,
   0, 0, 0, 0, 0, 0, 0, 14, 0, 0, 0, 0, 0, 0, 0, 26, 178, 225, 159, 120]

/-- The file `fileKeyCountOne` with original-index version 1 in byte 5. -/
def fileKeyCountOneV1 : ByteSlice :=
  [186, 170, 215, 146, 1, 1, 0, 0, 0, 0, 0, 0, 1, 44,
   0, 0, 0, 4, 0, 0, 0, 0, 72, 103, 75, 199,
   0, 0, 0, 13, 0, 0, 0, 2, 2, 0, 1, 97, 10, 1, 1, 120, 20, 246, 129, 95, 201,
   0, 0, 0, 0, 0, 0, 0, 14, 0, 0, 0, 0, 0, 0, 0, 26, 178, 225, 159, 120]

/-- A version-2 index-header of 91 bytes, like `fileLabels` with the symbols `""`, `"1"`,
`"2"`, `"3"`, `"a"` and the postings offset table `("", "") -> 100`, `("a", "1") -> 120`,
`("a", "2") -> 140`, `("a", "3") -> 160`: the label name `"a"` has three values. -/
def fileThreeValues : ByteSlice :=
  [186, 170, 215, 146, 1, 2, 0, 0, 0, 0, 0, 0, 1, 44,
   0, 0, 0, 13, 0, 0, 0, 5, 0, 1, 49, 1, 50, 1, 51, 1, 97, 249, 69, 135, 180,
   0, 0, 0, 28, 0, 0, 0, 4, 2, 0, 0, 100, 2, 1, 97, 1, 49, 120, 2, 1, 97, 1, 50, 140, 1,
   2, 1, 97, 1, 51, 160, 1, 131, 90, 10, 191,
   0, 0, 0, 0, 0, 0, 0, 14, 0, 0, 0, 0, 0, 0, 0, 35, 250, 176, 13, 5]

/-- The entries of the postings offset table of `fileThreeValues`. -/
def fileThreeValuesEntries : List TableEntry :=
  [⟨[[], []], 100, 4⟩, ⟨[[97], [49]], 120, 8⟩, ⟨[[97], [50]], 140, 14⟩,
   ⟨[[97], [51]], 160, 21⟩]

/-- An original index of 57 bytes, version 2, with the magic number `0xBAAAD700`: the
header and an index-TOC whose sections all start at 200, past the end of the object;
only `Symbols` is 5. -/
def indexTruncated : ByteSlice :=
  [186, 170, 215, 0, 2,
   0, 0, 0, 0, 0, 0, 0, 5, 0, 0, 0, 0, 0, 0, 0, 200, 0, 0, 0, 0, 0, 0, 0, 200,
   0, 0, 0, 0, 0, 0, 0, 200, 0, 0, 0, 0, 0, 0, 0, 200, 0, 0, 0, 0, 0, 0, 0, 200,
   199, 194, 81, 135]

/-- An original index of 69 bytes, version 2, with the magic number `0xBAAAD700`: an
empty symbols section at 5, the series at 17, and an index-TOC whose `PostingsTable`
is 300, past the end of the object. -/
def indexNoPostings : ByteSlice :=
  [186, 170, 215, 0, 2,
   0, 0, 0, 4, 0, 0, 0, 0, 72, 103, 75, 199,
   0, 0, 0, 0, 0, 0, 0, 5, 0, 0, 0, 0, 0, 0, 0, 17, 0, 0, 0, 0, 0, 0, 0, 17,
   0, 0, 0, 0, 0, 0, 0, 17, 0, 0, 0, 0, 0, 0, 0, 17, 0, 0, 0, 0, 0, 0, 1, 44,
   28, 209, 38, 90]

/-- A version-1 index-header of 86 bytes. Symbols section at 14: the five symbols
`""`, `"1"`, `"2"`, `"a"`, `"b"`. Postings offset table at 35, not sorted: the entries
`("a", "2") -> 100`, `("b", "1") -> 120`, `("a", "1") -> 140`. The postings offset
table of the original index is at 300. -/
def fileUnsortedV1 : ByteSlice :=
  [186, 170, 215, 146, 1, 1, 0, 0, 0, 0, 0, 0, 1, 44,
   0, 0, 0, 13, 0, 0, 0, 5, 0, 1, 49, 1, 50, 1, 97, 1, 98, 18, 189, 219, 30,
   0, 0, 0, 23, 0, 0, 0, 3, 2, 1, 97, 1, 50, 100, 2, 1, 98, 1, 49, 120,
   2, 1, 97, 1, 49, 140, 1, 172, 122, 9, 8,
   0, 0, 0, 0, 0, 0, 0, 14, 0, 0, 0, 0, 0, 0, 0, 35, 250, 176, 13, 5]

/-- The entries of the postings offset table of `fileUnsortedV1`. -/
def fileUnsortedV1Entries : List TableEntry :=
  [⟨[[97], [50]], 100, 4⟩, ⟨[[98], [49]], 120, 10⟩, ⟨[[97], [49]], 140, 16⟩]

/-- The value of the nested map `postingsV1` at a label name and a label value
(`postingsV1[n][v]`). -/
def lookupV1 (m : List (Str × List (Str × Range))) (n v : Str) : Option Range :=
  match mapGet m n with
  | none => none
  | some e => mapGet e v

/-- The assignments `postingsV1[lastKey[0]][lastKey[1]] = prevRng` that the version-1
walk has made after the entries given: one for every entry but the last, with the
range from its posting offset to one byte before the posting offset of the next entry. -/
def v1Stored : List TableEntry → List ((Str × Str) × Range)
  | e :: nx :: rest =>
    ((e.name, e.value), ⟨int64 e.off, int64 (uint64Sub nx.off 1)⟩) :: v1Stored (nx :: rest)
  | _ => []

/-- The assignments of the version-1 path after its end (lines 418-421): the last
entry is stored with the end `lastEnd`. -/
def v1Ranges (lastEnd : Int) : List TableEntry → List ((Str × Str) × Range)
  | [] => []
  | [e] => [((e.name, e.value), ⟨int64 e.off, lastEnd⟩)]
  | e :: nx :: rest =>
    ((e.name, e.value), ⟨int64 e.off, int64 (uint64Sub nx.off 1)⟩) :: v1Ranges lastEnd (nx :: rest)

/-- The map a sequence of assignments `m[k] = v` builds from the empty map. -/
def assignAll {α β : Type} [DecidableEq α] (l : List (α × β)) : List (α × β) :=
  l.foldl (fun m a => mapSet m a.1 a.2) []

/-- What holds of the variables of the version-1 walk after the entries `done`: the
nested map holds the assignments made so far, `lastKey` and `prevRng` belong to the
last entry, and no inner map has a key twice. -/
structure V1StoredInv (done : List TableEntry) (st : V1State) : Prop where
  get : ∀ n v, lookupV1 st.postingsV1 n v = mapGet (assignAll (v1Stored done)) (n, v)
  lastKey : st.lastKey = done.getLast?.map (fun e => e.key)
  prevRng : ∀ l, done.getLast? = some l → st.prevRng.Start = int64 l.off
  nodup : ∀ n e, mapGet st.postingsV1 n = some e → (mapKeys e).Nodup

/-- The posting offsets grow by at least 8 from one entry to the next, and the last
one is at least 4 below `lastEnd`. -/
def OffsetsSpaced (lastEnd : Int) (ents : List TableEntry) : Prop :=
  (∀ p ∈ ents.zip ents.tail, p.1.off + 8 ≤ p.2.off) ∧
  ∀ l ∈ ents.getLast?, (l.off : Int) + 4 ≤ lastEnd

/-- What holds of the cache after the label names `P`: it binds the symbol of a
non-empty name of `P` to that name, nothing else, no symbol twice, and it has one
entry for each non-empty name of `P`. -/
structure NameCacheInv (S : SymbolsOps) (sy : S.Symbols) (P : List Str) (m : List (Nat × Str)) :
    Prop where
  get : ∀ o k, mapGet m o = some k ↔ (k ∈ P ∧ k ≠ [] ∧ S.ReverseLookup sy k = .ok o)
  nodup : (mapKeys m).Nodup
  length : m.length = (P.filter (fun n => n ≠ [])).length

/-- The index expression `e[i]` of Go on a sample list: a run-time panic when `i` is
not below `len(e)`. -/
def indexSample (e : List postingOffset) (i : Nat) : Except Err postingOffset :=
  match e[i]? with
  | some x => .ok x
  | none => .error Err.runtimePanic

/-- The loop `scanLoop` (lines 576-621) with the index expression `e[i+1]` of line 609
checked as Go checks it: the panic is the error `runtimePanic`. -/
def scanLoopChecked (e : List postingOffset) (i : Nat) (indexLastPostingEnd : Int) :
    Nat → ScanState → Except Err ScanState
  | 0, st => .ok { st with d := { st.d with E := some Err.stepBound } }
  | fuel + 1, st =>
    match st.d.E with
    | some _ => .ok st
    | none =>
      match readSkip st.d st.skip with
      | (d1, skip1) =>
        match d1.UvarintBytes with
        | (v, d2) =>
          match d2.Uvarint64 with
          | (po, d3) =>
            match advanceValues v (int64 po) st.value st.pending st.tmpRngs with
            | (value1, pending1, tmp1) =>
              if i + 1 = e.length then
                .ok { d := d3, skip := skip1, value := value1, pending := pending1,
                      tmpRngs := tmp1.map (fun r => { r with End := indexLastPostingEnd }),
                      rngs := st.rngs ++
                        tmp1.map (fun r => { r with End := indexLastPostingEnd }) }
              else
                match indexSample e (i + 1) with
                | .error err => .error err
                | .ok nxt =>
                  if strGe value1 nxt.value ∨ pending1 = [] then
                    match ((d3.Skip skip1).UvarintBytes.2).Uvarint64 with
                    | (po2, d6) =>
                      .ok { d := d6, skip := skip1, value := value1, pending := pending1,
                            tmpRngs := tmp1.map
                              (fun r => { r with End := wrapInt64 (int64 po2 - 4) }),
                            rngs := st.rngs ++ tmp1.map
                              (fun r => { r with End := wrapInt64 (int64 po2 - 4) }) }
                  else
                    scanLoopChecked e i indexLastPostingEnd fuel
                      { d := d3, skip := skip1, value := value1, pending := pending1,
                        tmpRngs := tmp1, rngs := st.rngs }

/-- The loop `postingsOffsetLoop` (lines 557-625) with the index expressions `e[i]` of
lines 565 and 572 checked; `e[i]` of line 565 is evaluated only when `i > 0`. The
indices that `sort.Search` passes to its predicate lie in `[0, len(e))` by its own
construction. -/
def postingsOffsetLoopChecked {S : SymbolsOps} (r : BinaryReader S) (e : List postingOffset) :
    Nat → ScanState → Except Err (List Range)
  | 0, st =>
    match st.pending with
    | [] => .ok st.rngs
    | _ :: _ => .error Err.stepBound
  | fuel + 1, st =>
    match st.pending with
    | [] => .ok st.rngs
    | value :: _ =>
      if Search e.length (fun i => strGe (e.getD i ⟨[], 0⟩).value value) = e.length then
        .ok st.rngs
      else
        let i0 := Search e.length (fun i => strGe (e.getD i ⟨[], 0⟩).value value)
        match (if 0 < i0 then (indexSample e i0).map (fun x => decide (x.value ≠ value))
               else .ok false) with
        | .error err => .error err
        | .ok back =>
          let i := if back then i0 - 1 else i0
          match indexSample e i with
          | .error err => .error err
          | .ok ei =>
            let d := (NewDecbufAt r.b (int64 r.toc.PostingsOffsetTable) false).Skip ei.tableOff
            match scanLoopChecked e i r.indexLastPostingEnd (d.Len + 1)
                { st with d := d, value := value, tmpRngs := [] } with
            | .error err => .error err
            | .ok st1 =>
              match st1.d.E with
              | some err => .error (Err.wrap Ctx.getPostingsOffsetEntry err)
              | none => postingsOffsetLoopChecked r e fuel st1

/-- The method `postingsOffset(name, values...)` with the index expressions `e[0]`,
`e[i]` and `e[i+1]` checked. -/
def postingsOffsetChecked {S : SymbolsOps} (r : BinaryReader S) (name : Str)
    (values : List Str) : Except Err (List Range) :=
  if r.indexVersion = FormatV1 then
    match mapGet r.postingsV1 name with
    | none => .ok []
    | some e => .ok (values.filterMap (fun v => mapGet e v))
  else
    match mapGet r.postings name with
    | none => .ok []
    | some e =>
      if values.length = 0 then .ok []
      else
        match indexSample e 0 with
        | .error err => .error err
        | .ok e0 =>
          postingsOffsetLoopChecked r e (values.length + 1)
            { d := ⟨[], none⟩, skip := 0, value := [],
              pending := values.dropWhile (fun v => strLt v e0.value),
              tmpRngs := [], rngs := [] }

/-! # Properties -/

theorem verifyHeader_short (b : ByteSlice) (h : b.length < 14) :
    verifyHeader b = .error (Err.wrap Ctx.indexHeadersHeader Err.ErrInvalidSize) := by
  simp [verifyHeader, headerLen, h]

theorem verifyHeader_magic (b : ByteSlice) (h : 14 ≤ b.length)
    (hm : Uint32 (b.take 4) ≠ 0xBAAAD792) :
    verifyHeader b = .error (Err.invalidMagic (Uint32 (b.take 4))) := by
  have h1 : ¬ b.length < 14 := by omega
  simp [verifyHeader, headerLen, h1, MagicIndex, hm]

theorem verifyHeader_version (b : ByteSlice) (h : 14 ≤ b.length)
    (hm : Uint32 (b.take 4) = 0xBAAAD792) (hv : b.getD 4 0 ≠ 1) :
    verifyHeader b = .error (Err.unknownVersion (b.getD 4 0)) := by
  have h1 : ¬ b.length < 14 := by omega
  simp only [List.getD_eq_getElem?_getD] at hv ⊢
  simp [verifyHeader, headerLen, h1, MagicIndex, hm, BinaryFormatV1, hv]

theorem OpenMmapFile_of_pos (b : ByteSlice) (h : 0 < b.length) :
    OpenMmapFile b = .ok ⟨false⟩ := by
  unfold OpenMmapFile
  rw [if_neg (by omega)]

theorem OpenMmapFile_ok {b : ByteSlice} {f : MmapFile} (h : OpenMmapFile b = .ok f) :
    0 < b.length ∧ f = ⟨false⟩ := by
  unfold OpenMmapFile at h
  split at h
  · cases h
  · injection h with h
    exact ⟨by omega, h.symm⟩

theorem newFileBinaryReader_of_verifyHeader_error (S : SymbolsOps) (b : ByteSlice) (e : Err)
    (hb : 0 < b.length) (h : verifyHeader b = .error e) :
    newFileBinaryReader S b = .error e := by
  simp [newFileBinaryReader, OpenMmapFile_of_pos b hb, h]

/-- C7, amended: the loader maps the file before it checks anything, and a file
without bytes cannot be mapped: the load of the empty file fails with the error of the
mapping. Of the other files the loader rejects one shorter than 14 bytes with
`ErrInvalidSize`, one of at least 14 bytes whose first four bytes are not the magic
number with the invalid-magic error, and one with the magic number whose byte 4 is not
1 with the unknown-version error; nothing else of the file is looked at. -/
theorem C7_loader_header_checks (S : SymbolsOps) (b : ByteSlice) :
    (b.length = 0 → newFileBinaryReader S b = .error Err.mmap) ∧
    (0 < b.length → b.length < 14 →
      newFileBinaryReader S b = .error (Err.wrap Ctx.indexHeadersHeader Err.ErrInvalidSize)) ∧
    (14 ≤ b.length → Uint32 (b.take 4) ≠ 0xBAAAD792 →
      newFileBinaryReader S b = .error (Err.invalidMagic (Uint32 (b.take 4)))) ∧
    (14 ≤ b.length → Uint32 (b.take 4) = 0xBAAAD792 → b.getD 4 0 ≠ 1 →
      newFileBinaryReader S b = .error (Err.unknownVersion (b.getD 4 0))) :=
  ⟨fun h => by rw [List.length_eq_zero.1 h]; rfl,
   fun h0 h => newFileBinaryReader_of_verifyHeader_error S b _ h0 (verifyHeader_short b h),
   fun h hm => newFileBinaryReader_of_verifyHeader_error S b _ (by omega)
     (verifyHeader_magic b h hm),
   fun h hm hv => newFileBinaryReader_of_verifyHeader_error S b _ (by omega)
     (verifyHeader_version b h hm hv)⟩

/-- C7, witness: the empty file, a file of 13 bytes, a file with a wrong magic number
and a file with header-format version 2. -/
theorem C7_witness :
    newFileBinaryReader tsdbSymbols [] = .error Err.mmap ∧
    newFileBinaryReader tsdbSymbols [186, 170, 215, 146, 1, 2, 0, 0, 0, 0, 0, 0, 1]
      = .error (Err.wrap Ctx.indexHeadersHeader Err.ErrInvalidSize) ∧
    newFileBinaryReader tsdbSymbols [186, 170, 215, 147, 1, 2, 0, 0, 0, 0, 0, 0, 1, 44]
      = .error (Err.invalidMagic 0xBAAAD793) ∧
    newFileBinaryReader tsdbSymbols [186, 170, 215, 146, 2, 2, 0, 0, 0, 0, 0, 0, 1, 44]
      = .error (Err.unknownVersion 2) :=
  ⟨(C7_loader_header_checks tsdbSymbols _).1 (by decide),
   (C7_loader_header_checks tsdbSymbols _).2.1 (by decide) (by decide),
   (C7_loader_header_checks tsdbSymbols _).2.2.1 (by decide) (by decide),
   (C7_loader_header_checks tsdbSymbols _).2.2.2 (by decide) (by decide) (by decide)⟩

/-- C7, counterexample: the file without bytes is shorter than 14 bytes, and its load
fails with the error of the mapping, not with `ErrInvalidSize`: the length is checked
after the file is mapped. -/
theorem C7_counterexample :
    ([] : ByteSlice).length < 14 ∧
    newFileBinaryReader tsdbSymbols [] = .error Err.mmap ∧
    newFileBinaryReader tsdbSymbols [] ≠
      .error (Err.wrap Ctx.indexHeadersHeader Err.ErrInvalidSize) := by
  refine ⟨by decide, rfl, ?_⟩
  intro h
  cases h

theorem verifyHeader_ok (b : ByteSlice) (h : HeaderFields) (hok : verifyHeader b = .ok h) :
    14 ≤ b.length ∧ Uint32 (b.take 4) = MagicIndex ∧ b.getD 4 0 = 1 ∧
    h.version = 1 ∧ h.indexVersion = b.getD 5 0 ∧
    h.indexLastPostingEnd = int64 (uint64Sub (Uint64 ((b.drop 6).take 8)) 1) := by
  unfold verifyHeader at hok
  split at hok
  · cases hok
  · split at hok
    · cases hok
    · dsimp only at hok
      split at hok
      · cases hok
      · rename_i h1 h2 h3
        simp only [headerLen] at h1
        simp only [BinaryFormatV1, ne_eq, Decidable.not_not] at h3
        simp only [ne_eq, Decidable.not_not] at h2
        injection hok with hok
        subst hok
        exact ⟨by omega, h2, h3, h3, rfl, by dsimp only⟩

theorem verifyHeader_unknownVersion (b : ByteSlice) (v : Nat) :
    verifyHeader b = .error (Err.unknownVersion v) ↔
      (14 ≤ b.length ∧ Uint32 (b.take 4) = MagicIndex ∧ b.getD 4 0 ≠ 1 ∧ v = b.getD 4 0) := by
  constructor
  · intro hok
    unfold verifyHeader at hok
    split at hok
    · cases hok
    · split at hok
      · cases hok
      · dsimp only at hok
        split at hok
        · rename_i h1 h2 h3
          simp only [headerLen] at h1
          simp only [ne_eq, Decidable.not_not] at h2
          simp only [BinaryFormatV1] at h3
          cases hok
          exact ⟨by omega, h2, h3, rfl⟩
        · cases hok
  · rintro ⟨h1, h2, h3, rfl⟩
    exact verifyHeader_version b h1 h2 h3

theorem buildNameSymbols_error (S : SymbolsOps) (sy : S.Symbols) (ks : List Str)
    (m : List (Nat × Str)) (e : Err) (h : buildNameSymbols S sy ks m = .error e) :
    ∃ e1, e = Err.wrap Ctx.reverseSymbolLookup e1 := by
  induction ks generalizing m with
  | nil => cases h
  | cons k ks ih =>
    unfold buildNameSymbols at h
    split at h
    · exact ih m h
    · split at h
      · cases h; exact ⟨_, rfl⟩
      · exact ih _ h

theorem loadPostings_error (b : ByteSlice) (toc : BinaryTOC) (h : HeaderFields) (e : Err)
    (he : loadPostings b toc h = .error e) : ∃ e1, e = Err.wrap Ctx.readPostingsTable e1 := by
  unfold loadPostings at he
  split at he
  · split at he
    · cases he; exact ⟨_, rfl⟩
    · cases he
  · split at he
    · cases he; exact ⟨_, rfl⟩
    · cases he

/-- The stages of the loader, read off a successful load. -/
theorem newFileBinaryReader_ok {S : SymbolsOps} {b : ByteSlice} {r : BinaryReader S}
    (hok : newFileBinaryReader S b = .ok r) :
    ∃ h, verifyHeader b = .ok h ∧ newBinaryTOCFromByteSlice b = .ok r.toc ∧
      loadPostings b r.toc h = .ok (r.postings, r.postingsV1) ∧
      r.b = b ∧ r.version = h.version ∧ r.indexVersion = h.indexVersion ∧
      r.indexLastPostingEnd = h.indexLastPostingEnd := by
  unfold newFileBinaryReader at hok
  split at hok
  · cases hok
  · split at hok
    · cases hok
    · rename_i h hh
      split at hok
      · cases hok
      · rename_i toc htoc
        split at hok
        · cases hok
        · split at hok
          · cases hok
          · rename_i p pv hp
            split at hok
            · cases hok
            · cases hok
              exact ⟨h, hh, htoc, hp, rfl, rfl, rfl, rfl⟩

theorem newFileBinaryReader_error_cases (S : SymbolsOps) (b : ByteSlice) (e : Err)
    (he : newFileBinaryReader S b = .error e) :
    (b.length = 0 ∧ e = Err.mmap) ∨ verifyHeader b = .error e ∨ ∃ c e1, e = Err.wrap c e1 := by
  unfold newFileBinaryReader at he
  split at he
  · rename_i e0 hm
    cases he
    left
    unfold OpenMmapFile at hm
    split at hm
    · rename_i h0
      injection hm with hm
      exact ⟨h0, hm.symm⟩
    · cases hm
  · right
    split at he
    · cases he; left; assumption
    · split at he
      · cases he; exact Or.inr ⟨_, _, rfl⟩
      · split at he
        · cases he; exact Or.inr ⟨_, _, rfl⟩
        · split at he
          · rename_i e2 hp
            cases he
            obtain ⟨e1, rfl⟩ := loadPostings_error _ _ _ _ hp
            exact Or.inr ⟨_, _, rfl⟩
          · split at he
            · rename_i e2 hp
              cases he
              obtain ⟨e1, rfl⟩ := buildNameSymbols_error _ _ _ _ _ hp
              exact Or.inr ⟨_, _, rfl⟩
            · cases he

/-- C8, amended: the loader reports the unknown-version error exactly for a file of at
least 14 bytes with the magic number whose byte 4 (the header-format version) is not 1;
byte 5 (the original-index version) is not checked: a reader the loader returns carries
that byte as its `indexVersion`, whatever its value. -/
theorem C8_loader_version_check (S : SymbolsOps) (b : ByteSlice) :
    (∀ v, newFileBinaryReader S b = .error (Err.unknownVersion v) ↔
      (14 ≤ b.length ∧ Uint32 (b.take 4) = MagicIndex ∧ b.getD 4 0 ≠ 1 ∧ v = b.getD 4 0)) ∧
    (∀ r, newFileBinaryReader S b = .ok r →
      r.indexVersion = b.getD 5 0 ∧ r.version = 1) := by
  constructor
  · intro v
    constructor
    · intro he
      rcases newFileBinaryReader_error_cases S b _ he with ⟨-, h⟩ | h | ⟨c, e1, h⟩
      · cases h
      · exact (verifyHeader_unknownVersion b v).1 h
      · cases h
    · intro h
      exact newFileBinaryReader_of_verifyHeader_error S b _ (by omega)
        ((verifyHeader_unknownVersion b v).2 h)
  · intro r hok
    obtain ⟨h, hh, -, -, -, hv, hiv, -⟩ := newFileBinaryReader_ok hok
    obtain ⟨-, -, -, h4, h5, -⟩ := verifyHeader_ok b h hh
    exact ⟨by rw [hiv, h5], by rw [hv, h4]⟩

set_option maxRecDepth 100000 in
/-- C8, counterexample: a file whose byte 5 is 3 is loaded, and the reader reports
index version 3. -/
theorem C8_counterexample :
    fileIndexVersion3.getD 5 0 = 3 ∧
    (newFileBinaryReader tsdbSymbols fileIndexVersion3).map (fun r => IndexVersion r)
      = .ok 3 := by
  constructor
  · decide
  · rfl

/-! ## CRC32: a changed byte changes the checksum -/

theorem crcShift_lt {c : Nat} (h : c < 2 ^ 32) : crcShift c < 2 ^ 32 := by
  unfold crcShift
  split
  · exact Nat.xor_lt_two_pow (by omega) (by decide)
  · omega

theorem crcShift_inj {c1 c2 : Nat} (h1 : c1 < 2 ^ 32) (h2 : c2 < 2 ^ 32)
    (h : crcShift c1 = crcShift c2) : c1 = c2 := by
  have hP : castagnoliPoly.testBit 31 = true := by decide
  have hb1 : (c1 / 2).testBit 31 = false := Nat.testBit_lt_two_pow (by omega)
  have hb2 : (c2 / 2).testBit 31 = false := Nat.testBit_lt_two_pow (by omega)
  unfold crcShift at h
  split at h <;> split at h
  · have := Nat.xor_left_injective h
    omega
  · have ht := congrArg (fun x => Nat.testBit x 31) h
    simp [hP, hb1, hb2] at ht
  · have ht := congrArg (fun x => Nat.testBit x 31) h
    simp [hP, hb1, hb2] at ht
  · omega

theorem crcShift_xor (a b : Nat) : crcShift (a ^^^ b) = crcShift a ^^^ crcShift b := by
  have hm : (a ^^^ b) % 2 = (a % 2 + b % 2) % 2 := by
    have h := Nat.testBit_xor a b 0
    simp only [Nat.testBit_zero] at h
    rcases Nat.mod_two_eq_zero_or_one a with ha | ha <;>
      rcases Nat.mod_two_eq_zero_or_one b with hb | hb <;>
      rcases Nat.mod_two_eq_zero_or_one (a ^^^ b) with hab | hab <;>
      simp [ha, hb, hab] at h ⊢
  unfold crcShift
  rw [Nat.xor_div_two, hm]
  rcases Nat.mod_two_eq_zero_or_one a with ha | ha <;>
    rcases Nat.mod_two_eq_zero_or_one b with hb | hb <;>
    simp only [ha, hb] <;> norm_num <;>
    (apply Nat.eq_of_testBit_eq
     intro i
     simp only [Nat.testBit_xor]
     cases (a / 2).testBit i <;> cases (b / 2).testBit i <;>
       cases castagnoliPoly.testBit i <;> rfl)

theorem crcShift_two_mul (k : Nat) : crcShift (2 * k) = k := by
  unfold crcShift
  have : 2 * k % 2 ≠ 1 := by omega
  simp [this]

theorem castagnoliTable_lt {c : Nat} (h : c < 2 ^ 32) : castagnoliTable c < 2 ^ 32 := by
  unfold castagnoliTable
  exact crcShift_lt (crcShift_lt (crcShift_lt (crcShift_lt (crcShift_lt (crcShift_lt
    (crcShift_lt (crcShift_lt h)))))))

theorem castagnoliTable_inj {c1 c2 : Nat} (h1 : c1 < 2 ^ 32) (h2 : c2 < 2 ^ 32)
    (h : castagnoliTable c1 = castagnoliTable c2) : c1 = c2 := by
  unfold castagnoliTable at h
  have l1 := crcShift_lt h1
  have l2 := crcShift_lt l1
  have l3 := crcShift_lt l2
  have l4 := crcShift_lt l3
  have l5 := crcShift_lt l4
  have l6 := crcShift_lt l5
  have l7 := crcShift_lt l6
  have r1 := crcShift_lt h2
  have r2 := crcShift_lt r1
  have r3 := crcShift_lt r2
  have r4 := crcShift_lt r3
  have r5 := crcShift_lt r4
  have r6 := crcShift_lt r5
  have r7 := crcShift_lt r6
  exact crcShift_inj h1 h2 (crcShift_inj l1 r1 (crcShift_inj l2 r2 (crcShift_inj l3 r3
    (crcShift_inj l4 r4 (crcShift_inj l5 r5 (crcShift_inj l6 r6 (crcShift_inj l7 r7 h)))))))

theorem castagnoliTable_xor (a b : Nat) :
    castagnoliTable (a ^^^ b) = castagnoliTable a ^^^ castagnoliTable b := by
  simp only [castagnoliTable, crcShift_xor]

theorem castagnoliTable_mul (h : Nat) : castagnoliTable (256 * h) = h := by
  have : 256 * h = 2 * (2 * (2 * (2 * (2 * (2 * (2 * (2 * h))))))) := by omega
  rw [this]
  simp only [castagnoliTable, crcShift_two_mul]

theorem split_low_byte (x : Nat) : x = 256 * (x / 256) ^^^ x % 256 := by
  apply Nat.eq_of_testBit_eq
  intro i
  have e1 : (256 : Nat) = 2 ^ 8 := by norm_num
  rw [Nat.testBit_xor, e1, Nat.testBit_mul_pow_two, Nat.testBit_mod_two_pow,
    ← Nat.shiftRight_eq_div_pow, Nat.testBit_shiftRight]
  by_cases h : i < 8
  · have : ¬ i ≥ 8 := by omega
    simp [h, this]
  · have h8 : i ≥ 8 := by omega
    have : 8 + (i - 8) = i := by omega
    simp [h, h8, this]

/-- The table form and the bit-by-bit form of one byte of the checksum agree. -/
theorem crcByte_eq (crc v : Nat) : crcByte crc v = castagnoliTable (crc ^^^ v % 256) := by
  have e1 : (256 : Nat) = 2 ^ 8 := by norm_num
  have hlow : (crc ^^^ v) % 256 = (crc ^^^ v % 256) % 256 := by
    apply Nat.eq_of_testBit_eq
    intro i
    rw [e1]
    simp only [Nat.testBit_mod_two_pow, Nat.testBit_xor]
    by_cases h : i < 8 <;> simp [h]
  have hhigh : crc / 256 = (crc ^^^ v % 256) / 256 := by
    apply Nat.eq_of_testBit_eq
    intro i
    rw [e1, ← Nat.shiftRight_eq_div_pow, ← Nat.shiftRight_eq_div_pow]
    simp only [Nat.testBit_shiftRight, Nat.testBit_xor, Nat.testBit_mod_two_pow]
    have : ¬ 8 + i < 8 := by omega
    simp [this]
  unfold crcByte
  rw [hlow, hhigh]
  generalize crc ^^^ v % 256 = x
  conv_rhs => rw [split_low_byte x]
  rw [castagnoliTable_xor, castagnoliTable_mul, Nat.xor_comm]

theorem crcByte_lt {crc : Nat} (v : Nat) (h : crc < 2 ^ 32) : crcByte crc v < 2 ^ 32 := by
  rw [crcByte_eq]
  exact castagnoliTable_lt (Nat.xor_lt_two_pow h (by omega))

theorem crcByte_inj_state {c1 c2 : Nat} (v : Nat) (h1 : c1 < 2 ^ 32) (h2 : c2 < 2 ^ 32)
    (h : crcByte c1 v = crcByte c2 v) : c1 = c2 := by
  rw [crcByte_eq, crcByte_eq] at h
  exact Nat.xor_left_injective (castagnoliTable_inj
    (Nat.xor_lt_two_pow h1 (by omega)) (Nat.xor_lt_two_pow h2 (by omega)) h)

theorem crcByte_inj_byte {c : Nat} (v1 v2 : Nat) (h1 : c < 2 ^ 32)
    (h : crcByte c v1 = crcByte c v2) : v1 % 256 = v2 % 256 := by
  rw [crcByte_eq, crcByte_eq] at h
  exact Nat.xor_right_injective (castagnoliTable_inj
    (Nat.xor_lt_two_pow h1 (by omega)) (Nat.xor_lt_two_pow h1 (by omega)) h)

theorem foldl_crcByte_lt (p : List Nat) {c : Nat} (h : c < 2 ^ 32) :
    p.foldl crcByte c < 2 ^ 32 := by
  induction p generalizing c with
  | nil => simpa using h
  | cons x p ih => simpa using ih (crcByte_lt x h)

theorem foldl_crcByte_inj (p : List Nat) {c1 c2 : Nat} (h1 : c1 < 2 ^ 32) (h2 : c2 < 2 ^ 32)
    (h : p.foldl crcByte c1 = p.foldl crcByte c2) : c1 = c2 := by
  induction p generalizing c1 c2 with
  | nil => simpa using h
  | cons x p ih =>
    simp only [List.foldl_cons] at h
    exact crcByte_inj_state x h1 h2 (ih (crcByte_lt x h1) (crcByte_lt x h2) h)

/-- A change of one byte of the data changes the CRC32. -/
theorem Crc32_change_byte (pre post : List Nat) (x y : Nat) (hxy : x % 256 ≠ y % 256) :
    Crc32 (pre ++ x :: post) ≠ Crc32 (pre ++ y :: post) := by
  intro h
  unfold Crc32 at h
  have h0 : (0xFFFFFFFF : Nat) < 2 ^ 32 := by norm_num
  have h' := Nat.xor_left_injective h
  simp only [List.foldl_append, List.foldl_cons] at h'
  have hs := foldl_crcByte_lt pre h0
  have := foldl_crcByte_inj post (crcByte_lt x hs) (crcByte_lt y hs) h'
  exact hxy (crcByte_inj_byte x y hs this)

theorem flip_bit_mod (x k : Nat) (hk : k < 8) : (x ^^^ 2 ^ k) % 256 ≠ x % 256 := by
  intro h
  have e1 : (256 : Nat) = 2 ^ 8 := by norm_num
  have ht := congrArg (fun n => Nat.testBit n k) h
  simp only [e1, Nat.testBit_mod_two_pow, Nat.testBit_xor, Nat.testBit_two_pow_self, hk,
    decide_True, Bool.true_and] at ht
  cases hx : x.testBit k <;> simp [hx] at ht

/-! ## The header and the TOC of a file -/

/-- The block "Verify header" reads the length of the file and its first 14 bytes. -/
theorem verifyHeader_congr (b1 b2 : ByteSlice) (hl : b1.length = b2.length)
    (ht : b1.take 14 = b2.take 14) : verifyHeader b1 = verifyHeader b2 := by
  have e4 : ∀ b : ByteSlice, b.take 4 = (b.take 14).take 4 := by
    intro b; rw [List.take_take]; rfl
  have e5 : ∀ b : ByteSlice, b.getD 4 0 = (b.take 14).getD 4 0 := by
    intro b; simp [List.getD_eq_getElem?_getD, List.getElem?_take]
  have e6 : ∀ b : ByteSlice, b.getD 5 0 = (b.take 14).getD 5 0 := by
    intro b; simp [List.getD_eq_getElem?_getD, List.getElem?_take]
  have e7 : ∀ b : ByteSlice, (b.drop 6).take 8 = (b.take 14).drop 6 := by
    intro b; rw [List.drop_take]
  unfold verifyHeader
  rw [e4 b1, e5 b1, e6 b1, e7 b1, e4 b2, e5 b2, e6 b2, e7 b2, hl, ht]

/-- The TOC of a file that ends in 16 bytes `t` and 4 bytes `c`. -/
theorem newBinaryTOCFromByteSlice_append (hd t c : List Nat) (ht : t.length = 16)
    (hc : c.length = 4) :
    newBinaryTOCFromByteSlice (hd ++ (t ++ c)) =
      if Crc32 t ≠ Uint32 c then .error (Err.wrap Ctx.readIndexHeaderTOC Err.ErrInvalidChecksum)
      else .ok ⟨Uint64 t, Uint64 (t.drop 8)⟩ := by
  have hlen : ¬ (hd ++ (t ++ c)).length < binaryTOCLen := by
    simp [binaryTOCLen, ht, hc]
  have hdrop : (hd ++ (t ++ c)).drop ((hd ++ (t ++ c)).length - binaryTOCLen) = t ++ c := by
    have : (hd ++ (t ++ c)).length - binaryTOCLen = hd.length := by
      simp [binaryTOCLen, ht, hc]
    rw [this, List.drop_left]
  have h1 : (t ++ c).drop ((t ++ c).length - 4) = c := by
    have : (t ++ c).length - 4 = t.length := by simp [hc]
    rw [this, List.drop_left]
  have h2 : (t ++ c).take ((t ++ c).length - 4) = t := by
    have : (t ++ c).length - 4 = t.length := by simp [hc]
    rw [this, List.take_left]
  unfold newBinaryTOCFromByteSlice
  simp only [hlen, if_false, hdrop, h1, h2]
  have hb : ¬ t.length < 8 := by omega
  have hb2 : ¬ t.length - 8 < 8 := by omega
  simp [Decbuf.Be64, hb, hb2]

/-- A file of at least 20 bytes is its head, its 16 TOC bytes and its 4 CRC bytes. -/
theorem file_split_toc (b : ByteSlice) (h : 20 ≤ b.length) :
    b = b.take (b.length - 20) ++ ((b.drop (b.length - 20)).take 16 ++ b.drop (b.length - 4)) ∧
    ((b.drop (b.length - 20)).take 16).length = 16 ∧ (b.drop (b.length - 4)).length = 4 := by
  refine ⟨?_, ?_, ?_⟩
  · have e : b.drop (b.length - 4) = (b.drop (b.length - 20)).drop 16 := by
      rw [List.drop_drop]; congr 1; omega
    rw [e, List.take_append_drop, List.take_append_drop]
  · simp; omega
  · simp; omega

/-- C9: in a file the loader accepts and whose 16 TOC bytes lie behind the 14-byte
header, flipping any one bit of any of the 16 TOC bytes gives a file the loader
rejects with `ErrInvalidChecksum`. -/
theorem C9_toc_bit_flip_detected (S : SymbolsOps) (b : ByteSlice) (r : BinaryReader S)
    (hok : newFileBinaryReader S b = .ok r) (hlen : 14 + 20 ≤ b.length)
    (pos bit : Nat) (hpos : b.length - 20 ≤ pos) (hpos2 : pos < b.length - 4)
    (hbit : bit < 8) :
    newFileBinaryReader S (flipBit b pos bit) =
      .error (Err.wrap Ctx.readIndexHeaderTOC
        (Err.wrap Ctx.readIndexHeaderTOC Err.ErrInvalidChecksum)) := by
  obtain ⟨h, hh, htoc, -⟩ := newFileBinaryReader_ok hok
  obtain ⟨hsplit, ht16, hc4⟩ := file_split_toc b (by omega)
  generalize hhd : b.take (b.length - 20) = hd at hsplit
  generalize ht : (b.drop (b.length - 20)).take 16 = t at hsplit ht16
  generalize hc : b.drop (b.length - 4) = c at hsplit hc4
  have hhdlen : hd.length = b.length - 20 := by rw [← hhd]; simp
  -- the checksum of the accepted file matches
  have hcrc : Crc32 t = Uint32 c := by
    rw [hsplit, newBinaryTOCFromByteSlice_append hd t c ht16 hc4] at htoc
    by_contra hne
    simp [hne] at htoc
  -- the flipped file
  set k := pos - hd.length with hk
  have hk16 : k < t.length := by omega
  have hflip : flipBit b pos bit = hd ++ (t.set k (t.getD k 0 ^^^ 2 ^ bit) ++ c) := by
    have hget : b.getD pos 0 = t.getD k 0 := by
      rw [hsplit]
      simp only [List.getD_eq_getElem?_getD]
      rw [List.getElem?_append_right (by omega), List.getElem?_append_left (by omega)]
    unfold flipBit
    rw [hget]
    conv_lhs => rw [hsplit]
    rw [List.set_append_right _ _ (by omega), List.set_append_left _ _ (by omega)]
  have htset : (t.set k (t.getD k 0 ^^^ 2 ^ bit)).length = 16 := by simpa using ht16
  -- the header is read as before
  have hvh : verifyHeader (flipBit b pos bit) = .ok h := by
    rw [← hh]
    apply verifyHeader_congr
    · simp [flipBit]
    · rw [hflip]
      conv_rhs => rw [hsplit]
      rw [List.take_append_of_le_length (by omega), List.take_append_of_le_length (by omega)]
  -- the checksum of the flipped TOC differs
  have hne : Crc32 (t.set k (t.getD k 0 ^^^ 2 ^ bit)) ≠ Uint32 c := by
    rw [← hcrc]
    have hx : t.getD k 0 = t.get ⟨k, hk16⟩ := by
      simp [List.getD_eq_getElem?_getD, List.getElem?_eq_getElem hk16]
    have e1 : t.set k (t.getD k 0 ^^^ 2 ^ bit)
        = t.take k ++ (t.getD k 0 ^^^ 2 ^ bit) :: t.drop (k + 1) := by
      rw [List.set_eq_take_append_cons_drop]; simp [hk16]
    have e2 : t = t.take k ++ t.getD k 0 :: t.drop (k + 1) := by
      rw [hx]
      simp
    rw [e1]
    conv_rhs => rw [e2]
    exact Crc32_change_byte _ _ _ _ (flip_bit_mod _ _ hbit)
  have hm : OpenMmapFile (hd ++ (t.set k (t.getD k 0 ^^^ 2 ^ bit) ++ c)) = .ok ⟨false⟩ :=
    OpenMmapFile_of_pos _ (by simp [hc4])
  unfold newFileBinaryReader
  rw [hvh, hflip, hm, newBinaryTOCFromByteSlice_append hd _ c htset hc4, if_pos hne]

theorem exists_ok_of_toBool {α : Type} (x : Except Err α) (h : x.toBool = true) :
    ∃ r, x = .ok r := by
  cases x with
  | error e => simp [Except.toBool] at h
  | ok r => exact ⟨r, rfl⟩

set_option maxRecDepth 100000 in
theorem fileTwoValues_loads : (newFileBinaryReader tsdbSymbols fileTwoValues).toBool = true := by
  decide

/-- C9, witness: bit 3 of byte 50, a TOC byte of `fileTwoValues`, is flipped. -/
theorem C9_witness :
    newFileBinaryReader tsdbSymbols (flipBit fileTwoValues 50 3) =
      .error (Err.wrap Ctx.readIndexHeaderTOC
        (Err.wrap Ctx.readIndexHeaderTOC Err.ErrInvalidChecksum)) := by
  obtain ⟨r, hr⟩ := exists_ok_of_toBool _ fileTwoValues_loads
  exact C9_toc_bit_flip_detected tsdbSymbols fileTwoValues r hr (by decide) 50 3
    (by decide) (by decide) (by decide)

/-! ## The decoding buffer: what a read without error leaves -/

theorem Skip_of_suffix (d d1 : Decbuf) (hs : d1.B <:+ d.B) (hE : d1.E = d.E) :
    d.Skip (d.Len - d1.Len) = d1 := by
  have hle : d1.B.length ≤ d.B.length := hs.length_le
  have hdrop : d.B.drop (d.B.length - d1.B.length) = d1.B := (List.suffix_iff_eq_drop.1 hs).symm
  unfold Decbuf.Skip Decbuf.Len
  have : ¬ d.B.length < d.B.length - d1.B.length := by omega
  rw [if_neg this, hdrop, ← hE]

theorem Uvarint64_ok (d : Decbuf) (h : d.Uvarint64.2.E = none) :
    d.E = none ∧ d.Uvarint64.2.B <:+ d.B := by
  unfold Decbuf.Uvarint64 at h ⊢
  cases hE : d.E with
  | some e => simp [hE] at h
  | none =>
    simp only [hE] at h ⊢
    cases hu : binaryUvarint d.B with
    | none => simp [hu] at h
    | some p => exact ⟨trivial, List.drop_suffix _ _⟩

theorem Uvarint_snd (d : Decbuf) : d.Uvarint.2 = d.Uvarint64.2 := rfl

theorem UvarintBytes_ok (d : Decbuf) (h : d.UvarintBytes.2.E = none) :
    d.E = none ∧ d.UvarintBytes.2.B <:+ d.B := by
  unfold Decbuf.UvarintBytes at h ⊢
  cases hE1 : d.Uvarint64.2.E with
  | some e => simp [hE1] at h
  | none =>
    obtain ⟨h0, hs⟩ := Uvarint64_ok d hE1
    simp only [hE1] at h ⊢
    split at h
    · simp at h
    · split at h
      · simp at h
      · rename_i h1 h2
        simp only [h1, h2, if_false]
        exact ⟨h0, (List.drop_suffix _ _).trans hs⟩

theorem readKeys_length (n : Nat) (d : Decbuf) : (readKeys n d).1.length = n := by
  induction n generalizing d with
  | zero => rfl
  | succ n ih => simp [readKeys, ih]

theorem readKeys_ok (n : Nat) (d : Decbuf) (h : (readKeys n d).2.E = none) :
    (0 < n → d.E = none) ∧ (readKeys n d).2.B <:+ d.B := by
  induction n generalizing d with
  | zero => exact ⟨fun h0 => absurd h0 (by omega), List.suffix_refl _⟩
  | succ n ih =>
    simp only [readKeys] at h ⊢
    have hk := ih d.UvarintStr.2 h
    have h1 : d.UvarintStr.2.E = none := by
      by_cases hn : 0 < n
      · exact hk.1 hn
      · have : n = 0 := by omega
        subst this
        simpa [readKeys] using h
    have h2 := UvarintBytes_ok d h1
    exact ⟨fun _ => h2.1, hk.2.trans h2.2⟩

theorem EntryDecodes.suffix {d d1 : Decbuf} {e : TableEntry} (h : EntryDecodes d e d1) :
    d1.B <:+ d.B := by
  obtain ⟨-, -, -, h4, h5⟩ := h
  have h6 : (readKeys e.key.length d.Uvarint.2).2.Uvarint64.2.E = none := by rw [h4]; exact h5
  have h7 := Uvarint64_ok _ h6
  have h8 := readKeys_ok _ _ h7.1
  have h9 : d1 = (readKeys e.key.length d.Uvarint.2).2.Uvarint64.2 := by rw [h4]
  rw [h9]
  have h10 : d.Uvarint.2.B <:+ d.B := by
    unfold Decbuf.Uvarint Decbuf.Uvarint64
    split
    · exact List.suffix_refl _
    · split
      · exact List.suffix_refl _
      · exact List.drop_suffix _ _
  exact (h7.2.trans h8.2).trans h10

/-! ## The walk of the offset table and the list of its entries -/

theorem readOffsetTableLoop_collect_acc (startLen cnt : Nat) (d : Decbuf)
    (acc : List TableEntry) :
    readOffsetTableLoop collectEntry startLen cnt d acc =
      (readOffsetTableLoop collectEntry startLen cnt d []).map (fun l => acc ++ l) := by
  induction cnt generalizing d acc with
  | zero =>
    simp only [readOffsetTableLoop]
    cases d.E <;> simp [Except.map]
  | succ cnt ih =>
    simp only [readOffsetTableLoop]
    cases hE : d.E with
    | some e => simp [Except.map]
    | none =>
      simp only []
      split
      · simp [Except.map]
      · cases hE3 : (readKeys d.Uvarint.1.toNat d.Uvarint.2).2.Uvarint64.2.E with
        | some e => simp [Except.map]
        | none =>
          simp only [collectEntry]
          rw [ih _ (acc ++ _), ih _ ([] ++ _)]
          cases readOffsetTableLoop collectEntry startLen cnt
            (readKeys d.Uvarint.1.toNat d.Uvarint.2).2.Uvarint64.2 [] <;>
            simp [Except.map]

/-- A walk that ends without error has met a list of entries, and its result is the
fold of the callback over that list. -/
theorem readOffsetTableLoop_fold {σ : Type} (f : σ → List Str → Nat → Nat → Except Err σ)
    (startLen cnt : Nat) (d : Decbuf) (s s1 : σ)
    (h : readOffsetTableLoop f startLen cnt d s = .ok s1) :
    ∃ ents, readOffsetTableLoop collectEntry startLen cnt d [] = .ok ents ∧
      foldEntries f ents s = .ok s1 := by
  induction cnt generalizing d s with
  | zero =>
    simp only [readOffsetTableLoop] at h ⊢
    cases hE : d.E with
    | some e => simp [hE] at h
    | none =>
      simp only [hE] at h
      exact ⟨[], rfl, by simpa [foldEntries] using h⟩
  | succ cnt ih =>
    simp only [readOffsetTableLoop] at h ⊢
    cases hE : d.E with
    | some e => simp [hE] at h
    | none =>
      simp only [hE] at h ⊢
      split at h
      · rename_i h0
        simp only [h0, if_true]
        exact ⟨[], rfl, by simpa [foldEntries] using h⟩
      · rename_i h0
        simp only [h0, if_false]
        cases hE3 : (readKeys d.Uvarint.1.toNat d.Uvarint.2).2.Uvarint64.2.E with
        | some e => simp [hE3] at h
        | none =>
          simp only [hE3] at h ⊢
          split at h
          · cases h
          · rename_i s2 hf
            obtain ⟨ents, hents, hfold⟩ := ih _ _ h
            simp only [collectEntry]
            rw [readOffsetTableLoop_collect_acc, hents]
            refine ⟨_, rfl, ?_⟩
            simp only [List.nil_append, List.singleton_append, foldEntries, hf]
            exact hfold

/-- Conversely, over a table whose entries are `ents` a walk is the fold of its
callback over `ents`. -/
theorem readOffsetTableLoop_eq_fold {σ : Type}
    (f : σ → List Str → Nat → Nat → Except Err σ)
    (startLen cnt : Nat) (d : Decbuf) (s : σ) (ents : List TableEntry)
    (h : readOffsetTableLoop collectEntry startLen cnt d [] = .ok ents) :
    readOffsetTableLoop f startLen cnt d s = foldEntries f ents s := by
  induction cnt generalizing d s ents with
  | zero =>
    simp only [readOffsetTableLoop] at h ⊢
    cases hE : d.E with
    | some e => simp [hE] at h
    | none =>
      simp only [hE] at h
      cases h
      rfl
  | succ cnt ih =>
    simp only [readOffsetTableLoop] at h ⊢
    cases hE : d.E with
    | some e => simp [hE] at h
    | none =>
      simp only [hE] at h ⊢
      split at h
      · rename_i h0
        cases h
        simp [h0, foldEntries]
      · rename_i h0
        simp only [h0, if_false]
        cases hE3 : (readKeys d.Uvarint.1.toNat d.Uvarint.2).2.Uvarint64.2.E with
        | some e => simp [hE3] at h
        | none =>
          simp only [hE3, collectEntry] at h ⊢
          rw [readOffsetTableLoop_collect_acc] at h
          cases hrest : readOffsetTableLoop collectEntry startLen cnt
              (readKeys d.Uvarint.1.toNat d.Uvarint.2).2.Uvarint64.2 [] with
          | error e => simp [hrest, Except.map] at h
          | ok rest =>
            simp only [hrest, Except.map, List.nil_append, List.singleton_append] at h
            cases h
            simp only [foldEntries]
            cases f s _ _ _ with
            | error e => rfl
            | ok s2 => exact ih _ _ _ hrest

/-- The entries a walk has met follow one another in the table content. -/
theorem readOffsetTableLoop_chain (content : List Nat) (cnt : Nat) (d : Decbuf)
    (ents : List TableEntry) (hs : d.B <:+ content)
    (h : readOffsetTableLoop collectEntry content.length cnt d [] = .ok ents) :
    EntryChain content d ents := by
  induction cnt generalizing d ents with
  | zero =>
    simp only [readOffsetTableLoop] at h
    cases hE : d.E with
    | some e => simp [hE] at h
    | none =>
      simp only [hE] at h
      cases h
      trivial
  | succ cnt ih =>
    simp only [readOffsetTableLoop] at h
    cases hE : d.E with
    | some e => simp [hE] at h
    | none =>
      simp only [hE] at h
      split at h
      · cases h
        trivial
      · cases hE3 : (readKeys d.Uvarint.1.toNat d.Uvarint.2).2.Uvarint64.2.E with
        | some e => simp [hE3] at h
        | none =>
          simp only [hE3, collectEntry] at h
          rw [readOffsetTableLoop_collect_acc] at h
          cases hrest : readOffsetTableLoop collectEntry content.length cnt
              (readKeys d.Uvarint.1.toNat d.Uvarint.2).2.Uvarint64.2 [] with
          | error e => simp [hrest, Except.map] at h
          | ok rest =>
            simp only [hrest, Except.map, List.nil_append, List.singleton_append] at h
            cases h
            have hlen : (readKeys d.Uvarint.1.toNat d.Uvarint.2).1.length = d.Uvarint.1.toNat :=
              readKeys_length _ _
            have hdec : EntryDecodes d
                ⟨(readKeys d.Uvarint.1.toNat d.Uvarint.2).1,
                  (readKeys d.Uvarint.1.toNat d.Uvarint.2).2.Uvarint64.1,
                  content.length - d.Len⟩
                (readKeys d.Uvarint.1.toNat d.Uvarint.2).2.Uvarint64.2 := by
              refine ⟨hE, ?_, ?_, ?_, hE3⟩
              · simp only [hlen]
              · simp only [hlen]
              · simp only [hlen]
            refine ⟨hs, rfl, _, hdec, ?_⟩
            exact ih _ _ (hdec.suffix.trans hs) hrest

theorem NewDecbufAt_nocrc (b : ByteSlice) (o : Int) (h : (NewDecbufAt b o true).E = none) :
    NewDecbufAt b o false = NewDecbufAt b o true := by
  unfold NewDecbufAt at h ⊢
  split
  · rfl
  · rename_i h1
    simp only [h1, if_false] at h
    split
    · rfl
    · rename_i h2
      simp only [h2, if_false] at h
      dsimp only at h ⊢
      split
      · rfl
      · rename_i h3
        simp only [h3, if_false] at h
        split at h
        · simp at h
        · rename_i h4
          simp only [Bool.true_and, bne_iff_ne, ne_eq, Decidable.not_not] at h4
          simp [h4]

/-- A walk of the table at `off` that ends without error: the table has a list of
entries, and the result is the fold of the callback over them. -/
theorem ReadOffsetTable_fold {σ : Type} (f : σ → List Str → Nat → Nat → Except Err σ)
    (b : ByteSlice) (off : Nat) (s s1 : σ) (h : ReadOffsetTable b off f s = .ok s1) :
    ∃ ents, tableEntries b off = .ok ents ∧ foldEntries f ents s = .ok s1 := by
  unfold ReadOffsetTable at h
  unfold tableEntries ReadOffsetTable
  exact readOffsetTableLoop_fold f _ _ _ _ _ h

theorem ReadOffsetTable_eq_fold {σ : Type} (f : σ → List Str → Nat → Nat → Except Err σ)
    (b : ByteSlice) (off : Nat) (s : σ) (ents : List TableEntry)
    (h : tableEntries b off = .ok ents) :
    ReadOffsetTable b off f s = foldEntries f ents s := by
  unfold tableEntries ReadOffsetTable at h
  unfold ReadOffsetTable
  exact readOffsetTableLoop_eq_fold f _ _ _ _ _ h

theorem readOffsetTableLoop_error (startLen cnt : Nat) (d : Decbuf) (e : Err)
    (hE : d.E = some e) {σ : Type} (f : σ → List Str → Nat → Nat → Except Err σ) (s : σ) :
    readOffsetTableLoop f startLen cnt d s = .error e := by
  cases cnt <;> simp [readOffsetTableLoop, hE]

/-- The entries of the table at `off` follow one another in the content of the
table section, which starts with the four bytes of the entry count. -/
theorem tableEntries_chain (b : ByteSlice) (off : Nat) (ents : List TableEntry)
    (h : tableEntries b off = .ok ents) :
    ∃ content, NewDecbufAt b (int64 off) false = ⟨content, none⟩ ∧
      EntryChain content ⟨content.drop 4, none⟩ ents := by
  unfold tableEntries ReadOffsetTable at h
  dsimp only at h
  cases hE : (NewDecbufAt b (int64 off) true).E with
  | some e =>
    have hbe : (NewDecbufAt b (int64 off) true).Be32.2.E = some e := by
      simp [Decbuf.Be32, hE]
    rw [readOffsetTableLoop_error _ _ _ e hbe] at h
    cases h
  | none =>
    have hno := NewDecbufAt_nocrc b (int64 off) hE
    generalize hD : NewDecbufAt b (int64 off) true = D at h hE hno
    refine ⟨D.B, ?_, ?_⟩
    · rw [hno]
      cases D
      simp only at hE
      subst hE
      rfl
    · by_cases hlen : D.B.length < 4
      · have hbe : D.Be32.2.E = some Err.ErrInvalidSize := by
          simp [Decbuf.Be32, hE, hlen]
        rw [readOffsetTableLoop_error _ _ _ _ hbe] at h
        cases h
      · have hbe : D.Be32.2 = ⟨D.B.drop 4, none⟩ := by
          simp [Decbuf.Be32, hE, hlen]
        rw [hbe] at h
        exact readOffsetTableLoop_chain D.B _ _ ents (List.drop_suffix _ _) h

/-! ## Go maps -/

theorem mapGet_mapSet {α β : Type} [DecidableEq α] (m : List (α × β)) (k k1 : α) (v : β) :
    mapGet (mapSet m k v) k1 = if k = k1 then some v else mapGet m k1 := by
  induction m with
  | nil =>
    simp only [mapSet, mapGet]
  | cons p m ih =>
    obtain ⟨k2, v2⟩ := p
    simp only [mapSet]
    by_cases h : k2 = k
    · subst h
      simp only [if_true, mapGet]
      by_cases h1 : k2 = k1 <;> simp [h1]
    · simp only [h, if_false, mapGet, ih]
      by_cases h1 : k2 = k1
      · have : ¬ k = k1 := fun hk => h (by rw [h1, hk])
        simp [h1, this]
      · simp [h1]

theorem mem_mapKeys_iff {α β : Type} [DecidableEq α] (m : List (α × β)) (k : α) :
    k ∈ mapKeys m ↔ mapGet m k ≠ none := by
  induction m with
  | nil => simp [mapKeys, mapGet]
  | cons p m ih =>
    obtain ⟨k2, v2⟩ := p
    simp only [mapKeys, List.map_cons, List.mem_cons, mapGet] at ih ⊢
    by_cases h : k2 = k
    · simp [h]
    · have : ¬ k = k2 := fun hk => h hk.symm
      simp [h, this, ih]

theorem mapKeys_mapSet {α β : Type} [DecidableEq α] (m : List (α × β)) (k : α) (v : β) :
    mapKeys (mapSet m k v) = if k ∈ mapKeys m then mapKeys m else mapKeys m ++ [k] := by
  induction m with
  | nil => simp [mapKeys, mapSet]
  | cons p m ih =>
    obtain ⟨k2, v2⟩ := p
    simp only [mapKeys, List.map_cons, List.mem_cons, mapSet] at ih ⊢
    by_cases h : k2 = k
    · simp [h]
    · have : ¬ k = k2 := fun hk => h hk.symm
      simp only [h, if_false, List.map_cons, ih, this, false_or]
      split <;> simp

theorem nodup_mapKeys_mapSet {α β : Type} [DecidableEq α] (m : List (α × β)) (k : α) (v : β)
    (h : (mapKeys m).Nodup) : (mapKeys (mapSet m k v)).Nodup := by
  rw [mapKeys_mapSet]
  split
  · exact h
  · rename_i hk
    rw [List.nodup_append]
    refine ⟨h, List.nodup_singleton _, ?_⟩
    intro a ha hb
    simp only [List.mem_singleton] at hb
    subst hb
    exact hk ha

theorem mem_mapKeys_mapSet {α β : Type} [DecidableEq α] (m : List (α × β)) (k k1 : α) (v : β) :
    k1 ∈ mapKeys (mapSet m k v) ↔ k1 = k ∨ k1 ∈ mapKeys m := by
  rw [mapKeys_mapSet]
  split
  · rename_i hk
    constructor
    · exact Or.inr
    · rintro (rfl | h)
      · exact hk
      · exact h
  · simp [or_comm]

/-! ## The order of strings -/

theorem strLt_irrefl (a : Str) : strLt a a = false := by
  induction a with
  | nil => rfl
  | cons x a ih => simp [strLt, ih]

theorem strLt_trans {a b c : Str} (h1 : strLt a b = true) (h2 : strLt b c = true) :
    strLt a c = true := by
  induction a generalizing b c with
  | nil =>
    cases b with
    | nil => simp [strLt] at h1
    | cons y b =>
      cases c with
      | nil => simp [strLt] at h2
      | cons z c => simp [strLt]
  | cons x a ih =>
    cases b with
    | nil => simp [strLt] at h1
    | cons y b =>
      cases c with
      | nil => simp [strLt] at h2
      | cons z c =>
        simp only [strLt, Bool.or_eq_true, decide_eq_true_eq, Bool.and_eq_true] at h1 h2 ⊢
        rcases h1 with h1 | ⟨h1, h1r⟩
        · rcases h2 with h2 | ⟨h2, -⟩
          · left; omega
          · left; omega
        · rcases h2 with h2 | ⟨h2, h2r⟩
          · left; omega
          · right; exact ⟨by omega, ih h1r h2r⟩

theorem strLt_asymm {a b : Str} (h : strLt a b = true) : strLt b a = false := by
  cases hba : strLt b a with
  | false => rfl
  | true =>
    have := strLt_trans h hba
    rw [strLt_irrefl] at this
    cases this

theorem strLt_trichotomy {a b : Str} (h1 : strLt a b = false) (h2 : strLt b a = false) :
    a = b := by
  induction a generalizing b with
  | nil =>
    cases b with
    | nil => rfl
    | cons y b => simp [strLt] at h1
  | cons x a ih =>
    cases b with
    | nil => simp [strLt] at h2
    | cons y b =>
      simp only [strLt, Bool.or_eq_false_iff, decide_eq_false_iff_not, Bool.and_eq_false_iff,
        Bool.and_eq_false_imp, decide_eq_true_eq] at h1 h2
      have hxy : x = y := by omega
      subst hxy
      rw [ih (h1.2.resolve_left (by simp)) (h2.2.resolve_left (by simp))]

theorem strLe_trans {a b c : Str} (h1 : strLt b a = false) (h2 : strLt c b = false) :
    strLt c a = false := by
  cases hca : strLt c a with
  | false => rfl
  | true =>
    cases hab : strLt a b with
    | true =>
      have := strLt_trans hca hab
      rw [h2] at this
      cases this
    | false =>
      have := strLt_trichotomy hab h1
      subst this
      rw [h2] at hca
      cases hca

theorem strLt_of_lt_of_le {a b c : Str} (h1 : strLt a b = true) (h2 : strLt c b = false) :
    strLt a c = true := by
  cases hac : strLt a c with
  | true => rfl
  | false =>
    cases hbc : strLt b c with
    | true => exact absurd (strLt_trans h1 hbc) (by rw [hac]; simp)
    | false =>
      have e := strLt_trichotomy hbc h2
      subst e
      rw [h1] at hac
      cases hac

/-! ## What the loader builds from the entries of the table -/

theorem samplesOf_append (n : Str) (l1 l2 : List TableEntry) :
    samplesOf n (l1 ++ l2) = samplesOf n l1 ++ samplesOf n l2 := by
  simp [samplesOf]

theorem samplesOf_eq_nil_of_not_mem (n : Str) (l : List TableEntry) (h : n ∉ tableNames l) :
    samplesOf n l = [] := by
  simp only [samplesOf, List.map_eq_nil_iff, List.filter_eq_nil_iff]
  intro e he
  simp only [decide_eq_true_eq]
  intro hn
  exact h (by rw [← hn]; exact List.mem_map_of_mem _ he)

theorem v2Callback_step (done : List TableEntry) (st st1 : V2State) (e : TableEntry)
    (hinv : V2Inv done st) (h : v2Callback st e.key e.off e.tableOff = .ok st1) :
    e.key.length = 2 ∧ V2Inv (done ++ [e]) st1 := by
  unfold v2Callback at h
  split at h
  · cases h
  · rename_i hlen
    simp only [ne_eq, Decidable.not_not] at hlen
    refine ⟨hlen, ?_⟩
    have hname : e.key.getD 0 [] = e.name := rfl
    have hvalue : e.key.getD 1 [] = e.value := rfl
    simp only [hname, hvalue, hinv.lastKey] at h
    have hget := hinv.get e.name
    by_cases hmem : e.name ∈ tableNames done
    · simp only [hmem, if_true] at hget
      simp only [hget, hinv.valueCount, symbolFactor, Nat.zero_mod, if_true] at h
      injection h with h
      subst h
      refine ⟨rfl, rfl, ?_, ?_⟩
      · intro n
        simp only [mapAppend, mapGet_mapSet, hget, Option.getD_some]
        by_cases hn : e.name = n
        · subst hn
          simp [tableNames, samplesOf, TableEntry.sample]
        · have hn2 : ¬ n = e.name := fun h => hn h.symm
          simp only [hn, if_false, hinv.get n, tableNames, List.map_append, List.mem_append,
            List.map_cons, List.map_nil, List.mem_singleton, hn2, or_false, samplesOf_append]
          split
          · simp [samplesOf, hn]
          · rfl
      · exact nodup_mapKeys_mapSet _ _ _ hinv.nodup
    · simp only [hmem, if_false] at hget
      simp only [hget, symbolFactor, Nat.zero_mod, if_true] at h
      injection h with h
      subst h
      refine ⟨rfl, rfl, ?_, ?_⟩
      · intro n
        simp only [mapAppend, mapGet_mapSet, if_true, Option.getD_some, List.nil_append]
        by_cases hn : e.name = n
        · subst hn
          rw [samplesOf_append, samplesOf_eq_nil_of_not_mem _ _ hmem]
          simp [tableNames, samplesOf, TableEntry.sample]
        · have hn2 : ¬ n = e.name := fun h => hn h.symm
          simp only [hn, if_false, hinv.get n, tableNames, List.map_append, List.mem_append,
            List.map_cons, List.map_nil, List.mem_singleton, hn2, or_false, samplesOf_append]
          split
          · simp [samplesOf, hn]
          · rfl
      · exact nodup_mapKeys_mapSet _ _ _ (nodup_mapKeys_mapSet _ _ _ hinv.nodup)

theorem v2_fold (ents done : List TableEntry) (st st1 : V2State) (hinv : V2Inv done st)
    (h : foldEntries v2Callback ents st = .ok st1) :
    (∀ e ∈ ents, e.key.length = 2) ∧ V2Inv (done ++ ents) st1 := by
  induction ents generalizing done st with
  | nil =>
    simp only [foldEntries] at h
    cases h
    simpa using hinv
  | cons e ents ih =>
    simp only [foldEntries] at h
    split at h
    · cases h
    · rename_i s2 hs2
      obtain ⟨hlen, hinv2⟩ := v2Callback_step done st s2 e hinv hs2
      obtain ⟨hall, hinv3⟩ := ih _ _ hinv2 h
      refine ⟨?_, by simpa using hinv3⟩
      intro x hx
      rcases List.mem_cons.1 hx with rfl | hx
      · exact hlen
      · exact hall x hx

theorem v1_set_last_keys (done : List TableEntry) (st : V1State) (hinv : V1Inv done st)
    (f : List Str → Range) (n : Str) :
    mapGet (match st.lastKey with
      | some lk =>
        mapSet st.postingsV1 (lk.getD 0 [])
          (mapSet ((mapGet st.postingsV1 (lk.getD 0 [])).getD []) (lk.getD 1 []) (f lk))
      | none => st.postingsV1) n ≠ none ↔ n ∈ tableNames done := by
  cases hlk : st.lastKey with
  | none => exact hinv.keys1 n
  | some lk =>
    simp only [mapGet_mapSet]
    by_cases hn : lk.getD 0 [] = n
    · simp only [hn, if_true, ne_eq, not_false_eq_true, true_iff, reduceCtorEq]
      rw [← hn]
      exact hinv.last lk hlk
    · simp only [hn, if_false]
      exact hinv.keys1 n

theorem v1Callback_step (done : List TableEntry) (st st1 : V1State) (e : TableEntry)
    (hinv : V1Inv done st) (h : v1Callback st e.key e.off e.tableOff = .ok st1) :
    e.key.length = 2 ∧ V1Inv (done ++ [e]) st1 := by
  unfold v1Callback at h
  split at h
  · cases h
  · rename_i hlen
    simp only [ne_eq, Decidable.not_not] at hlen
    refine ⟨hlen, ?_⟩
    have hname : e.key.getD 0 [] = e.name := rfl
    have hk := v1_set_last_keys done st hinv
      (fun _ => { st.prevRng with End := int64 (uint64Sub e.off 1) })
    have hnames : ∀ n, n ∈ tableNames (done ++ [e]) ↔ n = e.name ∨ n ∈ tableNames done := by
      intro n
      simp [tableNames, or_comm]
    dsimp only at h
    simp only [hname] at h
    split at h
    · rename_i v hv
      have hmem : e.name ∈ tableNames done := (hk e.name).1 (by rw [hv]; simp)
      injection h with h
      subst h
      refine ⟨?_, ?_, hinv.nodup, ?_⟩
      · intro n
        rw [hnames, hk n]
        constructor
        · exact Or.inr
        · rintro (rfl | h)
          · exact hmem
          · exact h
      · intro n
        rw [hnames, hinv.keys n]
        constructor
        · exact Or.inr
        · rintro (rfl | h)
          · exact hmem
          · exact h
      · intro lk hlk
        simp only [Option.some.injEq] at hlk
        subst hlk
        rw [hnames]
        exact Or.inl rfl
    · rename_i hv
      injection h with h
      subst h
      refine ⟨?_, ?_, nodup_mapKeys_mapSet _ _ _ hinv.nodup, ?_⟩
      · intro n
        rw [hnames, mapGet_mapSet]
        by_cases hn : e.name = n
        · simp [hn]
        · have hn2 : ¬ n = e.name := fun h => hn h.symm
          simp only [hn, if_false, hn2, false_or]
          exact hk n
      · intro n
        rw [hnames, mem_mapKeys_mapSet, hinv.keys n]
      · intro lk hlk
        simp only [Option.some.injEq] at hlk
        subst hlk
        rw [hnames]
        exact Or.inl rfl

theorem v1_fold (ents done : List TableEntry) (st st1 : V1State) (hinv : V1Inv done st)
    (h : foldEntries v1Callback ents st = .ok st1) :
    (∀ e ∈ ents, e.key.length = 2) ∧ V1Inv (done ++ ents) st1 := by
  induction ents generalizing done st with
  | nil =>
    simp only [foldEntries] at h
    cases h
    simpa using hinv
  | cons e ents ih =>
    simp only [foldEntries] at h
    split at h
    · cases h
    · rename_i s2 hs2
      obtain ⟨hlen, hinv2⟩ := v1Callback_step done st s2 e hinv hs2
      obtain ⟨hall, hinv3⟩ := ih _ _ hinv2 h
      refine ⟨?_, by simpa using hinv3⟩
      intro x hx
      rcases List.mem_cons.1 hx with rfl | hx
      · exact hlen
      · exact hall x hx

theorem v1Finish_inv (done : List TableEntry) (st : V1State) (hinv : V1Inv done st)
    (lastEnd : Int) : V1Inv done (v1Finish st lastEnd) := by
  have hk := v1_set_last_keys done st hinv (fun _ => { st.prevRng with End := lastEnd })
  unfold v1Finish
  cases hlk : st.lastKey with
  | none => simpa [hlk] using hinv
  | some lk =>
    simp only [hlk] at hk ⊢
    exact ⟨hk, hinv.keys, hinv.nodup, fun lk1 h1 => hinv.last lk1 (by rw [hlk]; exact h1)⟩

/-- The maps of a reader loaded on the version-2 path (any index version but 1). -/
theorem loaded_v2 {S : SymbolsOps} {b : ByteSlice} {r : BinaryReader S}
    (hok : newFileBinaryReader S b = .ok r) (hv : r.indexVersion ≠ FormatV1) :
    ∃ ents, tableEntries b r.toc.PostingsOffsetTable = .ok ents ∧
      (∀ e ∈ ents, e.key.length = 2) ∧
      (∀ n, mapGet r.postings n =
        if n ∈ tableNames ents then some (samplesOf n ents) else none) ∧
      (mapKeys r.postings).Nodup ∧ r.b = b := by
  obtain ⟨h, -, -, hp, hb, -, hiv, -⟩ := newFileBinaryReader_ok hok
  unfold loadPostings at hp
  rw [← hiv] at hp
  simp only [hv, if_false] at hp
  split at hp
  · cases hp
  · rename_i st hst
    obtain ⟨ents, hents, hfold⟩ := ReadOffsetTable_fold _ _ _ _ _ hst
    have hinv0 : V2Inv [] (⟨[], none, 0, 0⟩ : V2State) :=
      ⟨rfl, rfl, fun n => by simp [mapGet, tableNames], by simp [mapKeys]⟩
    obtain ⟨hall, hinv⟩ := v2_fold ents [] _ st hinv0 hfold
    simp only [List.nil_append] at hinv
    have hfin : v2Finish st = st := by simp [v2Finish, hinv.lastKey]
    rw [hfin] at hp
    injection hp with hp
    injection hp with hp1 hp2
    refine ⟨ents, hents, hall, ?_, ?_, hb⟩
    · rw [← hp1]; exact hinv.get
    · rw [← hp1]; exact hinv.nodup

/-- The keys of the maps of a reader loaded on the version-1 path. -/
theorem loaded_v1 {S : SymbolsOps} {b : ByteSlice} {r : BinaryReader S}
    (hok : newFileBinaryReader S b = .ok r) (hv : r.indexVersion = FormatV1) :
    ∃ ents, tableEntries b r.toc.PostingsOffsetTable = .ok ents ∧
      (∀ e ∈ ents, e.key.length = 2) ∧
      (∀ n, mapGet r.postingsV1 n ≠ none ↔ n ∈ tableNames ents) ∧
      (∀ n, n ∈ mapKeys r.postings ↔ n ∈ tableNames ents) ∧
      (mapKeys r.postings).Nodup := by
  obtain ⟨h, -, -, hp, hb, -, hiv, -⟩ := newFileBinaryReader_ok hok
  unfold loadPostings at hp
  rw [← hiv] at hp
  simp only [hv, if_true] at hp
  split at hp
  · cases hp
  · rename_i st hst
    obtain ⟨ents, hents, hfold⟩ := ReadOffsetTable_fold _ _ _ _ _ hst
    have hinv0 : V1Inv [] (⟨[], [], none, ⟨0, 0⟩⟩ : V1State) :=
      ⟨fun n => by simp [mapGet, tableNames], fun n => by simp [mapKeys, tableNames],
        by simp [mapKeys], fun lk h => by simp at h⟩
    obtain ⟨hall, hinv⟩ := v1_fold ents [] _ st hinv0 hfold
    simp only [List.nil_append] at hinv
    have hfin := v1Finish_inv ents st hinv h.indexLastPostingEnd
    injection hp with hp
    injection hp with hp1 hp2
    refine ⟨ents, hents, hall, ?_, ?_, ?_⟩
    · rw [← hp2]; exact hfin.keys1
    · rw [← hp1]; exact hfin.keys
    · rw [← hp1]; exact hfin.nodup

/-! ## Unknown label names (C3) and the list of label names (C5) -/

/-- C3: for a header the loader accepts, of either index version, and a label name
that no entry of the postings offset table carries, `LabelValues` returns the empty
list without error and `PostingsOffset` fails with `NotFoundRangeErr` for every value. -/
theorem C3_unknown_name (S : SymbolsOps) (b : ByteSlice) (r : BinaryReader S)
    (ents : List TableEntry) (name : Str)
    (hok : newFileBinaryReader S b = .ok r)
    (hents : tableEntries b r.toc.PostingsOffsetTable = .ok ents)
    (hname : name ∉ tableNames ents) :
    LabelValues r name = .ok [] ∧
    ∀ value, PostingsOffset r name value = .error Err.NotFoundRangeErr := by
  by_cases hv : r.indexVersion = FormatV1
  · obtain ⟨ents1, hents1, -, hk1, -, -⟩ := loaded_v1 hok hv
    rw [hents] at hents1
    injection hents1 with hents1
    subst hents1
    have hnone : mapGet r.postingsV1 name = none := by
      by_contra hne
      exact hname ((hk1 name).1 hne)
    constructor
    · simp [LabelValues, hv, hnone]
    · intro value
      simp [PostingsOffset, postingsOffset, hv, hnone]
  · obtain ⟨ents1, hents1, -, hget, -, -⟩ := loaded_v2 hok hv
    rw [hents] at hents1
    injection hents1 with hents1
    subst hents1
    have hnone : mapGet r.postings name = none := by
      rw [hget name]; simp [hname]
    constructor
    · simp [LabelValues, hv, hnone]
    · intro value
      simp [PostingsOffset, postingsOffset, hv, hnone]

set_option maxRecDepth 100000 in
theorem fileTwoValues_entries :
    tableEntries fileTwoValues 26 =
      .ok [⟨[[], [97]], 10, 4⟩, ⟨[[], [99]], 20, 9⟩] := by
  rfl

set_option maxRecDepth 100000 in
theorem fileTwoValues_toc :
    (newFileBinaryReader tsdbSymbols fileTwoValues).map (fun r => r.toc) = .ok ⟨14, 26⟩ := by
  rfl

/-- C3, witness: the name `"n"` is not in the table of `fileTwoValues`. -/
theorem C3_witness :
    onLoaded fileTwoValues (fun r => (LabelValues r [110], PostingsOffset r [110] [49])) =
      .ok (.ok [], .error Err.NotFoundRangeErr) := by
  obtain ⟨r, hr⟩ := exists_ok_of_toBool _ fileTwoValues_loads
  have htoc : r.toc = ⟨14, 26⟩ := by
    have := fileTwoValues_toc
    rw [hr] at this
    simpa [Except.map] using this
  have h := C3_unknown_name tsdbSymbols fileTwoValues r _ [110] hr
    (by rw [htoc]; exact fileTwoValues_entries) (by decide)
  simp only [onLoaded, hr, Except.map, h.1, h.2 [49]]

theorem sortStrings_perm (l : List Str) : (sortStrings l).Perm l :=
  List.perm_insertionSort _ l

theorem sortStrings_sorted (l : List Str) :
    (sortStrings l).Pairwise (fun a b => strLt b a = false) := by
  haveI : IsTotal Str (fun a b => strLt b a = false) :=
    ⟨fun a b => by
      cases h : strLt b a with
      | false => exact Or.inl rfl
      | true => exact Or.inr (strLt_asymm h)⟩
  haveI : IsTrans Str (fun a b => strLt b a = false) :=
    ⟨fun a b c h1 h2 => strLe_trans h1 h2⟩
  exact List.sorted_insertionSort _ l

theorem sortStrings_strict (l : List Str) (h : l.Nodup) :
    (sortStrings l).Pairwise (fun a b => strLt a b = true) := by
  have hnd : (sortStrings l).Nodup := (sortStrings_perm l).nodup_iff.2 h
  have hs := sortStrings_sorted l
  have := hs.and hnd
  refine this.imp ?_
  intro a b hab
  cases hlt : strLt a b with
  | true => rfl
  | false => exact absurd (strLt_trichotomy hlt hab.1) hab.2

/-- C5: for a header the loader accepts, of either index version, `LabelNames` is a
strictly ascending list, and a name is in it exactly when it is not the empty name
and some entry of the postings offset table carries it. -/
theorem C5_label_names (S : SymbolsOps) (b : ByteSlice) (r : BinaryReader S)
    (ents : List TableEntry)
    (hok : newFileBinaryReader S b = .ok r)
    (hents : tableEntries b r.toc.PostingsOffsetTable = .ok ents) :
    (LabelNames r).Pairwise (fun a b => strLt a b = true) ∧
    ∀ name, name ∈ LabelNames r ↔ (name ≠ [] ∧ name ∈ tableNames ents) := by
  have hkeys : (mapKeys r.postings).Nodup ∧
      ∀ n, n ∈ mapKeys r.postings ↔ n ∈ tableNames ents := by
    by_cases hv : r.indexVersion = FormatV1
    · obtain ⟨ents1, hents1, -, -, hk, hnd⟩ := loaded_v1 hok hv
      rw [hents] at hents1
      injection hents1 with hents1
      subst hents1
      exact ⟨hnd, hk⟩
    · obtain ⟨ents1, hents1, -, hget, hnd, -⟩ := loaded_v2 hok hv
      rw [hents] at hents1
      injection hents1 with hents1
      subst hents1
      refine ⟨hnd, fun n => ?_⟩
      rw [mem_mapKeys_iff, hget n]
      by_cases hn : n ∈ tableNames ents <;> simp [hn]
  constructor
  · exact sortStrings_strict _ (hkeys.1.filter _)
  · intro name
    unfold LabelNames
    rw [(sortStrings_perm _).mem_iff, List.mem_filter, hkeys.2 name]
    simp [and_comm]

/-! ## Concrete files: what the loader reads -/

set_option maxRecDepth 100000 in
theorem fileLabels_loads : (newFileBinaryReader tsdbSymbols fileLabels).toBool = true := by
  decide

set_option maxRecDepth 100000 in
theorem fileLabels_toc :
    (newFileBinaryReader tsdbSymbols fileLabels).map (fun r => r.toc) = .ok ⟨14, 35⟩ := by
  rfl

set_option maxRecDepth 100000 in
theorem fileLabels_entries : tableEntries fileLabels 35 = .ok fileLabelsEntries := by
  rfl

/-- The reader of `fileLabels`, with the facts the examples below start from. -/
theorem fileLabels_reader :
    ∃ r, newFileBinaryReader tsdbSymbols fileLabels = .ok r ∧
      tableEntries fileLabels r.toc.PostingsOffsetTable = .ok fileLabelsEntries := by
  obtain ⟨r, hr⟩ := exists_ok_of_toBool _ fileLabels_loads
  have htoc : r.toc = ⟨14, 35⟩ := by
    have := fileLabels_toc
    rw [hr] at this
    simpa [Except.map] using this
  exact ⟨r, hr, by rw [htoc]; exact fileLabels_entries⟩

/-- C5, witness: the label names of `fileLabels`. -/
theorem C5_witness :
    ∃ r, newFileBinaryReader tsdbSymbols fileLabels = .ok r ∧
      (LabelNames r).Pairwise (fun a b => strLt a b = true) ∧
      ∀ name, name ∈ LabelNames r ↔ (name ≠ [] ∧ name ∈ tableNames fileLabelsEntries) := by
  obtain ⟨r, hr, hents⟩ := fileLabels_reader
  exact ⟨r, hr, C5_label_names tsdbSymbols fileLabels r fileLabelsEntries hr hents⟩

/-! ## Binary search -/

theorem searchLoop_eq (f : Nat → Bool) (n j : Nat)
    (hlow : ∀ i, i < j → f i = false) (hhigh : ∀ i, j ≤ i → i < n → f i = true)
    (fuel lo hi : Nat) (h1 : lo ≤ j) (h2 : j ≤ hi) (h3 : hi ≤ n) (hf : hi - lo ≤ fuel) :
    searchLoop f fuel lo hi = j := by
  induction fuel generalizing lo hi with
  | zero =>
    simp only [searchLoop]
    omega
  | succ fuel ih =>
    simp only [searchLoop]
    by_cases hlt : lo < hi
    · simp only [hlt, if_true]
      have hm1 : lo ≤ (lo + hi) / 2 := by omega
      have hm2 : (lo + hi) / 2 < hi := by omega
      cases hfm : f ((lo + hi) / 2) with
      | true =>
        simp only [if_true]
        have : j ≤ (lo + hi) / 2 := by
          by_contra hc
          have := hlow ((lo + hi) / 2) (by omega)
          rw [hfm] at this
          cases this
        exact ih lo _ h1 this (by omega) (by omega)
      | false =>
        simp only [Bool.false_eq_true, if_false]
        have : (lo + hi) / 2 < j := by
          by_contra hc
          have := hhigh ((lo + hi) / 2) (by omega) (by omega)
          rw [hfm] at this
          cases this
        exact ih _ hi (by omega) h2 h3 (by omega)
    · simp only [hlt, if_false]
      omega

/-- The function `sort.Search` finds the first index at which a predicate holds that
is false below `j` and true from `j` on. -/
theorem Search_eq (f : Nat → Bool) (n j : Nat) (hj : j ≤ n)
    (hlow : ∀ i, i < j → f i = false) (hhigh : ∀ i, j ≤ i → i < n → f i = true) :
    Search n f = j :=
  searchLoop_eq f n j hlow hhigh n 0 n (by omega) hj (by omega) (by omega)

/-! ## One entry under the decoder of the queries -/

/-- The reads of the queries on an entry with two keys: key count and label name,
then the label value, then the offset. -/
theorem EntryDecodes.two_keys {d d1 : Decbuf} {e : TableEntry} (h : EntryDecodes d e d1)
    (hlen : e.key.length = 2) :
    d.E = none ∧
    (d.Uvarint.2.UvarintBytes.2).E = none ∧
    (d.Uvarint.2.UvarintBytes.2).B <:+ d.B ∧
    (d.Uvarint.2.UvarintBytes.2).UvarintBytes.1 = e.value ∧
    (d.Uvarint.2.UvarintBytes.2).UvarintBytes.2.Uvarint64 = (e.off, d1) ∧
    d1.E = none := by
  obtain ⟨h1, -, h3, h4, h5⟩ := h
  rw [hlen] at h3 h4
  simp only [readKeys, Decbuf.UvarintStr] at h3 h4
  have hE : (d.Uvarint.2.UvarintBytes.2).UvarintBytes.2.Uvarint64.2.E = none := by
    rw [h4]; exact h5
  have hE3 := (Uvarint64_ok _ hE).1
  have hb3 := UvarintBytes_ok _ hE3
  have hb2 := UvarintBytes_ok _ hb3.1
  have hb1 := Uvarint64_ok d (by rw [← Uvarint_snd]; exact hb2.1)
  refine ⟨h1, hb3.1, ?_, ?_, h4, h5⟩
  · exact hb2.2.trans (by rw [Uvarint_snd]; exact hb1.2)
  · have : e.value = e.key.getD 1 [] := rfl
    rw [this, ← h3]
    rfl

theorem EntryDecodes.readSkip_zero {d d1 : Decbuf} {e : TableEntry} (_h : EntryDecodes d e d1) :
    readSkip d 0 = (d.Uvarint.2.UvarintBytes.2, d.Len - (d.Uvarint.2.UvarintBytes.2).Len) := by
  simp [readSkip]

theorem EntryDecodes.readSkip_keyLen {d d1 : Decbuf} {e : TableEntry} (h : EntryDecodes d e d1)
    (hlen : e.key.length = 2) (skip : Nat)
    (hskip : skip = d.Len - (d.Uvarint.2.UvarintBytes.2).Len) :
    readSkip d skip = (d.Uvarint.2.UvarintBytes.2, skip) := by
  obtain ⟨h1, h2, h3, -⟩ := h.two_keys hlen
  by_cases h0 : skip = 0
  · subst h0
    rw [h.readSkip_zero, ← hskip]
  · simp only [readSkip, h0, if_false]
    rw [hskip, Skip_of_suffix d _ h3 (by rw [h1, h2])]

/-- The buffer of the queries, moved to the table offset of an entry of the chain,
is the buffer the loader read the entry from. -/
theorem EntryChain.skip_tableOff {content : List Nat} {d : Decbuf} {e : TableEntry}
    {es : List TableEntry} (h : EntryChain content d (e :: es)) :
    (⟨content, none⟩ : Decbuf).Skip e.tableOff = d ∧
    ∃ d1, EntryDecodes d e d1 ∧ EntryChain content d1 es := by
  obtain ⟨hs, ht, d1, hd, hc⟩ := h
  refine ⟨?_, d1, hd, hc⟩
  rw [ht]
  exact Skip_of_suffix ⟨content, none⟩ d hs hd.1

theorem EntryChain.drop {content : List Nat} {d : Decbuf} (pre l : List TableEntry)
    (h : EntryChain content d (pre ++ l)) : ∃ d1, EntryChain content d1 l := by
  induction pre generalizing d with
  | nil => exact ⟨d, h⟩
  | cons x pre ih =>
    obtain ⟨-, -, d1, -, hc⟩ := h
    exact ih hc

/-! ## The scan of `postingsOffset` for a value that is in the table -/

theorem advanceValues_found (v : Str) (po : Int) :
    advanceValues v po v [v] [] = (v, [], [⟨wrapInt64 (po + 4), 0⟩]) := by
  simp [advanceValues, strGe, strLt_irrefl]

/-- The scan from the entry `e` for the value of `e`, when `e` is the last sample of
its label name. -/
theorem scanLoop_found_last (es : List postingOffset) (j : Nat) (lastEnd : Int) (fuel : Nat)
    {d d1 : Decbuf} {e : TableEntry} (hdec : EntryDecodes d e d1) (hlen : e.key.length = 2)
    (hlast : j + 1 = es.length) :
    scanLoop es j lastEnd (fuel + 1) ⟨d, 0, e.value, [e.value], [], []⟩ =
      ⟨d1, d.Len - (d.Uvarint.2.UvarintBytes.2).Len, e.value, [],
        [⟨wrapInt64 (int64 e.off + 4), lastEnd⟩],
        [⟨wrapInt64 (int64 e.off + 4), lastEnd⟩]⟩ := by
  obtain ⟨h1, -, -, h4, h5, -⟩ := hdec.two_keys hlen
  have hv : (d.Uvarint.2.UvarintBytes.2).UvarintBytes =
      (e.value, (d.Uvarint.2.UvarintBytes.2).UvarintBytes.2) := by
    rw [← h4]
  rw [scanLoop]
  simp only [h1, hdec.readSkip_zero]
  rw [hv]
  simp only [h5, advanceValues_found, hlast, if_true, List.map_cons, List.map_nil,
    List.nil_append]

/-- The scan from the entry `e` for the value of `e`, when the next entry `nx` is a
sample of the same label name and its key count and label name take as many bytes. -/
theorem scanLoop_found_next (es : List postingOffset) (j : Nat) (lastEnd : Int) (fuel : Nat)
    {d d1 d2 : Decbuf} {e nx : TableEntry} (hdec : EntryDecodes d e d1)
    (hlen : e.key.length = 2) (hdec2 : EntryDecodes d1 nx d2) (hlen2 : nx.key.length = 2)
    (hkl : d.Len - (d.Uvarint.2.UvarintBytes.2).Len =
      d1.Len - (d1.Uvarint.2.UvarintBytes.2).Len)
    (hlast : j + 1 ≠ es.length) :
    scanLoop es j lastEnd (fuel + 1) ⟨d, 0, e.value, [e.value], [], []⟩ =
      ⟨d2, d.Len - (d.Uvarint.2.UvarintBytes.2).Len, e.value, [],
        [⟨wrapInt64 (int64 e.off + 4), wrapInt64 (int64 nx.off - 4)⟩],
        [⟨wrapInt64 (int64 e.off + 4), wrapInt64 (int64 nx.off - 4)⟩]⟩ := by
  obtain ⟨h1, -, -, h4, h5, -⟩ := hdec.two_keys hlen
  obtain ⟨g1, g2, g3, -, g5, -⟩ := hdec2.two_keys hlen2
  have hv : (d.Uvarint.2.UvarintBytes.2).UvarintBytes =
      (e.value, (d.Uvarint.2.UvarintBytes.2).UvarintBytes.2) := by
    rw [← h4]
  have hskip : d1.Skip (d.Len - (d.Uvarint.2.UvarintBytes.2).Len) =
      d1.Uvarint.2.UvarintBytes.2 := by
    rw [hkl]
    exact Skip_of_suffix d1 _ g3 (by rw [g1, g2])
  rw [scanLoop]
  simp only [h1, hdec.readSkip_zero]
  rw [hv]
  simp only [h5, advanceValues_found, hlast, if_false, or_true, if_true, hskip, g5,
    List.map_cons, List.map_nil, List.nil_append]

/-- The loop of `postingsOffset` for one value `v` that the sample `es[j]` carries,
given what the scan from that sample returns. -/
theorem postingsOffsetLoop_found {S : SymbolsOps} (r : BinaryReader S)
    (es : List postingOffset) (j : Nat) (v : Str) (d d1 : Decbuf) (skip1 : Nat) (rng : Range)
    (hj : j < es.length)
    (hsearch : Search es.length (fun i => strGe (es.getD i ⟨[], 0⟩).value v) = j)
    (hval : (es.getD j ⟨[], 0⟩).value = v)
    (hd : (NewDecbufAt r.b (int64 r.toc.PostingsOffsetTable) false).Skip
      (es.getD j ⟨[], 0⟩).tableOff = d)
    (hscan : scanLoop es j r.indexLastPostingEnd (d.Len + 1) ⟨d, 0, v, [v], [], []⟩ =
      ⟨d1, skip1, v, [], [rng], [rng]⟩)
    (hd1 : d1.E = none) :
    postingsOffsetLoop r es 2 ⟨⟨[], none⟩, 0, [], [v], [], []⟩ = .ok [rng] := by
  have hne : j ≠ es.length := by omega
  rw [postingsOffsetLoop]
  simp only [hsearch, hne, if_false, hval, ne_eq, not_true_eq_false, and_false, hd, hscan, hd1]
  rw [postingsOffsetLoop]

/-! ## Sorted tables -/

theorem samplesOf_sorted (n : Str) (ents : List TableEntry) (h : SortedTable ents) :
    (samplesOf n ents).Pairwise (fun s1 s2 => strLt s1.value s2.value = true) := by
  unfold samplesOf
  rw [List.pairwise_map, List.pairwise_filter]
  refine h.imp ?_
  intro a c hac ha hc
  rcases hac with hlt | ⟨-, hlt⟩
  · rw [ha, hc, strLt_irrefl] at hlt
    cases hlt
  · exact hlt

theorem getD_append_mid (A B : List postingOffset) (s : postingOffset) (i : Nat) :
    (i < A.length → (A ++ s :: B).getD i ⟨[], 0⟩ ∈ A) ∧
    (i = A.length → (A ++ s :: B).getD i ⟨[], 0⟩ = s) ∧
    (A.length < i → i < (A ++ s :: B).length → (A ++ s :: B).getD i ⟨[], 0⟩ ∈ B) := by
  simp only [List.getD_eq_getElem?_getD]
  refine ⟨?_, ?_, ?_⟩
  · intro h
    rw [List.getElem?_append_left h, List.getElem?_eq_getElem h]
    exact List.getElem_mem _
  · intro h
    subst h
    rw [List.getElem?_append_right (le_refl _)]
    simp
  · intro h1 h2
    rw [List.getElem?_append_right (by omega)]
    have : i - A.length = (i - A.length - 1) + 1 := by omega
    rw [this, List.getElem?_cons_succ]
    simp only [List.length_append, List.length_cons] at h2
    have h3 : i - A.length - 1 < B.length := by omega
    rw [List.getElem?_eq_getElem h3]
    exact List.getElem_mem _

theorem search_sorted (A B : List postingOffset) (s : postingOffset)
    (h : (A ++ s :: B).Pairwise (fun s1 s2 => strLt s1.value s2.value = true)) :
    Search (A ++ s :: B).length
      (fun i => strGe ((A ++ s :: B).getD i ⟨[], 0⟩).value s.value) = A.length := by
  rw [List.pairwise_append] at h
  obtain ⟨-, hB, hAB⟩ := h
  rw [List.pairwise_cons] at hB
  apply Search_eq
  · simp
  · intro i hi
    have hmem := (getD_append_mid A B s i).1 hi
    have := hAB _ hmem s (List.mem_cons_self _ _)
    simpa [strGe] using this
  · intro i hi1 hi2
    rcases Nat.eq_or_lt_of_le hi1 with heq | hlt
    · rw [(getD_append_mid A B s i).2.1 heq.symm]
      simp [strGe, strLt_irrefl]
    · have hmem := (getD_append_mid A B s i).2.2 hlt hi2
      have := strLt_asymm (hB.1 _ hmem)
      simpa [strGe] using this

theorem head_le_of_sorted (A B : List postingOffset) (s e0 : postingOffset)
    (tl : List postingOffset)
    (h : (A ++ s :: B).Pairwise (fun s1 s2 => strLt s1.value s2.value = true))
    (hes : A ++ s :: B = e0 :: tl) : strLt s.value e0.value = false := by
  cases A with
  | nil =>
    simp only [List.nil_append, List.cons.injEq] at hes
    rw [← hes.1]
    exact strLt_irrefl _
  | cons a A =>
    simp only [List.cons_append, List.cons.injEq] at hes
    rw [List.cons_append, List.pairwise_cons] at h
    rw [← hes.1]
    exact strLt_asymm (h.1 s (by simp))

/-- In a sorted table the entries of one label name are not separated by an entry of
another name. -/
theorem sorted_no_later (pre post : List TableEntry) (e nx : TableEntry)
    (h : SortedTable (pre ++ e :: nx :: post)) (hne : nx.name ≠ e.name) :
    e.name ∉ tableNames (nx :: post) := by
  unfold SortedTable at h
  rw [List.pairwise_append] at h
  obtain ⟨-, h, -⟩ := h
  rw [List.pairwise_cons] at h
  obtain ⟨he, h⟩ := h
  rw [List.pairwise_cons] at h
  have h1 : strLt e.name nx.name = true := by
    rcases he nx (List.mem_cons_self _ _) with h1 | ⟨h1, -⟩
    · exact h1
    · exact absurd h1.symm hne
  intro hmem
  simp only [tableNames, List.map_cons, List.mem_cons, List.mem_map] at hmem
  rcases hmem with hmem | ⟨x, hx, hxn⟩
  · exact hne hmem.symm
  · have h2 := he x (List.mem_cons_of_mem _ hx)
    rw [hxn] at h2
    rcases h2 with h2 | ⟨-, -⟩
    · rw [strLt_irrefl] at h2; cases h2
    · rcases h.1 x hx with h3 | ⟨h3, -⟩
      · rw [hxn] at h3
        have := strLt_trans h1 h3
        rw [strLt_irrefl] at this
        cases this
      · rw [hxn] at h3
        exact hne h3

/-! ## `PostingsOffset` on an entry of a sorted version-2 table -/

theorem entryKeyLen_eq {b : ByteSlice} {off : Nat} {content : List Nat}
    (hD : NewDecbufAt b (int64 off) false = ⟨content, none⟩)
    {d d1 : Decbuf} {e : TableEntry} (hd : (⟨content, none⟩ : Decbuf).Skip e.tableOff = d)
    (hdec : EntryDecodes d e d1) :
    entryKeyLen b off e.tableOff = d.Len - (d.Uvarint.2.UvarintBytes.2).Len := by
  unfold entryKeyLen
  rw [hD, hd, hdec.readSkip_zero]

/-- The range `PostingsOffset` returns for an entry `e` of a sorted version-2 table
whose entries of one name write key count and name in the same number of bytes. -/
theorem postingsOffset_found (S : SymbolsOps) (b : ByteSlice) (r : BinaryReader S)
    (ents pre post : List TableEntry) (e : TableEntry)
    (hok : newFileBinaryReader S b = .ok r) (hv : r.indexVersion ≠ FormatV1)
    (hents : tableEntries b r.toc.PostingsOffsetTable = .ok ents)
    (hsorted : SortedTable ents)
    (huni : UniformKeyLen b r.toc.PostingsOffsetTable ents)
    (hsplit : ents = pre ++ e :: post) :
    PostingsOffset r e.name e.value =
      .ok ⟨wrapInt64 (int64 e.off + 4), rangeEnd r.indexLastPostingEnd e post⟩ := by
  obtain ⟨ents1, hents1, hall, hget, -, hb⟩ := loaded_v2 hok hv
  rw [hents] at hents1
  injection hents1 with hents1
  subst hents1
  obtain ⟨content, hD, hchain⟩ := tableEntries_chain _ _ _ hents
  rw [hsplit] at hchain
  obtain ⟨d0, hchain0⟩ := EntryChain.drop pre _ hchain
  obtain ⟨hskip, d1, hdec, hchain1⟩ := hchain0.skip_tableOff
  have hmem : e ∈ ents := by rw [hsplit]; simp
  have hlen : e.key.length = 2 := hall e hmem
  -- the samples of the label name
  have hnames : e.name ∈ tableNames ents := List.mem_map_of_mem _ hmem
  have hes : samplesOf e.name ents =
      samplesOf e.name pre ++ e.sample :: samplesOf e.name post := by
    rw [hsplit, samplesOf_append]
    simp [samplesOf]
  have hpw := samplesOf_sorted e.name ents hsorted
  rw [hes] at hpw
  have hgetn : mapGet r.postings e.name =
      some (samplesOf e.name pre ++ e.sample :: samplesOf e.name post) := by
    rw [hget, if_pos hnames, hes]
  generalize hA : samplesOf e.name pre = A at hpw hgetn
  generalize hB : samplesOf e.name post = B at hpw hgetn
  have hsearch := search_sorted A B e.sample hpw
  have hjlt : A.length < (A ++ e.sample :: B).length := by simp
  have hval : ((A ++ e.sample :: B).getD A.length ⟨[], 0⟩) = e.sample :=
    (getD_append_mid A B e.sample A.length).2.1 rfl
  have hd : (NewDecbufAt r.b (int64 r.toc.PostingsOffsetTable) false).Skip
      ((A ++ e.sample :: B).getD A.length ⟨[], 0⟩).tableOff = d0 := by
    rw [hb, hD, hval]
    exact hskip
  have hd1E : d1.E = none := hdec.2.2.2.2
  -- the scan
  have hloop : ∃ skip1 dend, dend.E = none ∧
      scanLoop (A ++ e.sample :: B) A.length r.indexLastPostingEnd (d0.Len + 1)
        ⟨d0, 0, e.value, [e.value], [], []⟩ =
      ⟨dend, skip1, e.value, [],
        [⟨wrapInt64 (int64 e.off + 4), rangeEnd r.indexLastPostingEnd e post⟩],
        [⟨wrapInt64 (int64 e.off + 4), rangeEnd r.indexLastPostingEnd e post⟩]⟩ := by
    cases post with
    | nil =>
      have hBnil : B = [] := by rw [← hB]; rfl
      refine ⟨d0.Len - (d0.Uvarint.2.UvarintBytes.2).Len, d1, hd1E, ?_⟩
      rw [scanLoop_found_last _ _ _ _ hdec hlen (by rw [hBnil]; simp)]
      rfl
    | cons nx post1 =>
      by_cases hnx : nx.name = e.name
      · obtain ⟨hskip2, d2, hdec2, -⟩ := hchain1.skip_tableOff
        have hmem2 : nx ∈ ents := by rw [hsplit]; simp
        have hlen2 : nx.key.length = 2 := hall nx hmem2
        have hkl := huni e hmem nx hmem2 hnx.symm
        rw [entryKeyLen_eq hD hskip hdec, entryKeyLen_eq hD hskip2 hdec2] at hkl
        have hBne : A.length + 1 ≠ (A ++ e.sample :: B).length := by
          rw [← hB]
          simp [samplesOf, hnx]
        refine ⟨d0.Len - (d0.Uvarint.2.UvarintBytes.2).Len, d2, hdec2.2.2.2.2, ?_⟩
        rw [scanLoop_found_next _ _ _ _ hdec hlen hdec2 hlen2 hkl hBne]
        simp [rangeEnd, hnx]
      · have hno := sorted_no_later pre post1 e nx (by rw [← hsplit]; exact hsorted) hnx
        have hBnil : B = [] := by
          rw [← hB]
          exact samplesOf_eq_nil_of_not_mem _ _ hno
        refine ⟨d0.Len - (d0.Uvarint.2.UvarintBytes.2).Len, d1, hd1E, ?_⟩
        rw [scanLoop_found_last _ _ _ _ hdec hlen (by rw [hBnil]; simp)]
        simp [rangeEnd, hnx]
  obtain ⟨skip1, dend, hdendE, hscan⟩ := hloop
  have hfound := postingsOffsetLoop_found r (A ++ e.sample :: B) A.length e.value d0 dend
    skip1 _ hjlt hsearch (by rw [hval]; rfl) hd hscan hdendE
  -- the method
  obtain ⟨e0, tl, he0⟩ : ∃ e0 tl, A ++ e.sample :: B = e0 :: tl := by
    cases A with
    | nil => exact ⟨_, _, rfl⟩
    | cons a A => exact ⟨_, _, rfl⟩
  have hhead := head_le_of_sorted A B e.sample e0 tl hpw he0
  have hhead2 : strLt e.value e0.value = false := hhead
  rw [he0] at hgetn hfound
  unfold PostingsOffset postingsOffset
  simp only [hv, if_false, hgetn, List.length_singleton, one_ne_zero, List.dropWhile_cons,
    hhead2, Bool.false_eq_true, List.length_cons, List.length_nil, Nat.reduceAdd]
  rw [hfound]

/-! ## Ranges in `int64` arithmetic -/

theorem int64_small (x : Nat) (h : x < 2 ^ 63) : int64 x = (x : Int) := by
  unfold int64
  have h1 : x % 2 ^ 64 = x := Nat.mod_eq_of_lt (by omega)
  rw [h1, if_pos h]

theorem wrapInt64_small (y : Int) (h1 : -(2 ^ 63) ≤ y) (h2 : y < 2 ^ 63) : wrapInt64 y = y := by
  unfold wrapInt64
  omega

theorem start_exact (p : Nat) (h : p + 4 < 2 ^ 63) : wrapInt64 (int64 p + 4) = (p : Int) + 4 := by
  rw [int64_small p (by omega)]
  exact wrapInt64_small _ (by omega) (by omega)

theorem end_exact (q : Nat) (h : q < 2 ^ 63) : wrapInt64 (int64 q - 4) = (q : Int) - 4 := by
  rw [int64_small q h]
  exact wrapInt64_small _ (by omega) (by omega)

/-- C1, amended: in a version-2 header that the loader accepts, whose postings offset
table is sorted by (name, value) with distinct keys and in which the entries of one
label name write their key count and label name in the same number of bytes, every
table entry `e` with posting offset `p` is found by `PostingsOffset`: the start is
`p + 4` (computed in `int64`, exactly `p + 4` when that is below `2^63`); when the
next table entry has the same label name and posting offset `q`, the end is `q - 4`
(in `int64`, exactly `q - 4` for `q` below `2^63`); when `e` is the last entry of its
name, the end is `indexLastPostingEnd`. -/
theorem C1_postings_offset_of_entry (S : SymbolsOps) (b : ByteSlice) (r : BinaryReader S)
    (ents pre post : List TableEntry) (e : TableEntry)
    (hok : newFileBinaryReader S b = .ok r) (hv : r.indexVersion = FormatV2)
    (hents : tableEntries b r.toc.PostingsOffsetTable = .ok ents)
    (hsorted : SortedTable ents)
    (huni : UniformKeyLen b r.toc.PostingsOffsetTable ents)
    (hsplit : ents = pre ++ e :: post) :
    ∃ rng, PostingsOffset r e.name e.value = .ok rng ∧
      rng.Start = wrapInt64 (int64 e.off + 4) ∧
      (e.off + 4 < 2 ^ 63 → rng.Start = (e.off : Int) + 4) ∧
      (∀ nx post1, post = nx :: post1 → nx.name = e.name →
        rng.End = wrapInt64 (int64 nx.off - 4) ∧
        (nx.off < 2 ^ 63 → rng.End = (nx.off : Int) - 4)) ∧
      ((post = [] ∨ ∃ nx post1, post = nx :: post1 ∧ nx.name ≠ e.name) →
        rng.End = r.indexLastPostingEnd) := by
  have hv1 : r.indexVersion ≠ FormatV1 := by rw [hv]; decide
  refine ⟨_, postingsOffset_found S b r ents pre post e hok hv1 hents hsorted huni hsplit,
    rfl, start_exact e.off, ?_, ?_⟩
  · intro nx post1 hpost hnx
    subst hpost
    have hend : rangeEnd r.indexLastPostingEnd e (nx :: post1) = wrapInt64 (int64 nx.off - 4) := by
      simp [rangeEnd, hnx]
    exact ⟨hend, fun hq => hend.trans (end_exact nx.off hq)⟩
  · rintro (hpost | ⟨nx, post1, hpost, hnx⟩)
    · subst hpost
      rfl
    · subst hpost
      simp [rangeEnd, hnx]

set_option maxRecDepth 100000 in
theorem fileLabels_version :
    (newFileBinaryReader tsdbSymbols fileLabels).map (fun r => r.indexVersion) = .ok 2 := by
  rfl

set_option maxRecDepth 100000 in
theorem fileLabels_sorted : SortedTable fileLabelsEntries := by
  unfold SortedTable
  decide

set_option maxRecDepth 100000 in
theorem fileLabels_uniform : UniformKeyLen fileLabels 35 fileLabelsEntries := by
  unfold UniformKeyLen
  decide

/-- The reader of `fileLabels` with all the facts the claims ask of a header. -/
theorem fileLabels_reader_sorted :
    ∃ r, newFileBinaryReader tsdbSymbols fileLabels = .ok r ∧ r.indexVersion = FormatV2 ∧
      tableEntries fileLabels r.toc.PostingsOffsetTable = .ok fileLabelsEntries ∧
      UniformKeyLen fileLabels r.toc.PostingsOffsetTable fileLabelsEntries := by
  obtain ⟨r, hr⟩ := exists_ok_of_toBool _ fileLabels_loads
  have htoc : r.toc = ⟨14, 35⟩ := by
    have := fileLabels_toc
    rw [hr] at this
    simpa [Except.map] using this
  have hver : r.indexVersion = FormatV2 := by
    have := fileLabels_version
    rw [hr] at this
    simpa [Except.map] using this
  exact ⟨r, hr, hver, by rw [htoc]; exact fileLabels_entries,
    by rw [htoc]; exact fileLabels_uniform⟩

/-- C1, witness: the entry `("a", "1") -> 120` of `fileLabels`, followed by
`("a", "2") -> 140`. -/
theorem C1_witness :
    ∃ r, newFileBinaryReader tsdbSymbols fileLabels = .ok r ∧
      PostingsOffset r [97] [49] = .ok ⟨124, 136⟩ := by
  obtain ⟨r, hr, hver, hents, huni⟩ := fileLabels_reader_sorted
  obtain ⟨rng, h1, -, h3, h4, -⟩ := C1_postings_offset_of_entry tsdbSymbols fileLabels r
    fileLabelsEntries [⟨[[], []], 100, 4⟩] [⟨[[97], [50]], 140, 14⟩, ⟨[[98], [49]], 160, 21⟩]
    ⟨[[97], [49]], 120, 8⟩ hr hver hents fileLabels_sorted huni rfl
  have hs := h3 (by decide)
  have he := (h4 _ _ rfl rfl).2 (by decide)
  refine ⟨r, hr, ?_⟩
  have : rng = ⟨124, 136⟩ := by
    cases rng
    simp only at hs he
    subst hs
    subst he
    rfl
  rw [← this]
  exact h1

set_option maxRecDepth 100000 in
/-- C1, counterexample: a version-2 header that the loader accepts, with the sorted
table `("", "a") -> 10`, `("", "c") -> 20`; the key count of the second entry is
written in two bytes. For the first entry `PostingsOffset` returns the end `-3`, not
`20 - 4`. -/
theorem C1_counterexample :
    tableEntries fileLongKeyCount 26 = .ok [⟨[[], [97]], 10, 4⟩, ⟨[[], [99]], 20, 9⟩] ∧
    onLoaded fileLongKeyCount (fun r => (r.indexVersion, r.toc, PostingsOffset r [] [97])) =
      .ok (2, ⟨14, 26⟩, .ok ⟨14, -3⟩) := by
  constructor <;> rfl

set_option maxRecDepth 100000 in
/-- C2, at the failing input: the version-2 header `fileLastNameTwoValues` is loaded;
its table `("", "")`, `("a", "1")`, `("b", "1")`, `("b", "2")` is sorted, and `"15"` is
not a value of the name `"b"` (it sorts between `"1"` and `"2"`).
`PostingsOffset("b", "15")` fails with `ErrInvalidSize`, not with `NotFoundRangeErr`:
after the entry `("b", "2")` the scan reads one more entry, and the table has none. -/
theorem C2_absent_value_decode_error :
    tableEntries fileLastNameTwoValues 35 =
      .ok [⟨[[], []], 100, 4⟩, ⟨[[97], [49]], 120, 8⟩, ⟨[[98], [49]], 140, 14⟩,
           ⟨[[98], [50]], 160, 21⟩] ∧
    onLoaded fileLastNameTwoValues
        (fun r => (r.indexVersion, r.toc, PostingsOffset r [98] [49, 53])) =
      .ok (2, ⟨14, 35⟩, .error (Err.wrap Ctx.getPostingsOffsetEntry Err.ErrInvalidSize)) := by
  constructor <;> rfl

set_option maxRecDepth 100000 in
/-- C6, at the failing input: in the version-1 header `fileLabelsV1` the entry
`("a", "1")` has posting offset 120; `PostingsOffset("a", "1")` starts at 120, the
address of the length prefix, not at 124. -/
theorem C6_v1_start_is_offset :
    tableEntries fileLabelsV1 35 = .ok fileLabelsEntries ∧
    onLoaded fileLabelsV1 (fun r => (r.indexVersion, PostingsOffset r [97] [49])) =
      .ok (1, .ok ⟨120, 139⟩) := by
  constructor <;> rfl

/-! ## `LabelValues` on a sorted version-2 table -/

theorem uvarintLoop_pos (buf : List Nat) (i x s v n : Nat)
    (h : uvarintLoop buf i x s = some (v, n)) : i < n := by
  induction buf generalizing i x s with
  | nil => simp [uvarintLoop] at h
  | cons c buf ih =>
    simp only [uvarintLoop] at h
    split at h
    · cases h
    · split at h
      · split at h
        · cases h
        · injection h with h
          injection h with h1 h2
          omega
      · have := ih _ _ _ h
        omega

theorem Uvarint64_lt (d : Decbuf) (h : d.Uvarint64.2.E = none) :
    d.Uvarint64.2.Len < d.Len := by
  unfold Decbuf.Uvarint64 at h ⊢
  cases hE : d.E with
  | some e => simp [hE] at h
  | none =>
    simp only [hE] at h ⊢
    cases hu : binaryUvarint d.B with
    | none => simp [hu] at h
    | some p =>
      obtain ⟨v, n⟩ := p
      have hpos := uvarintLoop_pos _ _ _ _ _ _ hu
      have hne : d.B ≠ [] := by
        intro h0
        rw [h0] at hu
        simp [binaryUvarint, uvarintLoop] at hu
      have hlen : 0 < d.B.length := List.length_pos.2 hne
      simp only [Decbuf.Len, List.length_drop]
      omega

theorem EntryDecodes.len_lt {d d1 : Decbuf} {e : TableEntry} (h : EntryDecodes d e d1) :
    d1.Len < d.Len := by
  obtain ⟨-, -, -, h4, h5⟩ := h
  have h6 : (readKeys e.key.length d.Uvarint.2).2.Uvarint64.2.E = none := by rw [h4]; exact h5
  have h7 := Uvarint64_ok _ h6
  have h8 := readKeys_ok _ _ h7.1
  have h9 : d1 = (readKeys e.key.length d.Uvarint.2).2.Uvarint64.2 := by rw [h4]
  have hsuf : d1.B <:+ d.Uvarint.2.B := by
    rw [h9]
    exact h7.2.trans h8.2
  have hE1 : d.Uvarint64.2.E = none := by
    by_cases hn : 0 < e.key.length
    · exact h8.1 hn
    · have h0 : e.key.length = 0 := by omega
      rw [h0] at h7
      simpa [readKeys] using h7.1
  have hlt := Uvarint64_lt d hE1
  have hle := hsuf.length_le
  simp only [Decbuf.Len, Uvarint_snd] at hlt hle ⊢
  omega

theorem first_of_name (n : Str) (ents : List TableEntry) (h : n ∈ tableNames ents) :
    ∃ pre e tl, ents = pre ++ e :: tl ∧ e.name = n ∧ n ∉ tableNames pre := by
  induction ents with
  | nil => simp [tableNames] at h
  | cons x ents ih =>
    by_cases hx : x.name = n
    · exact ⟨[], x, ents, rfl, hx, by simp [tableNames]⟩
    · have h1 : n ∈ tableNames ents := by
        simp only [tableNames, List.map_cons, List.mem_cons] at h
        rcases h with h | h
        · exact absurd h.symm hx
        · exact h
      obtain ⟨pre, e, tl, hs, he, hpre⟩ := ih h1
      refine ⟨x :: pre, e, tl, by rw [hs]; rfl, he, ?_⟩
      simp only [tableNames, List.map_cons, List.mem_cons, not_or]
      exact ⟨fun h => hx h.symm, hpre⟩

theorem samplesOf_cons_same (n : Str) (e : TableEntry) (tl : List TableEntry)
    (h : e.name = n) : samplesOf n (e :: tl) = e.sample :: samplesOf n tl := by
  simp [samplesOf, h]

/-- The scan of `LabelValues` over the entries of the name `n`, from the entry `e`
of that name on: it appends their values and stops at the last of them. -/
theorem labelValuesLoop_run (b : ByteSlice) (off : Nat) (content : List Nat)
    (hD : NewDecbufAt b (int64 off) false = ⟨content, none⟩) (n : Str) (kl : Nat)
    (lastVal : Str) (tl : List TableEntry) :
    ∀ (e : TableEntry) (d : Decbuf) (skip fuel : Nat) (acc : List Str),
      EntryChain content d (e :: tl) →
      (∀ x ∈ e :: tl, x.key.length = 2) →
      SortedTable (e :: tl) →
      e.name = n →
      (∀ x ∈ e :: tl, x.name = n → entryKeyLen b off x.tableOff = kl) →
      (skip = 0 ∨ skip = kl) →
      d.Len < fuel →
      (samplesOf n (e :: tl)).getLast?.map (fun s => s.value) = some lastVal →
      ∃ d1, d1.E = none ∧
        labelValuesLoop lastVal fuel d skip acc =
          (d1, acc ++ (samplesOf n (e :: tl)).map (fun s => s.value)) := by
  induction tl with
  | nil =>
    intro e d skip fuel acc hchain hall _ hen hkl hskip hfuel hlast
    obtain ⟨hskipd, d1, hdec, -⟩ := hchain.skip_tableOff
    have hlen := hall e (List.mem_cons_self _ _)
    obtain ⟨h1, h2, -, h4, h5, h6⟩ := hdec.two_keys hlen
    have hkle := hkl e (List.mem_cons_self _ _) hen
    rw [entryKeyLen_eq hD hskipd hdec] at hkle
    have hrs : readSkip d skip = (d.Uvarint.2.UvarintBytes.2, kl) := by
      rcases hskip with h0 | h0
      · rw [h0, hdec.readSkip_zero, hkle]
      · rw [h0]; exact hdec.readSkip_keyLen hlen kl hkle.symm
    have hv : (d.Uvarint.2.UvarintBytes.2).UvarintBytes =
        (e.value, (d.Uvarint.2.UvarintBytes.2).UvarintBytes.2) := by rw [← h4]
    have hE3 : (d.Uvarint.2.UvarintBytes.2).UvarintBytes.2.E = none := by
      have : (d.Uvarint.2.UvarintBytes.2).UvarintBytes.2.Uvarint64.2.E = none := by
        rw [h5]; exact h6
      exact (Uvarint64_ok _ this).1
    have hlv : e.value = lastVal := by
      rw [samplesOf_cons_same n e [] hen] at hlast
      simpa [samplesOf, TableEntry.sample] using hlast
    obtain ⟨f, rfl⟩ : ∃ f, fuel = f + 1 := ⟨fuel - 1, by omega⟩
    refine ⟨_, hE3, ?_⟩
    rw [labelValuesLoop]
    simp only [h1, hrs]
    rw [hv]
    simp only [hlv, if_true]
    rw [samplesOf_cons_same n e [] hen]
    simp [samplesOf, TableEntry.sample, hlv]
  | cons nx tl ih =>
    intro e d skip fuel acc hchain hall hsorted hen hkl hskip hfuel hlast
    obtain ⟨hskipd, d1, hdec, hchain1⟩ := hchain.skip_tableOff
    have hlen := hall e (List.mem_cons_self _ _)
    obtain ⟨h1, h2, -, h4, h5, h6⟩ := hdec.two_keys hlen
    have hkle := hkl e (List.mem_cons_self _ _) hen
    rw [entryKeyLen_eq hD hskipd hdec] at hkle
    have hrs : readSkip d skip = (d.Uvarint.2.UvarintBytes.2, kl) := by
      rcases hskip with h0 | h0
      · rw [h0, hdec.readSkip_zero, hkle]
      · rw [h0]; exact hdec.readSkip_keyLen hlen kl hkle.symm
    have hv : (d.Uvarint.2.UvarintBytes.2).UvarintBytes =
        (e.value, (d.Uvarint.2.UvarintBytes.2).UvarintBytes.2) := by rw [← h4]
    have hE3 : (d.Uvarint.2.UvarintBytes.2).UvarintBytes.2.E = none := by
      have : (d.Uvarint.2.UvarintBytes.2).UvarintBytes.2.Uvarint64.2.E = none := by
        rw [h5]; exact h6
      exact (Uvarint64_ok _ this).1
    have hd1 : (d.Uvarint.2.UvarintBytes.2).UvarintBytes.2.Uvarint64.2 = d1 := by rw [h5]
    obtain ⟨f, rfl⟩ : ∃ f, fuel = f + 1 := ⟨fuel - 1, by omega⟩
    by_cases hnx : nx.name = n
    · -- the next entry has the same name: the scan goes on
      have hsorted1 : SortedTable (nx :: tl) := (List.pairwise_cons.1 hsorted).2
      have hrel := (List.pairwise_cons.1 hsorted).1
      have hlast1 : (samplesOf n (nx :: tl)).getLast?.map (fun s => s.value) = some lastVal := by
        rw [samplesOf_cons_same n e _ hen, samplesOf_cons_same n nx _ hnx] at hlast
        rw [samplesOf_cons_same n nx _ hnx]
        rw [List.getLast?_cons_cons] at hlast
        exact hlast
      have hne : e.value ≠ lastVal := by
        cases hgl : (samplesOf n (nx :: tl)).getLast? with
        | none => rw [hgl] at hlast1; simp at hlast1
        | some s =>
          rw [hgl] at hlast1
          simp only [Option.map_some', Option.some.injEq] at hlast1
          have hmem := List.mem_of_getLast?_eq_some hgl
          simp only [samplesOf, List.mem_map, List.mem_filter, decide_eq_true_eq] at hmem
          obtain ⟨x, ⟨hx, hxn⟩, hxs⟩ := hmem
          have hr := hrel x hx
          rw [hen, hxn, strLt_irrefl] at hr
          rcases hr with hr | ⟨-, hr⟩
          · cases hr
          · intro heq
            have hxv : x.value = lastVal := by rw [← hlast1, ← hxs]; rfl
            rw [heq, ← hxv, strLt_irrefl] at hr
            cases hr
      obtain ⟨dend, hdendE, hrec⟩ := ih nx d1 kl f (acc ++ [e.value]) hchain1
        (fun x hx => hall x (List.mem_cons_of_mem _ hx)) hsorted1 hnx
        (fun x hx => hkl x (List.mem_cons_of_mem _ hx)) (Or.inr rfl)
        (by have := hdec.len_lt; omega) hlast1
      refine ⟨dend, hdendE, ?_⟩
      rw [labelValuesLoop]
      simp only [h1, hrs]
      rw [hv]
      simp only [hne, if_false, hd1, hrec]
      rw [samplesOf_cons_same n e _ hen]
      simp [TableEntry.sample]
    · -- the next entry has another name: `e` is the last of its name
      have hno := sorted_no_later [] tl e nx hsorted (by rw [hen]; exact hnx)
      rw [hen] at hno
      have hnil : samplesOf n (nx :: tl) = [] := samplesOf_eq_nil_of_not_mem _ _ hno
      have hlv : e.value = lastVal := by
        rw [samplesOf_cons_same n e _ hen, hnil] at hlast
        simpa [TableEntry.sample] using hlast
      refine ⟨_, hE3, ?_⟩
      rw [labelValuesLoop]
      simp only [h1, hrs]
      rw [hv]
      simp only [hlv, if_true]
      rw [samplesOf_cons_same n e _ hen, hnil]
      simp [TableEntry.sample, hlv]

theorem valuesOf_eq (name : Str) (ents : List TableEntry) :
    valuesOf name ents = (samplesOf name ents).map (fun s => s.value) := by
  simp [valuesOf, samplesOf, TableEntry.sample, Function.comp_def]

/-- C4, amended: in a version-2 header that the loader accepts, whose postings offset
table is sorted by (name, value) with distinct keys and in which the entries of one
label name write their key count and label name in the same number of bytes,
`LabelValues` of a label name of the table returns, without error, the label values
of the entries of that name and no other, each once and in table order; the list is
strictly ascending. -/
theorem C4_label_values_sorted_v2 (S : SymbolsOps) (b : ByteSlice) (r : BinaryReader S)
    (ents : List TableEntry) (name : Str)
    (hok : newFileBinaryReader S b = .ok r) (hv : r.indexVersion = FormatV2)
    (hents : tableEntries b r.toc.PostingsOffsetTable = .ok ents)
    (hsorted : SortedTable ents)
    (huni : UniformKeyLen b r.toc.PostingsOffsetTable ents)
    (hname : name ∈ tableNames ents) :
    LabelValues r name = .ok (valuesOf name ents) ∧
    (valuesOf name ents).Pairwise (fun a c => strLt a c = true) := by
  have hv1 : r.indexVersion ≠ FormatV1 := by rw [hv]; decide
  constructor
  · obtain ⟨ents1, hents1, hall, hget, -, hb⟩ := loaded_v2 hok hv1
    rw [hents] at hents1
    injection hents1 with hents1
    subst hents1
    obtain ⟨content, hD, hchain⟩ := tableEntries_chain _ _ _ hents
    obtain ⟨pre, e, tl, hsplit, hen, hpre⟩ := first_of_name name ents hname
    rw [hsplit] at hchain
    obtain ⟨d0, hchain0⟩ := EntryChain.drop pre _ hchain
    obtain ⟨hskip, -, -, -⟩ := hchain0.skip_tableOff
    have hsub : ∀ x ∈ e :: tl, x ∈ ents := by
      intro x hx
      rw [hsplit]
      exact List.mem_append_right _ hx
    have hes : samplesOf name ents = e.sample :: samplesOf name tl := by
      rw [hsplit, samplesOf_append, samplesOf_eq_nil_of_not_mem _ _ hpre, List.nil_append,
        samplesOf_cons_same name e tl hen]
    have hgetn : mapGet r.postings name = some (e.sample :: samplesOf name tl) := by
      rw [hget, if_pos hname, hes]
    have hsorted1 : SortedTable (e :: tl) := by
      rw [hsplit] at hsorted
      exact (List.pairwise_append.1 hsorted).2.1
    have hlastq : (samplesOf name (e :: tl)).getLast?.map (fun s => s.value) =
        some ((e.sample :: samplesOf name tl).getLast (List.cons_ne_nil _ _)).value := by
      rw [samplesOf_cons_same name e tl hen, List.getLast?_eq_getLast _ (List.cons_ne_nil _ _)]
      rfl
    obtain ⟨dend, hdendE, hloop⟩ := labelValuesLoop_run b r.toc.PostingsOffsetTable content hD
      name (entryKeyLen b r.toc.PostingsOffsetTable e.tableOff) _ tl e d0 0 (d0.Len + 1) []
      hchain0 (fun x hx => hall x (hsub x hx)) hsorted1 hen
      (fun x hx hxn => huni x (hsub x hx) e (hsub e (List.mem_cons_self _ _)) (by rw [hxn, hen]))
      (Or.inl rfl) (by omega) hlastq
    have hd : (NewDecbufAt r.b (int64 r.toc.PostingsOffsetTable) false).Skip
        e.sample.tableOff = d0 := by
      rw [hb, hD]
      exact hskip
    unfold LabelValues
    simp only [hv1, if_false, hgetn, hd, hloop, hdendE, List.nil_append]
    rw [valuesOf_eq, hes, samplesOf_cons_same name e tl hen]
  · rw [valuesOf_eq, List.pairwise_map]
    exact samplesOf_sorted name ents hsorted

/-- C4, witness: the values of the name `"a"` in `fileLabels`. -/
theorem C4_witness :
    ∃ r, newFileBinaryReader tsdbSymbols fileLabels = .ok r ∧
      LabelValues r [97] = .ok [[49], [50]] := by
  obtain ⟨r, hr, hver, hents, huni⟩ := fileLabels_reader_sorted
  exact ⟨r, hr, (C4_label_values_sorted_v2 tsdbSymbols fileLabels r fileLabelsEntries [97]
    hr hver hents fileLabels_sorted huni (by decide)).1⟩

set_option maxRecDepth 100000 in
/-- C4, counterexample: a version-2 header that the loader accepts, with the sorted
table `("", "a") -> 10`, `("", "c") -> 20`; the key count of the second entry is
written in two bytes. `LabelValues("")` fails with `ErrInvalidSize`. -/
theorem C4_counterexample :
    tableEntries fileLongKeyCount 26 = .ok [⟨[[], [97]], 10, 4⟩, ⟨[[], [99]], 20, 9⟩] ∧
    onLoaded fileLongKeyCount (fun r => (r.indexVersion, r.toc, LabelValues r [])) =
      .ok (2, ⟨14, 26⟩, .error (Err.wrap Ctx.getPostingsOffsetEntry Err.ErrInvalidSize)) := by
  constructor <;> rfl

/-! ## The builder: what it writes and what the loader reads back (C10) -/

theorem Uint64_PutBE64 (x : Nat) (h : x < 2 ^ 64) (rest : List Nat) :
    Uint64 (PutBE64 x ++ rest) = x := by
  have s1 : x / 2 ^ 56 % 256 = x / 2 ^ 56 := by omega
  have s2 : x / 2 ^ 56 * 256 + x / 2 ^ 48 % 256 = x / 2 ^ 48 := by omega
  have s3 : x / 2 ^ 48 * 256 + x / 2 ^ 40 % 256 = x / 2 ^ 40 := by omega
  have s4 : x / 2 ^ 40 * 256 + x / 2 ^ 32 % 256 = x / 2 ^ 32 := by omega
  have s5 : x / 2 ^ 32 * 256 + x / 2 ^ 24 % 256 = x / 2 ^ 24 := by omega
  have s6 : x / 2 ^ 24 * 256 + x / 2 ^ 16 % 256 = x / 2 ^ 16 := by omega
  have s7 : x / 2 ^ 16 * 256 + x / 2 ^ 8 % 256 = x / 2 ^ 8 := by omega
  have s8 : x / 2 ^ 8 * 256 + x % 256 = x := by omega
  simp only [Uint64, PutBE64, beNat, List.cons_append, List.nil_append, List.take_succ_cons,
    List.take_zero, List.foldl_cons, List.foldl_nil]
  rw [Nat.zero_mul, Nat.zero_add, s1, s2, s3, s4, s5, s6, s7, s8]

theorem Uint32_PutBE32 (x : Nat) (h : x < 2 ^ 32) (rest : List Nat) :
    Uint32 (PutBE32 x ++ rest) = x := by
  have s5 : x / 2 ^ 24 % 256 = x / 2 ^ 24 := by omega
  have s6 : x / 2 ^ 24 * 256 + x / 2 ^ 16 % 256 = x / 2 ^ 16 := by omega
  have s7 : x / 2 ^ 16 * 256 + x / 2 ^ 8 % 256 = x / 2 ^ 8 := by omega
  have s8 : x / 2 ^ 8 * 256 + x % 256 = x := by omega
  simp only [Uint32, PutBE32, beNat, List.cons_append, List.nil_append, List.take_succ_cons,
    List.take_zero, List.foldl_cons, List.foldl_nil]
  rw [Nat.zero_mul, Nat.zero_add, s5, s6, s7, s8]

theorem Crc32_lt (p : List Nat) : Crc32 p < 2 ^ 32 := by
  unfold Crc32
  exact Nat.xor_lt_two_pow (foldl_crcByte_lt p (by omega)) (by omega)

theorem int64_sub (a c : Nat) (h1 : c ≤ a) (h2 : a < 2 ^ 63) :
    int64 (uint64Sub a c) = ((a - c : Nat) : Int) := by
  unfold uint64Sub
  rw [if_pos h1]
  exact int64_small _ (by omega)

theorem uint64Sub_le (a c : Nat) (h1 : c ≤ a) : uint64Sub a c = a - c := by
  unfold uint64Sub
  rw [if_pos h1]

theorem GetRange_ok (obj : ByteSlice) (off len : Nat) (h : off + len ≤ obj.length) :
    GetRange obj (off : Int) (len : Int) = .ok ((obj.drop off).take len) := by
  unfold GetRange
  have : ¬ ((off : Int) < 0 ∨ (len : Int) < 0 ∨ (obj.length : Int) < (off : Int) + len) := by
    omega
  rw [if_neg this]
  simp

theorem NewTOCFromByteSlice_drop (obj : ByteSlice) (k : Nat) (h : k + 52 ≤ obj.length) :
    NewTOCFromByteSlice (obj.drop k) = NewTOCFromByteSlice obj := by
  unfold NewTOCFromByteSlice
  have h1 : ¬ (obj.drop k).length < indexTOCLen := by simp [indexTOCLen]; omega
  have h2 : ¬ obj.length < indexTOCLen := by simp [indexTOCLen]; omega
  have h3 : (obj.drop k).drop ((obj.drop k).length - indexTOCLen) =
      obj.drop (obj.length - indexTOCLen) := by
    rw [List.drop_drop]
    congr 1
    simp [indexTOCLen]
    omega
  simp only [h1, h2, if_false, h3]

/-! ### The run of the builder in which no call fails -/

theorem noFault_objectSize : BuildEnv.noFault.objectSize = none := rfl

theorem noFault_readHeader : BuildEnv.noFault.readHeader = none := rfl

theorem noFault_closeHeader : BuildEnv.noFault.closeHeader = none := rfl

theorem noFault_readTOCBytes : BuildEnv.noFault.readTOCBytes = none := rfl

theorem noFault_closeTOC : BuildEnv.noFault.closeTOC = none := rfl

theorem noFault_openDir : BuildEnv.noFault.openDir = none := rfl

theorem noFault_removeAll : BuildEnv.noFault.removeAll = none := rfl

theorem noFault_newFileWriter : BuildEnv.noFault.newFileWriter = none := rfl

theorem noFault_syncDir : BuildEnv.noFault.syncDir = none := rfl

theorem noFault_writeMagic : BuildEnv.noFault.writeMagic = none := rfl

theorem noFault_closeDir : BuildEnv.noFault.closeDir = none := rfl

theorem noFault_writeMeta : BuildEnv.noFault.writeMeta = none := rfl

theorem noFault_copySymbols : BuildEnv.noFault.copySymbols = none := rfl

theorem noFault_closeSymbols : BuildEnv.noFault.closeSymbols = none := rfl

theorem noFault_flushSymbols : BuildEnv.noFault.flushSymbols = none := rfl

theorem noFault_copyPostings : BuildEnv.noFault.copyPostings = none := rfl

theorem noFault_closePostings : BuildEnv.noFault.closePostings = none := rfl

theorem noFault_flushPostings : BuildEnv.noFault.flushPostings = none := rfl

theorem noFault_writeTOC : BuildEnv.noFault.writeTOC = none := rfl

theorem noFault_closeWriter : BuildEnv.noFault.closeWriter = none := rfl

theorem newBinaryWriter_noFault (old : Option ByteSlice) :
    newBinaryWriter BuildEnv.noFault old =
      (some [], some ⟨⟨[], PutBE32 MagicIndex ++ [BinaryFormatV1]⟩, ⟨0, 0⟩⟩, none) := rfl

theorem CopySymbols_error (env : BuildEnv) (r : chunkedIndexReader) (w : binaryWriter)
    (e : Err)
    (h : GetRange r.obj (int64 r.toc.Symbols) (int64 (uint64Sub r.toc.Series r.toc.Symbols)) =
      .error e) :
    CopySymbols env r w = (w, some (Err.wrap Ctx.getSymbolsFromObjectStorage e)) := by
  unfold CopySymbols
  rw [h]

theorem CopySymbols_noFault (r : chunkedIndexReader) (w : binaryWriter) (rc : ByteSlice)
    (h : GetRange r.obj (int64 r.toc.Symbols) (int64 (uint64Sub r.toc.Series r.toc.Symbols)) =
      .ok rc) :
    CopySymbols BuildEnv.noFault r w = (⟨⟨w.f.disk, w.f.buf ++ rc⟩, w.toc⟩, none) := by
  unfold CopySymbols
  rw [h]
  rfl

theorem CopyPostingsOffsets_error (env : BuildEnv) (r : chunkedIndexReader) (w : binaryWriter)
    (e : Err)
    (h : GetRange r.obj (int64 r.toc.PostingsTable)
      (int64 (uint64Sub r.size r.toc.PostingsTable)) = .error e) :
    CopyPostingsOffsets env r w =
      (w, some (Err.wrap Ctx.getPostingOffsetTableFromObjectStorage e)) := by
  unfold CopyPostingsOffsets
  rw [h]

theorem CopyPostingsOffsets_noFault (r : chunkedIndexReader) (w : binaryWriter)
    (rc : ByteSlice)
    (h : GetRange r.obj (int64 r.toc.PostingsTable)
      (int64 (uint64Sub r.size r.toc.PostingsTable)) = .ok rc) :
    CopyPostingsOffsets BuildEnv.noFault r w = (⟨⟨w.f.disk, w.f.buf ++ rc⟩, w.toc⟩, none) := by
  unfold CopyPostingsOffsets
  rw [h]
  rfl

theorem PutBE32_length (x : Nat) : (PutBE32 x).length = 4 := rfl

theorem PutBE64_length (x : Nat) : (PutBE64 x).length = 8 := rfl

/-- The run without a failing call when the ranged read of the symbols fails: the
file holds the 14 header bytes. -/
theorem WriteBinary_noFault_symbols_error (magic : Nat) (obj : ByteSlice)
    (old : Option ByteSlice) (ir : chunkedIndexReader) (v : Nat) (e : Err)
    (hcr : newChunkedIndexReader BuildEnv.noFault magic obj = .ok (ir, v))
    (hs : GetRange ir.obj (int64 ir.toc.Symbols)
      (int64 (uint64Sub ir.toc.Series ir.toc.Symbols)) = .error e) :
    WriteBinary BuildEnv.noFault magic obj old =
      ⟨some (PutBE32 MagicIndex ++ [BinaryFormatV1] ++
          ([v % 256] ++ PutBE64 ir.toc.PostingsTable)),
        some (Err.multi1 (Err.wrap Ctx.getSymbolsFromObjectStorage e))⟩ := by
  unfold WriteBinary
  simp only [hcr, newBinaryWriter_noFault]
  simp [writeSections, binaryWriter.AddIndexMeta, FileWriter.Write, noFault_writeMeta,
    CopySymbols_error _ _ _ _ hs, binaryWriter.Close, FileWriter.Close, FileWriter.Flush,
    noFault_closeWriter, CloseWithErrCapture, captureErr, binaryWriter.SymbolsWriter]

/-- The run without a failing call when the ranged read of the postings offsets fails:
the file holds the header and the symbols. -/
theorem WriteBinary_noFault_postings_error (magic : Nat) (obj : ByteSlice)
    (old : Option ByteSlice) (ir : chunkedIndexReader) (v : Nat) (symbols : ByteSlice) (e : Err)
    (hcr : newChunkedIndexReader BuildEnv.noFault magic obj = .ok (ir, v))
    (hs : GetRange ir.obj (int64 ir.toc.Symbols)
      (int64 (uint64Sub ir.toc.Series ir.toc.Symbols)) = .ok symbols)
    (hp : GetRange ir.obj (int64 ir.toc.PostingsTable)
      (int64 (uint64Sub ir.size ir.toc.PostingsTable)) = .error e) :
    WriteBinary BuildEnv.noFault magic obj old =
      ⟨some (PutBE32 MagicIndex ++ [BinaryFormatV1] ++
          ([v % 256] ++ PutBE64 ir.toc.PostingsTable) ++ symbols),
        some (Err.multi1 (Err.wrap Ctx.getPostingOffsetTableFromObjectStorage e))⟩ := by
  unfold WriteBinary
  simp only [hcr, newBinaryWriter_noFault]
  simp [writeSections, binaryWriter.AddIndexMeta, FileWriter.Write, noFault_writeMeta,
    CopySymbols_noFault _ _ _ hs, CopyPostingsOffsets_error _ _ _ _ hp, binaryWriter.Flush,
    noFault_flushSymbols, binaryWriter.Close, FileWriter.Close, FileWriter.Flush,
    noFault_closeWriter, CloseWithErrCapture, captureErr, binaryWriter.SymbolsWriter,
    binaryWriter.PostingOffsetsWriter]

/-- The run without a failing call when both ranged reads of the copy succeed: the
file holds the header, the symbols, the postings offsets and the header-TOC, and no
error is returned. -/
theorem WriteBinary_noFault_ok (magic : Nat) (obj : ByteSlice)
    (old : Option ByteSlice) (ir : chunkedIndexReader) (v : Nat) (symbols postings : ByteSlice)
    (hcr : newChunkedIndexReader BuildEnv.noFault magic obj = .ok (ir, v))
    (hs : GetRange ir.obj (int64 ir.toc.Symbols)
      (int64 (uint64Sub ir.toc.Series ir.toc.Symbols)) = .ok symbols)
    (hp : GetRange ir.obj (int64 ir.toc.PostingsTable)
      (int64 (uint64Sub ir.size ir.toc.PostingsTable)) = .ok postings) :
    WriteBinary BuildEnv.noFault magic obj old =
      ⟨some (PutBE32 MagicIndex ++ [BinaryFormatV1] ++
          ([v % 256] ++ PutBE64 ir.toc.PostingsTable) ++ symbols ++ postings ++
          (PutBE64 14 ++ PutBE64 (14 + symbols.length) ++
            PutBE32 (Crc32 (PutBE64 14 ++ PutBE64 (14 + symbols.length))))),
        none⟩ := by
  unfold WriteBinary
  simp only [hcr, newBinaryWriter_noFault]
  simp [writeSections, binaryWriter.AddIndexMeta, FileWriter.Write, noFault_writeMeta,
    CopySymbols_noFault _ _ _ hs, CopyPostingsOffsets_noFault _ _ _ hp, binaryWriter.Flush,
    noFault_flushSymbols, noFault_flushPostings, noFault_writeTOC, binaryWriter.Close,
    FileWriter.Close, FileWriter.Flush, noFault_closeWriter, CloseWithErrCapture,
    binaryWriter.SymbolsWriter, binaryWriter.PostingOffsetsWriter, binaryWriter.WriteTOC,
    binaryWriter.Write, FileWriter.Pos, PutBE32_length, PutBE64_length]
  have h14 : 4 + (8 + symbols.length + 1 + 1) = 14 + symbols.length := by omega
  rw [h14]

/-- The file `WriteBinary` writes for an index with a readable header and TOC. -/
theorem WriteBinary_ok (magic : Nat) (obj : ByteSlice) (old : Option ByteSlice)
    (toc : IndexTOC)
    (hsize : obj.length < 2 ^ 63)
    (hlen : indexHeaderLen + indexTOCLen ≤ obj.length)
    (hmagic : Uint32 (obj.take 4) = magic)
    (hv : obj.getD 4 0 = FormatV1 ∨ obj.getD 4 0 = FormatV2)
    (htoc : NewTOCFromByteSlice obj = .ok toc)
    (h1 : toc.Symbols ≤ toc.Series) (h2 : toc.Series ≤ obj.length)
    (h3 : toc.PostingsTable ≤ obj.length) :
    WriteBinary BuildEnv.noFault magic obj old =
      ⟨some (PutBE32 MagicIndex ++ [BinaryFormatV1] ++
          ([obj.getD 4 0 % 256] ++ PutBE64 toc.PostingsTable) ++
          (obj.drop toc.Symbols).take (toc.Series - toc.Symbols) ++
          (obj.drop toc.PostingsTable).take (obj.length - toc.PostingsTable) ++
          (PutBE64 14 ++ PutBE64 (14 + (toc.Series - toc.Symbols)) ++
            PutBE32 (Crc32 (PutBE64 14 ++ PutBE64 (14 + (toc.Series - toc.Symbols)))))),
        none⟩ := by
  simp only [indexHeaderLen, indexTOCLen] at hlen
  have hhdr : GetRange obj 0 indexHeaderLen = .ok (obj.take 5) := by
    have := GetRange_ok obj 0 5 (by omega)
    simpa [indexHeaderLen] using this
  have hb4 : (obj.take 5).take 4 = obj.take 4 := by rw [List.take_take]; rfl
  have hb5 : (obj.take 5).getD 4 0 = obj.getD 4 0 := by
    simp [List.getD_eq_getElem?_getD, List.getElem?_take]
  have hrt : readTOC BuildEnv.noFault obj obj.length = .ok toc := by
    unfold readTOC
    have e1 : int64 (uint64Sub (uint64Sub obj.length indexTOCLen) 4) =
        ((obj.length - 56 : Nat) : Int) := by
      have e0 : uint64Sub obj.length indexTOCLen = obj.length - 52 :=
        uint64Sub_le _ _ (by simp only [indexTOCLen]; omega)
      rw [e0, int64_sub _ 4 (by omega) (by omega)]
      congr 1
    have e2 : ((indexTOCLen : Nat) : Int) + 4 = ((56 : Nat) : Int) := by simp [indexTOCLen]
    rw [e1, e2, GetRange_ok obj (obj.length - 56) 56 (by omega)]
    have e3 : (obj.drop (obj.length - 56)).take 56 = obj.drop (obj.length - 56) := by
      apply List.take_of_length_le
      simp
      omega
    simp only [e3, noFault_readTOCBytes, noFault_closeTOC]
    rw [NewTOCFromByteSlice_drop obj _ (by omega), htoc]
  have hnot : ¬ (obj.getD 4 0 ≠ FormatV1 ∧ obj.getD 4 0 ≠ FormatV2) := by
    rintro ⟨ha, hb⟩
    rcases hv with h | h
    · exact ha h
    · exact hb h
  have hcr : newChunkedIndexReader BuildEnv.noFault magic obj =
      .ok (⟨obj, obj.length, toc⟩, obj.getD 4 0) := by
    unfold newChunkedIndexReader
    simp only [noFault_objectSize, noFault_readHeader, noFault_closeHeader, hhdr, hb4, hb5,
      hmagic, ne_eq, not_true_eq_false, if_false, hnot, hrt]
  have hsym : GetRange obj (int64 toc.Symbols) (int64 (uint64Sub toc.Series toc.Symbols)) =
      .ok ((obj.drop toc.Symbols).take (toc.Series - toc.Symbols)) := by
    rw [int64_small toc.Symbols (by omega), int64_sub toc.Series toc.Symbols h1 (by omega),
      GetRange_ok obj _ _ (by omega)]
  have hpost : GetRange obj (int64 toc.PostingsTable)
      (int64 (uint64Sub obj.length toc.PostingsTable)) =
      .ok ((obj.drop toc.PostingsTable).take (obj.length - toc.PostingsTable)) := by
    rw [int64_small toc.PostingsTable (by omega),
      int64_sub obj.length toc.PostingsTable h3 hsize, GetRange_ok obj _ _ (by omega)]
  have hsymlen : ((obj.drop toc.Symbols).take (toc.Series - toc.Symbols)).length =
      toc.Series - toc.Symbols := by
    simp
    omega
  rw [WriteBinary_noFault_ok magic obj old ⟨obj, obj.length, toc⟩ (obj.getD 4 0) _ _ hcr hsym
    hpost, hsymlen]

theorem int64_pred (p : Nat) (h : p < 2 ^ 63) : int64 (uint64Sub p 1) = (p : Int) - 1 := by
  by_cases h0 : 1 ≤ p
  · rw [int64_sub p 1 h0 h]
    omega
  · have hp : p = 0 := by omega
    subst hp
    decide

/-- The header of a file that starts with the magic number, the header-format
version 1, a version byte `v` and the eight bytes of `p`. -/
theorem verifyHeader_written (v p : Nat) (rest : List Nat) (hv : v < 256)
    (hp : p < 2 ^ 63) :
    verifyHeader (PutBE32 MagicIndex ++ [BinaryFormatV1] ++ ([v % 256] ++ PutBE64 p) ++ rest) =
      .ok ⟨1, v, (p : Int) - 1⟩ := by
  have hout : PutBE32 MagicIndex ++ [BinaryFormatV1] ++ ([v % 256] ++ PutBE64 p) ++ rest =
      PutBE32 MagicIndex ++ (BinaryFormatV1 :: v :: (PutBE64 p ++ rest)) := by
    rw [Nat.mod_eq_of_lt hv]
    simp
  rw [hout]
  have hlen : ¬ (PutBE32 MagicIndex ++ (BinaryFormatV1 :: v :: (PutBE64 p ++ rest))).length
      < headerLen := by
    simp [PutBE32_length, PutBE64_length, headerLen]
    omega
  have t4 : (PutBE32 MagicIndex ++ (BinaryFormatV1 :: v :: (PutBE64 p ++ rest))).take 4 =
      PutBE32 MagicIndex := List.take_left' (PutBE32_length _)
  have hm : Uint32 (PutBE32 MagicIndex) = MagicIndex := by
    have := Uint32_PutBE32 MagicIndex (by decide) []
    rwa [List.append_nil] at this
  have g4 : (PutBE32 MagicIndex ++ (BinaryFormatV1 :: v :: (PutBE64 p ++ rest))).getD 4 0 =
      BinaryFormatV1 := by
    simp [PutBE32]
  have g5 : (PutBE32 MagicIndex ++ (BinaryFormatV1 :: v :: (PutBE64 p ++ rest))).getD 5 0 =
      v := by
    simp [PutBE32]
  have d6 : ((PutBE32 MagicIndex ++ (BinaryFormatV1 :: v :: (PutBE64 p ++ rest))).drop 6).take 8
      = PutBE64 p := by
    have : (PutBE32 MagicIndex ++ (BinaryFormatV1 :: v :: (PutBE64 p ++ rest))).drop 6 =
        PutBE64 p ++ rest := by
      simp [PutBE32]
    rw [this]
    exact List.take_left' (PutBE64_length _)
  have hu : Uint64 (PutBE64 p) = p := by
    have := Uint64_PutBE64 p (by omega) []
    rwa [List.append_nil] at this
  unfold verifyHeader
  rw [if_neg hlen, t4, hm]
  simp only [ne_eq, not_true_eq_false, if_false, g4, g5, d6, hu, int64_pred p hp]
  rfl

/-- The TOC of a file that ends with the two offsets and their CRC32. -/
theorem newBinaryTOCFromByteSlice_written (hd : List Nat) (s t : Nat) (hs : s < 2 ^ 64)
    (ht : t < 2 ^ 64) :
    newBinaryTOCFromByteSlice
      (hd ++ (PutBE64 s ++ PutBE64 t ++ PutBE32 (Crc32 (PutBE64 s ++ PutBE64 t)))) =
      .ok ⟨s, t⟩ := by
  have hlen : (PutBE64 s ++ PutBE64 t).length = 16 := rfl
  rw [newBinaryTOCFromByteSlice_append hd _ _ hlen (PutBE32_length _)]
  have hc : Uint32 (PutBE32 (Crc32 (PutBE64 s ++ PutBE64 t))) =
      Crc32 (PutBE64 s ++ PutBE64 t) := by
    have := Uint32_PutBE32 _ (Crc32_lt (PutBE64 s ++ PutBE64 t)) []
    rwa [List.append_nil] at this
  have h1 : Uint64 (PutBE64 s ++ PutBE64 t) = s := Uint64_PutBE64 s hs _
  have h2 : Uint64 ((PutBE64 s ++ PutBE64 t).drop 8) = t := by
    rw [List.drop_left' (PutBE64_length s)]
    have := Uint64_PutBE64 t ht []
    rwa [List.append_nil] at this
  rw [hc, h1, h2]
  simp

/-- C10: for an index in the object store with the magic number, a version `v` that
is 1 or 2, and a TOC that passes its checksum with `Symbols <= Series <= size` and
`PostingsTable <= size`, `WriteBinary`, in the run in which no call to the streams of
the object store and to the local file system fails, writes a file without error; the
loader's check
of length, magic and header-format version passes on it and reads header-format
version 1, index version `v` and `indexLastPostingEnd = PostingsTable - 1`; the TOC
passes its checksum and is `Symbols = 14`, `PostingsOffsetTable = 14 + (Series -
Symbols)`; and a reader the loader returns for the file carries these values. -/
theorem C10_build_then_load_header (magic : Nat) (obj : ByteSlice)
    (old : Option ByteSlice) (toc : IndexTOC) (v : Nat)
    (hsize : obj.length < 2 ^ 63)
    (hlen : indexHeaderLen + indexTOCLen ≤ obj.length)
    (hmagic : Uint32 (obj.take 4) = magic)
    (hver : obj.getD 4 0 = v) (hv : v = FormatV1 ∨ v = FormatV2)
    (htoc : NewTOCFromByteSlice obj = .ok toc)
    (h1 : toc.Symbols ≤ toc.Series) (h2 : toc.Series ≤ obj.length)
    (h3 : toc.PostingsTable ≤ obj.length) :
    ∃ out, WriteBinary BuildEnv.noFault magic obj old = ⟨some out, none⟩ ∧
      verifyHeader out = .ok ⟨1, v, (toc.PostingsTable : Int) - 1⟩ ∧
      newBinaryTOCFromByteSlice out = .ok ⟨14, 14 + (toc.Series - toc.Symbols)⟩ ∧
      ∀ (S : SymbolsOps) (r : BinaryReader S), newFileBinaryReader S out = .ok r →
        r.version = 1 ∧ r.indexVersion = v ∧
        r.indexLastPostingEnd = (toc.PostingsTable : Int) - 1 ∧
        r.toc = ⟨14, 14 + (toc.Series - toc.Symbols)⟩ := by
  have hv256 : v < 256 := by
    rcases hv with h | h <;> rw [h] <;> decide
  have hw := WriteBinary_ok magic obj old toc hsize hlen hmagic (by rw [hver]; exact hv) htoc
    h1 h2 h3
  rw [hver] at hw
  have hvh := verifyHeader_written v toc.PostingsTable
    ((obj.drop toc.Symbols).take (toc.Series - toc.Symbols) ++
      (obj.drop toc.PostingsTable).take (obj.length - toc.PostingsTable) ++
      (PutBE64 14 ++ PutBE64 (14 + (toc.Series - toc.Symbols)) ++
        PutBE32 (Crc32 (PutBE64 14 ++ PutBE64 (14 + (toc.Series - toc.Symbols))))))
    hv256 (by omega)
  have htc := newBinaryTOCFromByteSlice_written
    (PutBE32 MagicIndex ++ [BinaryFormatV1] ++ ([v % 256] ++ PutBE64 toc.PostingsTable) ++
      (obj.drop toc.Symbols).take (toc.Series - toc.Symbols) ++
      (obj.drop toc.PostingsTable).take (obj.length - toc.PostingsTable))
    14 (14 + (toc.Series - toc.Symbols)) (by omega) (by omega)
  simp only [List.append_assoc] at hw hvh htc
  refine ⟨_, hw, hvh, htc, ?_⟩
  intro S r hok
  obtain ⟨h, hh, htoc2, -, -, hrv, hriv, hrl⟩ := newFileBinaryReader_ok hok
  rw [hvh] at hh
  injection hh with hh
  subst hh
  rw [htc] at htoc2
  injection htoc2 with htoc2
  exact ⟨hrv, hriv, hrl, htoc2.symm⟩

set_option maxRecDepth 100000 in
theorem indexSmall_toc : NewTOCFromByteSlice indexSmall = .ok ⟨5, 26, 40, 40, 40, 56⟩ := by
  rfl

set_option maxRecDepth 100000 in
/-- C10, witness: the header built from `indexSmall`. -/
theorem C10_witness :
    ∃ out, WriteBinary BuildEnv.noFault 0xBAAAD700 indexSmall none = ⟨some out, none⟩ ∧
      verifyHeader out = .ok ⟨1, 2, 55⟩ ∧
      newBinaryTOCFromByteSlice out = .ok ⟨14, 35⟩ := by
  obtain ⟨out, h1, h2, h3, -⟩ := C10_build_then_load_header 0xBAAAD700 indexSmall none
    ⟨5, 26, 40, 40, 40, 56⟩ 2 (by decide) (by decide) (by decide) (by decide)
    (Or.inr rfl) indexSmall_toc (by decide) (by decide) (by decide)
  exact ⟨out, h1, h2, h3⟩

/-! ## The closer of the reader (C13) -/

/-- C13, at the code: a reader the loader returns holds its mapped file open, and
`Close` returns nil and hands back the reader unchanged, so the mapped file is still
open after `Close`. -/
theorem C13_close_leaves_mapping_open (S : SymbolsOps) (b : ByteSlice) (r : BinaryReader S)
    (hok : newFileBinaryReader S b = .ok r) :
    r.c.closed = false ∧ (Close r).2 = none ∧ (Close r).1.c.closed = false := by
  have hc : r.c.closed = false := by
    unfold newFileBinaryReader at hok
    split at hok
    · cases hok
    · rename_i f hf
      have hf2 := (OpenMmapFile_ok hf).2
      subst hf2
      split at hok
      · cases hok
      · split at hok
        · cases hok
        · split at hok
          · cases hok
          · split at hok
            · cases hok
            · split at hok
              · cases hok
              · cases hok
                rfl
  exact ⟨hc, rfl, hc⟩

/-- C13, at the failing input: the reader of `fileTwoValues` after `Close`. -/
theorem C13_witness :
    ∃ r, newFileBinaryReader tsdbSymbols fileTwoValues = .ok r ∧
      (Close r).2 = none ∧ (Close r).1.c.closed = false := by
  obtain ⟨r, hr⟩ := exists_ok_of_toBool _ fileTwoValues_loads
  exact ⟨r, hr, (C13_close_leaves_mapping_open tsdbSymbols fileTwoValues r hr).2⟩

/-! ## Entries whose key count is not 2 (C19) -/

theorem v1Callback_key_length (st : V1State) (key : List Str) (o t : Nat) :
    (key.length ≠ 2 → v1Callback st key o t = .error (Err.unexpectedKeyLength key.length)) ∧
    (key.length = 2 → ∃ st1, v1Callback st key o t = .ok st1) := by
  constructor
  · intro h
    simp [v1Callback, h]
  · intro h
    unfold v1Callback
    simp only [h, ne_eq, not_true_eq_false, if_false]
    split
    · exact ⟨_, rfl⟩
    · exact ⟨_, rfl⟩

theorem v2Callback_key_length (st : V2State) (key : List Str) (o t : Nat) :
    (key.length ≠ 2 → v2Callback st key o t = .error (Err.unexpectedKeyLength key.length)) ∧
    (key.length = 2 → ∃ st1, v2Callback st key o t = .ok st1) := by
  constructor
  · intro h
    simp [v2Callback, h]
  · intro h
    unfold v2Callback
    simp only [h, ne_eq, not_true_eq_false, if_false]
    split
    · exact ⟨_, rfl⟩
    · exact ⟨_, rfl⟩

/-- A walk whose callback rejects exactly the entries with a key count other than 2
ends at the first such entry with its error. -/
theorem foldEntries_bad_key {σ : Type} (f : σ → List Str → Nat → Nat → Except Err σ)
    (hf : ∀ s key o t,
      (key.length ≠ 2 → f s key o t = .error (Err.unexpectedKeyLength key.length)) ∧
      (key.length = 2 → ∃ s1, f s key o t = .ok s1))
    (ents : List TableEntry) (s : σ) (hbad : ∃ e ∈ ents, e.key.length ≠ 2) :
    ∃ e ∈ ents, e.key.length ≠ 2 ∧
      foldEntries f ents s = .error (Err.unexpectedKeyLength e.key.length) := by
  induction ents generalizing s with
  | nil =>
    obtain ⟨e, he, -⟩ := hbad
    cases he
  | cons x ents ih =>
    by_cases hx : x.key.length = 2
    · obtain ⟨s1, hs1⟩ := (hf s x.key x.off x.tableOff).2 hx
      have hbad1 : ∃ e ∈ ents, e.key.length ≠ 2 := by
        obtain ⟨e, he, hne⟩ := hbad
        rcases List.mem_cons.1 he with rfl | he
        · exact absurd hx hne
        · exact ⟨e, he, hne⟩
      obtain ⟨e, he, hne, hfold⟩ := ih s1 hbad1
      refine ⟨e, List.mem_cons_of_mem _ he, hne, ?_⟩
      simp only [foldEntries, hs1]
      exact hfold
    · refine ⟨x, List.mem_cons_self _ _, hx, ?_⟩
      simp only [foldEntries, (hf s x.key x.off x.tableOff).1 hx]

/-- C19: a file passes the check of the header and of the TOC, and its postings offset
table has the entries `ents`, one of which has a key count other than 2 (the number
of its keys is the key count read). Then the loader returns an error and no reader,
whatever the original-index version; when the symbols section is read without error,
the error is "unexpected key length" of such an entry, wrapped with "read postings
table". -/
theorem C19_key_count_checked (S : SymbolsOps) (b : ByteSlice) (h : HeaderFields)
    (toc : BinaryTOC) (ents : List TableEntry)
    (hh : verifyHeader b = .ok h) (htoc : newBinaryTOCFromByteSlice b = .ok toc)
    (hents : tableEntries b toc.PostingsOffsetTable = .ok ents)
    (hbad : ∃ e ∈ ents, e.key.length ≠ 2) :
    (∃ err, newFileBinaryReader S b = .error err) ∧
    (∀ sy, S.NewSymbols b h.indexVersion (int64 toc.Symbols) = .ok sy →
      ∃ e ∈ ents, e.key.length ≠ 2 ∧
        newFileBinaryReader S b =
          .error (Err.wrap Ctx.readPostingsTable (Err.unexpectedKeyLength e.key.length))) := by
  have hload : ∃ e ∈ ents, e.key.length ≠ 2 ∧
      loadPostings b toc h =
        .error (Err.wrap Ctx.readPostingsTable (Err.unexpectedKeyLength e.key.length)) := by
    unfold loadPostings
    by_cases hv : h.indexVersion = FormatV1
    · obtain ⟨e, he, hne, hfold⟩ := foldEntries_bad_key v1Callback v1Callback_key_length ents
        (⟨[], [], none, ⟨0, 0⟩⟩ : V1State) hbad
      refine ⟨e, he, hne, ?_⟩
      simp only [hv, if_true, ReadOffsetTable_eq_fold _ _ _ _ _ hents, hfold]
    · obtain ⟨e, he, hne, hfold⟩ := foldEntries_bad_key v2Callback v2Callback_key_length ents
        (⟨[], none, 0, 0⟩ : V2State) hbad
      refine ⟨e, he, hne, ?_⟩
      simp only [hv, if_false, ReadOffsetTable_eq_fold _ _ _ _ _ hents, hfold]
  obtain ⟨e, he, hne, hl⟩ := hload
  have hm : OpenMmapFile b = .ok ⟨false⟩ :=
    OpenMmapFile_of_pos b (by have := (verifyHeader_ok b h hh).1; omega)
  constructor
  · unfold newFileBinaryReader
    simp only [hm, hh, htoc]
    split
    · exact ⟨_, rfl⟩
    · simp only [hl]
      exact ⟨_, rfl⟩
  · intro sy hsy
    refine ⟨e, he, hne, ?_⟩
    unfold newFileBinaryReader
    simp only [hm, hh, htoc, hsy, hl]

set_option maxRecDepth 100000 in
theorem fileKeyCountOne_stages :
    verifyHeader fileKeyCountOne = .ok ⟨1, 2, 299⟩ ∧
    newBinaryTOCFromByteSlice fileKeyCountOne = .ok ⟨14, 26⟩ ∧
    tableEntries fileKeyCountOne 26 = .ok [⟨[[], [97]], 10, 4⟩, ⟨[[120]], 20, 9⟩] := by
  refine ⟨rfl, rfl, rfl⟩

set_option maxRecDepth 100000 in
theorem fileKeyCountOneV1_stages :
    verifyHeader fileKeyCountOneV1 = .ok ⟨1, 1, 299⟩ ∧
    newBinaryTOCFromByteSlice fileKeyCountOneV1 = .ok ⟨14, 26⟩ ∧
    tableEntries fileKeyCountOneV1 26 = .ok [⟨[[], [97]], 10, 4⟩, ⟨[[120]], 20, 9⟩] := by
  refine ⟨rfl, rfl, rfl⟩

set_option maxRecDepth 100000 in
/-- C19, witness: the table `("", "a") -> 10`, `("x") -> 20` under original-index
version 2 and under version 1; the error names the key count 1. -/
theorem C19_witness :
    (∃ err, newFileBinaryReader tsdbSymbols fileKeyCountOne = .error err) ∧
    (∃ err, newFileBinaryReader tsdbSymbols fileKeyCountOneV1 = .error err) ∧
    (newFileBinaryReader tsdbSymbols fileKeyCountOne).map (fun r => r.indexVersion) =
      .error (Err.wrap Ctx.readPostingsTable (Err.unexpectedKeyLength 1)) ∧
    (newFileBinaryReader tsdbSymbols fileKeyCountOneV1).map (fun r => r.indexVersion) =
      .error (Err.wrap Ctx.readPostingsTable (Err.unexpectedKeyLength 1)) :=
  ⟨(C19_key_count_checked tsdbSymbols fileKeyCountOne ⟨1, 2, 299⟩ ⟨14, 26⟩ _
      fileKeyCountOne_stages.1 fileKeyCountOne_stages.2.1 fileKeyCountOne_stages.2.2
      ⟨⟨[[120]], 20, 9⟩, by simp, by decide⟩).1,
   (C19_key_count_checked tsdbSymbols fileKeyCountOneV1 ⟨1, 1, 299⟩ ⟨14, 26⟩ _
      fileKeyCountOneV1_stages.1 fileKeyCountOneV1_stages.2.1 fileKeyCountOneV1_stages.2.2
      ⟨⟨[[120]], 20, 9⟩, by simp, by decide⟩).1,
   rfl, rfl⟩

/-! ## The samples of a label name on the version-2 path (C16, C17, C20) -/

/-- The samples of a label name whose entries form the run `run` of the table. -/
theorem samplesOf_run (n : Str) (pre run post : List TableEntry)
    (hrun : ∀ e ∈ run, e.name = n) (hpre : n ∉ tableNames pre) (hpost : n ∉ tableNames post) :
    samplesOf n (pre ++ run ++ post) = run.map TableEntry.sample := by
  rw [samplesOf_append, samplesOf_append, samplesOf_eq_nil_of_not_mem _ _ hpre,
    samplesOf_eq_nil_of_not_mem _ _ hpost, List.nil_append, List.append_nil]
  unfold samplesOf
  congr 1
  rw [List.filter_eq_self]
  intro e he
  simp [hrun e he]

/-- The sample list of a label name whose entries form the run `run` of the table. -/
theorem loaded_run {S : SymbolsOps} {b : ByteSlice} {r : BinaryReader S}
    {ents pre run post : List TableEntry} {n : Str}
    (hok : newFileBinaryReader S b = .ok r) (hv : r.indexVersion = FormatV2)
    (hents : tableEntries b r.toc.PostingsOffsetTable = .ok ents)
    (hsplit : ents = pre ++ run ++ post) (hrun : ∀ e ∈ run, e.name = n) (hne : run ≠ [])
    (hpre : n ∉ tableNames pre) (hpost : n ∉ tableNames post) :
    mapGet r.postings n = some (run.map TableEntry.sample) := by
  have hv1 : r.indexVersion ≠ FormatV1 := by rw [hv]; decide
  obtain ⟨ents1, hents1, -, hget, -, -⟩ := loaded_v2 hok hv1
  rw [hents] at hents1
  injection hents1 with hents1
  subst hents1
  have hmem : n ∈ tableNames ents := by
    obtain ⟨x, tl, hx⟩ := List.exists_cons_of_ne_nil hne
    have hx1 : x ∈ run := by rw [hx]; exact List.mem_cons_self _ _
    rw [← hrun x hx1, hsplit]
    exact List.mem_map_of_mem _ (by simp [hx])
  rw [hget, if_pos hmem, hsplit, samplesOf_run n pre run post hrun hpre hpost]

/-- C16, at the code: in a version-2 header that the loader accepts, the sample list
of a label name whose run in the table is `run` holds the sample of every entry of
the run, in table order: no entry of the run is left out, whatever its index. -/
theorem C16_every_entry_sampled (S : SymbolsOps) (b : ByteSlice) (r : BinaryReader S)
    (ents pre run post : List TableEntry) (n : Str)
    (hok : newFileBinaryReader S b = .ok r) (hv : r.indexVersion = FormatV2)
    (hents : tableEntries b r.toc.PostingsOffsetTable = .ok ents)
    (hsplit : ents = pre ++ run ++ post) (hrun : ∀ e ∈ run, e.name = n) (hne : run ≠ [])
    (hpre : n ∉ tableNames pre) (hpost : n ∉ tableNames post) :
    mapGet r.postings n = some (run.map TableEntry.sample) :=
  loaded_run hok hv hents hsplit hrun hne hpre hpost

set_option maxRecDepth 100000 in
theorem fileThreeValues_loads :
    (newFileBinaryReader tsdbSymbols fileThreeValues).toBool = true := by
  decide

set_option maxRecDepth 100000 in
theorem fileThreeValues_toc :
    (newFileBinaryReader tsdbSymbols fileThreeValues).map (fun r => (r.toc, r.indexVersion)) =
      .ok (⟨14, 35⟩, 2) := by
  rfl

set_option maxRecDepth 100000 in
theorem fileThreeValues_entries :
    tableEntries fileThreeValues 35 = .ok fileThreeValuesEntries := by
  rfl

/-- The reader of `fileThreeValues`. -/
theorem fileThreeValues_reader :
    ∃ r, newFileBinaryReader tsdbSymbols fileThreeValues = .ok r ∧ r.indexVersion = FormatV2 ∧
      r.b = fileThreeValues ∧ r.toc = ⟨14, 35⟩ ∧
      tableEntries fileThreeValues r.toc.PostingsOffsetTable = .ok fileThreeValuesEntries := by
  obtain ⟨r, hr⟩ := exists_ok_of_toBool _ fileThreeValues_loads
  have h := fileThreeValues_toc
  rw [hr] at h
  simp only [Except.map, Except.ok.injEq, Prod.mk.injEq] at h
  obtain ⟨-, -, -, -, hb, -⟩ := newFileBinaryReader_ok hr
  exact ⟨r, hr, h.2, hb, h.1, by rw [h.1]; exact fileThreeValues_entries⟩

/-- C16, at the failing input: the run of `"a"` in `fileThreeValues` has the three
entries `"1"`, `"2"`, `"3"`; the sample list holds all three, the entry `"2"` at index
1 of the run among them. -/
theorem C16_witness :
    ∃ r, newFileBinaryReader tsdbSymbols fileThreeValues = .ok r ∧
      mapGet r.postings [97] = some [⟨[49], 8⟩, ⟨[50], 14⟩, ⟨[51], 21⟩] := by
  obtain ⟨r, hr, hver, -, -, hents⟩ := fileThreeValues_reader
  exact ⟨r, hr, (C16_every_entry_sampled tsdbSymbols fileThreeValues r fileThreeValuesEntries
    [⟨[[], []], 100, 4⟩] [⟨[[97], [49]], 120, 8⟩, ⟨[[97], [50]], 140, 14⟩, ⟨[[97], [51]], 160, 21⟩]
    [] [97] hr hver hents rfl (by decide) (by decide) (by decide) (by decide))⟩

/-- C17: in a version-2 header that the loader accepts, the sample list of a label
name whose run in the table is `run` starts with the sample of the first entry of the
run and ends with the sample of its last entry, and two adjacent samples are the
samples of two table entries at positions `i < j` with at most `symbolFactor` entries
between them (in fact `j = i + 1`). -/
theorem C17_sampling_soundness (S : SymbolsOps) (b : ByteSlice) (r : BinaryReader S)
    (ents pre run post : List TableEntry) (n : Str)
    (hok : newFileBinaryReader S b = .ok r) (hv : r.indexVersion = FormatV2)
    (hents : tableEntries b r.toc.PostingsOffsetTable = .ok ents)
    (hsplit : ents = pre ++ run ++ post) (hrun : ∀ e ∈ run, e.name = n) (hne : run ≠ [])
    (hpre : n ∉ tableNames pre) (hpost : n ∉ tableNames post) :
    ∃ es, mapGet r.postings n = some es ∧
      es.head? = run.head?.map TableEntry.sample ∧
      es.getLast? = run.getLast?.map TableEntry.sample ∧
      ∀ k s1 s2, es[k]? = some s1 → es[k + 1]? = some s2 →
        ∃ i j ei ej, ents[i]? = some ei ∧ ents[j]? = some ej ∧
          ei.sample = s1 ∧ ej.sample = s2 ∧ i < j ∧ j - i - 1 ≤ symbolFactor := by
  refine ⟨_, loaded_run hok hv hents hsplit hrun hne hpre hpost, ?_, ?_, ?_⟩
  · cases run with
    | nil => rfl
    | cons x tl => rfl
  · rw [List.getLast?_map]
  · intro k s1 s2 h1 h2
    rw [List.getElem?_map] at h1 h2
    cases hk : run[k]? with
    | none => rw [hk] at h1; cases h1
    | some ei =>
      cases hk1 : run[k + 1]? with
      | none => rw [hk1] at h2; cases h2
      | some ej =>
        rw [hk] at h1
        rw [hk1] at h2
        simp only [Option.map_some', Option.some.injEq] at h1 h2
        have hlt1 : k < run.length := (List.getElem?_eq_some_iff.1 hk).1
        have hlt2 : k + 1 < run.length := (List.getElem?_eq_some_iff.1 hk1).1
        refine ⟨pre.length + k, pre.length + (k + 1), ei, ej, ?_, ?_, h1, h2, by omega, ?_⟩
        · rw [hsplit, List.append_assoc, List.getElem?_append_right (by omega)]
          rw [show pre.length + k - pre.length = k by omega,
            List.getElem?_append_left hlt1, hk]
        · rw [hsplit, List.append_assoc, List.getElem?_append_right (by omega)]
          rw [show pre.length + (k + 1) - pre.length = k + 1 by omega,
            List.getElem?_append_left hlt2, hk1]
        · have : pre.length + (k + 1) - (pre.length + k) - 1 = 0 := by omega
          rw [this]
          exact Nat.zero_le _

/-- C17, witness: the run of `"a"` in `fileThreeValues`. -/
theorem C17_witness :
    ∃ r es, newFileBinaryReader tsdbSymbols fileThreeValues = .ok r ∧
      mapGet r.postings [97] = some es ∧
      es.head? = some ⟨[49], 8⟩ ∧ es.getLast? = some ⟨[51], 21⟩ := by
  obtain ⟨r, hr, hver, -, -, hents⟩ := fileThreeValues_reader
  obtain ⟨es, h1, h2, h3, -⟩ := C17_sampling_soundness tsdbSymbols fileThreeValues r
    fileThreeValuesEntries
    [⟨[[], []], 100, 4⟩] [⟨[[97], [49]], 120, 8⟩, ⟨[[97], [50]], 140, 14⟩, ⟨[[97], [51]], 160, 21⟩]
    [] [97] hr hver hents rfl (by decide) (by decide) (by decide) (by decide)
  exact ⟨r, es, hr, h1, h2, h3⟩

/-- The reads of the queries on an entry with two keys give its label name. -/
theorem EntryDecodes.name_eq {d d1 : Decbuf} {e : TableEntry} (h : EntryDecodes d e d1)
    (hlen : e.key.length = 2) :
    d.Uvarint.1 = 2 ∧ d.Uvarint.2.UvarintBytes.1 = e.name := by
  obtain ⟨-, h2, h3, -, -⟩ := h
  rw [hlen] at h2 h3
  constructor
  · omega
  · simp only [readKeys, Decbuf.UvarintStr] at h3
    have : e.name = e.key.getD 0 [] := rfl
    rw [this, ← h3]
    rfl

/-- Every entry of a chain lies at its table offset, inside the content and not
before the start of the chain. -/
theorem EntryChain.tableOff_bounds {content : List Nat} {d : Decbuf} {ents : List TableEntry}
    (h : EntryChain content d ents) :
    ∀ e ∈ ents, content.length - d.Len ≤ e.tableOff ∧ e.tableOff < content.length := by
  induction ents generalizing d with
  | nil => intro e he; cases he
  | cons x ents ih =>
    obtain ⟨hs, ht, d1, hdec, hc⟩ := h
    have hlt := hdec.len_lt
    have hle : d.Len ≤ content.length := hs.length_le
    intro e he
    rcases List.mem_cons.1 he with rfl | he
    · rw [ht]
      omega
    · have := ih hc e he
      omega

/-- The table offsets of the entries of a chain increase strictly. -/
theorem EntryChain.tableOff_increasing {content : List Nat} {d : Decbuf}
    {ents : List TableEntry} (h : EntryChain content d ents) :
    ents.Pairwise (fun e1 e2 => e1.tableOff < e2.tableOff) := by
  induction ents generalizing d with
  | nil => exact List.Pairwise.nil
  | cons x ents ih =>
    obtain ⟨hs, ht, d1, hdec, hc⟩ := h
    have hlt := hdec.len_lt
    have hle : d.Len ≤ content.length := hs.length_le
    refine List.Pairwise.cons ?_ (ih hc)
    intro e he
    have := hc.tableOff_bounds e he
    rw [ht]
    omega

/-- The buffer of the queries at the table offset of an entry of the table holds that
entry. -/
theorem EntryChain.decodes_at {content : List Nat} {d : Decbuf} {ents : List TableEntry}
    (h : EntryChain content d ents) :
    ∀ e ∈ ents, ∃ d1, EntryDecodes ((⟨content, none⟩ : Decbuf).Skip e.tableOff) e d1 := by
  induction ents generalizing d with
  | nil => intro e he; cases he
  | cons x ents ih =>
    intro e he
    rcases List.mem_cons.1 he with rfl | he
    · obtain ⟨hskip, d1, hdec, -⟩ := h.skip_tableOff
      rw [hskip]
      exact ⟨d1, hdec⟩
    · obtain ⟨-, -, d1, -, hc⟩ := h
      exact ih hc e he

/-- C20: in a version-2 reader the loader returns, every sample `s` kept under a label
name `n` is the sample of a table entry with the name `n`, the value `s.value` and the
position `s.tableOff` in the table (the position the walker counts, not the posting
offset the entry carries): the buffer of the table content moved to `s.tableOff` holds
the key count 2, then the name `n`, then the value `s.value`, then an offset, read
without error. The table offsets of the samples of one name increase strictly. -/
theorem C20_sample_table_offsets (S : SymbolsOps) (b : ByteSlice) (r : BinaryReader S)
    (n : Str) (es : List postingOffset)
    (hok : newFileBinaryReader S b = .ok r) (hv : r.indexVersion = FormatV2)
    (hget : mapGet r.postings n = some es) :
    (∀ s ∈ es, ∀ d, d = (NewDecbufAt r.b (int64 r.toc.PostingsOffsetTable) false).Skip s.tableOff →
      d.E = none ∧ d.Uvarint.1 = 2 ∧ d.Uvarint.2.UvarintBytes.1 = n ∧
      d.Uvarint.2.UvarintBytes.2.UvarintBytes.1 = s.value ∧
      d.Uvarint.2.UvarintBytes.2.UvarintBytes.2.Uvarint64.2.E = none ∧
      ∃ ents e, tableEntries b r.toc.PostingsOffsetTable = .ok ents ∧ e ∈ ents ∧
        e.name = n ∧ e.value = s.value ∧ e.tableOff = s.tableOff ∧
        d.Uvarint.2.UvarintBytes.2.UvarintBytes.2.Uvarint64.1 = e.off) ∧
    es.Pairwise (fun s1 s2 => s1.tableOff < s2.tableOff) := by
  have hv1 : r.indexVersion ≠ FormatV1 := by rw [hv]; decide
  obtain ⟨ents, hents, hall, hgetn, -, hb⟩ := loaded_v2 hok hv1
  obtain ⟨content, hD, hchain⟩ := tableEntries_chain _ _ _ hents
  have hes : es = samplesOf n ents := by
    rw [hgetn] at hget
    split at hget
    · injection hget with hget
      exact hget.symm
    · cases hget
  constructor
  · intro s hs d hd
    rw [hes] at hs
    simp only [samplesOf, List.mem_map, List.mem_filter, decide_eq_true_eq] at hs
    obtain ⟨e, ⟨he, hen⟩, hse⟩ := hs
    obtain ⟨d1, hdec⟩ := hchain.decodes_at e he
    have hst : s.tableOff = e.tableOff := by rw [← hse]; rfl
    have hsv : s.value = e.value := by rw [← hse]; rfl
    rw [hb, hD, hst] at hd
    rw [← hd] at hdec
    obtain ⟨h1, -, -, h4, h5, h6⟩ := hdec.two_keys (hall e he)
    obtain ⟨g1, g2⟩ := hdec.name_eq (hall e he)
    refine ⟨h1, g1, by rw [g2, hen], by rw [h4, hsv], by rw [h5]; exact h6,
      ents, e, hents, he, hen, hsv.symm, hst.symm, by rw [h5]⟩
  · rw [hes]
    unfold samplesOf
    rw [List.pairwise_map]
    exact (hchain.tableOff_increasing).filter _

/-- C20, witness: the samples of `"a"` in `fileThreeValues`; at offset 14 of the table
content the entry `("a", "2") -> 140` is read. -/
theorem C20_witness :
    ∃ r, newFileBinaryReader tsdbSymbols fileThreeValues = .ok r ∧
      mapGet r.postings [97] = some [⟨[49], 8⟩, ⟨[50], 14⟩, ⟨[51], 21⟩] ∧
      (∀ d, d = (NewDecbufAt r.b (int64 r.toc.PostingsOffsetTable) false).Skip 14 →
        d.Uvarint.1 = 2 ∧ d.Uvarint.2.UvarintBytes.1 = [97] ∧
        d.Uvarint.2.UvarintBytes.2.UvarintBytes.1 = [50]) ∧
      [(⟨[49], 8⟩ : postingOffset), ⟨[50], 14⟩, ⟨[51], 21⟩].Pairwise
        (fun s1 s2 => s1.tableOff < s2.tableOff) := by
  obtain ⟨r, hr, hver, -, -, hents⟩ := fileThreeValues_reader
  have hget : mapGet r.postings [97] = some [⟨[49], 8⟩, ⟨[50], 14⟩, ⟨[51], 21⟩] :=
    @loaded_run tsdbSymbols fileThreeValues r fileThreeValuesEntries [⟨[[], []], 100, 4⟩]
      [⟨[[97], [49]], 120, 8⟩, ⟨[[97], [50]], 140, 14⟩, ⟨[[97], [51]], 160, 21⟩]
      [] [97] hr hver hents rfl (by decide) (by decide) (by decide) (by decide)
  have h := C20_sample_table_offsets tsdbSymbols fileThreeValues r [97] _ hr hver hget
  refine ⟨r, hr, hget, ?_, h.2⟩
  intro d hd
  obtain ⟨-, h2, h3, h4, -⟩ := h.1 ⟨[50], 14⟩ (by simp) d hd
  exact ⟨h2, h3, h4⟩

/-! ## The builder: the file it writes (C11) and what a failed run leaves (C12) -/

theorem GetRange_inv (obj : ByteSlice) (off len : Int) (x : ByteSlice)
    (h : GetRange obj off len = .ok x) :
    0 ≤ off ∧ 0 ≤ len ∧ off + len ≤ obj.length ∧ x = (obj.drop off.toNat).take len.toNat := by
  unfold GetRange at h
  split at h
  · cases h
  · rename_i hc
    simp only [not_or, not_lt] at hc
    injection h with h
    exact ⟨hc.1, hc.2.1, hc.2.2, h.symm⟩

theorem int64_nonneg (x : Nat) (hx : x < 2 ^ 64) (h : 0 ≤ int64 x) :
    x < 2 ^ 63 ∧ int64 x = (x : Int) := by
  have h1 : x % 2 ^ 64 = x := Nat.mod_eq_of_lt hx
  unfold int64 at h
  rw [h1] at h
  by_cases hlt : x < 2 ^ 63
  · exact ⟨hlt, int64_small x hlt⟩
  · rw [if_neg hlt] at h
    omega

theorem uint64Sub_lt (a c : Nat) (ha : a < 2 ^ 64) (hc : c < 2 ^ 64) :
    uint64Sub a c < 2 ^ 64 := by
  unfold uint64Sub
  split <;> omega

/-- A ranged read from `a` of `c - a` bytes (an unsigned subtraction) that succeeds:
`a <= c <= size`, and the bytes are `[a, c)`. -/
theorem GetRange_span_inv (obj : ByteSlice) (a c : Nat) (x : ByteSlice)
    (ha : a < 2 ^ 64) (hc : c < 2 ^ 64)
    (h : GetRange obj (int64 a) (int64 (uint64Sub c a)) = .ok x) :
    a ≤ c ∧ c ≤ obj.length ∧ x = (obj.drop a).take (c - a) := by
  obtain ⟨h1, h2, h3, h4⟩ := GetRange_inv _ _ _ _ h
  obtain ⟨ha1, ha2⟩ := int64_nonneg a ha h1
  obtain ⟨hs1, hs2⟩ := int64_nonneg _ (uint64Sub_lt c a hc ha) h2
  rw [ha2, hs2] at h3 h4
  have hac : a ≤ c := by
    by_contra hlt
    unfold uint64Sub at hs1
    rw [if_neg hlt] at hs1
    omega
  have hsub : uint64Sub c a = c - a := uint64Sub_le c a hac
  rw [hsub] at h3 h4
  refine ⟨hac, by omega, ?_⟩
  rw [h4]
  simp

theorem beNat_foldl_lt (l : List Nat) (h : ∀ x ∈ l, x < 256) (acc k : Nat)
    (hacc : acc < 256 ^ k) :
    l.foldl (fun a x => a * 256 + x) acc < 256 ^ (k + l.length) := by
  induction l generalizing acc k with
  | nil => simpa using hacc
  | cons y l ih =>
    simp only [List.foldl_cons, List.length_cons]
    have hy : y < 256 := h y (List.mem_cons_self _ _)
    have hstep : acc * 256 + y < 256 ^ (k + 1) := by
      rw [pow_succ]
      have : acc + 1 ≤ 256 ^ k := hacc
      nlinarith
    have := ih (fun x hx => h x (List.mem_cons_of_mem _ hx)) _ (k + 1) hstep
    rw [show k + (l.length + 1) = k + 1 + l.length by omega]
    exact this

theorem Uint64_lt (l : List Nat) (h : ∀ x ∈ l, x < 256) : Uint64 l < 2 ^ 64 := by
  unfold Uint64 beNat
  have h1 := beNat_foldl_lt (l.take 8) (fun x hx => h x (List.mem_of_mem_take hx)) 0 0
    (by norm_num)
  have h2 : (l.take 8).length ≤ 8 := by simp
  calc List.foldl (fun acc x => acc * 256 + x) 0 (l.take 8)
      < 256 ^ (0 + (l.take 8).length) := h1
    _ ≤ 256 ^ 8 := Nat.pow_le_pow_right (by norm_num) (by omega)
    _ = 2 ^ 64 := by norm_num

/-- The offsets of an index-TOC read from bytes are below `2^64`. -/
theorem NewTOCFromByteSlice_lt (obj : ByteSlice) (toc : IndexTOC)
    (hbytes : ∀ x ∈ obj, x < 256) (h : NewTOCFromByteSlice obj = .ok toc) :
    toc.Symbols < 2 ^ 64 ∧ toc.Series < 2 ^ 64 ∧ toc.PostingsTable < 2 ^ 64 := by
  unfold NewTOCFromByteSlice at h
  split at h
  · cases h
  · dsimp only at h
    split at h
    · cases h
    · injection h with h
      subst h
      have hd : ∀ x ∈ (obj.drop (obj.length - indexTOCLen)).take
          ((obj.drop (obj.length - indexTOCLen)).length - 4), x < 256 :=
        fun x hx => hbytes x (List.mem_of_mem_drop (List.mem_of_mem_take hx))
      refine ⟨Uint64_lt _ hd, Uint64_lt _ (fun x hx => hd x (List.mem_of_mem_drop hx)),
        Uint64_lt _ (fun x hx => hd x (List.mem_of_mem_drop hx))⟩

theorem readTOC_inv (env : BuildEnv) (obj : ByteSlice) (toc : IndexTOC)
    (hsize : obj.length < 2 ^ 63)
    (h : readTOC env obj obj.length = .ok toc) :
    56 ≤ obj.length ∧ NewTOCFromByteSlice obj = .ok toc ∧
      env.readTOCBytes = none ∧ env.closeTOC = none := by
  unfold readTOC at h
  split at h
  · cases h
  · rename_i tocBytes hget
    split at h
    · cases h
    · rename_i hrb
      split at h
      · cases h
      · rename_i hct
        obtain ⟨h1, -, -, -⟩ := GetRange_inv _ _ _ _ hget
        have hlen : 56 ≤ obj.length := by
          by_contra hlt
          have hx : 2 ^ 63 ≤ uint64Sub (uint64Sub obj.length indexTOCLen) 4 := by
            unfold uint64Sub indexTOCLen
            split <;> split <;> omega
          have hx2 : uint64Sub (uint64Sub obj.length indexTOCLen) 4 < 2 ^ 64 :=
            uint64Sub_lt _ _ (uint64Sub_lt _ _ (by omega) (by simp [indexTOCLen])) (by omega)
          have := (int64_nonneg _ hx2 h1).1
          omega
        have e1 : int64 (uint64Sub (uint64Sub obj.length indexTOCLen) 4) =
            ((obj.length - 56 : Nat) : Int) := by
          have e0 : uint64Sub obj.length indexTOCLen = obj.length - 52 :=
            uint64Sub_le _ _ (by simp only [indexTOCLen]; omega)
          rw [e0, int64_sub _ 4 (by omega) (by omega)]
          congr 1
        have e2 : ((indexTOCLen : Nat) : Int) + 4 = ((56 : Nat) : Int) := by simp [indexTOCLen]
        rw [e1, e2, GetRange_ok obj (obj.length - 56) 56 (by omega)] at hget
        injection hget with hget
        have e3 : (obj.drop (obj.length - 56)).take 56 = obj.drop (obj.length - 56) := by
          apply List.take_of_length_le
          simp
          omega
        rw [e3] at hget
        rw [← hget, NewTOCFromByteSlice_drop obj _ (by omega)] at h
        refine ⟨hlen, ?_, hrb, hct⟩
        split at h
        · cases h
        · rename_i toc1 h1
          injection h with h
          rw [h1, h]

theorem newChunkedIndexReader_inv (env : BuildEnv) (magic : Nat) (obj : ByteSlice)
    (ir : chunkedIndexReader) (v : Nat) (hsize : obj.length < 2 ^ 63)
    (h : newChunkedIndexReader env magic obj = .ok (ir, v)) :
    56 ≤ obj.length ∧ Uint32 (obj.take 4) = magic ∧
    (obj.getD 4 0 = FormatV1 ∨ obj.getD 4 0 = FormatV2) ∧ v = obj.getD 4 0 ∧
    ∃ toc, NewTOCFromByteSlice obj = .ok toc ∧ ir = ⟨obj, obj.length, toc⟩ := by
  unfold newChunkedIndexReader at h
  split at h
  · cases h
  · split at h
    · cases h
    · rename_i b hget
      split at h
      · cases h
      · split at h
        · cases h
        · obtain ⟨-, -, h3, h4⟩ := GetRange_inv _ _ _ _ hget
          simp only [indexHeaderLen] at h3 h4
          have hb : b = obj.take 5 := by simpa using h4
          have hb4 : b.take 4 = obj.take 4 := by rw [hb, List.take_take]; rfl
          have hb5 : b.getD 4 0 = obj.getD 4 0 := by
            rw [hb]
            simp [List.getD_eq_getElem?_getD, List.getElem?_take]
          rw [hb4, hb5] at h
          split at h
          · cases h
          · rename_i hm
            split at h
            · cases h
            · rename_i hver
              split at h
              · cases h
              · rename_i toc htoc
                injection h with h
                injection h with h1 h2
                obtain ⟨hlen, htoc1, -, -⟩ := readTOC_inv env obj toc hsize htoc
                refine ⟨hlen, by simpa using hm, ?_, h2.symm, toc, htoc1, h1.symm⟩
                by_contra hc
                simp only [not_or] at hc
                exact hver hc

theorem readTOC_env (env : BuildEnv) (obj : ByteSlice) (size : Nat) (toc : IndexTOC)
    (h : readTOC env obj size = .ok toc) :
    env.readTOCBytes = none ∧ env.closeTOC = none ∧
      readTOC BuildEnv.noFault obj size = .ok toc := by
  unfold readTOC at h ⊢
  split at h
  · cases h
  · split at h
    · cases h
    · rename_i hrb
      split at h
      · cases h
      · rename_i hct
        exact ⟨hrb, hct, h⟩

/-- A source that is accepted in some run is accepted in the run without a failing
call, and no call to its streams has failed. -/
theorem newChunkedIndexReader_env (env : BuildEnv) (magic : Nat) (obj : ByteSlice)
    (p : chunkedIndexReader × Nat) (h : newChunkedIndexReader env magic obj = .ok p) :
    env.objectSize = none ∧ env.readHeader = none ∧ env.closeHeader = none ∧
      env.readTOCBytes = none ∧ env.closeTOC = none ∧
      newChunkedIndexReader BuildEnv.noFault magic obj = .ok p := by
  unfold newChunkedIndexReader at h ⊢
  split at h
  · cases h
  · rename_i hos
    split at h
    · cases h
    · rename_i b hget
      split at h
      · cases h
      · rename_i hrh
        split at h
        · cases h
        · rename_i hch
          simp only [noFault_objectSize, noFault_readHeader, noFault_closeHeader]
          split at h
          · cases h
          · rename_i hm
            split at h
            · cases h
            · rename_i hver
              split at h
              · cases h
              · rename_i toc htoc
                obtain ⟨hrb, hct, hnf⟩ := readTOC_env env obj obj.length toc htoc
                refine ⟨hos, hrh, hch, hrb, hct, ?_⟩
                simp only [hm, hver, if_false, hnf]
                exact h

/-! ### The calls of a run that returns no error -/

theorem FileWriter_Write_none (fw : FileWriter) (p : ByteSlice) (out : Option (Nat × Err))
    (h : (fw.Write p out).2 = none) : out = none := by
  cases out with
  | none => rfl
  | some ne => simp [FileWriter.Write] at h

theorem FileWriter_Flush_none (fw : FileWriter) (out : Option (Nat × Err))
    (h : (fw.Flush out).2 = none) : out = none := by
  cases out with
  | none => rfl
  | some ne => simp [FileWriter.Flush] at h

theorem CopySymbols_none (env : BuildEnv) (r : chunkedIndexReader) (w : binaryWriter)
    (h : (CopySymbols env r w).2 = none) :
    env.copySymbols = none ∧ env.closeSymbols = none := by
  unfold CopySymbols at h
  split at h
  · cases h
  · split at h
    · cases h
    · rename_i h1
      exact ⟨FileWriter_Write_none _ _ _ h1, h⟩

theorem CopyPostingsOffsets_none (env : BuildEnv) (r : chunkedIndexReader) (w : binaryWriter)
    (h : (CopyPostingsOffsets env r w).2 = none) :
    env.copyPostings = none ∧ env.closePostings = none := by
  unfold CopyPostingsOffsets at h
  split at h
  · cases h
  · split at h
    · cases h
    · rename_i h1
      exact ⟨FileWriter_Write_none _ _ _ h1, h⟩

theorem writeSections_none (env : BuildEnv) (ir : chunkedIndexReader) (v : Nat)
    (bw : binaryWriter) (h : (writeSections env ir v bw).2 = none) :
    env.writeMeta = none ∧ env.copySymbols = none ∧ env.closeSymbols = none ∧
      env.flushSymbols = none ∧ env.copyPostings = none ∧ env.closePostings = none ∧
      env.flushPostings = none ∧ env.writeTOC = none := by
  unfold writeSections at h
  split at h
  · cases h
  · rename_i h1
    dsimp only at h
    split at h
    · cases h
    · rename_i h2
      split at h
      · cases h
      · rename_i h3
        split at h
        · cases h
        · rename_i h4
          split at h
          · cases h
          · rename_i h5
            split at h
            · cases h
            · rename_i h6
              exact ⟨FileWriter_Write_none _ _ _ h1, (CopySymbols_none _ _ _ h2).1,
                (CopySymbols_none _ _ _ h2).2, FileWriter_Flush_none _ _ h3,
                (CopyPostingsOffsets_none _ _ _ h4).1, (CopyPostingsOffsets_none _ _ _ h4).2,
                FileWriter_Flush_none _ _ h5, FileWriter_Write_none _ _ _ h6⟩

theorem CloseWithErrCapture_none (err closeErr : Option Err) (c : Ctx)
    (h : CloseWithErrCapture err closeErr c = none) : err = none ∧ closeErr = none := by
  cases err with
  | some e => simp [CloseWithErrCapture] at h
  | none =>
    cases closeErr with
    | some ce => simp [CloseWithErrCapture] at h
    | none => exact ⟨rfl, rfl⟩

/-- What `newBinaryWriter` returns without an error: an empty file at the path and a
writer with the magic number and the version in its buffer; none of its calls has
failed. -/
theorem newBinaryWriter_none (env : BuildEnv) (old : Option ByteSlice)
    (h : (newBinaryWriter env old).2.2 = none) :
    env.openDir = none ∧ env.removeAll = none ∧ env.newFileWriter = none ∧
      env.syncDir = none ∧ env.writeMagic = none ∧ env.closeDir = none ∧
      newBinaryWriter env old =
        (some [], some ⟨⟨[], PutBE32 MagicIndex ++ [BinaryFormatV1]⟩, ⟨0, 0⟩⟩, none) := by
  unfold newBinaryWriter at h ⊢
  cases h1 : env.openDir with
  | some e => simp [h1] at h
  | none =>
    simp only [h1] at h ⊢
    obtain ⟨h2, h3⟩ := CloseWithErrCapture_none _ _ _ h
    cases hr : env.removeAll with
    | some e => simp [hr] at h2
    | none =>
      cases hn : env.newFileWriter with
      | some e => simp [hr, hn] at h2
      | none =>
        cases hsy : env.syncDir with
        | some e => simp [hr, hn, hsy] at h2
        | none =>
          simp only [hr, hn, hsy] at h2
          have hw := FileWriter_Write_none _ _ _ h2
          refine ⟨trivial, rfl, rfl, rfl, hw, h3, ?_⟩
          simp [hr, hn, hsy, hw, h3, FileWriter.Write, CloseWithErrCapture]

/-- In a run that returns no error no call has failed. -/
theorem WriteBinary_err_none (env : BuildEnv) (magic : Nat) (obj : ByteSlice)
    (old : Option ByteSlice) (h : (WriteBinary env magic obj old).err = none) :
    env = BuildEnv.noFault := by
  unfold WriteBinary at h
  cases hcr : newChunkedIndexReader env magic obj with
  | error e => simp [hcr] at h
  | ok p =>
    obtain ⟨ir, v⟩ := p
    obtain ⟨a1, a2, a3, a4, a5, -⟩ := newChunkedIndexReader_env env magic obj _ hcr
    simp only [hcr] at h
    rcases hnb : newBinaryWriter env old with ⟨path, w, e⟩
    cases e with
    | some e => simp [hnb] at h
    | none =>
      obtain ⟨b1, b2, b3, b4, b5, b6, hnb2⟩ := newBinaryWriter_none env old (by rw [hnb])
      simp only [hnb2] at h
      obtain ⟨hws, hcl⟩ := CloseWithErrCapture_none _ _ _ h
      obtain ⟨c1, c2, c3, c4, c5, c6, c7, c8⟩ := writeSections_none _ _ _ _ hws
      have c9 : env.closeWriter = none := FileWriter_Flush_none _ _ hcl
      cases env
      simp only [BuildEnv.noFault, BuildEnv.mk.injEq]
      simp only [] at a1 a2 a3 a4 a5 b1 b2 b3 b4 b5 b6 c1 c2 c3 c4 c5 c6 c7 c8 c9
      exact ⟨a1, a2, a3, a4, a5, b1, b2, b3, b4, b5, b6, c1, c2, c3, c4, c5, c6, c7, c8, c9⟩

/-- C11, amended: on an object of fewer than `2^63` bytes, every run of `WriteBinary`
that returns no error, whatever the calls to the object store and to the file system
return, has read an index-TOC with `Symbols <= Series <= size` and
`PostingsTable <= size` and leaves exactly this file: the 14 header bytes (magic
number, header-format version 1, the version byte of the index, `PostingsTable` in 8
bytes), the source bytes `[Symbols, Series)`, the source bytes from `PostingsTable` to
the end of the object, the two offsets of the header-TOC and their CRC32. When
`PostingsTable + 52 <= size`, the second copy is the bytes `[PostingsTable, size - 52)`
followed by the 52 bytes of the index-TOC. -/
theorem C11_written_file (env : BuildEnv) (magic : Nat) (obj : ByteSlice)
    (old : Option ByteSlice)
    (hsize : obj.length < 2 ^ 63) (hbytes : ∀ x ∈ obj, x < 256)
    (hok : (WriteBinary env magic obj old).err = none) :
    ∃ toc, NewTOCFromByteSlice obj = .ok toc ∧
      toc.Symbols ≤ toc.Series ∧ toc.Series ≤ obj.length ∧ toc.PostingsTable ≤ obj.length ∧
      (WriteBinary env magic obj old).file =
        some (PutBE32 MagicIndex ++ [BinaryFormatV1] ++
          ([obj.getD 4 0] ++ PutBE64 toc.PostingsTable) ++
          (obj.drop toc.Symbols).take (toc.Series - toc.Symbols) ++
          obj.drop toc.PostingsTable ++
          (PutBE64 14 ++ PutBE64 (14 + (toc.Series - toc.Symbols)) ++
            PutBE32 (Crc32 (PutBE64 14 ++ PutBE64 (14 + (toc.Series - toc.Symbols)))))) ∧
      (toc.PostingsTable + 52 ≤ obj.length →
        obj.drop toc.PostingsTable =
          (obj.drop toc.PostingsTable).take (obj.length - 52 - toc.PostingsTable) ++
            obj.drop (obj.length - 52)) := by
  have henv := WriteBinary_err_none env magic obj old hok
  subst henv
  cases hcr : newChunkedIndexReader BuildEnv.noFault magic obj with
  | error e =>
    simp [WriteBinary, hcr] at hok
  | ok p =>
    obtain ⟨ir, v⟩ := p
    obtain ⟨hlen, -, hver, hv, toc, htoc, hir⟩ :=
      newChunkedIndexReader_inv BuildEnv.noFault magic obj ir v hsize hcr
    subst hir
    obtain ⟨b1, b2, b3⟩ := NewTOCFromByteSlice_lt obj toc hbytes htoc
    cases hsym : GetRange obj (int64 toc.Symbols) (int64 (uint64Sub toc.Series toc.Symbols)) with
    | error e =>
      rw [WriteBinary_noFault_symbols_error magic obj old _ v e hcr hsym] at hok
      cases hok
    | ok symbols =>
      cases hpost : GetRange obj (int64 toc.PostingsTable)
          (int64 (uint64Sub obj.length toc.PostingsTable)) with
      | error e =>
        rw [WriteBinary_noFault_postings_error magic obj old _ v symbols e hcr hsym hpost]
          at hok
        cases hok
      | ok postings =>
        obtain ⟨s1, s2, s3⟩ := GetRange_span_inv obj toc.Symbols toc.Series symbols b1 b2 hsym
        obtain ⟨p1, -, p3⟩ := GetRange_span_inv obj toc.PostingsTable obj.length postings
          b3 (by omega) hpost
        have p4 : postings = obj.drop toc.PostingsTable := by
          rw [p3]
          apply List.take_of_length_le
          simp
        have hv256 : v % 256 = obj.getD 4 0 := by
          rw [hv]
          rcases hver with h | h <;> rw [h] <;> decide
        have hsymlen : symbols.length = toc.Series - toc.Symbols := by
          rw [s3]
          simp
          omega
        refine ⟨toc, htoc, s1, s2, p1, ?_, ?_⟩
        · rw [WriteBinary_noFault_ok magic obj old _ v symbols postings hcr hsym hpost]
          simp only [hv256, hsymlen]
          rw [p4, s3]
        · intro hpt
          have hd : obj.drop (obj.length - 52) =
              (obj.drop toc.PostingsTable).drop (obj.length - 52 - toc.PostingsTable) := by
            rw [List.drop_drop]
            congr 1
            omega
          rw [hd, List.take_append_drop]

set_option maxRecDepth 100000 in
/-- C11, witness: the header built from `indexSmall`, whose postings offset table is
at 56 and whose index-TOC is the last 52 of its 142 bytes. -/
theorem C11_witness :
    ∃ toc, NewTOCFromByteSlice indexSmall = .ok toc ∧
      (WriteBinary BuildEnv.noFault 0xBAAAD700 indexSmall none).file =
        some (PutBE32 MagicIndex ++ [BinaryFormatV1] ++
          ([indexSmall.getD 4 0] ++ PutBE64 toc.PostingsTable) ++
          (indexSmall.drop toc.Symbols).take (toc.Series - toc.Symbols) ++
          indexSmall.drop toc.PostingsTable ++
          (PutBE64 14 ++ PutBE64 (14 + (toc.Series - toc.Symbols)) ++
            PutBE32 (Crc32 (PutBE64 14 ++ PutBE64 (14 + (toc.Series - toc.Symbols)))))) := by
  obtain ⟨toc, h1, -, -, -, h2, -⟩ := C11_written_file BuildEnv.noFault 0xBAAAD700 indexSmall
    none (by decide) (by decide) (by rfl)
  exact ⟨toc, h1, h2⟩

set_option maxRecDepth 100000 in
/-- C11, counterexample: `WriteBinary` succeeds on `indexSmall` (142 bytes, symbols
`[5, 26)`, postings offset table at 56). After the 14 header bytes and the 21 bytes
of symbols the file holds the 86 source bytes `[56, 142)`, the 52 bytes of the
index-TOC among them, and not only the 34 bytes `[56, 90)`; the file has 141 bytes,
not 89. -/
theorem C11_counterexample :
    NewTOCFromByteSlice indexSmall = .ok ⟨5, 26, 40, 40, 40, 56⟩ ∧
    WriteBinary BuildEnv.noFault 0xBAAAD700 indexSmall none =
      ⟨some ([186, 170, 215, 146, 1, 2, 0, 0, 0, 0, 0, 0, 0, 56] ++
        (indexSmall.drop 5).take 21 ++ indexSmall.drop 56 ++
        [0, 0, 0, 0, 0, 0, 0, 14, 0, 0, 0, 0, 0, 0, 0, 35, 250, 176, 13, 5]), none⟩ ∧
    (indexSmall.drop 56).length = 86 ∧
    ((indexSmall.drop 56).take (142 - 52 - 56)).length = 34 ∧
    (WriteBinary BuildEnv.noFault 0xBAAAD700 indexSmall none).file.map List.length =
      some 141 := by
  refine ⟨rfl, rfl, rfl, rfl, rfl⟩

/-- A file shorter than the header and the TOC together is rejected by the loader. -/
theorem newFileBinaryReader_short (S : SymbolsOps) (b : ByteSlice) (h : b.length < 20) :
    ∃ err, newFileBinaryReader S b = .error err := by
  unfold newFileBinaryReader
  split
  · exact ⟨_, rfl⟩
  · split
    · exact ⟨_, rfl⟩
    · have : newBinaryTOCFromByteSlice b = .error Err.ErrInvalidSize := by
        simp [newBinaryTOCFromByteSlice, binaryTOCLen, h]
      simp only [this]
      exact ⟨_, rfl⟩

/-! ### What a failing run of the builder leaves at the output path -/

theorem take_prefix_append (n : Nat) (l r : List Nat) : l.take n <+: l ++ r :=
  (List.take_prefix n l).trans (List.prefix_append l r)

/-- The bytes the writer has accepted in a run are a prefix of the bytes it accepts in
the run without a failing call. -/
theorem writeSections_accepted_initial (env : BuildEnv) (ir : chunkedIndexReader) (v : Nat)
    (bw : binaryWriter) :
    (writeSections env ir v bw).1.f.accepted <+:
      (writeSections BuildEnv.noFault ir v bw).1.f.accepted := by
  cases hS : GetRange ir.obj (int64 ir.toc.Symbols)
      (int64 (uint64Sub ir.toc.Series ir.toc.Symbols)) with
  | error eS =>
    rcases hwriteMeta : env.writeMeta with _ | ⟨n, e⟩
    swap
    · simp [writeSections, binaryWriter.AddIndexMeta, binaryWriter.SymbolsWriter,
        binaryWriter.PostingOffsetsWriter, binaryWriter.Write, binaryWriter.WriteTOC,
        binaryWriter.Flush, ioCopy, CopySymbols, CopyPostingsOffsets, FileWriter.Write,
        FileWriter.Flush, FileWriter.Pos, FileWriter.accepted, noFault_writeMeta,
        noFault_copySymbols, noFault_closeSymbols, noFault_flushSymbols, noFault_copyPostings,
        noFault_closePostings, noFault_flushPostings, noFault_writeTOC, take_prefix_append,
        List.take_prefix,
        hS, hwriteMeta]
    simp [writeSections, binaryWriter.AddIndexMeta, binaryWriter.SymbolsWriter,
        binaryWriter.PostingOffsetsWriter, binaryWriter.Write, binaryWriter.WriteTOC,
        binaryWriter.Flush, ioCopy, CopySymbols, CopyPostingsOffsets, FileWriter.Write,
        FileWriter.Flush, FileWriter.Pos, FileWriter.accepted, noFault_writeMeta,
        noFault_copySymbols, noFault_closeSymbols, noFault_flushSymbols, noFault_copyPostings,
        noFault_closePostings, noFault_flushPostings, noFault_writeTOC, take_prefix_append,
        List.take_prefix,
      hS, hwriteMeta]
  | ok S =>
    cases hP : GetRange ir.obj (int64 ir.toc.PostingsTable)
        (int64 (uint64Sub ir.size ir.toc.PostingsTable)) with
    | error eP =>
      rcases hwriteMeta : env.writeMeta with _ | ⟨n, e⟩
      swap
      · simp [writeSections, binaryWriter.AddIndexMeta, binaryWriter.SymbolsWriter,
        binaryWriter.PostingOffsetsWriter, binaryWriter.Write, binaryWriter.WriteTOC,
        binaryWriter.Flush, ioCopy, CopySymbols, CopyPostingsOffsets, FileWriter.Write,
        FileWriter.Flush, FileWriter.Pos, FileWriter.accepted, noFault_writeMeta,
        noFault_copySymbols, noFault_closeSymbols, noFault_flushSymbols, noFault_copyPostings,
        noFault_closePostings, noFault_flushPostings, noFault_writeTOC, take_prefix_append,
        List.take_prefix,
          hS, hP, hwriteMeta]
        exact (List.take_prefix _ _).trans ⟨_, rfl⟩
      rcases hcopySymbols : env.copySymbols with _ | ⟨n, e⟩
      swap
      · simp [writeSections, binaryWriter.AddIndexMeta, binaryWriter.SymbolsWriter,
        binaryWriter.PostingOffsetsWriter, binaryWriter.Write, binaryWriter.WriteTOC,
        binaryWriter.Flush, ioCopy, CopySymbols, CopyPostingsOffsets, FileWriter.Write,
        FileWriter.Flush, FileWriter.Pos, FileWriter.accepted, noFault_writeMeta,
        noFault_copySymbols, noFault_closeSymbols, noFault_flushSymbols, noFault_copyPostings,
        noFault_closePostings, noFault_flushPostings, noFault_writeTOC, take_prefix_append,
        List.take_prefix,
          hS, hP, hwriteMeta, hcopySymbols]
      rcases hcloseSymbols : env.closeSymbols with _ | e
      swap
      · simp [writeSections, binaryWriter.AddIndexMeta, binaryWriter.SymbolsWriter,
        binaryWriter.PostingOffsetsWriter, binaryWriter.Write, binaryWriter.WriteTOC,
        binaryWriter.Flush, ioCopy, CopySymbols, CopyPostingsOffsets, FileWriter.Write,
        FileWriter.Flush, FileWriter.Pos, FileWriter.accepted, noFault_writeMeta,
        noFault_copySymbols, noFault_closeSymbols, noFault_flushSymbols, noFault_copyPostings,
        noFault_closePostings, noFault_flushPostings, noFault_writeTOC, take_prefix_append,
        List.take_prefix,
          hS, hP, hwriteMeta, hcopySymbols, hcloseSymbols]
      rcases hflushSymbols : env.flushSymbols with _ | ⟨n, e⟩
      swap
      · simp [writeSections, binaryWriter.AddIndexMeta, binaryWriter.SymbolsWriter,
        binaryWriter.PostingOffsetsWriter, binaryWriter.Write, binaryWriter.WriteTOC,
        binaryWriter.Flush, ioCopy, CopySymbols, CopyPostingsOffsets, FileWriter.Write,
        FileWriter.Flush, FileWriter.Pos, FileWriter.accepted, noFault_writeMeta,
        noFault_copySymbols, noFault_closeSymbols, noFault_flushSymbols, noFault_copyPostings,
        noFault_closePostings, noFault_flushPostings, noFault_writeTOC, take_prefix_append,
        List.take_prefix,
          hS, hP, hwriteMeta, hcopySymbols, hcloseSymbols, hflushSymbols]
      simp [writeSections, binaryWriter.AddIndexMeta, binaryWriter.SymbolsWriter,
        binaryWriter.PostingOffsetsWriter, binaryWriter.Write, binaryWriter.WriteTOC,
        binaryWriter.Flush, ioCopy, CopySymbols, CopyPostingsOffsets, FileWriter.Write,
        FileWriter.Flush, FileWriter.Pos, FileWriter.accepted, noFault_writeMeta,
        noFault_copySymbols, noFault_closeSymbols, noFault_flushSymbols, noFault_copyPostings,
        noFault_closePostings, noFault_flushPostings, noFault_writeTOC, take_prefix_append,
        List.take_prefix,
        hS, hP, hwriteMeta, hcopySymbols, hcloseSymbols, hflushSymbols]
    | ok P =>
      rcases hwriteMeta : env.writeMeta with _ | ⟨n, e⟩
      swap
      · simp [writeSections, binaryWriter.AddIndexMeta, binaryWriter.SymbolsWriter,
        binaryWriter.PostingOffsetsWriter, binaryWriter.Write, binaryWriter.WriteTOC,
        binaryWriter.Flush, ioCopy, CopySymbols, CopyPostingsOffsets, FileWriter.Write,
        FileWriter.Flush, FileWriter.Pos, FileWriter.accepted, noFault_writeMeta,
        noFault_copySymbols, noFault_closeSymbols, noFault_flushSymbols, noFault_copyPostings,
        noFault_closePostings, noFault_flushPostings, noFault_writeTOC, take_prefix_append,
        List.take_prefix,
          hS, hP, hwriteMeta]
        exact (List.take_prefix _ _).trans ⟨_, rfl⟩
      rcases hcopySymbols : env.copySymbols with _ | ⟨n, e⟩
      swap
      · simp [writeSections, binaryWriter.AddIndexMeta, binaryWriter.SymbolsWriter,
        binaryWriter.PostingOffsetsWriter, binaryWriter.Write, binaryWriter.WriteTOC,
        binaryWriter.Flush, ioCopy, CopySymbols, CopyPostingsOffsets, FileWriter.Write,
        FileWriter.Flush, FileWriter.Pos, FileWriter.accepted, noFault_writeMeta,
        noFault_copySymbols, noFault_closeSymbols, noFault_flushSymbols, noFault_copyPostings,
        noFault_closePostings, noFault_flushPostings, noFault_writeTOC, take_prefix_append,
        List.take_prefix,
          hS, hP, hwriteMeta, hcopySymbols]
      rcases hcloseSymbols : env.closeSymbols with _ | e
      swap
      · simp [writeSections, binaryWriter.AddIndexMeta, binaryWriter.SymbolsWriter,
        binaryWriter.PostingOffsetsWriter, binaryWriter.Write, binaryWriter.WriteTOC,
        binaryWriter.Flush, ioCopy, CopySymbols, CopyPostingsOffsets, FileWriter.Write,
        FileWriter.Flush, FileWriter.Pos, FileWriter.accepted, noFault_writeMeta,
        noFault_copySymbols, noFault_closeSymbols, noFault_flushSymbols, noFault_copyPostings,
        noFault_closePostings, noFault_flushPostings, noFault_writeTOC, take_prefix_append,
        List.take_prefix,
          hS, hP, hwriteMeta, hcopySymbols, hcloseSymbols]
      rcases hflushSymbols : env.flushSymbols with _ | ⟨n, e⟩
      swap
      · simp [writeSections, binaryWriter.AddIndexMeta, binaryWriter.SymbolsWriter,
        binaryWriter.PostingOffsetsWriter, binaryWriter.Write, binaryWriter.WriteTOC,
        binaryWriter.Flush, ioCopy, CopySymbols, CopyPostingsOffsets, FileWriter.Write,
        FileWriter.Flush, FileWriter.Pos, FileWriter.accepted, noFault_writeMeta,
        noFault_copySymbols, noFault_closeSymbols, noFault_flushSymbols, noFault_copyPostings,
        noFault_closePostings, noFault_flushPostings, noFault_writeTOC, take_prefix_append,
        List.take_prefix,
          hS, hP, hwriteMeta, hcopySymbols, hcloseSymbols, hflushSymbols]
      rcases hcopyPostings : env.copyPostings with _ | ⟨n, e⟩
      swap
      · simp [writeSections, binaryWriter.AddIndexMeta, binaryWriter.SymbolsWriter,
        binaryWriter.PostingOffsetsWriter, binaryWriter.Write, binaryWriter.WriteTOC,
        binaryWriter.Flush, ioCopy, CopySymbols, CopyPostingsOffsets, FileWriter.Write,
        FileWriter.Flush, FileWriter.Pos, FileWriter.accepted, noFault_writeMeta,
        noFault_copySymbols, noFault_closeSymbols, noFault_flushSymbols, noFault_copyPostings,
        noFault_closePostings, noFault_flushPostings, noFault_writeTOC, take_prefix_append,
        List.take_prefix,
          hS, hP, hwriteMeta, hcopySymbols, hcloseSymbols, hflushSymbols, hcopyPostings]
      rcases hclosePostings : env.closePostings with _ | e
      swap
      · simp [writeSections, binaryWriter.AddIndexMeta, binaryWriter.SymbolsWriter,
        binaryWriter.PostingOffsetsWriter, binaryWriter.Write, binaryWriter.WriteTOC,
        binaryWriter.Flush, ioCopy, CopySymbols, CopyPostingsOffsets, FileWriter.Write,
        FileWriter.Flush, FileWriter.Pos, FileWriter.accepted, noFault_writeMeta,
        noFault_copySymbols, noFault_closeSymbols, noFault_flushSymbols, noFault_copyPostings,
        noFault_closePostings, noFault_flushPostings, noFault_writeTOC, take_prefix_append,
        List.take_prefix,
          hS, hP, hwriteMeta, hcopySymbols, hcloseSymbols, hflushSymbols, hcopyPostings, hclosePostings]
      rcases hflushPostings : env.flushPostings with _ | ⟨n, e⟩
      swap
      · simp [writeSections, binaryWriter.AddIndexMeta, binaryWriter.SymbolsWriter,
        binaryWriter.PostingOffsetsWriter, binaryWriter.Write, binaryWriter.WriteTOC,
        binaryWriter.Flush, ioCopy, CopySymbols, CopyPostingsOffsets, FileWriter.Write,
        FileWriter.Flush, FileWriter.Pos, FileWriter.accepted, noFault_writeMeta,
        noFault_copySymbols, noFault_closeSymbols, noFault_flushSymbols, noFault_copyPostings,
        noFault_closePostings, noFault_flushPostings, noFault_writeTOC, take_prefix_append,
        List.take_prefix,
          hS, hP, hwriteMeta, hcopySymbols, hcloseSymbols, hflushSymbols, hcopyPostings, hclosePostings, hflushPostings]
      rcases hwriteTOC : env.writeTOC with _ | ⟨n, e⟩
      swap
      · simp [writeSections, binaryWriter.AddIndexMeta, binaryWriter.SymbolsWriter,
        binaryWriter.PostingOffsetsWriter, binaryWriter.Write, binaryWriter.WriteTOC,
        binaryWriter.Flush, ioCopy, CopySymbols, CopyPostingsOffsets, FileWriter.Write,
        FileWriter.Flush, FileWriter.Pos, FileWriter.accepted, noFault_writeMeta,
        noFault_copySymbols, noFault_closeSymbols, noFault_flushSymbols, noFault_copyPostings,
        noFault_closePostings, noFault_flushPostings, noFault_writeTOC, take_prefix_append,
        List.take_prefix,
          hS, hP, hwriteMeta, hcopySymbols, hcloseSymbols, hflushSymbols, hcopyPostings, hclosePostings, hflushPostings, hwriteTOC]
      simp [writeSections, binaryWriter.AddIndexMeta, binaryWriter.SymbolsWriter,
        binaryWriter.PostingOffsetsWriter, binaryWriter.Write, binaryWriter.WriteTOC,
        binaryWriter.Flush, ioCopy, CopySymbols, CopyPostingsOffsets, FileWriter.Write,
        FileWriter.Flush, FileWriter.Pos, FileWriter.accepted, noFault_writeMeta,
        noFault_copySymbols, noFault_closeSymbols, noFault_flushSymbols, noFault_copyPostings,
        noFault_closePostings, noFault_flushPostings, noFault_writeTOC, take_prefix_append,
        List.take_prefix,
        hS, hP, hwriteMeta, hcopySymbols, hcloseSymbols, hflushSymbols, hcopyPostings, hclosePostings, hflushPostings, hwriteTOC]

theorem binaryWriter_Close_initial (bw : binaryWriter) (out : Option (Nat × Err)) :
    (bw.Close out).1.f.disk <+: bw.f.accepted := by
  rcases out with _ | ⟨n, e⟩
  · simp [binaryWriter.Close, FileWriter.Close, FileWriter.Flush, FileWriter.accepted]
  · simp [binaryWriter.Close, FileWriter.Close, FileWriter.Flush, FileWriter.accepted,
      List.take_prefix]

theorem binaryWriter_Close_none (bw : binaryWriter) :
    (bw.Close none).1.f.disk = bw.f.accepted := rfl

theorem newBinaryWriter_openDir (env : BuildEnv) (old : Option ByteSlice) (e : Err)
    (h : env.openDir = some e) : newBinaryWriter env old = (old, none, some e) := by
  simp [newBinaryWriter, h]

theorem newBinaryWriter_removeAll (env : BuildEnv) (old : Option ByteSlice) (e : Err)
    (h1 : env.openDir = none) (h2 : env.removeAll = some e) :
    newBinaryWriter env old =
      (old, none, some (captureErr (Err.wrap Ctx.removeExistingIndex e) env.closeDir
        Ctx.dirClose)) := by
  simp [newBinaryWriter, h1, h2, CloseWithErrCapture]

theorem newBinaryWriter_newFileWriter (env : BuildEnv) (old : Option ByteSlice) (e : Err)
    (h1 : env.openDir = none) (h2 : env.removeAll = none) (h3 : env.newFileWriter = some e) :
    newBinaryWriter env old = (none, none, some (captureErr e env.closeDir Ctx.dirClose)) := by
  simp [newBinaryWriter, h1, h2, h3, CloseWithErrCapture]

/-- Once the file writer has created the file, the path holds the new, empty file
when `newBinaryWriter` returns, and what was there before plays no part. -/
theorem newBinaryWriter_created (env : BuildEnv) (old : Option ByteSlice)
    (h1 : env.openDir = none) (h2 : env.removeAll = none) (h3 : env.newFileWriter = none) :
    (newBinaryWriter env old).1 = some [] ∧
      newBinaryWriter env old = newBinaryWriter env none := by
  cases h4 : env.syncDir <;> simp [newBinaryWriter, h1, h2, h3, h4]

/-- The file of the run without a failing call on a source that is accepted: all the
bytes the writer has accepted. -/
theorem WriteBinary_noFault_file (magic : Nat) (obj : ByteSlice) (old : Option ByteSlice)
    (ir : chunkedIndexReader) (v : Nat)
    (hcr : newChunkedIndexReader BuildEnv.noFault magic obj = .ok (ir, v)) :
    (WriteBinary BuildEnv.noFault magic obj old).file =
      some (writeSections BuildEnv.noFault ir v
        ⟨⟨[], PutBE32 MagicIndex ++ [BinaryFormatV1]⟩, ⟨0, 0⟩⟩).1.f.accepted := by
  unfold WriteBinary
  simp only [hcr, newBinaryWriter_noFault, noFault_closeWriter, binaryWriter_Close_none]

/-- C12, amended: no return of `WriteBinary` removes the file at the output path. A
run that returns an error leaves the path in one of these states. When the header or
the index-TOC of the source is rejected, or a call to a stream of the source fails,
the path is as it was before the run, and so it is when the directory cannot be opened
or the removal of the old file fails: a file that was there is still there. When the
old file is removed and the file writer cannot create the new file, the path has no
file. In every other run the new file is at the path when the run returns; it holds
a prefix of the file that the run without a failing call leaves for this source, and
the run does not depend on the file that was there before. In the run in which no
call to the streams and to the file system fails and the ranged read of the symbols
fails, the path holds a new file of 14 bytes, the header, which the loader rejects;
when the ranged read of the postings offsets fails, the path holds a new file with
the header and the symbols. -/
theorem C12_failed_build_leaves_file (env : BuildEnv) (magic : Nat) (obj : ByteSlice)
    (old : Option ByteSlice) (hfail : (WriteBinary env magic obj old).err ≠ none) :
    (((∃ e, newChunkedIndexReader env magic obj = .error e) ∧
        (WriteBinary env magic obj old).file = old) ∨
      (∃ ir v, newChunkedIndexReader env magic obj = .ok (ir, v) ∧
        (((env.openDir ≠ none ∨ env.removeAll ≠ none) ∧
            (WriteBinary env magic obj old).file = old) ∨
          (env.openDir = none ∧ env.removeAll = none ∧ env.newFileWriter ≠ none ∧
            (WriteBinary env magic obj old).file = none) ∨
          (env.openDir = none ∧ env.removeAll = none ∧ env.newFileWriter = none ∧
            WriteBinary env magic obj old = WriteBinary env magic obj none ∧
            ∃ out full, (WriteBinary env magic obj old).file = some out ∧
              (WriteBinary BuildEnv.noFault magic obj old).file = some full ∧
              out <+: full)))) ∧
    (env = BuildEnv.noFault →
      ((∃ e, newChunkedIndexReader env magic obj = .error e) ∧
        (WriteBinary env magic obj old).file = old) ∨
      (∃ ir v, newChunkedIndexReader env magic obj = .ok (ir, v) ∧
        (((∃ e, GetRange ir.obj (int64 ir.toc.Symbols)
              (int64 (uint64Sub ir.toc.Series ir.toc.Symbols)) = .error e) ∧
            ∃ out, (WriteBinary env magic obj old).file = some out ∧
              out = PutBE32 MagicIndex ++ [BinaryFormatV1] ++
                ([v % 256] ++ PutBE64 ir.toc.PostingsTable) ∧
              out.length = 14 ∧
              ∀ S : SymbolsOps, ∃ err, newFileBinaryReader S out = .error err) ∨
          (∃ symbols, GetRange ir.obj (int64 ir.toc.Symbols)
              (int64 (uint64Sub ir.toc.Series ir.toc.Symbols)) = .ok symbols ∧
            (∃ e, GetRange ir.obj (int64 ir.toc.PostingsTable)
              (int64 (uint64Sub ir.size ir.toc.PostingsTable)) = .error e) ∧
            (WriteBinary env magic obj old).file =
              some (PutBE32 MagicIndex ++ [BinaryFormatV1] ++
                ([v % 256] ++ PutBE64 ir.toc.PostingsTable) ++ symbols))))) := by
  constructor
  · cases hcr : newChunkedIndexReader env magic obj with
    | error e =>
      left
      exact ⟨⟨e, rfl⟩, by simp [WriteBinary, hcr]⟩
    | ok p =>
      obtain ⟨ir, v⟩ := p
      right
      refine ⟨ir, v, rfl, ?_⟩
      obtain ⟨-, -, -, -, -, hnf⟩ := newChunkedIndexReader_env env magic obj _ hcr
      cases hod : env.openDir with
      | some e =>
        left
        refine ⟨Or.inl (by simp), ?_⟩
        unfold WriteBinary
        simp only [hcr, newBinaryWriter_openDir env old e hod]
      | none =>
        cases hra : env.removeAll with
        | some e =>
          left
          refine ⟨Or.inr (by simp), ?_⟩
          unfold WriteBinary
          simp only [hcr, newBinaryWriter_removeAll env old e hod hra]
        | none =>
          right
          cases hnw : env.newFileWriter with
          | some e =>
            left
            refine ⟨rfl, rfl, by simp, ?_⟩
            unfold WriteBinary
            simp only [hcr, newBinaryWriter_newFileWriter env old e hod hra hnw]
          | none =>
            right
            obtain ⟨hpath, hold⟩ := newBinaryWriter_created env old hod hra hnw
            refine ⟨rfl, rfl, rfl, ?_, ?_⟩
            · unfold WriteBinary
              simp only [hcr, hold]
            · have hfull := WriteBinary_noFault_file magic obj old ir v hnf
              rcases hnb : newBinaryWriter env old with ⟨path, w, e⟩
              rw [hnb] at hpath
              simp only at hpath
              cases e with
              | some e =>
                refine ⟨[], _, ?_, hfull, List.nil_prefix⟩
                unfold WriteBinary
                simp only [hcr, hnb, hpath]
              | none =>
                obtain ⟨-, -, -, -, -, -, hnb2⟩ := newBinaryWriter_none env old (by rw [hnb])
                refine ⟨_, _, ?_, hfull,
                  (binaryWriter_Close_initial _ env.closeWriter).trans
                    (writeSections_accepted_initial env ir v _)⟩
                unfold WriteBinary
                simp only [hcr, hnb2]
  · intro henv
    subst henv
    cases hcr : newChunkedIndexReader BuildEnv.noFault magic obj with
    | error e =>
      left
      exact ⟨⟨e, rfl⟩, by simp [WriteBinary, hcr]⟩
    | ok p =>
      obtain ⟨ir, v⟩ := p
      right
      refine ⟨ir, v, rfl, ?_⟩
      have hlen : (PutBE32 MagicIndex ++ [BinaryFormatV1] ++
          ([v % 256] ++ PutBE64 ir.toc.PostingsTable)).length = 14 := by
        simp [PutBE32, PutBE64]
      cases hsym : GetRange ir.obj (int64 ir.toc.Symbols)
          (int64 (uint64Sub ir.toc.Series ir.toc.Symbols)) with
      | error e =>
        left
        refine ⟨⟨e, rfl⟩, _, ?_, rfl, hlen, ?_⟩
        · rw [WriteBinary_noFault_symbols_error magic obj old ir v e hcr hsym]
        · intro S
          exact newFileBinaryReader_short S _ (by rw [hlen]; decide)
      | ok symbols =>
        right
        cases hpost : GetRange ir.obj (int64 ir.toc.PostingsTable)
            (int64 (uint64Sub ir.size ir.toc.PostingsTable)) with
        | error e =>
          refine ⟨symbols, rfl, ⟨e, rfl⟩, ?_⟩
          rw [WriteBinary_noFault_postings_error magic obj old ir v symbols e hcr hsym hpost]
        | ok postings =>
          rw [WriteBinary_noFault_ok magic obj old ir v symbols postings hcr hsym hpost] at hfail
          exact absurd rfl hfail

set_option maxRecDepth 100000 in
/-- C12, witness: on `indexSmall` the run in which the write of the header-TOC fails
returns an error; the new file is at the path and holds a prefix of the file of the
run without a failing call. -/
theorem C12_witness :
    (WriteBinary envWriteTOCFails 0xBAAAD700 indexSmall none).err ≠ none ∧
    ∃ out full, (WriteBinary envWriteTOCFails 0xBAAAD700 indexSmall none).file = some out ∧
      (WriteBinary BuildEnv.noFault 0xBAAAD700 indexSmall none).file = some full ∧
      out <+: full := by
  have hres : (WriteBinary envWriteTOCFails 0xBAAAD700 indexSmall none).err =
      some (Err.multi1 (Err.wrap Ctx.writeIndexHeaderTOC Err.fs)) := rfl
  have hfail : (WriteBinary envWriteTOCFails 0xBAAAD700 indexSmall none).err ≠ none := by
    rw [hres]
    simp
  have hcr : newChunkedIndexReader envWriteTOCFails 0xBAAAD700 indexSmall =
      .ok (⟨indexSmall, 142, ⟨5, 26, 40, 40, 40, 56⟩⟩, 2) := rfl
  refine ⟨hfail, ?_⟩
  rcases (C12_failed_build_leaves_file envWriteTOCFails 0xBAAAD700 indexSmall none hfail).1
    with ⟨⟨e, he⟩, -⟩ | ⟨ir, v, -, h⟩
  · rw [hcr] at he
    cases he
  · rcases h with ⟨h, -⟩ | ⟨-, -, h, -⟩ | ⟨-, -, -, -, h⟩
    · rcases h with h | h <;> exact absurd rfl h
    · exact absurd rfl h
    · exact h

set_option maxRecDepth 100000 in
/-- C12, counterexample: four runs that return an error and leave a file at the output
path. On the empty object the source is rejected and the file `[7]` that was there
stays. On `indexTruncated`, whose sections lie past the end of the object, the ranged
read of the symbols fails and the path holds the 14 header bytes. On `indexSmall`,
when the copy of the symbols fails after three bytes, the path holds the header and
those three bytes; when the write of the header-TOC fails, the path holds the header,
the symbols and the postings offsets without a header-TOC. The loader rejects each of
the three new files. -/
theorem C12_counterexample :
    WriteBinary BuildEnv.noFault 0xBAAAD700 [] (some [7]) =
      ⟨some [7], some (Err.wrap Ctx.newIndexReader
        (Err.wrap Ctx.getTOCFromObjectStorage Err.getRange))⟩ ∧
    NewTOCFromByteSlice indexTruncated = .ok ⟨5, 200, 200, 200, 200, 200⟩ ∧
    WriteBinary BuildEnv.noFault 0xBAAAD700 indexTruncated none =
      ⟨some [186, 170, 215, 146, 1, 2, 0, 0, 0, 0, 0, 0, 0, 200],
        some (Err.multi1 (Err.wrap Ctx.getSymbolsFromObjectStorage Err.getRange))⟩ ∧
    WriteBinary envCopySymbolsFails 0xBAAAD700 indexSmall none =
      ⟨some [186, 170, 215, 146, 1, 2, 0, 0, 0, 0, 0, 0, 0, 56, 0, 0, 0],
        some (Err.multi1 (Err.wrap Ctx.copySymbols Err.stream))⟩ ∧
    WriteBinary envWriteTOCFails 0xBAAAD700 indexSmall none =
      ⟨some ([186, 170, 215, 146, 1, 2, 0, 0, 0, 0, 0, 0, 0, 56] ++
        (indexSmall.drop 5).take 21 ++ indexSmall.drop 56),
        some (Err.multi1 (Err.wrap Ctx.writeIndexHeaderTOC Err.fs))⟩ ∧
    (newFileBinaryReader tsdbSymbols
      [186, 170, 215, 146, 1, 2, 0, 0, 0, 0, 0, 0, 0, 200]).toBool = false ∧
    (newFileBinaryReader tsdbSymbols
      [186, 170, 215, 146, 1, 2, 0, 0, 0, 0, 0, 0, 0, 56, 0, 0, 0]).toBool = false ∧
    (newFileBinaryReader tsdbSymbols
      ([186, 170, 215, 146, 1, 2, 0, 0, 0, 0, 0, 0, 0, 56] ++
        (indexSmall.drop 5).take 21 ++ indexSmall.drop 56)).toBool = false := by
  refine ⟨rfl, rfl, rfl, rfl, rfl, rfl, rfl, rfl⟩

set_option maxRecDepth 100000 in
/-- The run in which the file writer cannot create the file, on `indexSmall` with the
file `[7]` at the path: the old file is removed and no file is at the path. -/
theorem WriteBinary_newFileWriter_fails :
    WriteBinary envNewFileWriterFails 0xBAAAD700 indexSmall (some [7]) =
      ⟨none, some (Err.wrap Ctx.newBinaryIndexHeaderWriter (Err.multi1 Err.fs))⟩ := by
  rfl

/-! ## The version-1 path: what the nested map holds -/

theorem assignAll_snoc {α β : Type} [DecidableEq α] (l : List (α × β)) (a : α × β) :
    assignAll (l ++ [a]) = mapSet (assignAll l) a.1 a.2 := by
  simp [assignAll, List.foldl_append]

theorem mapGet_assignAll_mem {α β : Type} [DecidableEq α] (l : List (α × β)) (k : α) (x : β)
    (h : mapGet (assignAll l) k = some x) : (k, x) ∈ l := by
  induction l using List.reverseRecOn with
  | nil => simp [assignAll, mapGet] at h
  | append_singleton l a ih =>
    rw [assignAll_snoc, mapGet_mapSet] at h
    split at h
    · rename_i hk
      injection h with h
      rw [← hk, ← h]
      simp
    · exact List.mem_append_left _ (ih h)

theorem mapGet_assignAll_none {α β : Type} [DecidableEq α] (l : List (α × β)) (k : α) :
    mapGet (assignAll l) k = none ↔ k ∉ l.map Prod.fst := by
  induction l using List.reverseRecOn with
  | nil => simp [assignAll, mapGet]
  | append_singleton l a ih =>
    rw [assignAll_snoc, mapGet_mapSet]
    by_cases hk : a.1 = k
    · simp [hk]
    · have hk2 : ¬ k = a.1 := fun h => hk h.symm
      simp [hk, hk2, ih]

theorem mapGet_assignAll_nodup {α β : Type} [DecidableEq α] (l : List (α × β)) (k : α) (x : β)
    (hnd : (l.map Prod.fst).Nodup) (h : (k, x) ∈ l) : mapGet (assignAll l) k = some x := by
  induction l using List.reverseRecOn with
  | nil => cases h
  | append_singleton l a ih =>
    rw [assignAll_snoc, mapGet_mapSet]
    rw [List.map_append, List.nodup_append] at hnd
    obtain ⟨hnd1, -, hdis⟩ := hnd
    rcases List.mem_append.1 h with h1 | h1
    · have hk : k ∈ l.map Prod.fst := List.mem_map_of_mem Prod.fst h1
      have hne : ¬ a.1 = k := by
        intro heq
        exact hdis hk (by simp [heq])
      rw [if_neg hne]
      exact ih hnd1 h1
    · simp only [List.mem_singleton] at h1
      rw [← h1]
      simp

theorem lookupV1_set (m : List (Str × List (Str × Range))) (n v n1 v1 : Str) (x : Range) :
    lookupV1 (mapSet m n (mapSet ((mapGet m n).getD []) v x)) n1 v1 =
      if (n, v) = (n1, v1) then some x else lookupV1 m n1 v1 := by
  unfold lookupV1
  rw [mapGet_mapSet]
  by_cases hn : n = n1
  · subst hn
    simp only [if_true, mapGet_mapSet, Prod.mk.injEq, true_and]
    by_cases hv : v = v1
    · simp [hv]
    · simp only [hv, if_false]
      cases mapGet m n with
      | none => rfl
      | some e => rfl
  · simp [hn]

theorem lookupV1_new (m : List (Str × List (Str × Range))) (n n1 v1 : Str)
    (h : mapGet m n = none) : lookupV1 (mapSet m n []) n1 v1 = lookupV1 m n1 v1 := by
  unfold lookupV1
  rw [mapGet_mapSet]
  by_cases hn : n = n1
  · subst hn
    simp [h, mapGet]
  · simp [hn]

theorem v1Stored_snoc (done : List TableEntry) (l e : TableEntry)
    (h : done.getLast? = some l) :
    v1Stored (done ++ [e]) =
      v1Stored done ++ [((l.name, l.value), ⟨int64 l.off, int64 (uint64Sub e.off 1)⟩)] := by
  induction done with
  | nil => cases h
  | cons x done ih =>
    cases done with
    | nil =>
      simp only [List.getLast?_singleton, Option.some.injEq] at h
      subst h
      simp [v1Stored]
    | cons y rest =>
      have h1 : (y :: rest).getLast? = some l := by
        rw [List.getLast?_cons_cons] at h
        exact h
      have := ih h1
      simp only [List.cons_append, v1Stored] at this ⊢
      exact congrArg (List.cons _) this

theorem v1Ranges_eq (lastEnd : Int) (done : List TableEntry) :
    v1Ranges lastEnd done = v1Stored done ++
      (match done.getLast? with
       | some l => [((l.name, l.value), ⟨int64 l.off, lastEnd⟩)]
       | none => []) := by
  induction done with
  | nil => rfl
  | cons x done ih =>
    cases done with
    | nil => simp [v1Ranges, v1Stored]
    | cons y rest =>
      simp only [v1Ranges, v1Stored, List.getLast?_cons_cons, List.cons_append]
      rw [ih]

theorem v1Ranges_keys (lastEnd : Int) (ents : List TableEntry) :
    (v1Ranges lastEnd ents).map Prod.fst = ents.map (fun e => (e.name, e.value)) := by
  induction ents with
  | nil => rfl
  | cons x ents ih =>
    cases ents with
    | nil => rfl
    | cons y rest =>
      simp only [v1Ranges, List.map_cons]
      rw [ih]
      rfl

/-- The assignment the version-1 path makes for the entry `e` of the table. -/
theorem v1Ranges_mem (lastEnd : Int) (pre post : List TableEntry) (e : TableEntry) :
    ((e.name, e.value),
      (⟨int64 e.off,
        match post with
        | [] => lastEnd
        | nx :: _ => int64 (uint64Sub nx.off 1)⟩ : Range)) ∈
      v1Ranges lastEnd (pre ++ e :: post) := by
  induction pre with
  | nil =>
    cases post with
    | nil => simp [v1Ranges]
    | cons nx post => simp [v1Ranges]
  | cons x pre ih =>
    cases hp : pre ++ e :: post with
    | nil => simp at hp
    | cons y rest =>
      rw [hp] at ih
      simp only [List.cons_append, hp, v1Ranges]
      exact List.mem_cons_of_mem _ ih

theorem v1Callback_stored (done : List TableEntry) (st st1 : V1State) (e : TableEntry)
    (hinv : V1StoredInv done st) (h : v1Callback st e.key e.off e.tableOff = .ok st1) :
    V1StoredInv (done ++ [e]) st1 := by
  have hlast : (done ++ [e]).getLast? = some e := by simp
  -- the end of the callback, from the map `pv1` after the assignment for the entry before
  have tail : ∀ pv1 : List (Str × List (Str × Range)),
      (∀ n v, lookupV1 pv1 n v = mapGet (assignAll (v1Stored (done ++ [e]))) (n, v)) →
      (∀ n m, mapGet pv1 n = some m → (mapKeys m).Nodup) →
      (st1 = ⟨pv1, st.postings, some e.key, ⟨int64 e.off, 0⟩⟩ ∨
        (mapGet pv1 e.name = none ∧
          st1 = ⟨mapSet pv1 e.name [], mapSet st.postings e.name [], some e.key,
            ⟨int64 e.off, 0⟩⟩)) →
      V1StoredInv (done ++ [e]) st1 := by
    intro pv1 hget hnd hst
    rcases hst with hst | ⟨hnone, hst⟩
    · subst hst
      refine ⟨hget, by rw [hlast]; rfl, ?_, hnd⟩
      intro l hl
      rw [hlast] at hl
      injection hl with hl
      rw [← hl]
    · subst hst
      refine ⟨?_, by rw [hlast]; rfl, ?_, ?_⟩
      · intro n v
        show lookupV1 (mapSet pv1 e.name []) n v = _
        rw [lookupV1_new pv1 e.name n v hnone]
        exact hget n v
      · intro l hl
        rw [hlast] at hl
        injection hl with hl
        rw [← hl]
      · intro n m hm
        simp only [mapGet_mapSet] at hm
        split at hm
        · injection hm with hm
          rw [← hm]
          simp [mapKeys]
        · exact hnd n m hm
  unfold v1Callback at h
  split at h
  · cases h
  · dsimp only at h
    have hname : e.key.getD 0 [] = e.name := rfl
    simp only [hname] at h
    cases hl : done.getLast? with
    | none =>
      have hd : done = [] := List.getLast?_eq_none_iff.1 hl
      have hlk := hinv.lastKey
      rw [hl] at hlk
      simp only [Option.map_none'] at hlk
      simp only [hlk] at h
      have hget : ∀ n v, lookupV1 st.postingsV1 n v =
          mapGet (assignAll (v1Stored (done ++ [e]))) (n, v) := by
        intro n v
        rw [hinv.get n v, hd]
        rfl
      split at h
      · injection h with h
        exact tail _ hget hinv.nodup (Or.inl h.symm)
      · rename_i hnone
        injection h with h
        exact tail _ hget hinv.nodup (Or.inr ⟨hnone, h.symm⟩)
    | some l =>
      have hlk := hinv.lastKey
      rw [hl] at hlk
      simp only [Option.map_some'] at hlk
      simp only [hlk] at h
      have h0 : l.key.getD 0 [] = l.name := rfl
      have h1 : l.key.getD 1 [] = l.value := rfl
      rw [h0, h1, hinv.prevRng l hl] at h
      have hget : ∀ n v, lookupV1 (mapSet st.postingsV1 l.name
            (mapSet ((mapGet st.postingsV1 l.name).getD []) l.value
              ⟨int64 l.off, int64 (uint64Sub e.off 1)⟩)) n v =
          mapGet (assignAll (v1Stored (done ++ [e]))) (n, v) := by
        intro n v
        rw [lookupV1_set, v1Stored_snoc done l e hl, assignAll_snoc, mapGet_mapSet,
          hinv.get n v]
      have hnd : ∀ n m, mapGet (mapSet st.postingsV1 l.name
            (mapSet ((mapGet st.postingsV1 l.name).getD []) l.value
              ⟨int64 l.off, int64 (uint64Sub e.off 1)⟩)) n = some m → (mapKeys m).Nodup := by
        intro n m hm
        simp only [mapGet_mapSet] at hm
        split at hm
        · injection hm with hm
          rw [← hm]
          apply nodup_mapKeys_mapSet
          cases hg : mapGet st.postingsV1 l.name with
          | none => simp [mapKeys]
          | some e0 => exact hinv.nodup _ e0 hg
        · exact hinv.nodup n m hm
      split at h
      · injection h with h
        exact tail _ hget hnd (Or.inl h.symm)
      · rename_i hnone
        injection h with h
        exact tail _ hget hnd (Or.inr ⟨hnone, h.symm⟩)

theorem v1_fold_stored (ents done : List TableEntry) (st st1 : V1State)
    (hinv : V1StoredInv done st) (h : foldEntries v1Callback ents st = .ok st1) :
    V1StoredInv (done ++ ents) st1 := by
  induction ents generalizing done st with
  | nil =>
    simp only [foldEntries] at h
    cases h
    simpa using hinv
  | cons e ents ih =>
    simp only [foldEntries] at h
    split at h
    · cases h
    · rename_i s2 hs2
      have hinv2 := v1Callback_stored done st s2 e hinv hs2
      have := ih _ _ hinv2 h
      simpa using this

theorem v1Finish_stored (done : List TableEntry) (st : V1State) (hinv : V1StoredInv done st)
    (lastEnd : Int) :
    (∀ n v, lookupV1 (v1Finish st lastEnd).postingsV1 n v =
      mapGet (assignAll (v1Ranges lastEnd done)) (n, v)) ∧
    (∀ n m, mapGet (v1Finish st lastEnd).postingsV1 n = some m → (mapKeys m).Nodup) := by
  unfold v1Finish
  cases hl : done.getLast? with
  | none =>
    have hlk := hinv.lastKey
    rw [hl] at hlk
    simp only [Option.map_none'] at hlk
    simp only [hlk]
    refine ⟨?_, hinv.nodup⟩
    intro n v
    rw [hinv.get n v, v1Ranges_eq, hl]
    simp
  | some l =>
    have hlk := hinv.lastKey
    rw [hl] at hlk
    simp only [Option.map_some'] at hlk
    simp only [hlk]
    have h0 : l.key.getD 0 [] = l.name := rfl
    have h1 : l.key.getD 1 [] = l.value := rfl
    have hr : (⟨st.prevRng.Start, lastEnd⟩ : Range) = ⟨int64 l.off, lastEnd⟩ := by
      rw [← hinv.prevRng l hl]
    constructor
    · intro n v
      rw [h0, h1, hr, lookupV1_set, v1Ranges_eq, hl]
      simp only
      rw [assignAll_snoc, mapGet_mapSet, hinv.get n v]
    · intro n m hm
      simp only [mapGet_mapSet] at hm
      split at hm
      · injection hm with hm
        rw [← hm]
        apply nodup_mapKeys_mapSet
        cases hg : mapGet st.postingsV1 (l.key.getD 0 []) with
        | none => simp [mapKeys]
        | some e0 => exact hinv.nodup _ e0 hg
      · exact hinv.nodup n m hm

/-- The nested map of a reader loaded on the version-1 path. -/
theorem loaded_v1_ranges {S : SymbolsOps} {b : ByteSlice} {r : BinaryReader S}
    (hok : newFileBinaryReader S b = .ok r) (hv : r.indexVersion = FormatV1) :
    ∃ ents, tableEntries b r.toc.PostingsOffsetTable = .ok ents ∧
      (∀ n v, lookupV1 r.postingsV1 n v =
        mapGet (assignAll (v1Ranges r.indexLastPostingEnd ents)) (n, v)) ∧
      (∀ n m, mapGet r.postingsV1 n = some m → (mapKeys m).Nodup) := by
  obtain ⟨h, -, -, hp, hb, -, hiv, hil⟩ := newFileBinaryReader_ok hok
  unfold loadPostings at hp
  rw [← hiv] at hp
  simp only [hv, if_true] at hp
  split at hp
  · cases hp
  · rename_i st hst
    obtain ⟨ents, hents, hfold⟩ := ReadOffsetTable_fold _ _ _ _ _ hst
    have hinv0 : V1StoredInv [] (⟨[], [], none, ⟨0, 0⟩⟩ : V1State) :=
      ⟨fun n v => by simp [lookupV1, mapGet, v1Stored, assignAll], rfl,
        fun l hl => by simp at hl, fun n m hm => by simp [mapGet] at hm⟩
    have hinv := v1_fold_stored ents [] _ st hinv0 hfold
    simp only [List.nil_append] at hinv
    have hfin := v1Finish_stored ents st hinv h.indexLastPostingEnd
    injection hp with hp
    injection hp with hp1 hp2
    refine ⟨ents, hents, ?_, ?_⟩
    · rw [← hp2, hil]; exact hfin.1
    · rw [← hp2]; exact hfin.2

/-- On the version-1 path `PostingsOffset` is the lookup in the nested map. -/
theorem PostingsOffset_v1 {S : SymbolsOps} (r : BinaryReader S) (n v : Str)
    (hv : r.indexVersion = FormatV1) :
    PostingsOffset r n v =
      match lookupV1 r.postingsV1 n v with
      | some rng => .ok rng
      | none => .error Err.NotFoundRangeErr := by
  unfold PostingsOffset postingsOffset lookupV1
  simp only [hv, if_true]
  cases mapGet r.postingsV1 n with
  | none => rfl
  | some e =>
    simp only [List.filterMap_cons, List.filterMap_nil]
    cases mapGet e v with
    | none => rfl
    | some rng => rfl

/-! ## `LabelValues` and `PostingsOffset` on the version-1 path (C15, C18) -/

/-- C15: in a version-1 header that the loader accepts, for a label name that occurs
in the postings offset table, `LabelValues` returns without error a strictly ascending
list whose members are exactly the label values of the entries with that name; the
order of the entries in the table plays no part. -/
theorem C15_label_values_v1 (S : SymbolsOps) (b : ByteSlice) (r : BinaryReader S)
    (ents : List TableEntry) (n : Str)
    (hok : newFileBinaryReader S b = .ok r) (hv : r.indexVersion = FormatV1)
    (hents : tableEntries b r.toc.PostingsOffsetTable = .ok ents)
    (hn : n ∈ tableNames ents) :
    ∃ vals, LabelValues r n = .ok vals ∧
      vals.Pairwise (fun a c => strLt a c = true) ∧
      ∀ v, v ∈ vals ↔ ∃ e ∈ ents, e.name = n ∧ e.value = v := by
  obtain ⟨ents1, hents1, -, hkeys1, -, -⟩ := loaded_v1 hok hv
  rw [hents] at hents1
  injection hents1 with hents1
  subst hents1
  obtain ⟨ents2, hents2, hlook, hnd⟩ := loaded_v1_ranges hok hv
  rw [hents] at hents2
  injection hents2 with hents2
  subst hents2
  cases hm : mapGet r.postingsV1 n with
  | none => exact absurd hm ((hkeys1 n).2 hn)
  | some m =>
    refine ⟨sortStrings (mapKeys m), ?_, sortStrings_strict _ (hnd n m hm), ?_⟩
    · unfold LabelValues
      simp only [hv, if_true, hm]
    · intro v
      rw [(sortStrings_perm (mapKeys m)).mem_iff, mem_mapKeys_iff]
      have hl : lookupV1 r.postingsV1 n v = mapGet m v := by
        unfold lookupV1
        rw [hm]
      rw [← hl, hlook n v, ne_eq, mapGet_assignAll_none, not_not, v1Ranges_keys]
      simp only [List.mem_map, Prod.mk.injEq]

set_option maxRecDepth 100000 in
theorem fileUnsortedV1_loads :
    (newFileBinaryReader tsdbSymbols fileUnsortedV1).toBool = true := by
  decide

set_option maxRecDepth 100000 in
theorem fileUnsortedV1_toc :
    (newFileBinaryReader tsdbSymbols fileUnsortedV1).map
      (fun r => (r.toc, r.indexVersion, r.indexLastPostingEnd)) = .ok (⟨14, 35⟩, 1, 299) := by
  rfl

set_option maxRecDepth 100000 in
theorem fileUnsortedV1_entries :
    tableEntries fileUnsortedV1 35 = .ok fileUnsortedV1Entries := by
  rfl

set_option maxRecDepth 100000 in
theorem fileUnsortedV1_values :
    (newFileBinaryReader tsdbSymbols fileUnsortedV1).map (fun r => LabelValues r [97]) =
      .ok (.ok [[49], [50]]) := by
  rfl

/-- The reader of `fileUnsortedV1`. -/
theorem fileUnsortedV1_reader :
    ∃ r, newFileBinaryReader tsdbSymbols fileUnsortedV1 = .ok r ∧ r.indexVersion = FormatV1 ∧
      r.indexLastPostingEnd = 299 ∧
      tableEntries fileUnsortedV1 r.toc.PostingsOffsetTable = .ok fileUnsortedV1Entries ∧
      LabelValues r [97] = .ok [[49], [50]] := by
  obtain ⟨r, hr⟩ := exists_ok_of_toBool _ fileUnsortedV1_loads
  have h := fileUnsortedV1_toc
  rw [hr] at h
  simp only [Except.map, Except.ok.injEq, Prod.mk.injEq] at h
  have h2 := fileUnsortedV1_values
  rw [hr] at h2
  simp only [Except.map, Except.ok.injEq] at h2
  exact ⟨r, hr, h.2.1, h.2.2, by rw [h.1]; exact fileUnsortedV1_entries, h2⟩

/-- C15, witness: the label name `"a"` in `fileUnsortedV1`, whose table has the entries
`("a", "2")`, `("b", "1")`, `("a", "1")` in this order. -/
theorem C15_witness :
    ∃ r, newFileBinaryReader tsdbSymbols fileUnsortedV1 = .ok r ∧
      LabelValues r [97] = .ok [[49], [50]] ∧
      ([[49], [50]] : List Str).Pairwise (fun a c => strLt a c = true) := by
  obtain ⟨r, hr, hver, -, hents, hvals⟩ := fileUnsortedV1_reader
  obtain ⟨vals, h1, h2, -⟩ := C15_label_values_v1 tsdbSymbols fileUnsortedV1 r
    fileUnsortedV1Entries [97] hr hver hents (by decide)
  rw [hvals] at h1
  injection h1 with h1
  rw [← h1] at h2
  exact ⟨r, hr, hvals, h2⟩

/-- C18: in a version-1 header that the loader accepts and whose table has no key
`(name, value)` twice, `PostingsOffset` returns for a table entry with posting offset
`p` that is followed by an entry with posting offset `q` the range from `int64(p)` to
`int64(q - 1)` (these are `p` and `q - 1` for offsets below `2^63`), for the last
table entry the range from `int64(p)` to `indexLastPostingEnd`, and it fails with
`NotFoundRangeErr` for a name and a value that no table entry carries. -/
theorem C18_postings_offset_v1 (S : SymbolsOps) (b : ByteSlice) (r : BinaryReader S)
    (ents : List TableEntry)
    (hok : newFileBinaryReader S b = .ok r) (hv : r.indexVersion = FormatV1)
    (hents : tableEntries b r.toc.PostingsOffsetTable = .ok ents)
    (hdistinct : (ents.map (fun e => (e.name, e.value))).Nodup) :
    (∀ pre e nx post, ents = pre ++ e :: nx :: post →
      ∃ rng, PostingsOffset r e.name e.value = .ok rng ∧
        rng.Start = int64 e.off ∧ rng.End = int64 (uint64Sub nx.off 1) ∧
        (e.off < 2 ^ 63 → rng.Start = (e.off : Int)) ∧
        (nx.off < 2 ^ 63 → rng.End = (nx.off : Int) - 1)) ∧
    (∀ pre e, ents = pre ++ [e] →
      ∃ rng, PostingsOffset r e.name e.value = .ok rng ∧
        rng.Start = int64 e.off ∧ rng.End = r.indexLastPostingEnd ∧
        (e.off < 2 ^ 63 → rng.Start = (e.off : Int))) ∧
    (∀ n v, (∀ e ∈ ents, ¬ (e.name = n ∧ e.value = v)) →
      PostingsOffset r n v = .error Err.NotFoundRangeErr) := by
  obtain ⟨ents2, hents2, hlook, -⟩ := loaded_v1_ranges hok hv
  rw [hents] at hents2
  injection hents2 with hents2
  subst hents2
  have hnd : ((v1Ranges r.indexLastPostingEnd ents).map Prod.fst).Nodup := by
    rw [v1Ranges_keys]
    exact hdistinct
  refine ⟨?_, ?_, ?_⟩
  · intro pre e nx post hsplit
    have hmem := v1Ranges_mem r.indexLastPostingEnd pre (nx :: post) e
    rw [← hsplit] at hmem
    have hget := mapGet_assignAll_nodup _ _ _ hnd hmem
    refine ⟨⟨int64 e.off, int64 (uint64Sub nx.off 1)⟩, ?_, rfl, rfl, int64_small e.off,
      int64_pred nx.off⟩
    rw [PostingsOffset_v1 r _ _ hv, hlook, hget]
  · intro pre e hsplit
    have hmem := v1Ranges_mem r.indexLastPostingEnd pre [] e
    rw [← hsplit] at hmem
    have hget := mapGet_assignAll_nodup _ _ _ hnd hmem
    refine ⟨⟨int64 e.off, r.indexLastPostingEnd⟩, ?_, rfl, rfl, int64_small e.off⟩
    rw [PostingsOffset_v1 r _ _ hv, hlook, hget]
  · intro n v habs
    have hnone : mapGet (assignAll (v1Ranges r.indexLastPostingEnd ents)) (n, v) = none := by
      rw [mapGet_assignAll_none, v1Ranges_keys]
      simp only [List.mem_map, Prod.mk.injEq, not_exists, not_and]
      intro e he hn
      exact fun hval => habs e he ⟨hn, hval⟩
    rw [PostingsOffset_v1 r _ _ hv, hlook, hnone]

/-- C18, witness: in `fileUnsortedV1` the entry `("b", "1") -> 120` is followed by
`("a", "1") -> 140`, which is the last entry; no entry has the key `("a", "3")`. -/
theorem C18_witness :
    ∃ r, newFileBinaryReader tsdbSymbols fileUnsortedV1 = .ok r ∧
      PostingsOffset r [98] [49] = .ok ⟨120, 139⟩ ∧
      PostingsOffset r [97] [49] = .ok ⟨140, 299⟩ ∧
      PostingsOffset r [97] [51] = .error Err.NotFoundRangeErr := by
  obtain ⟨r, hr, hver, hil, hents, -⟩ := fileUnsortedV1_reader
  obtain ⟨h1, h2, h3⟩ := C18_postings_offset_v1 tsdbSymbols fileUnsortedV1 r
    fileUnsortedV1Entries hr hver hents (by decide)
  obtain ⟨rng1, g1, g2, -, g3, g4⟩ := h1 [⟨[[97], [50]], 100, 4⟩] ⟨[[98], [49]], 120, 10⟩
    ⟨[[97], [49]], 140, 16⟩ [] rfl
  obtain ⟨rng2, k1, -, k2, k3⟩ := h2 [⟨[[97], [50]], 100, 4⟩, ⟨[[98], [49]], 120, 10⟩]
    ⟨[[97], [49]], 140, 16⟩ rfl
  refine ⟨r, hr, ?_, ?_, h3 [97] [51] (by decide)⟩
  · have hs := g3 (by decide)
    have he := g4 (by decide)
    have : rng1 = ⟨120, 139⟩ := by
      cases rng1
      simp only at hs he
      subst hs
      subst he
      rfl
    rw [← this]
    exact g1
  · have hs := k3 (by decide)
    have : rng2 = ⟨140, 299⟩ := by
      cases rng2
      simp only at hs k2
      rw [hil] at k2
      subst hs
      subst k2
      rfl
    rw [← this]
    exact k1

/-! ## The scan of `postingsOffset` for a value that is not in the table -/

theorem advanceValues_below (x v : Str) (po : Int) (h : strLt x v = true) :
    advanceValues x po v [v] [] = (v, [v], []) := by
  simp [advanceValues, strGe, h]

theorem advanceValues_above (x v : Str) (po : Int) (h : strLt v x = true) :
    advanceValues x po v [v] [] = (v, [], []) := by
  have h1 : strLt x v = false := strLt_asymm h
  have h2 : x ≠ v := by
    intro heq
    rw [heq, strLt_irrefl] at h
    cases h
  simp [advanceValues, strGe, h1, h2]

/-- The scan from the entry `e` for a value `v` between the value of `e` and the value
of the next entry `nx`, a sample of the same label name: after `nx` one more entry
is read, whatever it is, and no range is returned. -/
theorem scanLoop_absent (es : List postingOffset) (j : Nat) (lastEnd : Int) (fuel : Nat)
    {d d1 d2 : Decbuf} {e nx : TableEntry} (hdec : EntryDecodes d e d1)
    (hlen : e.key.length = 2) (hdec2 : EntryDecodes d1 nx d2) (hlen2 : nx.key.length = 2)
    (hkl : d.Len - (d.Uvarint.2.UvarintBytes.2).Len =
      d1.Len - (d1.Uvarint.2.UvarintBytes.2).Len)
    (hlast : j + 1 ≠ es.length) (v : Str)
    (hlo : strLt e.value v = true) (hhi : strLt v nx.value = true)
    (hnext : (es.getD (j + 1) ⟨[], 0⟩).value = nx.value) :
    ∃ dend skip1, scanLoop es j lastEnd (fuel + 2) ⟨d, 0, v, [v], [], []⟩ =
      ⟨dend, skip1, v, [], [], []⟩ := by
  obtain ⟨h1, -, -, h4, h5, -⟩ := hdec.two_keys hlen
  obtain ⟨g1, g2, g3, g4, g5, -⟩ := hdec2.two_keys hlen2
  have hv : (d.Uvarint.2.UvarintBytes.2).UvarintBytes =
      (e.value, (d.Uvarint.2.UvarintBytes.2).UvarintBytes.2) := by
    rw [← h4]
  have hv2 : (d1.Uvarint.2.UvarintBytes.2).UvarintBytes =
      (nx.value, (d1.Uvarint.2.UvarintBytes.2).UvarintBytes.2) := by
    rw [← g4]
  have hge : strGe v nx.value = false := by simp [strGe, hhi]
  have hskip := hdec2.readSkip_keyLen hlen2 (d.Len - (d.Uvarint.2.UvarintBytes.2).Len) hkl
  refine ⟨((d2.Skip (d.Len - (d.Uvarint.2.UvarintBytes.2).Len)).UvarintBytes.2).Uvarint64.2,
    d.Len - (d.Uvarint.2.UvarintBytes.2).Len, ?_⟩
  rw [scanLoop]
  simp only [h1, hdec.readSkip_zero]
  rw [hv]
  simp only [h5, advanceValues_below _ _ _ hlo, hlast, if_false, hnext, hge,
    Bool.false_eq_true, false_or, List.cons_ne_nil]
  rw [scanLoop]
  simp only [g1, hskip]
  rw [hv2]
  simp only [g5, advanceValues_above _ _ _ hhi, hlast, if_false, or_true, if_true,
    List.map_nil, List.append_nil]

/-- The loop of `postingsOffset` for one value `v` that lies between the values of
the samples `es[i0 - 1]` and `es[i0]`, given what the scan returns: no range. -/
theorem postingsOffsetLoop_absent {S : SymbolsOps} (r : BinaryReader S)
    (es : List postingOffset) (i0 : Nat) (v : Str) (d dend : Decbuf) (skip1 : Nat)
    (hi0 : i0 < es.length) (hpos : 0 < i0)
    (hsearch : Search es.length (fun i => strGe (es.getD i ⟨[], 0⟩).value v) = i0)
    (hval : (es.getD i0 ⟨[], 0⟩).value ≠ v)
    (hd : (NewDecbufAt r.b (int64 r.toc.PostingsOffsetTable) false).Skip
      (es.getD (i0 - 1) ⟨[], 0⟩).tableOff = d)
    (hscan : scanLoop es (i0 - 1) r.indexLastPostingEnd (d.Len + 1) ⟨d, 0, v, [v], [], []⟩ =
      ⟨dend, skip1, v, [], [], []⟩) :
    postingsOffsetLoop r es 2 ⟨⟨[], none⟩, 0, [], [v], [], []⟩ = .ok [] ∨
    ∃ err, postingsOffsetLoop r es 2 ⟨⟨[], none⟩, 0, [], [v], [], []⟩ = .error err := by
  have hne : i0 ≠ es.length := by omega
  rw [postingsOffsetLoop]
  simp only [hsearch, hne, if_false, hval, hpos, ne_eq, not_false_eq_true, and_self, if_true,
    hd, hscan]
  cases hE : dend.E with
  | some err => exact Or.inr ⟨_, rfl⟩
  | none =>
    left
    simp only []
    rw [postingsOffsetLoop]

theorem sorted_split (es : List postingOffset) (v : Str)
    (hpw : es.Pairwise (fun s1 s2 => strLt s1.value s2.value = true))
    (habs : ∀ s ∈ es, s.value ≠ v) :
    ∃ A B, es = A ++ B ∧ (∀ s ∈ A, strLt s.value v = true) ∧
      (∀ s ∈ B, strLt v s.value = true) := by
  induction es with
  | nil => exact ⟨[], [], rfl, by simp, by simp⟩
  | cons s tl ih =>
    rw [List.pairwise_cons] at hpw
    by_cases hs : strLt s.value v = true
    · obtain ⟨A, B, hAB, hA, hB⟩ := ih hpw.2 (fun x hx => habs x (List.mem_cons_of_mem _ hx))
      refine ⟨s :: A, B, by rw [hAB]; rfl, ?_, hB⟩
      intro x hx
      rcases List.mem_cons.1 hx with rfl | hx
      · exact hs
      · exact hA x hx
    · have hs1 : strLt s.value v = false := by simpa using hs
      have hvs : strLt v s.value = true := by
        by_contra hc
        have hc1 : strLt v s.value = false := by simpa using hc
        exact habs s (List.mem_cons_self _ _) (strLt_trichotomy hs1 hc1)
      refine ⟨[], s :: tl, rfl, by simp, ?_⟩
      intro x hx
      rcases List.mem_cons.1 hx with rfl | hx
      · exact hvs
      · exact strLt_trans hvs (hpw.1 x hx)

theorem getD_append_mem (A B : List postingOffset) (i : Nat) :
    (i < A.length → (A ++ B).getD i ⟨[], 0⟩ ∈ A) ∧
    (A.length ≤ i → i < (A ++ B).length → (A ++ B).getD i ⟨[], 0⟩ ∈ B) := by
  simp only [List.getD_eq_getElem?_getD]
  constructor
  · intro h
    rw [List.getElem?_append_left h, List.getElem?_eq_getElem h]
    exact List.getElem_mem _
  · intro h1 h2
    rw [List.getElem?_append_right h1]
    simp only [List.length_append] at h2
    have h3 : i - A.length < B.length := by omega
    rw [List.getElem?_eq_getElem h3]
    exact List.getElem_mem _

theorem search_absent (A B : List postingOffset) (v : Str)
    (hA : ∀ s ∈ A, strLt s.value v = true) (hB : ∀ s ∈ B, strLt v s.value = true) :
    Search (A ++ B).length (fun i => strGe ((A ++ B).getD i ⟨[], 0⟩).value v) = A.length := by
  apply Search_eq
  · simp
  · intro i hi
    have := hA _ ((getD_append_mem A B i).1 hi)
    simp only [strGe, this, Bool.not_true]
  · intro i hi1 hi2
    have := strLt_asymm (hB _ ((getD_append_mem A B i).2 hi1 hi2))
    simp only [strGe, this, Bool.not_false]

/-- A sample of a label name is the sample of an entry of the table, and the samples
before and after it are those of the entries before and after that entry. -/
theorem samplesOf_split (n : Str) (ents : List TableEntry) (X Y : List postingOffset)
    (y : postingOffset) (h : samplesOf n ents = X ++ y :: Y) :
    ∃ pre e post, ents = pre ++ e :: post ∧ e.name = n ∧ e.sample = y ∧
      samplesOf n pre = X ∧ samplesOf n post = Y := by
  induction ents generalizing X with
  | nil => simp [samplesOf] at h
  | cons x tl ih =>
    by_cases hx : x.name = n
    · rw [samplesOf_cons_same n x tl hx] at h
      cases X with
      | nil =>
        simp only [List.nil_append, List.cons.injEq] at h
        exact ⟨[], x, tl, rfl, hx, h.1, rfl, h.2⟩
      | cons x0 X =>
        simp only [List.cons_append, List.cons.injEq] at h
        obtain ⟨pre, e, post, h1, h2, h3, h4, h5⟩ := ih X h.2
        refine ⟨x :: pre, e, post, by rw [h1]; rfl, h2, h3, ?_, h5⟩
        rw [samplesOf_cons_same n x pre hx, h4, h.1]
    · have hs : ∀ l, samplesOf n (x :: l) = samplesOf n l := by
        intro l
        simp [samplesOf, hx]
      rw [hs] at h
      obtain ⟨pre, e, post, h1, h2, h3, h4, h5⟩ := ih X h
      exact ⟨x :: pre, e, post, by rw [h1]; rfl, h2, h3, by rw [hs, h4], h5⟩

/-- In a sorted version-2 table whose entries of one name write key count and name
in the same number of bytes, `PostingsOffset` returns no range for a label name and a
value that no entry carries: it fails. -/
theorem postingsOffset_absent (S : SymbolsOps) (b : ByteSlice) (r : BinaryReader S)
    (ents : List TableEntry) (n v : Str)
    (hok : newFileBinaryReader S b = .ok r) (hv : r.indexVersion ≠ FormatV1)
    (hents : tableEntries b r.toc.PostingsOffsetTable = .ok ents)
    (hsorted : SortedTable ents)
    (huni : UniformKeyLen b r.toc.PostingsOffsetTable ents)
    (habs : ∀ e ∈ ents, ¬ (e.name = n ∧ e.value = v)) :
    ∃ err, PostingsOffset r n v = .error err := by
  obtain ⟨ents1, hents1, hall, hget, -, hb⟩ := loaded_v2 hok hv
  rw [hents] at hents1
  injection hents1 with hents1
  subst hents1
  by_cases hn : n ∈ tableNames ents
  · have hgetn : mapGet r.postings n = some (samplesOf n ents) := by rw [hget, if_pos hn]
    have hpw := samplesOf_sorted n ents hsorted
    have habs1 : ∀ s ∈ samplesOf n ents, s.value ≠ v := by
      intro s hs
      simp only [samplesOf, List.mem_map, List.mem_filter, decide_eq_true_eq] at hs
      obtain ⟨e, ⟨he, hen⟩, hse⟩ := hs
      rw [← hse]
      exact fun hval => habs e he ⟨hen, hval⟩
    obtain ⟨A, B, hAB, hA, hB⟩ := sorted_split _ v hpw habs1
    have hsearch := search_absent A B v hA hB
    rw [← hAB] at hsearch
    -- the first sample
    obtain ⟨e0, tl, he0⟩ : ∃ e0 tl, samplesOf n ents = e0 :: tl := by
      obtain ⟨pre, e, post, hs, hen, -⟩ := first_of_name n ents hn
      cases hsm : samplesOf n ents with
      | nil =>
        rw [hs, samplesOf_append, samplesOf_cons_same n e post hen] at hsm
        simp at hsm
      | cons e0 tl => exact ⟨e0, tl, rfl⟩
    unfold PostingsOffset postingsOffset
    simp only [hv, if_false, hgetn, he0, List.length_singleton, one_ne_zero, List.dropWhile_cons,
      List.length_cons, List.length_nil, Nat.reduceAdd]
    by_cases hlow : strLt v e0.value = true
    · simp only [hlow, if_true, List.dropWhile_nil]
      rw [postingsOffsetLoop]
      exact ⟨_, rfl⟩
    · simp only [hlow, Bool.false_eq_true, if_false]
      rw [← he0]
      cases B with
      | nil =>
        rw [List.append_nil] at hAB
        rw [← hAB] at hsearch
        rw [postingsOffsetLoop]
        simp only [hsearch, if_true]
        exact ⟨_, rfl⟩
      | cons s2 B1 =>
        rcases List.eq_nil_or_concat A with hAnil | ⟨A1, s1, hA1⟩
        · exfalso
          subst hAnil
          rw [List.nil_append, he0] at hAB
          injection hAB with h1 h2
          rw [h1] at hlow
          exact hlow (hB s2 (List.mem_cons_self _ _))
        · subst hA1
          simp only [List.concat_eq_append] at hA hsearch hAB
          have hes : samplesOf n ents = A1 ++ s1 :: s2 :: B1 := by
            rw [hAB]
            simp
          obtain ⟨pre, e, post, hsplit, hen, hse, hpre, hpost⟩ := samplesOf_split n ents _ _ _ hes
          -- the entry after `e`
          obtain ⟨nx, post1, hpost1⟩ : ∃ nx post1, post = nx :: post1 := by
            cases post with
            | nil => simp [samplesOf] at hpost
            | cons nx post1 => exact ⟨nx, post1, rfl⟩
          subst hpost1
          have hnx : nx.name = e.name := by
            by_contra hne
            have hno := sorted_no_later pre post1 e nx (by rw [← hsplit]; exact hsorted) hne
            rw [hen] at hno
            rw [samplesOf_eq_nil_of_not_mem _ _ hno] at hpost
            cases hpost
          have hnxs : nx.sample = s2 := by
            rw [samplesOf_cons_same n nx post1 (by rw [hnx, hen])] at hpost
            injection hpost with h1 h2
          -- the two entries under the decoder
          obtain ⟨content, hD, hchain⟩ := tableEntries_chain _ _ _ hents
          rw [hsplit] at hchain
          obtain ⟨d0, hchain0⟩ := EntryChain.drop pre _ hchain
          obtain ⟨hskip, d1, hdec, hchain1⟩ := hchain0.skip_tableOff
          obtain ⟨hskip2, d2, hdec2, -⟩ := hchain1.skip_tableOff
          have hmem : e ∈ ents := by rw [hsplit]; simp
          have hmem2 : nx ∈ ents := by rw [hsplit]; simp
          have hlen := hall e hmem
          have hlen2 := hall nx hmem2
          have hkl := huni e hmem nx hmem2 hnx.symm
          rw [entryKeyLen_eq hD hskip hdec, entryKeyLen_eq hD hskip2 hdec2] at hkl
          -- the samples around the value
          have hlenA : (A1 ++ [s1]).length = A1.length + 1 := by simp
          have hi0 : A1.length + 1 < (samplesOf n ents).length := by
            rw [hes]
            simp
          have hg0 : (samplesOf n ents).getD (A1.length + 1) ⟨[], 0⟩ = s2 := by
            rw [hes]
            have := (getD_append_mid (A1 ++ [s1]) B1 s2 (A1.length + 1)).2.1 (by simp)
            simpa using this
          have hg1 : (samplesOf n ents).getD A1.length ⟨[], 0⟩ = s1 := by
            rw [hes]
            exact (getD_append_mid A1 (s2 :: B1) s1 A1.length).2.1 rfl
          have hlo : strLt e.value v = true := by
            have := hA s1 (by simp)
            rw [← hse] at this
            exact this
          have hhi : strLt v nx.value = true := by
            have := hB s2 (List.mem_cons_self _ _)
            rw [← hnxs] at this
            exact this
          have hlt := hdec.len_lt
          obtain ⟨dend, skip1, hscan⟩ := scanLoop_absent (samplesOf n ents) A1.length
            r.indexLastPostingEnd (d0.Len - 1) hdec hlen hdec2 hlen2 hkl (by omega) v hlo hhi
            (by rw [hg0, ← hnxs]; rfl)
          have hfuel : d0.Len - 1 + 2 = d0.Len + 1 := by omega
          rw [hfuel] at hscan
          rw [hlenA] at hsearch
          have hd : (NewDecbufAt r.b (int64 r.toc.PostingsOffsetTable) false).Skip
              ((samplesOf n ents).getD (A1.length + 1 - 1) ⟨[], 0⟩).tableOff = d0 := by
            rw [hb, hD, Nat.add_sub_cancel, hg1, ← hse]
            exact hskip
          have hval : ((samplesOf n ents).getD (A1.length + 1) ⟨[], 0⟩).value ≠ v := by
            rw [hg0]
            exact habs1 s2 (by rw [hes]; simp)
          rcases postingsOffsetLoop_absent r (samplesOf n ents) (A1.length + 1) v d0 dend skip1
            hi0 (by omega) hsearch hval hd hscan with h | ⟨err, h⟩
          · rw [h]
            exact ⟨_, rfl⟩
          · rw [h]
            exact ⟨_, rfl⟩
  · have hgetn : mapGet r.postings n = none := by rw [hget, if_neg hn]
    unfold PostingsOffset postingsOffset
    simp only [hv, if_false, hgetn]
    exact ⟨_, rfl⟩

/-- In a sorted version-2 table whose entries of one name write key count and name
in the same number of bytes, a range that `PostingsOffset` returns is the range of an
entry of the table with the name and the value asked for. -/
theorem PostingsOffset_sound (S : SymbolsOps) (b : ByteSlice) (r : BinaryReader S)
    (ents : List TableEntry) (n v : Str) (rng : Range)
    (hok : newFileBinaryReader S b = .ok r) (hv : r.indexVersion ≠ FormatV1)
    (hents : tableEntries b r.toc.PostingsOffsetTable = .ok ents)
    (hsorted : SortedTable ents)
    (huni : UniformKeyLen b r.toc.PostingsOffsetTable ents)
    (hres : PostingsOffset r n v = .ok rng) :
    ∃ pre e post, ents = pre ++ e :: post ∧ e.name = n ∧ e.value = v ∧
      rng = ⟨wrapInt64 (int64 e.off + 4), rangeEnd r.indexLastPostingEnd e post⟩ := by
  by_cases hex : ∃ e ∈ ents, e.name = n ∧ e.value = v
  · obtain ⟨e, he, hen, hev⟩ := hex
    obtain ⟨pre, post, hsplit⟩ := List.append_of_mem he
    have := postingsOffset_found S b r ents pre post e hok hv hents hsorted huni hsplit
    rw [hen, hev, hres] at this
    injection this with this
    exact ⟨pre, e, post, hsplit, hen, hev, this⟩
  · simp only [not_exists, not_and] at hex
    obtain ⟨err, herr⟩ := postingsOffset_absent S b r ents n v hok hv hents hsorted huni
      (fun e he h => hex e he h.1 h.2)
    rw [herr] at hres
    cases hres

/-! ## The bounds of a range (C14) -/

theorem int64_lt (x : Nat) : int64 x < 2 ^ 63 := by
  unfold int64
  have : x % 2 ^ 64 < 2 ^ 64 := Nat.mod_lt _ (by norm_num)
  split <;> omega

theorem spaced_cons (x y : TableEntry) (rest : List TableEntry) :
    (∀ p ∈ (x :: y :: rest).zip (x :: y :: rest).tail, p.1.off + 8 ≤ p.2.off) ↔
      x.off + 8 ≤ y.off ∧ ∀ p ∈ (y :: rest).zip (y :: rest).tail, p.1.off + 8 ≤ p.2.off := by
  simp only [List.tail_cons, List.zip_cons_cons, List.forall_mem_cons]

theorem spaced_le_last (ents : List TableEntry) (l : TableEntry)
    (hch : ∀ p ∈ ents.zip ents.tail, p.1.off + 8 ≤ p.2.off) (hl : ents.getLast? = some l) :
    ∀ e ∈ ents, e.off ≤ l.off := by
  induction ents with
  | nil => intro e he; cases he
  | cons x tl ih =>
    cases tl with
    | nil =>
      simp only [List.getLast?_singleton, Option.some.injEq] at hl
      intro e he
      simp only [List.mem_singleton] at he
      rw [he, hl]
    | cons y rest =>
      rw [spaced_cons] at hch
      rw [List.getLast?_cons_cons] at hl
      have h1 := ih hch.2 hl
      intro e he
      rcases List.mem_cons.1 he with rfl | he
      · have := h1 y (List.mem_cons_self _ _)
        have := hch.1
        omega
      · exact h1 e he

theorem spaced_next (pre post : List TableEntry) (e nx : TableEntry)
    (hch : ∀ p ∈ (pre ++ e :: nx :: post).zip (pre ++ e :: nx :: post).tail,
      p.1.off + 8 ≤ p.2.off) :
    e.off + 8 ≤ nx.off := by
  induction pre with
  | nil =>
    rw [List.nil_append, spaced_cons] at hch
    exact hch.1
  | cons x pre ih =>
    cases hp : pre ++ e :: nx :: post with
    | nil => simp at hp
    | cons y rest =>
      rw [List.cons_append, hp, spaced_cons] at hch
      rw [hp] at ih
      exact ih hch.2

/-- The ranges of the version-1 path on a table with spaced offsets. -/
theorem v1Ranges_bounds (lastEnd : Int) (hle : lastEnd < 2 ^ 63) (ents : List TableEntry)
    (hsp : OffsetsSpaced lastEnd ents) :
    ∀ k rng, (k, rng) ∈ v1Ranges lastEnd ents → rng.Start ≤ rng.End ∧ rng.End ≤ lastEnd := by
  induction ents with
  | nil => intro k rng h; cases h
  | cons x tl ih =>
    cases tl with
    | nil =>
      intro k rng h
      simp only [v1Ranges, List.mem_singleton, Prod.mk.injEq] at h
      have hx := hsp.2 x (by simp)
      rw [h.2]
      simp only
      rw [int64_small x.off (by omega)]
      omega
    | cons y rest =>
      obtain ⟨hch, hlast⟩ := hsp
      have hch2 := hch
      rw [spaced_cons] at hch2
      have hsp2 : OffsetsSpaced lastEnd (y :: rest) :=
        ⟨hch2.2, fun l hl => hlast l (by rw [List.getLast?_cons_cons]; exact hl)⟩
      intro k rng h
      simp only [v1Ranges, List.mem_cons] at h
      rcases h with h | h
      · obtain ⟨l, hl⟩ : ∃ l, (y :: rest).getLast? = some l := by
          cases hg : (y :: rest).getLast? with
          | none => simp at hg
          | some l => exact ⟨l, rfl⟩
        have hy := spaced_le_last (y :: rest) l hch2.2 hl y (List.mem_cons_self _ _)
        have hl4 := hsp2.2 l (by rw [hl]; rfl)
        have hxy := hch2.1
        simp only [Prod.mk.injEq] at h
        rw [h.2]
        simp only
        rw [int64_small x.off (by omega), int64_pred y.off (by omega)]
        omega
      · exact ih hsp2 k rng h

/-- C14, amended: a header of either index version that the loader accepts, with
posting offsets that grow by at least 8 from one table entry to the next and a last
posting offset of at most `indexLastPostingEnd - 4`; for an index version other than
1 the table is sorted by (name, value) with distinct keys, and the entries of one
label name write key count and name in the same number of bytes. Then every range
`PostingsOffset` returns has `Start <= End <= indexLastPostingEnd`. -/
theorem C14_range_bounds (S : SymbolsOps) (b : ByteSlice) (r : BinaryReader S)
    (ents : List TableEntry) (n v : Str) (rng : Range)
    (hok : newFileBinaryReader S b = .ok r)
    (hents : tableEntries b r.toc.PostingsOffsetTable = .ok ents)
    (hsp : OffsetsSpaced r.indexLastPostingEnd ents)
    (hv2 : r.indexVersion ≠ FormatV1 →
      SortedTable ents ∧ UniformKeyLen b r.toc.PostingsOffsetTable ents)
    (hres : PostingsOffset r n v = .ok rng) :
    rng.Start ≤ rng.End ∧ rng.End ≤ r.indexLastPostingEnd := by
  have hle : r.indexLastPostingEnd < 2 ^ 63 := by
    obtain ⟨h, hh, -, -, -, -, -, hil⟩ := newFileBinaryReader_ok hok
    obtain ⟨-, -, -, -, -, hend⟩ := verifyHeader_ok b h hh
    rw [hil, hend]
    exact int64_lt _
  by_cases hv : r.indexVersion = FormatV1
  · obtain ⟨ents2, hents2, hlook, -⟩ := loaded_v1_ranges hok hv
    rw [hents] at hents2
    injection hents2 with hents2
    subst hents2
    rw [PostingsOffset_v1 r n v hv, hlook] at hres
    cases hg : mapGet (assignAll (v1Ranges r.indexLastPostingEnd ents)) (n, v) with
    | none =>
      rw [hg] at hres
      cases hres
    | some rng1 =>
      rw [hg] at hres
      injection hres with hres
      subst hres
      exact v1Ranges_bounds _ hle ents hsp _ _ (mapGet_assignAll_mem _ _ _ hg)
  · obtain ⟨hsorted, huni⟩ := hv2 hv
    obtain ⟨pre, e, post, hsplit, -, -, hrng⟩ :=
      PostingsOffset_sound S b r ents n v rng hok hv hents hsorted huni hres
    obtain ⟨l, hl⟩ : ∃ l, ents.getLast? = some l := by
      cases hg : ents.getLast? with
      | none =>
        rw [List.getLast?_eq_none_iff] at hg
        rw [hg] at hsplit
        simp at hsplit
      | some l => exact ⟨l, rfl⟩
    have hl4 := hsp.2 l (by rw [hl]; rfl)
    have hall := spaced_le_last ents l hsp.1 hl
    have he : e.off ≤ l.off := hall e (by rw [hsplit]; simp)
    have hstart : wrapInt64 (int64 e.off + 4) = (e.off : Int) + 4 := start_exact e.off (by omega)
    rw [hrng]
    simp only
    rw [hstart]
    cases post with
    | nil =>
      simp only [rangeEnd]
      omega
    | cons nx post1 =>
      by_cases hnx : nx.name = e.name
      · have hnxl : nx.off ≤ l.off := hall nx (by rw [hsplit]; simp)
        have hstep := spaced_next pre post1 e nx (by rw [← hsplit]; exact hsp.1)
        simp only [rangeEnd, hnx, if_true]
        rw [end_exact nx.off (by omega)]
        omega
      · simp only [rangeEnd, hnx, if_false]
        omega

set_option maxRecDepth 100000 in
theorem fileLabels_query :
    (newFileBinaryReader tsdbSymbols fileLabels).map
      (fun r => (r.indexLastPostingEnd, PostingsOffset r [97] [49])) =
      .ok (299, .ok ⟨124, 136⟩) := by
  rfl

set_option maxRecDepth 100000 in
theorem fileUnsortedV1_query :
    (newFileBinaryReader tsdbSymbols fileUnsortedV1).map
      (fun r => PostingsOffset r [98] [49]) = .ok (.ok ⟨120, 139⟩) := by
  rfl

theorem fileLabels_spaced : OffsetsSpaced 299 fileLabelsEntries := by
  unfold OffsetsSpaced
  decide

theorem fileUnsortedV1_spaced : OffsetsSpaced 299 fileUnsortedV1Entries := by
  unfold OffsetsSpaced
  decide

/-- C14, witness: the range of `("a", "1")` in the version-2 header `fileLabels` and the
range of `("b", "1")` in the version-1 header `fileUnsortedV1`. -/
theorem C14_witness :
    (∃ r, newFileBinaryReader tsdbSymbols fileLabels = .ok r ∧
      PostingsOffset r [97] [49] = .ok ⟨124, 136⟩ ∧
      (124 : Int) ≤ 136 ∧ (136 : Int) ≤ r.indexLastPostingEnd) ∧
    (∃ r, newFileBinaryReader tsdbSymbols fileUnsortedV1 = .ok r ∧
      PostingsOffset r [98] [49] = .ok ⟨120, 139⟩ ∧
      (120 : Int) ≤ 139 ∧ (139 : Int) ≤ r.indexLastPostingEnd) := by
  constructor
  · obtain ⟨r, hr, -, hents, huni⟩ := fileLabels_reader_sorted
    have hq := fileLabels_query
    rw [hr] at hq
    simp only [Except.map, Except.ok.injEq, Prod.mk.injEq] at hq
    have hsp : OffsetsSpaced r.indexLastPostingEnd fileLabelsEntries := by
      rw [hq.1]
      exact fileLabels_spaced
    have := C14_range_bounds tsdbSymbols fileLabels r fileLabelsEntries [97] [49] ⟨124, 136⟩
      hr hents hsp (fun _ => ⟨fileLabels_sorted, huni⟩) hq.2
    exact ⟨r, hr, hq.2, this⟩
  · obtain ⟨r, hr, hver, hil, hents, -⟩ := fileUnsortedV1_reader
    have hq := fileUnsortedV1_query
    rw [hr] at hq
    simp only [Except.map, Except.ok.injEq] at hq
    have hsp : OffsetsSpaced r.indexLastPostingEnd fileUnsortedV1Entries := by
      rw [hil]
      exact fileUnsortedV1_spaced
    have := C14_range_bounds tsdbSymbols fileUnsortedV1 r fileUnsortedV1Entries [98] [49]
      ⟨120, 139⟩ hr hents hsp (fun h => absurd hver h) hq
    exact ⟨r, hr, hq, this⟩

set_option maxRecDepth 100000 in
/-- C14, counterexample: the version-2 header `fileLongKeyCount` is loaded; its table
`("", "a") -> 10`, `("", "c") -> 20` is sorted, the posting offsets grow by 10 and the
last one is 20, far below `indexLastPostingEnd = 299`; the key count of the second
entry is written in two bytes. `PostingsOffset("", "a")` returns the range from 14 to
-3: the start is above the end. -/
theorem C14_counterexample :
    tableEntries fileLongKeyCount 26 = .ok [⟨[[], [97]], 10, 4⟩, ⟨[[], [99]], 20, 9⟩] ∧
    OffsetsSpaced 299 [⟨[[], [97]], 10, 4⟩, ⟨[[], [99]], 20, 9⟩] ∧
    SortedTable [⟨[[], [97]], 10, 4⟩, ⟨[[], [99]], 20, 9⟩] ∧
    onLoaded fileLongKeyCount
        (fun r => (r.indexVersion, r.toc, r.indexLastPostingEnd, PostingsOffset r [] [97])) =
      .ok (2, ⟨14, 26⟩, 299, .ok ⟨14, -3⟩) ∧
    ¬ ((14 : Int) ≤ -3) := by
  refine ⟨rfl, by unfold OffsetsSpaced; decide, by unfold SortedTable; decide, rfl, by decide⟩

/-! ## The multi-value lookup (C22) -/

set_option maxRecDepth 100000 in
/-- C22, at the failing input: the version-2 header `fileThreeValues` is loaded; its
table `("", "")`, `("a", "1") -> 120`, `("a", "2") -> 140`, `("a", "3") -> 160` is sorted
and every entry is written canonically. For the ascending values `"1"`, `"15"`, of
which `"1"` is in the run of `"a"` and `"15"` is not, `postingsOffset` returns one range,
from 124 to 156; `PostingsOffset("a", "1")` alone returns the range from 124 to 136. The
end is taken from the entry `("a", "3")`, read after the scan has passed `("a", "2")`
for the value `"15"`, and not from the entry after `("a", "1")`. -/
theorem C22_multi_value_end_differs :
    tableEntries fileThreeValues 35 = .ok fileThreeValuesEntries ∧
    SortedTable fileThreeValuesEntries ∧
    UniformKeyLen fileThreeValues 35 fileThreeValuesEntries ∧
    onLoaded fileThreeValues (fun r => (r.indexVersion, r.toc,
        postingsOffset r [97] [[49], [49, 53]], PostingsOffset r [97] [49],
        PostingsOffset r [97] [49, 53])) =
      .ok (2, ⟨14, 35⟩, .ok [⟨124, 156⟩], .ok ⟨124, 136⟩, .error Err.NotFoundRangeErr) := by
  refine ⟨rfl, by unfold SortedTable; decide, by unfold UniformKeyLen; decide, rfl⟩

/-! ## The cache of the label name symbols (C21) -/

/-- The last stage of the loader: the cache is built from the keys of `postings`. -/
theorem newFileBinaryReader_nameSymbols {S : SymbolsOps} {b : ByteSlice} {r : BinaryReader S}
    (hok : newFileBinaryReader S b = .ok r) :
    buildNameSymbols S r.symbols (mapKeys r.postings) [] = .ok r.nameSymbols := by
  unfold newFileBinaryReader at hok
  split at hok
  · cases hok
  · split at hok
    · cases hok
    · split at hok
      · cases hok
      · split at hok
        · cases hok
        · split at hok
          · cases hok
          · split at hok
            · cases hok
            · rename_i ns hns
              cases hok
              exact hns

theorem length_mapSet_new {α β : Type} [DecidableEq α] (m : List (α × β)) (k : α) (v : β)
    (h : k ∉ mapKeys m) : (mapSet m k v).length = m.length + 1 := by
  have h1 := mapKeys_mapSet m k v
  rw [if_neg h] at h1
  have h2 := congrArg List.length h1
  simpa [mapKeys] using h2

theorem buildNameSymbols_inv (S : SymbolsOps) (sy : S.Symbols) (ks P : List Str)
    (m m1 : List (Nat × Str))
    (hrt : ∀ s ∈ P ++ ks, s ≠ [] → ∀ o, S.ReverseLookup sy s = .ok o → S.Lookup sy o = .ok s)
    (hnd : (P ++ ks).Nodup) (hinv : NameCacheInv S sy P m)
    (h : buildNameSymbols S sy ks m = .ok m1) : NameCacheInv S sy (P ++ ks) m1 := by
  induction ks generalizing P m with
  | nil =>
    simp only [buildNameSymbols] at h
    cases h
    simpa using hinv
  | cons k ks ih =>
    have hP : P ++ k :: ks = (P ++ [k]) ++ ks := by simp
    have hkP : k ∉ P := by
      intro hk
      rw [List.nodup_append] at hnd
      exact hnd.2.2 hk (List.mem_cons_self _ _)
    unfold buildNameSymbols at h
    split at h
    · rename_i hk
      rw [hP]
      refine ih (P ++ [k]) m (by rw [← hP]; exact hrt) (by rw [← hP]; exact hnd) ?_ h
      refine ⟨?_, hinv.nodup, ?_⟩
      · intro o k1
        rw [hinv.get o k1]
        constructor
        · rintro ⟨h1, h2, h3⟩
          exact ⟨List.mem_append_left _ h1, h2, h3⟩
        · rintro ⟨h1, h2, h3⟩
          rcases List.mem_append.1 h1 with h1 | h1
          · exact ⟨h1, h2, h3⟩
          · simp only [List.mem_singleton] at h1
            rw [h1, hk] at h2
            exact absurd rfl h2
      · rw [hinv.length, List.filter_append]
        simp [hk]
    · rename_i hk
      split at h
      · cases h
      · rename_i off hoff
        rw [hP]
        refine ih (P ++ [k]) _ (by rw [← hP]; exact hrt) (by rw [← hP]; exact hnd) ?_ h
        have hlk : S.Lookup sy off = .ok k := hrt k (by simp) hk off hoff
        refine ⟨?_, nodup_mapKeys_mapSet _ _ _ hinv.nodup, ?_⟩
        · intro o k1
          rw [mapGet_mapSet]
          by_cases ho : off = o
          · subst ho
            simp only [if_true, Option.some.injEq]
            constructor
            · intro hk1
              subst hk1
              exact ⟨by simp, hk, hoff⟩
            · rintro ⟨h1, h2, h3⟩
              have := hrt k1 (by
                rcases List.mem_append.1 h1 with h1 | h1
                · exact List.mem_append_left _ h1
                · simp only [List.mem_singleton] at h1
                  rw [h1]
                  simp) h2 off h3
              rw [hlk] at this
              injection this
          · simp only [ho, if_false]
            rw [hinv.get o k1]
            constructor
            · rintro ⟨h1, h2, h3⟩
              exact ⟨List.mem_append_left _ h1, h2, h3⟩
            · rintro ⟨h1, h2, h3⟩
              rcases List.mem_append.1 h1 with h1 | h1
              · exact ⟨h1, h2, h3⟩
              · simp only [List.mem_singleton] at h1
                rw [h1, hoff] at h3
                injection h3 with h3
                exact absurd h3 ho
        · have hnew : off ∉ mapKeys m := by
            intro hmem
            rw [mem_mapKeys_iff] at hmem
            cases hg : mapGet m off with
            | none => exact hmem hg
            | some k0 =>
              obtain ⟨h1, h2, h3⟩ := (hinv.get off k0).1 hg
              have := hrt k0 (List.mem_append_left _ h1) h2 off h3
              rw [hlk] at this
              injection this with this
              rw [this] at hkP
              exact hkP h1
          rw [length_mapSet_new m off k hnew, hinv.length, List.filter_append]
          simp [hk]

/-- The keys of `postings` of a reader the loader returns, for either index version:
the label names of the table, each once. -/
theorem loaded_names {S : SymbolsOps} {b : ByteSlice} {r : BinaryReader S}
    (hok : newFileBinaryReader S b = .ok r) :
    ∃ ents, tableEntries b r.toc.PostingsOffsetTable = .ok ents ∧
      (∀ n, n ∈ mapKeys r.postings ↔ n ∈ tableNames ents) ∧ (mapKeys r.postings).Nodup := by
  by_cases hv : r.indexVersion = FormatV1
  · obtain ⟨ents, hents, -, -, hkeys, hnd⟩ := loaded_v1 hok hv
    exact ⟨ents, hents, hkeys, hnd⟩
  · obtain ⟨ents, hents, -, hget, hnd, -⟩ := loaded_v2 hok hv
    refine ⟨ents, hents, ?_, hnd⟩
    intro n
    rw [mem_mapKeys_iff, hget]
    split <;> simp_all

/-- C21: for a reader the loader returns, of either index version, whose symbol table
gives back every non-empty label name of the table from the symbol that the reverse
lookup finds for it: `LookupSymbol` returns for every symbol what `Lookup` of the symbol
table returns, the string or the error; the cache binds a symbol to a name exactly
when the name is a non-empty label name of the table and the symbol is its reverse
lookup; no symbol is bound twice, and the cache has as many entries as the table has
distinct non-empty label names. -/
theorem C21_name_cache (S : SymbolsOps) (b : ByteSlice) (r : BinaryReader S)
    (ents : List TableEntry)
    (hok : newFileBinaryReader S b = .ok r)
    (hents : tableEntries b r.toc.PostingsOffsetTable = .ok ents)
    (hrt : ∀ s ∈ tableNames ents, s ≠ [] →
      ∀ o, S.ReverseLookup r.symbols s = .ok o → S.Lookup r.symbols o = .ok s) :
    (∀ o, LookupSymbol r o = S.Lookup r.symbols o) ∧
    (∀ o k, mapGet r.nameSymbols o = some k ↔
      (k ∈ tableNames ents ∧ k ≠ [] ∧ S.ReverseLookup r.symbols k = .ok o)) ∧
    (mapKeys r.nameSymbols).Nodup ∧
    r.nameSymbols.length = ((tableNames ents).dedup.filter (fun n => n ≠ [])).length := by
  obtain ⟨ents1, hents1, hkeys, hnd⟩ := loaded_names hok
  rw [hents] at hents1
  injection hents1 with hents1
  subst hents1
  have hns := newFileBinaryReader_nameSymbols hok
  have hinv0 : NameCacheInv S r.symbols [] [] :=
    ⟨fun o k => by simp [mapGet], by simp [mapKeys], rfl⟩
  have hinv := buildNameSymbols_inv S r.symbols (mapKeys r.postings) [] [] r.nameSymbols
    (by
      intro s hs
      rw [List.nil_append, hkeys] at hs
      exact hrt s hs)
    (by simpa using hnd) hinv0 hns
  rw [List.nil_append] at hinv
  have hget : ∀ o k, mapGet r.nameSymbols o = some k ↔
      (k ∈ tableNames ents ∧ k ≠ [] ∧ S.ReverseLookup r.symbols k = .ok o) := by
    intro o k
    rw [hinv.get o k, hkeys]
  refine ⟨?_, hget, hinv.nodup, ?_⟩
  · intro o
    unfold LookupSymbol
    cases hg : mapGet r.nameSymbols o with
    | none => rfl
    | some k =>
      obtain ⟨h1, h2, h3⟩ := (hget o k).1 hg
      simp only
      rw [hrt k h1 h2 o h3]
  · rw [hinv.length]
    apply List.Perm.length_eq
    apply List.Perm.filter
    rw [List.perm_ext_iff_of_nodup hnd (List.nodup_dedup _)]
    intro n
    rw [hkeys, List.mem_dedup]

set_option maxRecDepth 100000 in
theorem fileLabels_symbols :
    (newFileBinaryReader tsdbSymbols fileLabels).map (fun r => (r.symbols, r.nameSymbols)) =
      .ok ((TsdbSymbols.mk fileLabels 2 14 [22] 5 : TsdbSymbols), [(3, [97]), (4, [98])]) := by
  rfl

set_option maxRecDepth 100000 in
theorem fileLabels_roundtrip :
    tsdbReverseLookup ⟨fileLabels, 2, 14, [22], 5⟩ [97] = .ok 3 ∧
    tsdbLookup ⟨fileLabels, 2, 14, [22], 5⟩ 3 = .ok [97] ∧
    tsdbReverseLookup ⟨fileLabels, 2, 14, [22], 5⟩ [98] = .ok 4 ∧
    tsdbLookup ⟨fileLabels, 2, 14, [22], 5⟩ 4 = .ok [98] := by
  refine ⟨rfl, rfl, rfl, rfl⟩

set_option maxRecDepth 100000 in
/-- C21, witness: the reader of `fileLabels`, whose table has the label names `""`, `"a"`
and `"b"`; the symbols 3 and 4 are the reverse lookups of `"a"` and `"b"`. -/
theorem C21_witness :
    ∃ r, newFileBinaryReader tsdbSymbols fileLabels = .ok r ∧
      (∀ o, LookupSymbol r o = tsdbLookup r.symbols o) ∧
      r.nameSymbols = [(3, [97]), (4, [98])] ∧
      r.nameSymbols.length = 2 := by
  obtain ⟨r, hr, -, hents, -⟩ := fileLabels_reader_sorted
  have hs := fileLabels_symbols
  rw [hr] at hs
  simp only [Except.map, Except.ok.injEq, Prod.mk.injEq] at hs
  obtain ⟨hsy, hns⟩ := hs
  have hrt : ∀ s ∈ tableNames fileLabelsEntries, s ≠ [] →
      ∀ o, tsdbSymbols.ReverseLookup r.symbols s = .ok o →
        tsdbSymbols.Lookup r.symbols o = .ok s := by
    intro s hmem hne o ho
    rw [hsy] at ho ⊢
    have hcases : s = [97] ∨ s = [98] := by
      simp only [tableNames, fileLabelsEntries, List.map_cons, List.map_nil, List.mem_cons,
        List.mem_singleton, List.not_mem_nil, or_false] at hmem
      rcases hmem with h | h | h | h
      · exact absurd h hne
      · exact Or.inl h
      · exact Or.inl h
      · exact Or.inr h
    rcases hcases with h | h
    · subst h
      have h1 : tsdbSymbols.ReverseLookup (TsdbSymbols.mk fileLabels 2 14 [22] 5) [97] = .ok 3 :=
        fileLabels_roundtrip.1
      rw [h1] at ho
      injection ho with ho
      subst ho
      exact fileLabels_roundtrip.2.1
    · subst h
      have h1 : tsdbSymbols.ReverseLookup (TsdbSymbols.mk fileLabels 2 14 [22] 5) [98] = .ok 4 :=
        fileLabels_roundtrip.2.2.1
      rw [h1] at ho
      injection ho with ho
      subst ho
      exact fileLabels_roundtrip.2.2.2
  obtain ⟨h1, -, -, h4⟩ := C21_name_cache tsdbSymbols fileLabels r fileLabelsEntries hr hents hrt
  refine ⟨r, hr, h1, hns, ?_⟩
  rw [h4]
  decide

/-! ## The index expressions of `postingsOffset` (C24) -/

theorem indexSample_of_lt (e : List postingOffset) (i : Nat) (h : i < e.length) :
    indexSample e i = .ok (e.getD i ⟨[], 0⟩) := by
  unfold indexSample
  rw [List.getD_eq_getElem?_getD, List.getElem?_eq_getElem h]
  rfl

theorem searchLoop_bounds (f : Nat → Bool) (fuel lo hi : Nat) (h : lo ≤ hi) :
    lo ≤ searchLoop f fuel lo hi ∧ searchLoop f fuel lo hi ≤ hi := by
  induction fuel generalizing lo hi with
  | zero => simp [searchLoop, h]
  | succ fuel ih =>
    simp only [searchLoop]
    split
    · split
      · have := ih lo ((lo + hi) / 2) (by omega)
        omega
      · have := ih ((lo + hi) / 2 + 1) hi (by omega)
        omega
    · omega

theorem Search_le (n : Nat) (f : Nat → Bool) : Search n f ≤ n :=
  (searchLoop_bounds f n 0 n (Nat.zero_le _)).2

/-- With `i` below `len(e)` the scan never reads `e[i+1]` out of range. -/
theorem scanLoopChecked_eq (e : List postingOffset) (i : Nat) (lastEnd : Int) (hi : i < e.length)
    (fuel : Nat) (st : ScanState) :
    scanLoopChecked e i lastEnd fuel st = .ok (scanLoop e i lastEnd fuel st) := by
  induction fuel generalizing st with
  | zero => rfl
  | succ fuel ih =>
    simp only [scanLoopChecked, scanLoop]
    cases hE : st.d.E with
    | some err => rfl
    | none =>
      simp only []
      by_cases h1 : i + 1 = e.length
      · simp only [h1, if_true]
      · simp only [h1, if_false, indexSample_of_lt e (i + 1) (by omega)]
        split
        · rfl
        · exact ih _

/-- The loop over the values never reads `e[i]` out of range. -/
theorem postingsOffsetLoopChecked_eq {S : SymbolsOps} (r : BinaryReader S)
    (e : List postingOffset) (fuel : Nat) (st : ScanState) :
    postingsOffsetLoopChecked r e fuel st = postingsOffsetLoop r e fuel st := by
  induction fuel generalizing st with
  | zero => rfl
  | succ fuel ih =>
    simp only [postingsOffsetLoopChecked, postingsOffsetLoop]
    cases hp : st.pending with
    | nil => rfl
    | cons value rest =>
      simp only []
      have hle := Search_le e.length (fun i => strGe (e.getD i ⟨[], 0⟩).value value)
      by_cases hs : Search e.length (fun i => strGe (e.getD i ⟨[], 0⟩).value value) = e.length
      · simp only [hs, if_true]
      · simp only [hs, if_false]
        have hlt : Search e.length (fun i => strGe (e.getD i ⟨[], 0⟩).value value) < e.length := by
          omega
        generalize Search e.length (fun i => strGe (e.getD i ⟨[], 0⟩).value value) = i0 at hlt
        by_cases h0 : 0 < i0
        · simp only [h0, if_true, indexSample_of_lt e i0 hlt, Except.map, true_and]
          by_cases hv : (e.getD i0 ⟨[], 0⟩).value = value
          · simp only [hv, ne_eq, not_true_eq_false, decide_False, Bool.false_eq_true, if_false,
              indexSample_of_lt e i0 hlt, scanLoopChecked_eq e i0 _ hlt]
            split
            · rfl
            · exact ih _
          · simp only [hv, ne_eq, not_false_eq_true, decide_True, if_true,
              indexSample_of_lt e (i0 - 1) (by omega), scanLoopChecked_eq e (i0 - 1) _ (by omega)]
            split
            · rfl
            · exact ih _
        · simp only [h0, if_false, false_and, Bool.false_eq_true,
            indexSample_of_lt e i0 hlt, scanLoopChecked_eq e i0 _ hlt]
          split
          · rfl
          · exact ih _

/-- The method never reads `e[i]` or `e[i+1]` out of range: with the index expressions
checked it returns what it returns with them unchecked. -/
theorem postingsOffsetChecked_eq {S : SymbolsOps} (r : BinaryReader S) (name : Str)
    (values : List Str) : postingsOffsetChecked r name values = postingsOffset r name values := by
  unfold postingsOffsetChecked postingsOffset
  by_cases hv : r.indexVersion = FormatV1
  · simp only [hv, if_true]
  · simp only [hv, if_false]
    cases hm : mapGet r.postings name with
    | none => rfl
    | some e =>
      simp only []
      by_cases hl : values.length = 0
      · simp only [hl, if_true]
      · simp only [hl, if_false]
        cases e with
        | nil => rfl
        | cons e0 tl =>
          simp only [indexSample, List.getElem?_cons_zero]
          exact postingsOffsetLoopChecked_eq r _ _ _

theorem postingsOffsetLoop_error {S : SymbolsOps} (r : BinaryReader S)
    (e : List postingOffset) (fuel : Nat) (st : ScanState) (err : Err)
    (h : postingsOffsetLoop r e fuel st = .error err) :
    err = Err.stepBound ∨ ∃ e1, err = Err.wrap Ctx.getPostingsOffsetEntry e1 := by
  induction fuel generalizing st with
  | zero =>
    simp only [postingsOffsetLoop] at h
    split at h
    · cases h
    · cases h
      exact Or.inl rfl
  | succ fuel ih =>
    simp only [postingsOffsetLoop] at h
    split at h
    · cases h
    · split at h
      · cases h
      · split at h
        · cases h
          exact Or.inr ⟨_, rfl⟩
        · exact ih _ h

/-- C24: in a reader the loader returns on the version-2 path (an index version other
than 1) every key of `postings` is bound to a sample list that is not empty; the
method `postingsOffset` with the index expressions `e[0]`, `e[i]` and `e[i+1]` checked
returns for every name and every list of values what it returns with them unchecked,
and it never ends in the panic of an index out of range. -/
theorem C24_sample_lists_nonempty (S : SymbolsOps) (b : ByteSlice) (r : BinaryReader S)
    (hok : newFileBinaryReader S b = .ok r) (hv : r.indexVersion ≠ FormatV1) :
    (∀ n es, mapGet r.postings n = some es → es ≠ []) ∧
    (∀ n vs, postingsOffsetChecked r n vs = postingsOffset r n vs) ∧
    (∀ n vs, postingsOffsetChecked r n vs ≠ .error Err.runtimePanic) := by
  obtain ⟨ents, hents, -, hget, -, -⟩ := loaded_v2 hok hv
  have hne : ∀ n es, mapGet r.postings n = some es → es ≠ [] := by
    intro n es hes
    rw [hget] at hes
    split at hes
    · rename_i hn
      injection hes with hes
      obtain ⟨pre, e, post, hs, hen, -⟩ := first_of_name n ents hn
      rw [← hes, hs, samplesOf_append, samplesOf_cons_same n e post hen]
      simp
    · cases hes
  refine ⟨hne, fun n vs => postingsOffsetChecked_eq r n vs, ?_⟩
  intro n vs hpanic
  rw [postingsOffsetChecked_eq] at hpanic
  unfold postingsOffset at hpanic
  simp only [hv, if_false] at hpanic
  split at hpanic
  · cases hpanic
  · rename_i es hes
    split at hpanic
    · cases hpanic
    · split at hpanic
      · exact hne n [] hes rfl
      · rcases postingsOffsetLoop_error r _ _ _ _ hpanic with h | ⟨e1, h⟩
        · cases h
        · cases h

/-- C24, witness: the reader of `fileLabels`. -/
theorem C24_witness :
    ∃ r, newFileBinaryReader tsdbSymbols fileLabels = .ok r ∧
      (∀ n es, mapGet r.postings n = some es → es ≠ []) ∧
      (∀ n vs, postingsOffsetChecked r n vs = postingsOffset r n vs) ∧
      (∀ n vs, postingsOffsetChecked r n vs ≠ .error Err.runtimePanic) := by
  obtain ⟨r, hr, hver, -, -⟩ := fileLabels_reader_sorted
  exact ⟨r, hr, C24_sample_lists_nonempty tsdbSymbols fileLabels r hr (by rw [hver]; decide)⟩

/-! ## Termination of `postingsOffset` (C23) -/

theorem UvarintBytes_lt (d : Decbuf) (h : d.UvarintBytes.2.E = none) :
    d.UvarintBytes.2.Len < d.Len := by
  unfold Decbuf.UvarintBytes at h ⊢
  cases hE1 : d.Uvarint64.2.E with
  | some e => simp [hE1] at h
  | none =>
    have hlt := Uvarint64_lt d hE1
    simp only [hE1] at h ⊢
    split at h
    · simp at h
    · split at h
      · simp at h
      · rename_i h1 h2
        simp only [h1, h2, if_false]
        simp only [Decbuf.Len, List.length_drop] at hlt ⊢
        omega

theorem readSkip_len_le (d : Decbuf) (skip : Nat) (h : (readSkip d skip).1.E = none) :
    (readSkip d skip).1.Len ≤ d.Len := by
  unfold readSkip at h ⊢
  by_cases h0 : skip = 0
  · simp only [h0, if_true] at h ⊢
    have h1 := UvarintBytes_ok _ h
    have h2 := Uvarint64_ok d (by rw [← Uvarint_snd]; exact h1.1)
    exact (h1.2.trans (by rw [Uvarint_snd]; exact h2.2)).length_le
  · simp only [h0, if_false] at h ⊢
    unfold Decbuf.Skip Decbuf.Len
    split
    · exact le_refl _
    · simp only [List.length_drop]
      omega

/-- One pass of the scan that records no error has read two bytes or more. -/
theorem scan_consumes (d : Decbuf) (skip : Nat)
    (h : (((readSkip d skip).1.UvarintBytes.2).Uvarint64.2).E = none) :
    (((readSkip d skip).1.UvarintBytes.2).Uvarint64.2).Len + 2 ≤ d.Len := by
  have h3 := Uvarint64_lt _ h
  have h2E := (Uvarint64_ok _ h).1
  have h2 := UvarintBytes_lt _ h2E
  have h1E := (UvarintBytes_ok _ h2E).1
  have h1 := readSkip_len_le d skip h1E
  omega

theorem Skip_noSB (d : Decbuf) (l : Nat) (h : d.E ≠ some Err.stepBound) :
    (d.Skip l).E ≠ some Err.stepBound := by
  unfold Decbuf.Skip
  split
  · simp
  · exact h

theorem Uvarint64_noSB (d : Decbuf) (h : d.E ≠ some Err.stepBound) :
    d.Uvarint64.2.E ≠ some Err.stepBound := by
  unfold Decbuf.Uvarint64
  split
  · exact h
  · split
    · simp
    · exact h

theorem UvarintBytes_noSB (d : Decbuf) (h : d.E ≠ some Err.stepBound) :
    d.UvarintBytes.2.E ≠ some Err.stepBound := by
  have h1 := Uvarint64_noSB d h
  unfold Decbuf.UvarintBytes
  split
  rename_i l d1 heq
  have hd1 : d1 = d.Uvarint64.2 := by rw [heq]
  rw [← hd1] at h1
  split
  · exact h1
  · split
    · simp
    · split
      · simp
      · exact h1

theorem readSkip_noSB (d : Decbuf) (skip : Nat) (h : d.E ≠ some Err.stepBound) :
    (readSkip d skip).1.E ≠ some Err.stepBound := by
  unfold readSkip
  split
  · exact UvarintBytes_noSB _ (by rw [Uvarint_snd]; exact Uvarint64_noSB d h)
  · exact Skip_noSB d skip h

theorem readSkip_nonzero (d : Decbuf) (skip : Nat) (h : skip ≠ 0) :
    (readSkip d skip).2 = skip := by
  simp [readSkip, h]

theorem searchLoop_true (f : Nat → Bool) (n : Nat) (fuel lo hi : Nat) (h1 : lo ≤ hi)
    (hhi : hi < n → f hi = true) (hf : hi - lo ≤ fuel) :
    searchLoop f fuel lo hi < n → f (searchLoop f fuel lo hi) = true := by
  induction fuel generalizing lo hi with
  | zero =>
    have : lo = hi := by omega
    subst this
    simpa [searchLoop] using hhi
  | succ fuel ih =>
    simp only [searchLoop]
    split
    · split
      · rename_i hlt hm
        exact ih lo ((lo + hi) / 2) (by omega) (fun _ => hm) (by omega)
      · exact ih ((lo + hi) / 2 + 1) hi (by omega) hhi (by omega)
    · have : lo = hi := by omega
      subst this
      exact hhi

/-- The index `sort.Search` returns satisfies the predicate when it is below `n`,
whatever the predicate. -/
theorem Search_true (n : Nat) (f : Nat → Bool) (h : Search n f < n) : f (Search n f) = true :=
  searchLoop_true f n n 0 n (Nat.zero_le _) (fun h0 => absurd h0 (lt_irrefl _)) (by omega) h

theorem advanceValues_length_le (v : Str) (po : Int) :
    ∀ (pending : List Str) (value : Str) (tmp : List Range),
      (advanceValues v po value pending tmp).2.1.length ≤ pending.length
  | [], value, tmp => by simp [advanceValues]
  | [p], value, tmp => by
    simp only [advanceValues]
    split <;> simp
  | p :: nv :: rest, value, tmp => by
    rw [advanceValues]
    split
    · exact Nat.le_succ_of_le (advanceValues_length_le v po (nv :: rest) nv _)
    · exact le_refl _

/-- A value is passed when the label value read is not below it. -/
theorem advanceValues_shrinks (v : Str) (po : Int) (value p : Str) (rest : List Str)
    (tmp : List Range) (h : strGe v value = true) :
    (advanceValues v po value (p :: rest) tmp).2.1.length ≤ rest.length := by
  cases rest with
  | nil => simp [advanceValues, h]
  | cons nv rest =>
    simp only [advanceValues, h, if_true]
    exact advanceValues_length_le v po (nv :: rest) nv _

theorem advanceValues_same (v : Str) (po : Int) (value : Str) (pending : List Str)
    (tmp : List Range) (h : strGe v value = false) :
    advanceValues v po value pending tmp = (value, pending, tmp) := by
  cases pending with
  | nil => simp [advanceValues]
  | cons p rest => simp [advanceValues, h]

/-- One pass of the scan, unfolded. -/
theorem scanLoop_succ (e : List postingOffset) (i : Nat) (l : Int) (fuel : Nat) (st : ScanState)
    (hE : st.d.E = none) :
    scanLoop e i l (fuel + 1) st =
      if i + 1 = e.length then
        ⟨((readSkip st.d st.skip).1.UvarintBytes.2).Uvarint64.2, (readSkip st.d st.skip).2,
          (advanceValues (readSkip st.d st.skip).1.UvarintBytes.1
            (int64 ((readSkip st.d st.skip).1.UvarintBytes.2).Uvarint64.1)
            st.value st.pending st.tmpRngs).1,
          (advanceValues (readSkip st.d st.skip).1.UvarintBytes.1
            (int64 ((readSkip st.d st.skip).1.UvarintBytes.2).Uvarint64.1)
            st.value st.pending st.tmpRngs).2.1,
          (advanceValues (readSkip st.d st.skip).1.UvarintBytes.1
            (int64 ((readSkip st.d st.skip).1.UvarintBytes.2).Uvarint64.1)
            st.value st.pending st.tmpRngs).2.2.map (fun r => ⟨r.Start, l⟩),
          st.rngs ++ (advanceValues (readSkip st.d st.skip).1.UvarintBytes.1
            (int64 ((readSkip st.d st.skip).1.UvarintBytes.2).Uvarint64.1)
            st.value st.pending st.tmpRngs).2.2.map (fun r => ⟨r.Start, l⟩)⟩
      else if strGe (advanceValues (readSkip st.d st.skip).1.UvarintBytes.1
            (int64 ((readSkip st.d st.skip).1.UvarintBytes.2).Uvarint64.1)
            st.value st.pending st.tmpRngs).1 (e.getD (i + 1) ⟨[], 0⟩).value ∨
          (advanceValues (readSkip st.d st.skip).1.UvarintBytes.1
            (int64 ((readSkip st.d st.skip).1.UvarintBytes.2).Uvarint64.1)
            st.value st.pending st.tmpRngs).2.1 = [] then
        ⟨((((readSkip st.d st.skip).1.UvarintBytes.2).Uvarint64.2.Skip
            (readSkip st.d st.skip).2).UvarintBytes.2).Uvarint64.2,
          (readSkip st.d st.skip).2,
          (advanceValues (readSkip st.d st.skip).1.UvarintBytes.1
            (int64 ((readSkip st.d st.skip).1.UvarintBytes.2).Uvarint64.1)
            st.value st.pending st.tmpRngs).1,
          (advanceValues (readSkip st.d st.skip).1.UvarintBytes.1
            (int64 ((readSkip st.d st.skip).1.UvarintBytes.2).Uvarint64.1)
            st.value st.pending st.tmpRngs).2.1,
          (advanceValues (readSkip st.d st.skip).1.UvarintBytes.1
            (int64 ((readSkip st.d st.skip).1.UvarintBytes.2).Uvarint64.1)
            st.value st.pending st.tmpRngs).2.2.map (fun r => ⟨r.Start, wrapInt64
              (int64 ((((readSkip st.d st.skip).1.UvarintBytes.2).Uvarint64.2.Skip
                (readSkip st.d st.skip).2).UvarintBytes.2).Uvarint64.1 - 4)⟩),
          st.rngs ++ (advanceValues (readSkip st.d st.skip).1.UvarintBytes.1
            (int64 ((readSkip st.d st.skip).1.UvarintBytes.2).Uvarint64.1)
            st.value st.pending st.tmpRngs).2.2.map (fun r => ⟨r.Start, wrapInt64
              (int64 ((((readSkip st.d st.skip).1.UvarintBytes.2).Uvarint64.2.Skip
                (readSkip st.d st.skip).2).UvarintBytes.2).Uvarint64.1 - 4)⟩)⟩
      else
        scanLoop e i l fuel
          ⟨((readSkip st.d st.skip).1.UvarintBytes.2).Uvarint64.2, (readSkip st.d st.skip).2,
            (advanceValues (readSkip st.d st.skip).1.UvarintBytes.1
              (int64 ((readSkip st.d st.skip).1.UvarintBytes.2).Uvarint64.1)
              st.value st.pending st.tmpRngs).1,
            (advanceValues (readSkip st.d st.skip).1.UvarintBytes.1
              (int64 ((readSkip st.d st.skip).1.UvarintBytes.2).Uvarint64.1)
              st.value st.pending st.tmpRngs).2.1,
            (advanceValues (readSkip st.d st.skip).1.UvarintBytes.1
              (int64 ((readSkip st.d st.skip).1.UvarintBytes.2).Uvarint64.1)
              st.value st.pending st.tmpRngs).2.2,
            st.rngs⟩ := by
  rw [scanLoop]
  simp only [hE]

theorem scanLoop_err (e : List postingOffset) (i : Nat) (l : Int) (fuel : Nat) (st : ScanState)
    (err : Err) (hE : st.d.E = some err) : scanLoop e i l (fuel + 1) st = st := by
  rw [scanLoop]
  simp only [hE]

/-- The scan never adds a value to those still to look up. -/
theorem scanLoop_pending_le (e : List postingOffset) (i : Nat) (l : Int) (fuel : Nat)
    (st : ScanState) : (scanLoop e i l fuel st).pending.length ≤ st.pending.length := by
  induction fuel generalizing st with
  | zero => exact le_refl _
  | succ fuel ih =>
    cases hE : st.d.E with
    | some err =>
      rw [scanLoop_err e i l fuel st err hE]
    | none =>
      rw [scanLoop_succ e i l fuel st hE]
      split
      · exact advanceValues_length_le _ _ _ _ _
      · split
        · exact advanceValues_length_le _ _ _ _ _
        · exact (ih _).trans (advanceValues_length_le _ _ _ _ _)

/-- Once `skip` is set the scan keeps it. -/
theorem scanLoop_skip_stable (e : List postingOffset) (i : Nat) (l : Int) (fuel : Nat)
    (st : ScanState) (h : st.skip ≠ 0) : (scanLoop e i l fuel st).skip = st.skip := by
  induction fuel generalizing st with
  | zero => rfl
  | succ fuel ih =>
    cases hE : st.d.E with
    | some err =>
      rw [scanLoop_err e i l fuel st err hE]
    | none =>
      rw [scanLoop_succ e i l fuel st hE]
      have hs := readSkip_nonzero st.d st.skip h
      split
      · exact hs
      · split
        · exact hs
        · rw [ih _ (by show (readSkip st.d st.skip).2 ≠ 0; rw [hs]; exact h)]
          exact hs

/-- The scan ends within `Len + 1` passes, given two passes at least: its buffer does
not hold the error of the step bound. -/
theorem scanLoop_noSB (e : List postingOffset) (i : Nat) (l : Int) (fuel : Nat)
    (st : ScanState) (h0 : st.d.E ≠ some Err.stepBound)
    (h1 : st.d.E = none → st.d.Len + 1 ≤ fuel ∧ 2 ≤ fuel) (h2 : 1 ≤ fuel) :
    (scanLoop e i l fuel st).d.E ≠ some Err.stepBound := by
  induction fuel generalizing st with
  | zero => omega
  | succ fuel ih =>
    cases hE : st.d.E with
    | some err =>
      rw [scanLoop_err e i l fuel st err hE]
      exact h0
    | none =>
      rw [scanLoop_succ e i l fuel st hE]
      have hd3 : (((readSkip st.d st.skip).1.UvarintBytes.2).Uvarint64.2).E ≠
          some Err.stepBound :=
        Uvarint64_noSB _ (UvarintBytes_noSB _ (readSkip_noSB _ _ h0))
      have hfuel := h1 hE
      split
      · exact hd3
      · split
        · exact Uvarint64_noSB _ (UvarintBytes_noSB _ (Skip_noSB _ _ hd3))
        · apply ih
          · exact hd3
          · intro hn
            have := scan_consumes st.d st.skip hn
            constructor
            · show (((readSkip st.d st.skip).1.UvarintBytes.2).Uvarint64.2).Len + 1 ≤ fuel
              omega
            · omega
          · omega

/-- The scan from the sample before the first one at or above the value: it ends
without an error only after it passed a value. -/
theorem scanLoop_before (e : List postingOffset) (i : Nat) (l : Int)
    (hne : i + 1 ≠ e.length) (fuel : Nat) (st : ScanState)
    (hv : strGe st.value (e.getD (i + 1) ⟨[], 0⟩).value = false) (hp : st.pending ≠ [])
    (hE : (scanLoop e i l fuel st).d.E = none) :
    (scanLoop e i l fuel st).pending.length < st.pending.length := by
  induction fuel generalizing st with
  | zero => simp [scanLoop] at hE
  | succ fuel ih =>
    cases hE0 : st.d.E with
    | some err =>
      rw [scanLoop_err e i l fuel st err hE0, hE0] at hE
      cases hE
    | none =>
      by_cases hge : strGe (readSkip st.d st.skip).1.UvarintBytes.1 st.value = true
      · clear hE
        obtain ⟨p, rest, hpr⟩ := List.exists_cons_of_ne_nil hp
        have hsh := advanceValues_shrinks (readSkip st.d st.skip).1.UvarintBytes.1
          (int64 ((readSkip st.d st.skip).1.UvarintBytes.2).Uvarint64.1) st.value p rest
          st.tmpRngs hge
        rw [scanLoop_succ e i l fuel st hE0, hpr]
        split
        · exact Nat.lt_succ_of_le hsh
        · split
          · exact Nat.lt_succ_of_le hsh
          · exact Nat.lt_succ_of_le ((scanLoop_pending_le e i l fuel _).trans hsh)
      · have hge2 : strGe (readSkip st.d st.skip).1.UvarintBytes.1 st.value = false := by
          simpa using hge
        rw [scanLoop_succ e i l fuel st hE0] at hE ⊢
        rw [advanceValues_same _ _ _ _ _ hge2] at hE ⊢
        simp only [hne, if_false, hv, Bool.false_eq_true, false_or, hp] at hE ⊢
        exact ih _ hv hp hE

theorem EntryDecodes.keyLen_pos {d d1 : Decbuf} {x : TableEntry} (hx : EntryDecodes d x d1)
    (hlen : x.key.length = 2) : d.Len - (d.Uvarint.2.UvarintBytes.2).Len ≠ 0 := by
  obtain ⟨-, h2, -, -, -, -⟩ := hx.two_keys hlen
  have ha := UvarintBytes_lt _ h2
  have hb := (UvarintBytes_ok _ h2).1
  have hc := Uvarint64_lt d (by rw [← Uvarint_snd]; exact hb)
  rw [← Uvarint_snd] at hc
  omega

/-- The first pass of a scan that starts at an entry of the table with `skip` not yet
set, or set to the length of the key count and label name of that entry: `skip` is
that length from then on, and a value is passed when the value of the entry is not
below the value looked up. -/
theorem scanLoop_first (e : List postingOffset) (i : Nat) (l : Int) {d d1 : Decbuf}
    {x : TableEntry} (hx : EntryDecodes d x d1) (hlen : x.key.length = 2) (st : ScanState)
    (hd : st.d = d)
    (hs : st.skip = 0 ∨ st.skip = d.Len - (d.Uvarint.2.UvarintBytes.2).Len) (fuel : Nat) :
    (scanLoop e i l (fuel + 1) st).skip = d.Len - (d.Uvarint.2.UvarintBytes.2).Len ∧
    (strGe x.value st.value = true → st.pending ≠ [] →
      (scanLoop e i l (fuel + 1) st).pending.length < st.pending.length) := by
  subst hd
  obtain ⟨h1, h2, h3, h4, h5, h6⟩ := hx.two_keys hlen
  have hkl := hx.keyLen_pos hlen
  have hrs : readSkip st.d st.skip =
      (st.d.Uvarint.2.UvarintBytes.2, st.d.Len - (st.d.Uvarint.2.UvarintBytes.2).Len) := by
    rcases hs with hs | hs
    · rw [hs]
      exact hx.readSkip_zero
    · rw [hx.readSkip_keyLen hlen st.skip hs, hs]
  constructor
  · rw [scanLoop_succ e i l fuel st h1, hrs]
    dsimp only
    split
    · rfl
    · split
      · rfl
      · exact scanLoop_skip_stable e i l fuel _ hkl
  · intro hge hp
    obtain ⟨p, rest, hpr⟩ := List.exists_cons_of_ne_nil hp
    have hsh := advanceValues_shrinks x.value (int64 x.off) st.value p rest st.tmpRngs hge
    rw [scanLoop_succ e i l fuel st h1, hrs]
    dsimp only
    rw [h4, h5, hpr]
    dsimp only
    split
    · exact Nat.lt_succ_of_le hsh
    · split
      · exact Nat.lt_succ_of_le hsh
      · exact Nat.lt_succ_of_le ((scanLoop_pending_le e i l fuel _).trans hsh)

theorem getD_mem_of_lt (e : List postingOffset) (i : Nat) (h : i < e.length) :
    e.getD i ⟨[], 0⟩ ∈ e := by
  rw [List.getD_eq_getElem?_getD, List.getElem?_eq_getElem h]
  exact List.getElem_mem _

/-- The sample the scan for `value` starts from: the first one at or above `value`,
where a value is passed in the first pass, or the one before, from where the scan does
not end before a value is passed. -/
theorem scan_start (e : List postingOffset) (value : Str)
    (hs : Search e.length (fun i => strGe (e.getD i ⟨[], 0⟩).value value) ≠ e.length) :
    ∃ i, (if 0 < Search e.length (fun i => strGe (e.getD i ⟨[], 0⟩).value value) ∧
          (e.getD (Search e.length (fun i => strGe (e.getD i ⟨[], 0⟩).value value))
            ⟨[], 0⟩).value ≠ value
        then Search e.length (fun i => strGe (e.getD i ⟨[], 0⟩).value value) - 1
        else Search e.length (fun i => strGe (e.getD i ⟨[], 0⟩).value value)) = i ∧
      i < e.length ∧
      (strGe (e.getD i ⟨[], 0⟩).value value = true ∨
        (i + 1 ≠ e.length ∧ strGe value (e.getD (i + 1) ⟨[], 0⟩).value = false)) := by
  have hle := Search_le e.length (fun i => strGe (e.getD i ⟨[], 0⟩).value value)
  have hlt : Search e.length (fun i => strGe (e.getD i ⟨[], 0⟩).value value) < e.length := by
    omega
  have htrue := Search_true _ _ hlt
  generalize Search e.length (fun i => strGe (e.getD i ⟨[], 0⟩).value value) = i0
    at hlt htrue
  by_cases hc : 0 < i0 ∧ (e.getD i0 ⟨[], 0⟩).value ≠ value
  · refine ⟨i0 - 1, by rw [if_pos hc], by omega, Or.inr ?_⟩
    have h1 : i0 - 1 + 1 = i0 := by omega
    rw [h1]
    refine ⟨by omega, ?_⟩
    have h2 : strLt (e.getD i0 ⟨[], 0⟩).value value = false := by
      simpa [strGe] using htrue
    cases h3 : strLt value (e.getD i0 ⟨[], 0⟩).value with
    | true => simp only [strGe, h3, Bool.not_true]
    | false => exact absurd (strLt_trichotomy h2 h3) hc.2
  · exact ⟨i0, by rw [if_neg hc], hlt, Or.inl htrue⟩

theorem postingsOffsetLoop_step_err {S : SymbolsOps} (r : BinaryReader S)
    (e : List postingOffset) (fuel : Nat) (st : ScanState) (value : Str) (rest : List Str)
    (hp : st.pending = value :: rest)
    (hs : Search e.length (fun i => strGe (e.getD i ⟨[], 0⟩).value value) ≠ e.length)
    (i : Nat)
    (hi : (if 0 < Search e.length (fun i => strGe (e.getD i ⟨[], 0⟩).value value) ∧
          (e.getD (Search e.length (fun i => strGe (e.getD i ⟨[], 0⟩).value value))
            ⟨[], 0⟩).value ≠ value
        then Search e.length (fun i => strGe (e.getD i ⟨[], 0⟩).value value) - 1
        else Search e.length (fun i => strGe (e.getD i ⟨[], 0⟩).value value)) = i)
    (d : Decbuf)
    (hd : (NewDecbufAt r.b (int64 r.toc.PostingsOffsetTable) false).Skip
      (e.getD i ⟨[], 0⟩).tableOff = d)
    (err : Err)
    (hE : (scanLoop e i r.indexLastPostingEnd (d.Len + 1)
      ⟨d, st.skip, value, value :: rest, [], st.rngs⟩).d.E = some err) :
    postingsOffsetLoop r e (fuel + 1) st =
      .error (Err.wrap Ctx.getPostingsOffsetEntry err) := by
  rw [postingsOffsetLoop]
  simp only [hp, hs, if_false, hi, hd, hE]

theorem postingsOffsetLoop_step_ok {S : SymbolsOps} (r : BinaryReader S)
    (e : List postingOffset) (fuel : Nat) (st : ScanState) (value : Str) (rest : List Str)
    (hp : st.pending = value :: rest)
    (hs : Search e.length (fun i => strGe (e.getD i ⟨[], 0⟩).value value) ≠ e.length)
    (i : Nat)
    (hi : (if 0 < Search e.length (fun i => strGe (e.getD i ⟨[], 0⟩).value value) ∧
          (e.getD (Search e.length (fun i => strGe (e.getD i ⟨[], 0⟩).value value))
            ⟨[], 0⟩).value ≠ value
        then Search e.length (fun i => strGe (e.getD i ⟨[], 0⟩).value value) - 1
        else Search e.length (fun i => strGe (e.getD i ⟨[], 0⟩).value value)) = i)
    (d : Decbuf)
    (hd : (NewDecbufAt r.b (int64 r.toc.PostingsOffsetTable) false).Skip
      (e.getD i ⟨[], 0⟩).tableOff = d)
    (hE : (scanLoop e i r.indexLastPostingEnd (d.Len + 1)
      ⟨d, st.skip, value, value :: rest, [], st.rngs⟩).d.E = none) :
    postingsOffsetLoop r e (fuel + 1) st =
      postingsOffsetLoop r e fuel (scanLoop e i r.indexLastPostingEnd (d.Len + 1)
        ⟨d, st.skip, value, value :: rest, [], st.rngs⟩) := by
  rw [postingsOffsetLoop]
  simp only [hp, hs, if_false, hi, hd, hE]

/-- The loop over the values ends within one step per value still to look up, when
every sample lies at an entry of the table and the entries write key count and label
name in `kl` bytes: it returns ranges or the error of a read. -/
theorem postingsOffsetLoop_terminates {S : SymbolsOps} (r : BinaryReader S)
    (e : List postingOffset) (kl : Nat)
    (hent : ∀ s ∈ e, ∃ x d1, x.key.length = 2 ∧ x.value = s.value ∧
      EntryDecodes ((NewDecbufAt r.b (int64 r.toc.PostingsOffsetTable) false).Skip s.tableOff)
        x d1 ∧
      ((NewDecbufAt r.b (int64 r.toc.PostingsOffsetTable) false).Skip s.tableOff).Len -
        ((((NewDecbufAt r.b (int64 r.toc.PostingsOffsetTable) false).Skip
          s.tableOff).Uvarint.2).UvarintBytes.2).Len = kl)
    (fuel : Nat) (st : ScanState) (hs : st.skip = 0 ∨ st.skip = kl)
    (hf : st.pending.length < fuel) :
    (∃ rngs, postingsOffsetLoop r e fuel st = .ok rngs) ∨
    ∃ e1, postingsOffsetLoop r e fuel st = .error (Err.wrap Ctx.getPostingsOffsetEntry e1) ∧
      e1 ≠ Err.stepBound := by
  induction fuel generalizing st with
  | zero => omega
  | succ fuel ih =>
    cases hp : st.pending with
    | nil =>
      left
      rw [postingsOffsetLoop]
      simp only [hp]
      exact ⟨_, rfl⟩
    | cons value rest =>
      by_cases hsr : Search e.length (fun i => strGe (e.getD i ⟨[], 0⟩).value value) = e.length
      · left
        rw [postingsOffsetLoop]
        simp only [hp, hsr, if_true]
        exact ⟨_, rfl⟩
      · obtain ⟨i, hi, hlt, hcase⟩ := scan_start e value hsr
        obtain ⟨x, d1, hlen, hval, hx, hkl⟩ := hent _ (getD_mem_of_lt e i hlt)
        generalize hd : (NewDecbufAt r.b (int64 r.toc.PostingsOffsetTable) false).Skip
          (e.getD i ⟨[], 0⟩).tableOff = d at hx hkl
        have hfirst := scanLoop_first e i r.indexLastPostingEnd hx hlen
          ⟨d, st.skip, value, value :: rest, [], st.rngs⟩ rfl (by rw [hkl]; exact hs) d.Len
        rw [hkl] at hfirst
        have hnosb := scanLoop_noSB e i r.indexLastPostingEnd (d.Len + 1)
          ⟨d, st.skip, value, value :: rest, [], st.rngs⟩ (by show d.E ≠ some Err.stepBound; rw [hx.1]; simp)
          (fun _ => ⟨le_refl _, by have := hx.len_lt; show 2 ≤ d.Len + 1; omega⟩) (by omega)
        cases hE : (scanLoop e i r.indexLastPostingEnd (d.Len + 1)
            ⟨d, st.skip, value, value :: rest, [], st.rngs⟩).d.E with
        | some err =>
          right
          refine ⟨err, postingsOffsetLoop_step_err r e fuel st value rest hp hsr i hi d hd err hE,
            ?_⟩
          intro h
          rw [h] at hE
          exact hnosb hE
        | none =>
          rw [postingsOffsetLoop_step_ok r e fuel st value rest hp hsr i hi d hd hE]
          apply ih _ (Or.inr hfirst.1)
          have hshrink : (scanLoop e i r.indexLastPostingEnd (d.Len + 1)
              ⟨d, st.skip, value, value :: rest, [], st.rngs⟩).pending.length <
              (value :: rest).length := by
            rcases hcase with hge | ⟨hne, hge⟩
            · exact hfirst.2 (by rw [hval]; exact hge) (List.cons_ne_nil _ _)
            · exact scanLoop_before e i r.indexLastPostingEnd hne (d.Len + 1)
                ⟨d, st.skip, value, value :: rest, [], st.rngs⟩ hge (List.cons_ne_nil _ _) hE
          rw [hp] at hf
          simp only [List.length_cons] at hf hshrink
          omega

theorem samplesOf_ne_nil (n : Str) (ents : List TableEntry) (hn : n ∈ tableNames ents) :
    samplesOf n ents ≠ [] := by
  obtain ⟨pre, e, post, hs, hen, -⟩ := first_of_name n ents hn
  rw [hs, samplesOf_append, samplesOf_cons_same n e post hen]
  simp

theorem mem_samplesOf {n : Str} {ents : List TableEntry} {s : postingOffset}
    (h : s ∈ samplesOf n ents) :
    ∃ x ∈ ents, x.name = n ∧ x.value = s.value ∧ x.tableOff = s.tableOff := by
  unfold samplesOf at h
  obtain ⟨x, hx, rfl⟩ := List.mem_map.1 h
  obtain ⟨hx1, hx2⟩ := List.mem_filter.1 hx
  exact ⟨x, hx1, by simpa using hx2, rfl, rfl⟩

/-- C23: the model gives the loop over the values one step for each value and one
more, and every scan of the table one pass for each byte left and one more; the
error `stepBound` is what it returns when the steps run out. One pass of the scan
(the reads of lines 577-588) that records no error leaves fewer bytes than it found,
for every buffer and every `skip`. For a reader the loader returns with an index
version other than 1, whose table entries `ents` write the key count and the label
name in the same number of bytes within each label name, `postingsOffset` ends
within those steps for every label name and every list of values, sorted or not: it
returns ranges, or the error of a read wrapped as "get postings offset entry",
and that error is not `stepBound`. -/
theorem C23_postings_offset_terminates (S : SymbolsOps) (b : ByteSlice) (r : BinaryReader S)
    (ents : List TableEntry)
    (hok : newFileBinaryReader S b = .ok r) (hv : r.indexVersion ≠ FormatV1)
    (hents : tableEntries b r.toc.PostingsOffsetTable = .ok ents)
    (hU : UniformKeyLen b r.toc.PostingsOffsetTable ents) :
    (∀ (d : Decbuf) (skip : Nat),
      (((readSkip d skip).1.UvarintBytes.2).Uvarint64.2).E = none →
      (((readSkip d skip).1.UvarintBytes.2).Uvarint64.2).Len < d.Len) ∧
    (∀ n vs, (∃ rngs, postingsOffset r n vs = .ok rngs) ∨
      ∃ e1, postingsOffset r n vs = .error (Err.wrap Ctx.getPostingsOffsetEntry e1) ∧
        e1 ≠ Err.stepBound) := by
  constructor
  · intro d skip h
    have := scan_consumes d skip h
    omega
  · intro n vs
    obtain ⟨ents1, hents1, hlen2, hget, -, hb⟩ := loaded_v2 hok hv
    rw [hents] at hents1
    injection hents1 with hents1
    subst hents1
    obtain ⟨content, hD, hchain⟩ := tableEntries_chain b _ ents hents
    unfold postingsOffset
    simp only [hv, if_false]
    rw [hget n]
    by_cases hn : n ∈ tableNames ents
    · simp only [hn, if_true]
      by_cases hl : vs.length = 0
      · simp only [hl, if_true]
        exact Or.inl ⟨_, rfl⟩
      · simp only [hl, if_false]
        obtain ⟨pre, x0, post, hsplit, hx0n, -⟩ := first_of_name n ents hn
        have hx0 : x0 ∈ ents := by rw [hsplit]; simp
        have hent : ∀ s ∈ samplesOf n ents, ∃ x d1, x.key.length = 2 ∧ x.value = s.value ∧
            EntryDecodes ((NewDecbufAt r.b (int64 r.toc.PostingsOffsetTable) false).Skip
              s.tableOff) x d1 ∧
            ((NewDecbufAt r.b (int64 r.toc.PostingsOffsetTable) false).Skip s.tableOff).Len -
              ((((NewDecbufAt r.b (int64 r.toc.PostingsOffsetTable) false).Skip
                s.tableOff).Uvarint.2).UvarintBytes.2).Len =
              entryKeyLen b r.toc.PostingsOffsetTable x0.tableOff := by
          intro s hs
          obtain ⟨x, hx, hxn, hxv, hxo⟩ := mem_samplesOf hs
          obtain ⟨d1, hdec⟩ := hchain.decodes_at x hx
          have hk := entryKeyLen_eq hD rfl hdec
          rw [hb, hD, ← hxo]
          exact ⟨x, d1, hlen2 x hx, hxv, hdec,
            by rw [← hk]; exact hU x hx x0 hx0 (by rw [hxn, hx0n])⟩
        cases hsam : samplesOf n ents with
        | nil => exact absurd hsam (samplesOf_ne_nil n ents hn)
        | cons e0 tl =>
          simp only []
          rw [← hsam]
          apply postingsOffsetLoop_terminates r (samplesOf n ents) _ hent _ _ (Or.inl rfl)
          have := (@List.dropWhile_suffix _ vs (fun v => strLt v e0.value)).length_le
          show (List.dropWhile (fun v => strLt v e0.value) vs).length < vs.length + 1
          omega
    · simp only [hn, if_false]
      exact Or.inl ⟨_, rfl⟩

/-- C23, witness: the reader of `fileLabels`, whose entries all write the key count
and the label name in two or three bytes, the same number within each label name. -/
theorem C23_witness :
    ∃ r, newFileBinaryReader tsdbSymbols fileLabels = .ok r ∧
      (∀ (d : Decbuf) (skip : Nat),
        (((readSkip d skip).1.UvarintBytes.2).Uvarint64.2).E = none →
        (((readSkip d skip).1.UvarintBytes.2).Uvarint64.2).Len < d.Len) ∧
      (∀ n vs, (∃ rngs, postingsOffset r n vs = .ok rngs) ∨
        ∃ e1, postingsOffset r n vs = .error (Err.wrap Ctx.getPostingsOffsetEntry e1) ∧
          e1 ≠ Err.stepBound) := by
  obtain ⟨r, hr, hver, hents, huni⟩ := fileLabels_reader_sorted
  exact ⟨r, hr, C23_postings_offset_terminates tsdbSymbols fileLabels r fileLabelsEntries hr
    (by rw [hver]; decide) hents huni⟩

set_option maxRecDepth 100000 in
theorem longKeyCount_loop_second {S : SymbolsOps} (r : BinaryReader S)
    (hD : NewDecbufAt r.b (int64 r.toc.PostingsOffsetTable) false =
      ⟨[0, 0, 0, 2, 2, 0, 1, 97, 10, 130, 0, 0, 1, 99, 20], none⟩) :
    ∀ (fuel : Nat) (d0 : Decbuf) (value0 : Str) (tmp rngs : List Range),
      postingsOffsetLoop r [⟨[97], 4⟩, ⟨[99], 9⟩] fuel ⟨d0, 2, value0, [[99]], tmp, rngs⟩ =
        .error Err.stepBound
  | 0, _, _, _, _ => rfl
  | fuel + 1, d0, value0, tmp, rngs => by
    have hsc : scanLoop [⟨[97], 4⟩, ⟨[99], 9⟩] 1 r.indexLastPostingEnd
        ((⟨[130, 0, 0, 1, 99, 20], none⟩ : Decbuf).Len + 1)
        ⟨⟨[130, 0, 0, 1, 99, 20], none⟩, 2, [99], [[99]], [], rngs⟩ =
        ⟨⟨[99, 20], none⟩, 2, [99], [[99]], [], rngs ++ []⟩ := rfl
    rw [postingsOffsetLoop_step_ok r _ fuel _ [99] [] rfl (by decide) 1 (by decide)
      ⟨[130, 0, 0, 1, 99, 20], none⟩ (by rw [hD]; rfl) (by rw [hsc])]
    rw [hsc]
    exact longKeyCount_loop_second r hD fuel _ _ _ _

set_option maxRecDepth 100000 in
theorem longKeyCount_loop_first {S : SymbolsOps} (r : BinaryReader S)
    (hD : NewDecbufAt r.b (int64 r.toc.PostingsOffsetTable) false =
      ⟨[0, 0, 0, 2, 2, 0, 1, 97, 10, 130, 0, 0, 1, 99, 20], none⟩) :
    ∀ (fuel : Nat),
      postingsOffsetLoop r [⟨[97], 4⟩, ⟨[99], 9⟩] fuel
        ⟨⟨[], none⟩, 0, [], [[97], [99]], [], []⟩ = .error Err.stepBound
  | 0 => rfl
  | fuel + 1 => by
    have hsc : scanLoop [⟨[97], 4⟩, ⟨[99], 9⟩] 0 r.indexLastPostingEnd
        ((⟨[2, 0, 1, 97, 10, 130, 0, 0, 1, 99, 20], none⟩ : Decbuf).Len + 1)
        ⟨⟨[2, 0, 1, 97, 10, 130, 0, 0, 1, 99, 20], none⟩, 0, [97], [[97], [99]], [], []⟩ =
        ⟨⟨[99, 20], none⟩, 2, [99], [[99]], [⟨14, -3⟩], [⟨14, -3⟩]⟩ := rfl
    rw [postingsOffsetLoop_step_ok r _ fuel _ [97] [[99]] rfl (by decide) 0 (by decide)
      ⟨[2, 0, 1, 97, 10, 130, 0, 0, 1, 99, 20], none⟩ (by rw [hD]; rfl) (by rw [hsc])]
    rw [hsc]
    exact longKeyCount_loop_second r hD fuel _ _ _ _

set_option maxRecDepth 100000 in
/-- C23, counterexample: the version-2 header `fileLongKeyCount` is loaded; its table
`("", "a") -> 10`, `("", "c") -> 20` is sorted, and the key count of the second entry
is written in two bytes. In `postingsOffset("", "a", "c")` the scan for `"a"` sets
`skip` to 2; the scan for `"c"` starts at the second entry, skips 2 of the 3 bytes of
its key count and label name, reads the label value `""`, below `"c"`, and stops at
the last sample without an error and without passing a value. Every later step of
the loop over the values starts from the same variables: the loop does not end,
whatever the number of steps. -/
theorem C23_counterexample :
    tableEntries fileLongKeyCount 26 = .ok [⟨[[], [97]], 10, 4⟩, ⟨[[], [99]], 20, 9⟩] ∧
    SortedTable [⟨[[], [97]], 10, 4⟩, ⟨[[], [99]], 20, 9⟩] ∧
    ¬ UniformKeyLen fileLongKeyCount 26 [⟨[[], [97]], 10, 4⟩, ⟨[[], [99]], 20, 9⟩] ∧
    ∃ r, newFileBinaryReader tsdbSymbols fileLongKeyCount = .ok r ∧
      r.indexVersion = 2 ∧ r.toc = ⟨14, 26⟩ ∧
      mapGet r.postings [] = some [⟨[97], 4⟩, ⟨[99], 9⟩] ∧
      postingsOffset r [] [[97], [99]] = .error Err.stepBound ∧
      ∀ fuel, postingsOffsetLoop r [⟨[97], 4⟩, ⟨[99], 9⟩] fuel
        ⟨⟨[], none⟩, 0, [], [[97], [99]], [], []⟩ = .error Err.stepBound := by
  refine ⟨rfl, by unfold SortedTable; decide, by unfold UniformKeyLen; decide, ?_⟩
  have hload : (newFileBinaryReader tsdbSymbols fileLongKeyCount).map
      (fun r => (r.indexVersion, r.toc, r.b, mapGet r.postings [],
        postingsOffset r [] [[97], [99]])) =
      .ok (2, ⟨14, 26⟩, fileLongKeyCount, some [⟨[97], 4⟩, ⟨[99], 9⟩],
        .error Err.stepBound) := rfl
  cases hr : newFileBinaryReader tsdbSymbols fileLongKeyCount with
  | error e =>
    rw [hr] at hload
    cases hload
  | ok r =>
    rw [hr] at hload
    simp only [Except.map, Except.ok.injEq, Prod.mk.injEq] at hload
    obtain ⟨h1, h2, h3, h4, h5⟩ := hload
    refine ⟨r, rfl, h1, h2, h4, h5, ?_⟩
    exact longKeyCount_loop_first r (by rw [h3, h2]; rfl)

end IndexHeader
